import Mathlib

/-!
# Odin memory allocator: a shallow embedding

The embedding follows `MemAlloc.cpp`, `GeneralAllocator.cpp` and `SysAlloc.cpp`.

Machine model.  The target is x64 MSVC: `size_t` and pointers are 64 bits wide,
`uint32` is 32 bits wide.  Values are natural numbers; unsigned wrap-around is
written out (`% 2 ^ 64`, `% 2 ^ 32`) at every arithmetic operation of the source
whose result can leave the range.

Memory is a map from the address of a field to the value stored in that field.
Every access of the program goes through a typed field (`prev_foot`, `head`,
`fd`, ... of a chunk, or a member of `MemorySpace`); the map is keyed by the
address of the first byte of the field.  This is exact as long as chunk
addresses are multiples of 8, which is the case for every chunk the allocator
creates from 8-aligned requests.

The operating system is reduced to what the allocator observes of it: the
addresses returned by `SysAlloc::reserveSegment`, given as a script that is
consumed one answer per call (`0` is `NULL`).  `commitPage`, `decommitPage` and
`releaseSegment` return nothing and do not change the allocator's own data.

Assertions (`ASSERT_ERROR`) only report; they do not change the state or the
control flow and are left out of the embedding.
-/

namespace Odin

/-! ## Machine integers and memory -/

/-- Reduction of a value to the range of `size_t` (64 bits). -/
def u64 (x : Nat) : Nat := x % 2 ^ 64

/-- Reduction of a value to the range of `uint32`. -/
def u32 (x : Nat) : Nat := x % 2 ^ 32

/-- Bitwise complement of a `size_t` value (`~x`). -/
def not64 (x : Nat) : Nat := 2 ^ 64 - 1 - x % 2 ^ 64

/-- Bitwise complement of a `uint32` value (`~x`). -/
def not32 (x : Nat) : Nat := 2 ^ 32 - 1 - x % 2 ^ 32

/-- Unsigned `size_t` negation (`-x`). -/
def neg64 (x : Nat) : Nat := (2 ^ 64 - x % 2 ^ 64) % 2 ^ 64

/-- Unsigned `uint32` negation (`-x`). -/
def neg32 (x : Nat) : Nat := (2 ^ 32 - x % 2 ^ 32) % 2 ^ 32

/-- Unsigned `size_t` subtraction (`a - b`, wrapping). -/
def sub64 (a b : Nat) : Nat := (a % 2 ^ 64 + (2 ^ 64 - b % 2 ^ 64)) % 2 ^ 64

/-- Right shift of a `uint32` by a `uint32` count.  For counts below 32 this is the
C++ shift; a count of 32 or more is undefined in C++ and is given the value the
x86 `shr` instruction produces (the count is taken modulo 32). -/
def shr32 (x n : Nat) : Nat := (x % 2 ^ 32) >>> (n % 32)

/-- Left shift of a `uint32` by a `uint32` count, same convention as `shr32`. -/
def shl32 (x n : Nat) : Nat := ((x % 2 ^ 32) <<< (n % 32)) % 2 ^ 32

/-- Memory: the value stored in the field that starts at a given address. -/
abbrev Mem := Nat → Nat

/-- Store `v` in the field at address `a`. -/
def Mem.write (m : Mem) (a v : Nat) : Mem := fun x => if x = a then v else m x

/-- The state the allocator works on: memory, the pending answers of
`SysAlloc::reserveSegment` and the value `GetTickCount` returns. -/
structure Heap where
  mem : Mem
  os : List Nat
  tick : Nat

/-- `SysAlloc::reserveSegment(size, ptr)`: the next answer of the operating system
(`0` when it refuses, also when the script is exhausted). -/
def reserveSegment (h : Heap) : Nat × Heap :=
  match h.os with
  | [] => (0, h)
  | a :: rest => (a, { h with os := rest })

/-! ## Constants of `MemAlloc.h` / `MemAlloc.cpp` -/

def kDefaultAlignment : Nat := 8
def kNumSmallBins : Nat := 32
def kNumTreeBins : Nat := 32
def kSmallBinShift : Nat := 3
def kTreeBinShift : Nat := 8
/-- Size of `size_t` in bytes. -/
def kSizeofSizeT : Nat := 8
def kSizeTBitSize : Nat := kSizeofSizeT <<< 3
def kAlignmentMask : Nat := kDefaultAlignment - 1
def kChunkOverhead : Nat := kSizeofSizeT <<< 1
def kMinLargeSize : Nat := 1 <<< kTreeBinShift
def kMaxSmallSize : Nat := kMinLargeSize - 1
def kMaxSmallRequest : Nat := kMaxSmallSize - kAlignmentMask - kChunkOverhead
def kPinuseBit : Nat := 1
def kCinuseBit : Nat := 2
def kInuseBits : Nat := kPinuseBit ||| kCinuseBit
/-- Size of `struct MemoryChunk`: two `size_t` and two pointers. -/
def kSizeofMemoryChunk : Nat := 32
def kMinChunkSize : Nat := (kSizeofMemoryChunk + kAlignmentMask) &&& not64 kAlignmentMask
def kMaxRequest : Nat := u64 (neg64 kMinChunkSize <<< 2)
def kMinRequest : Nat := kMinChunkSize - kChunkOverhead - 1

/-! ### Field offsets

`MemoryChunk` / `MemoryTreeChunk`: `prev_foot` 0, `head` 8, `fd` 16, `bk` 24,
`child[0]` 32, `child[1]` 40, `parent` 48, `index` 56.

`MemorySpace`: `small_map` 0, `tree_map` 4, `dv` 8, `top` 16, `dv_size` 24,
`top_size` 32, `small_bins[66]` 40, `tree_bins[32]` 568, `magic` 824,
`least_addr` 832, `curr_page_index` 840, `page_size` 848,
`segment_granularity` 856, `segment_threshold` 864, `footprint` 872,
`max_footprint` 880, `memory_lock` 888. -/

def oPrevFoot : Nat := 0
def oHead : Nat := 8
def oFd : Nat := 16
def oBk : Nat := 24
def oChild : Nat := 32
def oParent : Nat := 48
def oIndex : Nat := 56

def oSmallMap : Nat := 0
def oTreeMap : Nat := 4
def oDv : Nat := 8
def oTop : Nat := 16
def oDvSize : Nat := 24
def oTopSize : Nat := 32
def oSmallBins : Nat := 40
def oTreeBins : Nat := 568
def oMagic : Nat := 824
def oLeastAddr : Nat := 832
def oCurrPageIndex : Nat := 840
def oPageSize : Nat := 848
def oSegmentGranularity : Nat := 856
def oSegmentThreshold : Nat := 864
def oFootprint : Nat := 872
def oMaxFootprint : Nat := 880
/-- Size of `struct MemorySpace`: the members above followed by a `std::mutex`
(80 bytes with the MSVC x64 runtime). -/
def kSizeofMemorySpace : Nat := 968

/-! ## Chunk helpers -/

def padRequest (size : Nat) : Nat :=
  u64 (size + kChunkOverhead + kAlignmentMask) &&& not64 kAlignmentMask

def requestToSize (size : Nat) : Nat :=
  if size < kMinChunkSize then kMinChunkSize else padRequest size

def chunkSize (m : Mem) (ptr : Nat) : Nat := m (ptr + oHead) &&& not64 kInuseBits

def chunkPlusOffset (ptr offset : Nat) : Nat := u64 (ptr + offset)

def chunkMinusOffset (ptr offset : Nat) : Nat := sub64 ptr offset

def nextChunk (m : Mem) (ptr : Nat) : Nat := u64 (ptr + (m (ptr + oHead) &&& not64 kInuseBits))

def previousChunk (m : Mem) (ptr : Nat) : Nat := sub64 ptr (m (ptr + oPrevFoot))

def leftmostChild (m : Mem) (ptr : Nat) : Nat :=
  if m (ptr + oChild) ≠ 0 then m (ptr + oChild) else m (ptr + oChild + 8)

def isAligned (ptr_addr : Nat) : Bool := (ptr_addr &&& kAlignmentMask) == 0

def alignmentOffset (ptr_addr : Nat) : Nat :=
  if (ptr_addr &&& kAlignmentMask) = 0 then 0
  else (kDefaultAlignment - (ptr_addr &&& kAlignmentMask)) &&& kAlignmentMask

def isSmall (size : Nat) : Bool := decide ((size >>> kSmallBinShift) < kNumSmallBins)

def getSmallBinIndex (size : Nat) : Nat := u32 (size >>> kSmallBinShift)

def getSmallIndexToSize (index : Nat) : Nat := u32 (index <<< kSmallBinShift)

def smallBinAt (msp index : Nat) : Nat := msp + oSmallBins + 8 * u32 (index <<< 1)

def treeBinAt (msp index : Nat) : Nat := msp + oTreeBins + 8 * index

def computeTreeIndex (size : Nat) : Nat :=
  let index := size >>> kTreeBinShift
  if index = 0 then 0
  else if index > 0xFFFF then kNumTreeBins - 1
  else
    let bit_index := Nat.log2 index
    u32 ((bit_index <<< 1) + ((u32 size >>> (bit_index + (kTreeBinShift - 1))) &&& 1))

def leftshiftForTreeIndex (index : Nat) : Nat :=
  if index = kNumSmallBins - 1 then 0 else (index >>> 1) + kTreeBinShift - 1

def minsizeForTreeIndex (index : Nat) : Nat :=
  (1 <<< ((index >>> 1) + kTreeBinShift)) |||
    ((index &&& 1) <<< ((index >>> 1) + kTreeBinShift - 1))

def chunkToMemory (ptr : Nat) : Nat := u64 (ptr + kChunkOverhead)

def memoryToChunk (ptr : Nat) : Nat := sub64 ptr kChunkOverhead

def getCInuse (m : Mem) (ptr : Nat) : Nat := m (ptr + oHead) &&& kCinuseBit

def getPInuse (m : Mem) (ptr : Nat) : Nat := m (ptr + oHead) &&& kPinuseBit

def isInuse (m : Mem) (ptr : Nat) : Bool := (m (ptr + oHead) &&& kInuseBits) != kPinuseBit

def nextPInuse (m : Mem) (ptr : Nat) : Nat := m (nextChunk m ptr + oHead) &&& kPinuseBit

/-! ## Setting sizes and flags -/

def markInuseFoot (m : Mem) (msp ptr size : Nat) : Mem :=
  m.write (u64 (ptr + size) + oPrevFoot) msp

def markInuseFootNull (m : Mem) (ptr size : Nat) : Mem :=
  m.write (u64 (ptr + size) + oPrevFoot) 0

def setSizeInuse (m : Mem) (msp ptr size : Nat) : Mem :=
  let m := m.write (ptr + oHead) ((m (ptr + oHead) &&& kPinuseBit) ||| size ||| kCinuseBit)
  let m := m.write (u64 (ptr + size) + oHead) (m (u64 (ptr + size) + oHead) ||| kPinuseBit)
  markInuseFoot m msp ptr size

def setSizeInusePinuse (m : Mem) (msp ptr size : Nat) : Mem :=
  let m := m.write (ptr + oHead) ((m (ptr + oHead) &&& kPinuseBit) ||| size ||| kCinuseBit)
  let m := m.write (u64 (ptr + size) + oHead) (m (u64 (ptr + size) + oHead) ||| kPinuseBit)
  markInuseFoot m msp ptr size

def setSizePinuseOfInuseChunk (m : Mem) (msp ptr size : Nat) : Mem :=
  let m := m.write (ptr + oHead) (size ||| kPinuseBit ||| kCinuseBit)
  markInuseFoot m msp ptr size

def setSizePinuseOfFreeChunk (m : Mem) (ptr size : Nat) : Mem :=
  let m := m.write (ptr + oHead) (size ||| kPinuseBit)
  m.write (u64 (ptr + size) + oPrevFoot) size

/-! ## Bin maps -/

def indexToBit (index : Nat) : Nat := shl32 1 index

def markSmallMap (m : Mem) (msp index : Nat) : Mem :=
  m.write (msp + oSmallMap) (m (msp + oSmallMap) ||| indexToBit index)

def clearSmallMap (m : Mem) (msp index : Nat) : Mem :=
  m.write (msp + oSmallMap) (m (msp + oSmallMap) &&& not32 (indexToBit index))

def isSmallMapMarked (m : Mem) (msp index : Nat) : Bool :=
  (m (msp + oSmallMap) &&& indexToBit index) != 0

def markTreeMap (m : Mem) (msp index : Nat) : Mem :=
  m.write (msp + oTreeMap) (m (msp + oTreeMap) ||| indexToBit index)

def clearTreeMap (m : Mem) (msp index : Nat) : Mem :=
  m.write (msp + oTreeMap) (m (msp + oTreeMap) &&& not32 (indexToBit index))

def isTreeMapMarked (m : Mem) (msp index : Nat) : Bool :=
  (m (msp + oTreeMap) &&& indexToBit index) != 0

/-- Index of the lowest set bit among the first `n` bits above position `i`
(the search `_BitScanForward` performs); `0` when no bit is set. -/
def bitScanForwardFrom (mask : Nat) : Nat → Nat → Nat
  | 0, _ => 0
  | n + 1, i => if mask.testBit i then i else bitScanForwardFrom mask n (i + 1)

def computeBitToIndex (mask : Nat) : Nat := bitScanForwardFrom mask 32 0

/-! ## Linking and unlinking chunks -/

def insertSmallChunk (m : Mem) (msp ptr size : Nat) : Mem :=
  let index := getSmallBinIndex size
  let back := smallBinAt msp index
  let m := if !isSmallMapMarked m msp index then markSmallMap m msp index else m
  let forward := m (back + oFd)
  let m := m.write (back + oFd) ptr
  let m := m.write (forward + oBk) ptr
  let m := m.write (ptr + oFd) forward
  m.write (ptr + oBk) back

def unlinkSmallChunk (m : Mem) (msp ptr size : Nat) : Mem :=
  let forward := m (ptr + oFd)
  let back := m (ptr + oBk)
  let index := getSmallBinIndex size
  let m := if forward = back then clearSmallMap m msp index else m
  let m := m.write (forward + oBk) back
  m.write (back + oFd) forward

def unlinkFirstSmallChunk (m : Mem) (msp ptr index : Nat) : Mem :=
  let forward := m (ptr + oFd)
  let back := smallBinAt msp index
  let m := if forward = back then clearSmallMap m msp index else m
  let m := m.write (forward + oBk) back
  m.write (back + oFd) forward

/-- The `while (true)` descent of `insertLargeChunk`, one iteration per unit of fuel;
`temp` is the node under inspection and `size_bits` the shifted size. -/
def insertLargeLoop (ptr size : Nat) : Nat → Mem → Nat → Nat → Option Mem
  | 0, _, _, _ => none
  | fuel + 1, m, temp, size_bits =>
    if chunkSize m temp ≠ size then
      let curr_pptr := temp + oChild + 8 * ((size_bits >>> (kSizeTBitSize - 1)) &&& 1)
      let size_bits := u64 (size_bits <<< 1)
      if m curr_pptr ≠ 0 then insertLargeLoop ptr size fuel m (m curr_pptr) size_bits
      else
        let m := m.write curr_pptr ptr
        let m := m.write (ptr + oParent) temp
        let m := m.write (ptr + oBk) ptr
        some (m.write (ptr + oFd) ptr)
    else
      let front := m (temp + oFd)
      let m := m.write (front + oBk) ptr
      let m := m.write (temp + oFd) ptr
      let m := m.write (ptr + oFd) front
      let m := m.write (ptr + oBk) temp
      some (m.write (ptr + oParent) 0)

def insertLargeChunk (fuel : Nat) (m : Mem) (msp ptr size : Nat) : Option Mem :=
  let index := computeTreeIndex size
  let ptr_to_bin := treeBinAt msp index
  let m := m.write (ptr + oIndex) index
  let m := m.write (ptr + oChild + 8) 0
  let m := m.write (ptr + oChild) 0
  if !isTreeMapMarked m msp index then
    let m := markTreeMap m msp index
    let m := m.write ptr_to_bin ptr
    let m := m.write (ptr + oParent) ptr_to_bin
    let m := m.write (ptr + oFd) ptr
    some (m.write (ptr + oBk) ptr)
  else
    insertLargeLoop ptr size fuel m (m ptr_to_bin) (u64 (size <<< leftshiftForTreeIndex index))

/-- The search for the rightmost descendant in `unlinkLargeChunk`: the pair
`(replacement_node_pptr, replacement_node)` when the loop ends. -/
def rightmostDescendant (m : Mem) : Nat → Nat → Nat → Option (Nat × Nat)
  | 0, _, _ => none
  | fuel + 1, replacement_node_pptr, replacement_node =>
    if m (replacement_node + oChild + 8) ≠ 0 then
      rightmostDescendant m fuel (replacement_node + oChild + 8) (m (replacement_node + oChild + 8))
    else if m (replacement_node + oChild) ≠ 0 then
      rightmostDescendant m fuel (replacement_node + oChild) (m (replacement_node + oChild))
    else some (replacement_node_pptr, replacement_node)

/-- The second half of `unlinkLargeChunk`: hook `replacement_node` in the place of `ptr`. -/
def unlinkLargeRelink (m : Mem) (msp ptr ptr_parent replacement_node : Nat) : Mem :=
  if ptr_parent ≠ 0 then
    let root_node := treeBinAt msp (m (ptr + oIndex))
    let m :=
      if ptr = m root_node then
        let m := m.write root_node replacement_node
        if m root_node = 0 then clearTreeMap m msp (m (ptr + oIndex)) else m
      else if m (ptr_parent + oChild) = ptr then m.write (ptr_parent + oChild) replacement_node
      else m.write (ptr_parent + oChild + 8) replacement_node
    if replacement_node ≠ 0 then
      let m := m.write (replacement_node + oParent) ptr_parent
      let m :=
        if m (ptr + oChild) ≠ 0 then
          let m := m.write (replacement_node + oChild) (m (ptr + oChild))
          m.write (m (replacement_node + oChild) + oParent) replacement_node
        else m
      if m (ptr + oChild + 8) ≠ 0 then
        let m := m.write (replacement_node + oChild + 8) (m (ptr + oChild + 8))
        m.write (m (replacement_node + oChild + 8) + oParent) replacement_node
      else m
    else m
  else m

def unlinkLargeChunk (fuel : Nat) (m : Mem) (msp ptr : Nat) : Option Mem :=
  let ptr_parent := m (ptr + oParent)
  if m (ptr + oBk) ≠ ptr then
    let front := m (ptr + oFd)
    let replacement_node := m (ptr + oBk)
    let m := m.write (front + oBk) replacement_node
    let m := m.write (replacement_node + oFd) front
    some (unlinkLargeRelink m msp ptr ptr_parent replacement_node)
  else if m (ptr + oChild + 8) ≠ 0 then
    match rightmostDescendant m fuel (ptr + oChild + 8) (m (ptr + oChild + 8)) with
    | none => none
    | some (pptr, r) => some (unlinkLargeRelink (m.write pptr 0) msp ptr ptr_parent r)
  else if m (ptr + oChild) ≠ 0 then
    match rightmostDescendant m fuel (ptr + oChild) (m (ptr + oChild)) with
    | none => none
    | some (pptr, r) => some (unlinkLargeRelink (m.write pptr 0) msp ptr ptr_parent r)
  else some (unlinkLargeRelink m msp ptr ptr_parent 0)

def insertChunk (fuel : Nat) (m : Mem) (msp ptr size : Nat) : Option Mem :=
  if isSmall size then some (insertSmallChunk m msp ptr size)
  else insertLargeChunk fuel m msp ptr size

def unlinkChunk (fuel : Nat) (m : Mem) (msp ptr size : Nat) : Option Mem :=
  if isSmall size then some (unlinkSmallChunk m msp ptr size)
  else unlinkLargeChunk fuel m msp ptr

def replaceDV (m : Mem) (msp ptr size : Nat) : Mem :=
  let dv_size := m (msp + oDvSize)
  let m := if dv_size ≠ 0 then insertSmallChunk m msp (m (msp + oDv)) dv_size else m
  let m := m.write (msp + oDvSize) size
  m.write (msp + oDv) ptr

/-! ## Helpers of `alloc` -/

/-- The first loop of `treeAllocLarge`: walk down the bin along the bits of the
request; the result is `(curr_ptr, prev_ptr, rem_size)` at the `break`. -/
def treeAllocLargeDescend (m : Mem) (nb : Nat) :
    Nat → Nat → Nat → Nat → Nat → Nat → Option (Nat × Nat × Nat)
  | 0, _, _, _, _, _ => none
  | fuel + 1, curr_ptr, prev_ptr, rem_size, sizebits, right_subtree =>
    let rem := sub64 (chunkSize m curr_ptr) nb
    let better := decide (rem < rem_size)
    let prev_ptr := if better then curr_ptr else prev_ptr
    let rem_size := if better then rem else rem_size
    if better ∧ rem_size = 0 then some (curr_ptr, prev_ptr, rem_size)
    else
      let right_tree := m (curr_ptr + oChild + 8)
      let curr_ptr := m (curr_ptr + oChild + 8 * ((sizebits >>> (kSizeTBitSize - 1)) &&& 1))
      let right_subtree := if right_tree ≠ 0 ∧ right_tree ≠ curr_ptr then right_tree else right_subtree
      if curr_ptr = 0 then some (right_subtree, prev_ptr, rem_size)
      else treeAllocLargeDescend m nb fuel curr_ptr prev_ptr rem_size (u64 (sizebits <<< 1)) right_subtree

/-- The loop `while (curr_ptr != 0)` of `treeAllocLarge` and the loop of
`treeAllocSmall`: follow leftmost children, keeping the best fit `(prev_ptr, rem_size)`. -/
def treeSmallestFit (m : Mem) (nb : Nat) : Nat → Nat → Nat → Nat → Option (Nat × Nat)
  | 0, _, _, _ => none
  | fuel + 1, curr_ptr, prev_ptr, rem_size =>
    if curr_ptr ≠ 0 then
      let rem := sub64 (chunkSize m curr_ptr) nb
      if rem < rem_size then treeSmallestFit m nb fuel (leftmostChild m curr_ptr) curr_ptr rem
      else treeSmallestFit m nb fuel (leftmostChild m curr_ptr) prev_ptr rem_size
    else some (prev_ptr, rem_size)

def treeAllocLarge (fuel : Nat) (m : Mem) (msp nb : Nat) : Option (Nat × Mem) :=
  let index := computeTreeIndex nb
  let start : Option (Nat × Nat × Nat) :=
    if m (treeBinAt msp index) ≠ 0 then
      treeAllocLargeDescend m nb fuel (m (treeBinAt msp index)) 0 (neg64 nb)
        (u64 (nb <<< leftshiftForTreeIndex index)) 0
    else some (m (treeBinAt msp index), 0, neg64 nb)
  match start with
  | none => none
  | some (curr_ptr, prev_ptr, rem_size) =>
    let curr_ptr :=
      if curr_ptr = 0 ∧ prev_ptr = 0 then
        let leftbits := indexToBit index
        let leftbits := shl32 leftbits 1 ||| neg32 (shl32 leftbits 1)
        let leftbits := leftbits &&& m (msp + oTreeMap)
        if leftbits ≠ 0 then
          m (treeBinAt msp (computeBitToIndex (leftbits &&& neg32 leftbits)))
        else curr_ptr
      else curr_ptr
    match treeSmallestFit m nb fuel curr_ptr prev_ptr rem_size with
    | none => none
    | some (prev_ptr, rem_size) =>
      if prev_ptr ≠ 0 ∧ rem_size < sub64 (m (msp + oDvSize)) nb then
        match unlinkLargeChunk fuel m msp prev_ptr with
        | none => none
        | some m =>
          let ptr := prev_ptr
          let rem_ptr := chunkPlusOffset ptr nb
          if rem_size < kMinChunkSize then
            some (chunkToMemory ptr, setSizeInusePinuse m msp ptr (u64 (rem_size + nb)))
          else
            let m := setSizePinuseOfInuseChunk m msp ptr nb
            let m := setSizePinuseOfFreeChunk m rem_ptr rem_size
            match insertChunk fuel m msp rem_ptr rem_size with
            | none => none
            | some m => some (chunkToMemory ptr, m)
      else some (0, m)

def treeAllocSmall (fuel : Nat) (m : Mem) (msp nb : Nat) : Option (Nat × Mem) :=
  let least_bit := m (msp + oTreeMap) &&& neg32 (m (msp + oTreeMap))
  let index := computeBitToIndex least_bit
  let ptr := m (treeBinAt msp index)
  match treeSmallestFit m nb fuel (leftmostChild m ptr) ptr (sub64 (chunkSize m ptr) nb) with
  | none => none
  | some (curr_ptr, rem_size) =>
    let rem_ptr := chunkPlusOffset curr_ptr nb
    match unlinkLargeChunk fuel m msp curr_ptr with
    | none => none
    | some m =>
      if rem_size < kMinChunkSize then
        some (chunkToMemory curr_ptr, setSizeInusePinuse m msp curr_ptr (u64 (rem_size + nb)))
      else
        let m := setSizePinuseOfInuseChunk m msp curr_ptr nb
        let m := setSizePinuseOfFreeChunk m curr_ptr rem_size
        some (chunkToMemory curr_ptr, replaceDV m msp rem_ptr rem_size)

/-! ## `alloc` -/

/-- The part of `alloc` that serves a request from the direct reservation
(`// Allocate the requested space from system directly`). -/
def allocDirect (h : Heap) (msp bytes : Nat) : Nat × Heap :=
  let (ptr, h) := reserveSegment h
  let m := setSizePinuseOfInuseChunk h.mem msp ptr bytes
  let m := markInuseFootNull m ptr bytes
  (chunkToMemory ptr, { h with mem := m })

/-- The part of `alloc` below the bin searches: `dv`, then `top`, then growth of
the segment, then the direct reservation. -/
def allocTail (h : Heap) (msp bytes nb : Nat) : Nat × Heap :=
  let m := h.mem
  if nb ≤ m (msp + oDvSize) then
    let rem_size := m (msp + oDvSize) - nb
    let ptr := m (msp + oDv)
    if rem_size ≥ kMinChunkSize then
      let rem_ptr := chunkPlusOffset ptr nb
      let m := m.write (msp + oDv) rem_ptr
      let m := m.write (msp + oDvSize) rem_size
      let m := setSizePinuseOfFreeChunk m rem_ptr rem_size
      let m := setSizePinuseOfInuseChunk m msp ptr nb
      (chunkToMemory ptr, { h with mem := m })
    else
      let m := m.write (msp + oDvSize) 0
      let m := m.write (msp + oDv) 0
      let m := setSizeInusePinuse m msp ptr nb
      (chunkToMemory ptr, { h with mem := m })
  else if nb < m (msp + oTopSize) then
    let rem_size := m (msp + oTopSize) - nb
    let m := m.write (msp + oTopSize) rem_size
    let ptr := m (msp + oTop)
    let rem_ptr := chunkPlusOffset ptr nb
    let m := m.write (msp + oTop) rem_ptr
    let m :=
      if m (msp + oTop) > u64 (m (msp + oLeastAddr) + u64 (m (msp + oCurrPageIndex) * m (msp + oPageSize))) then
        m.write (msp + oCurrPageIndex) (u32 (m (msp + oCurrPageIndex) + 1))
      else m
    let m := m.write (rem_ptr + oHead) (rem_size ||| kPinuseBit)
    let m := setSizePinuseOfInuseChunk m msp ptr nb
    (chunkToMemory ptr, { h with mem := m })
  else if bytes < m (msp + oSegmentThreshold) then
    let page_aligned_nb :=
      u64 (nb + sub64 (m (msp + oPageSize)) 1) &&& not64 (sub64 (m (msp + oPageSize)) 1)
    let (adjacentSeg, h) := reserveSegment h
    if adjacentSeg ≠ 0 then
      let m := m.write (msp + oFootprint) (u64 (m (msp + oFootprint) + page_aligned_nb))
      let m :=
        if m (msp + oFootprint) > m (msp + oMaxFootprint) then
          m.write (msp + oMaxFootprint) (m (msp + oFootprint))
        else m
      let m := m.write (msp + oCurrPageIndex) (u32 (m (msp + oCurrPageIndex) + 1))
      let m := m.write (msp + oTopSize) (u64 (m (msp + oTopSize) + page_aligned_nb))
      let rem_size := sub64 (m (msp + oTopSize)) nb
      let m := m.write (msp + oTopSize) rem_size
      let ptr := m (msp + oTop)
      let rem_ptr := chunkPlusOffset ptr nb
      let m := m.write (msp + oTop) rem_ptr
      let m := m.write (rem_ptr + oHead) (rem_size ||| kPinuseBit)
      let m := setSizePinuseOfInuseChunk m msp ptr nb
      (chunkToMemory ptr, { h with mem := m })
    else allocDirect h msp bytes
  else allocDirect h msp bytes

def alloc (fuel : Nat) (h : Heap) (msp bytes : Nat) : Option (Nat × Heap) :=
  let m := h.mem
  if bytes ≤ kMaxRequest then
    let nb := if bytes < kMinRequest then kMinChunkSize else padRequest bytes
    let index := getSmallBinIndex nb
    let smallbits := shr32 (m (msp + oSmallMap)) index
    if (smallbits &&& 3) ≠ 0 then
      let index := u32 (index + (not32 smallbits &&& 1))
      let back := smallBinAt msp index
      let ptr := m (back + oFd)
      let m := unlinkFirstSmallChunk m msp ptr index
      let m := setSizeInusePinuse m msp ptr (getSmallIndexToSize index)
      some (chunkToMemory ptr, { h with mem := m })
    else if nb > m (msp + oDvSize) then
      if smallbits ≠ 0 then
        let bits := indexToBit index
        let leftbits := shl32 smallbits index &&& (shl32 bits 1 ||| neg32 (shl32 bits 1))
        let leastbit := leftbits &&& neg32 leftbits
        let ind := computeBitToIndex leastbit
        let back := smallBinAt msp ind
        let ptr := m (back + oFd)
        let m := unlinkFirstSmallChunk m msp ptr ind
        let rem_size := sub64 (getSmallIndexToSize ind) nb
        if kSizeofSizeT ≠ 4 ∧ rem_size < kMinChunkSize then
          let m := setSizeInusePinuse m msp ptr (getSmallIndexToSize ind)
          some (chunkToMemory ptr, { h with mem := m })
        else
          let m := setSizePinuseOfInuseChunk m msp ptr nb
          let rem_ptr := chunkPlusOffset ptr nb
          let m := setSizePinuseOfFreeChunk m ptr rem_size
          let m := replaceDV m msp rem_ptr rem_size
          some (chunkToMemory ptr, { h with mem := m })
      else some (allocTail h msp bytes nb)
    else if m (msp + oTreeMap) ≠ 0 then
      match treeAllocSmall fuel m msp nb with
      | none => none
      | some (mem, m) =>
        if mem ≠ 0 then some (mem, { h with mem := m })
        else some (allocTail { h with mem := m } msp bytes nb)
    else some (allocTail h msp bytes nb)
  else if bytes ≥ kMaxRequest then some (0, h)
  else
    let nb := padRequest bytes
    if m (msp + oTreeMap) ≠ 0 then
      match treeAllocLarge fuel m msp nb with
      | none => none
      | some (mem, m) =>
        if mem ≠ 0 then some (mem, { h with mem := m })
        else some (allocTail { h with mem := m } msp bytes nb)
    else some (allocTail h msp bytes nb)

/-! ## `free` -/

/-- The branch of `free` that merges the freed chunk into `top`
(`if (next_ptr == msp->top)`); the result says whether the segment is empty. -/
def freeIntoTop (m : Mem) (msp ptr ptr_size : Nat) : Bool × Mem :=
  let top_size := u64 (m (msp + oTopSize) + ptr_size)
  let m := m.write (msp + oTopSize) top_size
  let m := m.write (msp + oTop) ptr
  let m := m.write (ptr + oHead) (top_size ||| kPinuseBit)
  let m :=
    if ptr = m (msp + oDv) then
      let m := m.write (msp + oDv) 0
      m.write (msp + oDvSize) 0
    else m
  let m :=
    if m (msp + oTop) <
        u64 (m (msp + oLeastAddr) + u64 (u32 (m (msp + oCurrPageIndex) + (2 ^ 32 - 1)) * m (msp + oPageSize))) then
      m.write (msp + oCurrPageIndex) (u32 (m (msp + oCurrPageIndex) + (2 ^ 32 - 1)))
    else m
  let next_chunk := nextChunk m (memoryToChunk msp)
  let offset := alignmentOffset (chunkToMemory next_chunk)
  let next_chunk := u64 (next_chunk + offset)
  -- the loop over `size_factor` only calls `SysAlloc::releaseSegment`
  (decide (next_chunk = m (msp + oTop)), m)

/-- The part of `free` from `if (getPInuse(next_ptr))` on: forward consolidation
and insertion into a bin. -/
def freeForward (fuel : Nat) (m : Mem) (msp ptr ptr_size next_ptr : Nat) : Option (Bool × Mem) :=
  if getPInuse m next_ptr ≠ 0 then
    if getCInuse m next_ptr = 0 then
      if next_ptr = m (msp + oTop) then some (freeIntoTop m msp ptr ptr_size)
      else if next_ptr = m (msp + oDv) then
        let dv_size := u64 (m (msp + oDvSize) + ptr_size)
        let m := m.write (msp + oDvSize) dv_size
        let m := m.write (msp + oDv) ptr
        some (false, setSizePinuseOfFreeChunk m ptr dv_size)
      else
        let next_size := chunkSize m next_ptr
        let ptr_size := u64 (ptr_size + next_size)
        match unlinkChunk fuel m msp next_ptr next_size with
        | none => none
        | some m =>
          let m := setSizePinuseOfFreeChunk m ptr ptr_size
          if ptr = m (msp + oDv) then some (false, m.write (msp + oDvSize) ptr_size)
          else
            match insertChunk fuel m msp ptr ptr_size with
            | none => none
            | some m => some (false, m)
    else
      let m := m.write (next_ptr + oHead) (m (next_ptr + oHead) &&& not64 kPinuseBit)
      let m := setSizePinuseOfFreeChunk m ptr ptr_size
      match insertChunk fuel m msp ptr ptr_size with
      | none => none
      | some m => some (false, m)
  else some (false, m)

def free (fuel : Nat) (m : Mem) (msp mem : Nat) : Option (Bool × Mem) :=
  if mem ≠ 0 then
    let ptr := memoryToChunk mem
    if isInuse m ptr then
      if chunkSize m ptr > m (msp + oSegmentThreshold) ∨
          (ptr < m (msp + oLeastAddr) ∨ ptr > u64 (m (msp + oLeastAddr) + m (msp + oFootprint))) then
        -- `SysAlloc::releaseSegment(ptr, size)`
        some (false, m)
      else
        let ptr_size := chunkSize m ptr
        let next_ptr := chunkPlusOffset ptr ptr_size
        if getPInuse m ptr = 0 then
          let prev_foot := m (ptr + oPrevFoot)
          let prev_ptr := chunkMinusOffset ptr prev_foot
          let ptr_size := u64 (ptr_size + prev_foot)
          let ptr := prev_ptr
          if ptr ≠ m (msp + oDv) then
            match unlinkChunk fuel m msp ptr prev_foot with
            | none => none
            | some m => freeForward fuel m msp ptr ptr_size next_ptr
          else if (m (next_ptr + oHead) &&& kInuseBits) = kInuseBits then
            let m := m.write (msp + oDvSize) ptr_size
            let m := m.write (next_ptr + oHead) (m (next_ptr + oHead) &&& not64 kPinuseBit)
            some (false, setSizePinuseOfFreeChunk m ptr ptr_size)
          else freeForward fuel m msp ptr ptr_size next_ptr
        else freeForward fuel m msp ptr ptr_size next_ptr
    else some (false, m)
  else some (false, m)

/-! ## `allocAligned`, `calloc` -/

/-- The loop `while (align < alignment) align <<= 1` of `allocAligned`. -/
def alignUp (alignment : Nat) : Nat → Nat → Option Nat
  | 0, _ => none
  | fuel + 1, align => if align < alignment then alignUp alignment fuel (u64 (align <<< 1)) else some align

/-- The alignment `allocAligned` works with, for a request above `kDefaultAlignment`. -/
def adjustAlignment (fuel alignment : Nat) : Option Nat :=
  let alignment := if alignment < kMinChunkSize then kMinChunkSize else alignment
  if (alignment &&& (alignment - 1)) ≠ 0 then alignUp alignment fuel (kDefaultAlignment <<< 1)
  else some alignment

/-- The chunk `allocAligned` hands out when `alloc` has returned `mem`: the chunk
of `mem` itself or, when `mem + offset` is misaligned, the chunk at `pos`, together
with the memory after the leader has been split off. -/
def alignChunk (m : Mem) (msp alignment offset mem : Nat) : Nat × Nat × Mem :=
  let ptr := memoryToChunk mem
  if u64 (mem + offset) % alignment ≠ 0 then
    let aligned_spot := memoryToChunk (u64 (u64 (mem + offset) + alignment - 1) &&& neg64 alignment)
    let pos :=
      if sub64 (sub64 aligned_spot offset) ptr ≥ kMinChunkSize then sub64 aligned_spot offset
      else sub64 (u64 (aligned_spot + alignment)) offset
    let new_ptr := pos
    let leadsize := sub64 pos ptr
    let newsize := sub64 (chunkSize m ptr) leadsize
    let m := setSizeInuse m msp new_ptr newsize
    let m := setSizeInuse m msp ptr leadsize
    (chunkToMemory ptr, new_ptr, m)
  else (0, ptr, m)

def allocAligned (fuel : Nat) (h : Heap) (msp alignment bytes offset : Nat) : Option (Nat × Heap) :=
  if alignment ≤ kDefaultAlignment then alloc fuel h msp bytes
  else
    match adjustAlignment fuel alignment with
    | none => none
    | some alignment =>
      if bytes ≥ sub64 kMaxRequest alignment then some (0, h)
      else
        let nb := requestToSize bytes
        let req := u64 (nb + alignment + offset + kMinChunkSize - kChunkOverhead)
        match alloc fuel h msp req with
        | none => none
        | some (mem, h) =>
          if mem ≠ 0 then
            let (leader, ptr, m) := alignChunk h.mem msp alignment offset mem
            let size := chunkSize m ptr
            let m :=
              if size > u64 (nb + kMinChunkSize) then
                let rem_size := sub64 size nb
                let rem_ptr := chunkPlusOffset ptr nb
                let m := setSizeInuse m msp ptr nb
                setSizeInuse m msp rem_ptr rem_size
              else m
            -- `trailer` is never assigned: only the leader is handed to `free`
            if leader ≠ 0 then
              match free fuel m msp leader with
              | none => none
              | some (_, m) => some (chunkToMemory ptr, { h with mem := m })
            else some (chunkToMemory ptr, { h with mem := m })
          else some (0, h)

def calloc (fuel : Nat) (h : Heap) (msp num_elements elem_size : Nat) : Option (Nat × Heap) :=
  let req :=
    if num_elements ≠ 0 then
      let req := u64 (num_elements * elem_size)
      if ((num_elements ||| elem_size) &&& not64 0xffff) ≠ 0 ∧ req / num_elements ≠ elem_size then
        kMaxRequest
      else req
    else 0
  alloc fuel h msp req

/-! ## Creating a space, queries -/

/-- The loop of `initMemorySpace` that makes the small bins `i, i+1, ...` empty rings. -/
def initSmallBins (msp : Nat) : Nat → Nat → Mem → Mem
  | 0, _, m => m
  | n + 1, i, m =>
    let bin := smallBinAt msp i
    let m := m.write (bin + oBk) bin
    let m := m.write (bin + oFd) bin
    initSmallBins msp n (i + 1) m

def initMemorySpace (h : Heap) (segment_base segment_size page_size segment_granularity
    segment_threshold : Nat) : Nat × Heap :=
  if segment_base ≠ 0 then
    let msp_size := padRequest kSizeofMemorySpace
    let ptr := u64 (segment_base + alignmentOffset (chunkToMemory segment_base))
    let msp := chunkToMemory ptr
    let m := h.mem
    let m := m.write (ptr + oHead) (msp_size ||| kInuseBits)
    let m := m.write (msp + oDv) 0
    let m := m.write (msp + oDvSize) 0
    let next_chunk := nextChunk m (memoryToChunk msp)
    let offset := alignmentOffset (chunkToMemory next_chunk)
    let next_chunk := u64 (next_chunk + offset)
    let top_size := sub64 (u64 (segment_base + segment_size)) next_chunk
    let top_size := sub64 top_size offset
    let m := m.write (msp + oTop) next_chunk
    let m := m.write (msp + oTopSize) top_size
    let m := initSmallBins msp kNumSmallBins 0 m
    let m := m.write (msp + oMagic) (u64 (u32 h.tick ^^^ 0x55555555))
    let m := m.write (msp + oMagic) (m (msp + oMagic) ||| 8)
    let m := m.write (msp + oMagic) (m (msp + oMagic) &&& not32 7)
    let m := m.write (msp + oLeastAddr) segment_base
    let m := m.write (msp + oCurrPageIndex) 1
    let m := m.write (msp + oPageSize) page_size
    let m := m.write (msp + oSegmentGranularity) segment_granularity
    let m := m.write (msp + oSegmentThreshold) segment_threshold
    let m := m.write (msp + oMaxFootprint) segment_size
    let m := m.write (msp + oFootprint) segment_size
    (msp, { h with mem := m })
  else (0, h)

def createMemorySpace (h : Heap) (initialSize page_size segment_granularity segment_threshold : Nat) :
    Nat × Heap :=
  let size := if initialSize = 0 then segment_granularity else initialSize
  let (segment, h) := reserveSegment h
  initMemorySpace h segment size page_size segment_granularity segment_threshold

def getMemorySpaceAddr (m : Mem) (mem : Nat) : Nat :=
  let ptr := memoryToChunk mem
  m (u64 (ptr + chunkSize m ptr) + oPrevFoot)

def getChunkSize (m : Mem) (mem : Nat) : Nat := chunkSize m (memoryToChunk mem)

def getUsableSize (m : Mem) (mem : Nat) : Nat :=
  if mem ≠ 0 then
    let ptr := memoryToChunk mem
    if (m (ptr + oHead) &&& kInuseBits) ≠ kPinuseBit then sub64 (chunkSize m ptr) kChunkOverhead
    else 0
  else 0

/-! ## `GeneralAllocator` -/

/-- The data members of `GeneralAllocator` (`mSpace[21]`; the mutexes are left out)
together with the heap the spaces live in. -/
structure GeneralAllocator where
  mSpace : Nat → Nat
  heap : Heap

namespace GeneralAllocator

/-- Assignment `mSpace[index] = msp`. -/
def setSpace (g : GeneralAllocator) (h : Heap) (index msp : Nat) : GeneralAllocator :=
  { mSpace := fun i => if i = index then msp else g.mSpace i, heap := h }

/-- The loop of `init` over the spaces `i, i+1, ...` for allocations below 256 bytes. -/
def initSmallSpaces : Nat → Nat → GeneralAllocator → Bool × GeneralAllocator
  | 0, _, g => (true, g)
  | n + 1, i, g =>
    let (msp, h) := createMemorySpace g.heap 65536 65536 65536 8192
    let g := g.setSpace h i msp
    if msp = 0 then (false, g) else initSmallSpaces n (i + 1) g

def init (g : GeneralAllocator) : Bool × GeneralAllocator :=
  let (ok, g) := initSmallSpaces 20 0 g
  if !ok then (false, g)
  else
    let (msp, h) := createMemorySpace g.heap 65536 65536 33554432 8388608
    let g := g.setSpace h 20 msp
    if msp = 0 then (false, g) else (true, g)

def getInstIndexFromSize (g : GeneralAllocator) (size : Nat) : Int × GeneralAllocator :=
  let index : Nat := 0
  let index :=
    if size < 64 then u32 (size >>> 3)
    else if size ≥ 64 ∧ size < 256 then
      -- `uint32 index = (size >> 4) + 4;` declares a second variable `index` whose
      -- scope is this statement; the `index` that is used below keeps its value
      let _index := u32 ((size >>> 4) + 4)
      index
    else 20
  if g.mSpace index ≠ 0 then (index, g)
  else if index = 20 then
    let (msp, h) := createMemorySpace g.heap 65536 65536 33554432 8388608
    let g := g.setSpace h index msp
    if msp ≠ 0 then (index, g) else (-1, g)
  else
    let (msp, h) := createMemorySpace g.heap 65536 65536 65536 8192
    let g := g.setSpace h index msp
    if msp ≠ 0 then (index, g) else (-1, g)

def allocate (fuel : Nat) (g : GeneralAllocator) (size alignment offset : Nat) :
    Option (Nat × GeneralAllocator) :=
  let (index, g) := getInstIndexFromSize g size
  if index > -1 then
    match allocAligned fuel g.heap (g.mSpace index.toNat) alignment size offset with
    | none => none
    | some (mem, h) => some (mem, { g with heap := h })
  else some (0, g)

def callocate (fuel : Nat) (g : GeneralAllocator) (num_elements elem_size : Nat) :
    Option (Nat × GeneralAllocator) :=
  let (index, g) := getInstIndexFromSize g elem_size
  if index > -1 then
    match calloc fuel g.heap (g.mSpace index.toNat) num_elements elem_size with
    | none => none
    | some (mem, h) => some (mem, { g with heap := h })
  else some (0, g)

/-- The loop of `deallocate` over the spaces `i, i+1, ...`: `free` through the first
space that exists. -/
def freeFromFirstSpace (fuel : Nat) (g : GeneralAllocator) (mem : Nat) :
    Nat → Nat → Option GeneralAllocator
  | 0, _ => some g
  | n + 1, i =>
    if g.mSpace i ≠ 0 then
      match free fuel g.heap.mem (g.mSpace i) mem with
      | none => none
      | some (_, m) => some { g with heap := { g.heap with mem := m } }
    else freeFromFirstSpace fuel g mem n (i + 1)

def deallocate (fuel : Nat) (g : GeneralAllocator) (mem : Nat) : Option GeneralAllocator :=
  if mem ≠ 0 then
    let msp := getMemorySpaceAddr g.heap.mem mem
    if msp ≠ 0 then
      match free fuel g.heap.mem msp mem with
      | none => none
      | some (_, m) => some { g with heap := { g.heap with mem := m } }
    else freeFromFirstSpace fuel g mem 21 0
  else some g

def getAllocSize (g : GeneralAllocator) (mem : Nat) : Nat := getChunkSize g.heap.mem mem

/-- The loop of `getTotalAllocated` over the spaces `i, i+1, ...`. -/
def sumFootprints (g : GeneralAllocator) : Nat → Nat → Nat → Nat
  | 0, _, total_footprint => total_footprint
  | n + 1, i, total_footprint =>
    if g.mSpace i ≠ 0 then
      sumFootprints g n (i + 1) (u64 (total_footprint + g.heap.mem (g.mSpace i + oFootprint)))
    else sumFootprints g n (i + 1) total_footprint

def getTotalAllocated (g : GeneralAllocator) : Nat := sumFootprints g 21 0 0

end GeneralAllocator

/-! ## Well-formed spaces -/

/-- One chunk of a segment as the chunk walk sees it: where it starts, the size its
`head` records and whether it is in use. -/
structure Chunk where
  addr : Nat
  size : Nat
  inuse : Bool
deriving DecidableEq

/-- The `PINUSE` bit as a number. -/
def pinBit (b : Bool) : Nat := if b then kPinuseBit else 0

/-- The `CINUSE` bit as a number. -/
def cinBit (b : Bool) : Nat := if b then kCinuseBit else 0

/-- Boundary tags along a run of chunks: starting at address `a`, the chunks `cs` lie
one after the other; each has a size of at least `kMinChunkSize` that is a multiple
of 8, its `head` holds the size, `CINUSE` as the chunk is in use and `PINUSE` as the
chunk before it is (`pin` for the first one), and a free chunk is followed by its
size in `prev_foot` of the next chunk. -/
def SegOK (m : Mem) : Bool → Nat → List Chunk → Prop
  | _, _, [] => True
  | pin, a, c :: cs =>
    c.addr = a ∧ kMinChunkSize ≤ c.size ∧ c.size % 8 = 0 ∧
    m (a + oHead) = (c.size ||| pinBit pin) ||| cinBit c.inuse ∧
    (c.inuse = false → m (a + c.size + oPrevFoot) = c.size) ∧
    SegOK m c.inuse (a + c.size) cs

/-- The address at which a run of chunks that starts at `a` ends. -/
def endAddr : Nat → List Chunk → Nat
  | a, [] => a
  | a, c :: cs => endAddr (a + c.size) cs

/-- Whether the last chunk of a run is in use (`pin` for an empty run). -/
def lastInuse : Bool → List Chunk → Bool
  | pin, [] => pin
  | _, c :: cs => lastInuse c.inuse cs

/-- No two adjacent chunks of a run are both free; `pin` tells whether the chunk
before the run is in use. -/
def AdjOK : Bool → List Chunk → Prop
  | _, [] => True
  | pin, c :: cs => (pin = true ∨ c.inuse = true) ∧ AdjOK c.inuse cs

/-- The coalescing invariant for the chunks `cs` of a segment: no two adjacent chunks
are both free, and the last chunk, which is followed by the free chunk `top`, is in
use. -/
def NoAdjFree (cs : List Chunk) : Prop := AdjOK true cs ∧ lastInuse true cs = true

/-- The first chunk after the `MemorySpace` record, as `traverseAndCheck` and `free`
compute it. -/
def firstChunk (m : Mem) (msp : Nat) : Nat :=
  let next_chunk := nextChunk m (memoryToChunk msp)
  u64 (next_chunk + alignmentOffset (chunkToMemory next_chunk))

/-- Walking the segment of `msp` from the first chunk to `top` visits exactly the
chunks `cs`, with consistent boundary tags, and `top` records `top_size` and the
state of the last chunk. -/
def IsWalk (m : Mem) (msp : Nat) (cs : List Chunk) : Prop :=
  SegOK m true (firstChunk m msp) cs ∧
  endAddr (firstChunk m msp) cs = m (msp + oTop) ∧
  m (m (msp + oTop) + oHead) = m (msp + oTopSize) ||| pinBit (lastInuse true cs)

/-- What may stand in a link of a small bin: the head of one of the 32 small bins or
a free small chunk of the walk other than `dv`. -/
def SmallObj (msp dv : Nat) (cs : List Chunk) (x : Nat) : Prop :=
  (∃ i, i < kNumSmallBins ∧ x = smallBinAt msp i) ∨
    (∃ c ∈ cs, c.addr = x ∧ c.inuse = false ∧ c.size < kMinLargeSize ∧ x ≠ dv)

/-- What may stand in a link of a tree bin: a free large chunk of the walk other
than `dv`. -/
def LargeObj (dv : Nat) (cs : List Chunk) (x : Nat) : Prop :=
  ∃ c ∈ cs, c.addr = x ∧ c.inuse = false ∧ kMinLargeSize ≤ c.size ∧ x ≠ dv

/-- Small bins: every bin is a ring through its head, `fd` and `bk` are inverse to
each other, the links stay among bin heads and free small chunks, the first chunk of
bin `i` has size `8 * i`, and `small_map` marks exactly the non-empty bins. -/
def SmallBinsOK (m : Mem) (msp : Nat) (cs : List Chunk) : Prop :=
  (∀ i, i < kNumSmallBins →
    SmallObj msp (m (msp + oDv)) cs (m (smallBinAt msp i + oFd)) ∧
    SmallObj msp (m (msp + oDv)) cs (m (smallBinAt msp i + oBk)) ∧
    m (m (smallBinAt msp i + oFd) + oBk) = smallBinAt msp i ∧
    m (m (smallBinAt msp i + oBk) + oFd) = smallBinAt msp i ∧
    (isSmallMapMarked m msp i = true ↔ m (smallBinAt msp i + oFd) ≠ smallBinAt msp i) ∧
    (m (smallBinAt msp i + oFd) ≠ smallBinAt msp i →
      (⟨m (smallBinAt msp i + oFd), getSmallIndexToSize i, false⟩ : Chunk) ∈ cs ∧
      m (smallBinAt msp i + oFd) ≠ m (msp + oDv))) ∧
  (∀ c ∈ cs, c.inuse = false → c.size < kMinLargeSize → c.addr ≠ m (msp + oDv) →
    SmallObj msp (m (msp + oDv)) cs (m (c.addr + oFd)) ∧
    SmallObj msp (m (msp + oDv)) cs (m (c.addr + oBk)) ∧
    m (m (c.addr + oFd) + oBk) = c.addr ∧
    m (m (c.addr + oBk) + oFd) = c.addr)

/-- Tree bins: roots, ring links, children and parents stay among the free large
chunks; a marked bin has a root; a node with a parent is the root of the bin its
`index` names or has a chunk as parent; ring neighbours, children and a parent
chunk carry the `index` of the node. -/
def TreeBinsOK (m : Mem) (msp : Nat) (cs : List Chunk) : Prop :=
  (∀ i, i < kNumTreeBins →
    (m (treeBinAt msp i) = 0 ∨ LargeObj (m (msp + oDv)) cs (m (treeBinAt msp i))) ∧
    (isTreeMapMarked m msp i = true → m (treeBinAt msp i) ≠ 0)) ∧
  (∀ c ∈ cs, c.inuse = false → kMinLargeSize ≤ c.size → c.addr ≠ m (msp + oDv) →
    LargeObj (m (msp + oDv)) cs (m (c.addr + oFd)) ∧
    LargeObj (m (msp + oDv)) cs (m (c.addr + oBk)) ∧
    (m (c.addr + oChild) = 0 ∨ LargeObj (m (msp + oDv)) cs (m (c.addr + oChild))) ∧
    (m (c.addr + oChild + 8) = 0 ∨ LargeObj (m (msp + oDv)) cs (m (c.addr + oChild + 8))) ∧
    m (c.addr + oIndex) < kNumTreeBins ∧
    (m (c.addr + oParent) = 0 ∨ m (treeBinAt msp (m (c.addr + oIndex))) = c.addr ∨
      LargeObj (m (msp + oDv)) cs (m (c.addr + oParent))) ∧
    m (m (c.addr + oFd) + oIndex) = m (c.addr + oIndex) ∧
    m (m (c.addr + oBk) + oIndex) = m (c.addr + oIndex) ∧
    (m (c.addr + oChild) ≠ 0 → m (m (c.addr + oChild) + oIndex) = m (c.addr + oIndex)) ∧
    (m (c.addr + oChild + 8) ≠ 0 → m (m (c.addr + oChild + 8) + oIndex) = m (c.addr + oIndex)) ∧
    (LargeObj (m (msp + oDv)) cs (m (c.addr + oParent)) →
      m (m (c.addr + oParent) + oIndex) = m (c.addr + oIndex)))

/-- Placement of a space: the record lies below its chunks, the segment ends below
`2^64`, `top` lies inside the segment, and `dv` is empty or a free chunk of the walk
of size `dv_size`. -/
def LayoutOK (m : Mem) (msp : Nat) (cs : List Chunk) : Prop :=
  kChunkOverhead ≤ msp ∧
  msp + kSizeofMemorySpace ≤ firstChunk m msp ∧
  m (msp + oTopSize) % 8 = 0 ∧
  m (msp + oTop) + m (msp + oTopSize) < 2 ^ 64 ∧
  m (msp + oLeastAddr) ≤ firstChunk m msp ∧
  m (msp + oTop) ≤ m (msp + oLeastAddr) + m (msp + oFootprint) ∧
  m (msp + oLeastAddr) + m (msp + oFootprint) < 2 ^ 64 ∧
  ((m (msp + oDvSize) = 0 ∧ m (msp + oDv) = 0) ∨
    (⟨m (msp + oDv), m (msp + oDvSize), false⟩ : Chunk) ∈ cs)

/-- A well-formed space: the invariants of the data model that `alloc` and `free`
rely on, stated for the chunks `cs` of the segment. -/
def WellFormed (m : Mem) (msp : Nat) (cs : List Chunk) : Prop :=
  IsWalk m msp cs ∧ LayoutOK m msp cs ∧ SmallBinsOK m msp cs ∧ TreeBinsOK m msp cs

instance decSegOK (m : Mem) : (pin : Bool) → (a : Nat) → (cs : List Chunk) → Decidable (SegOK m pin a cs)
  | _, _, [] => isTrue trivial
  | pin, a, c :: cs =>
    have := decSegOK m c.inuse (a + c.size) cs
    by unfold SegOK; exact inferInstance

instance decAdjOK : (pin : Bool) → (cs : List Chunk) → Decidable (AdjOK pin cs)
  | _, [] => isTrue trivial
  | pin, c :: cs =>
    have := decAdjOK c.inuse cs
    by unfold AdjOK; exact inferInstance

instance decNoAdjFree (cs : List Chunk) : Decidable (NoAdjFree cs) := by
  unfold NoAdjFree; exact inferInstance

instance decIsWalk (m : Mem) (msp : Nat) (cs : List Chunk) : Decidable (IsWalk m msp cs) := by
  unfold IsWalk; exact inferInstance

instance decSmallObj (msp dv : Nat) (cs : List Chunk) (x : Nat) : Decidable (SmallObj msp dv cs x) := by
  unfold SmallObj; exact inferInstance

instance decLargeObj (dv : Nat) (cs : List Chunk) (x : Nat) : Decidable (LargeObj dv cs x) := by
  unfold LargeObj; exact inferInstance

instance decSmallBinsOK (m : Mem) (msp : Nat) (cs : List Chunk) : Decidable (SmallBinsOK m msp cs) := by
  unfold SmallBinsOK; exact inferInstance

instance decTreeBinsOK (m : Mem) (msp : Nat) (cs : List Chunk) : Decidable (TreeBinsOK m msp cs) := by
  unfold TreeBinsOK; exact inferInstance

instance decLayoutOK (m : Mem) (msp : Nat) (cs : List Chunk) : Decidable (LayoutOK m msp cs) := by
  unfold LayoutOK; exact inferInstance

instance decWellFormed (m : Mem) (msp : Nat) (cs : List Chunk) : Decidable (WellFormed m msp cs) := by
  unfold WellFormed; exact inferInstance

/-! ## Concrete states -/

/-- Memory as the operating system hands it out: every field reads zero. -/
def zeroMem : Mem := fun _ => 0

/-- A heap on untouched memory with the given answers of `SysAlloc::reserveSegment`. -/
def freshHeap (os : List Nat) : Heap := { mem := zeroMem, os := os, tick := 0 }

/-- A space for requests below 256 bytes, created the way `GeneralAllocator` creates
it, in a segment the operating system places at `0x100000`. -/
def smallSpace (os : List Nat) : Nat × Heap :=
  createMemorySpace (freshHeap (1048576 :: os)) 65536 65536 65536 8192

/-- The space for requests of 256 bytes and more, created the way `GeneralAllocator`
creates it, in a segment the operating system places at `0x100000`. -/
def largeSpace (os : List Nat) : Nat × Heap :=
  createMemorySpace (freshHeap (1048576 :: os)) 65536 65536 33554432 8388608

/-- The segment addresses the operating system answers with during `init`:
`0x100000`, `0x200000`, ..., one per space. -/
def segmentBases : List Nat := (List.range 21).map (fun i => 1048576 * (i + 1))

/-- A `GeneralAllocator` after `init()`; `os` holds the answers the operating system
gives to the reservations that follow `init`. -/
def readyAllocator (os : List Nat) : GeneralAllocator :=
  (GeneralAllocator.init { mSpace := fun _ => 0, heap := freshHeap (segmentBases ++ os) }).2

/-- The pointer and the allocator after `init()` and `allocate(40, 8, 0)`. -/
def afterAllocate40 : Nat × GeneralAllocator :=
  (GeneralAllocator.allocate 1 (readyAllocator []) 40 8 0).getD (0, readyAllocator [])

/-! ## Cells, closure and the states of `free` -/

/-- The fields the small-bin operations write: `small_map` and the links of bin
heads and of free small chunks. -/
def SmallCell (msp dv : Nat) (cs : List Chunk) (a : Nat) : Prop :=
  a = msp + oSmallMap ∨ ∃ x, SmallObj msp dv cs x ∧ (a = x + oFd ∨ a = x + oBk)

/-- The fields the tree-bin operations write: `tree_map`, the roots and the tree
fields of free large chunks. -/
def LargeCell (msp dv : Nat) (cs : List Chunk) (a : Nat) : Prop :=
  a = msp + oTreeMap ∨ (∃ i, i < kNumTreeBins ∧ a = treeBinAt msp i) ∨
    ∃ x, LargeObj dv cs x ∧ (a = x + oFd ∨ a = x + oBk ∨ a = x + oChild ∨ a = x + oChild + 8 ∨
      a = x + oParent ∨ a = x + oIndex)

/-- Addresses that hold no boundary tag: the inside of a free chunk from its `fd`
field on, and the bin maps, bins and `magic` of the space record. -/
def Interior (msp : Nat) (cs : List Chunk) (a : Nat) : Prop :=
  (∃ c ∈ cs, c.inuse = false ∧ c.addr + oFd ≤ a ∧ a < c.addr + c.size) ∨
    (msp + oSmallBins ≤ a ∧ a < msp + oLeastAddr) ∨ a = msp + oSmallMap ∨ a = msp + oTreeMap

/-- The links of small-bin members stay among small-bin members. -/
def SmallClosed (m : Mem) (msp dv : Nat) (cs : List Chunk) : Prop :=
  ∀ x, SmallObj msp dv cs x →
    SmallObj msp dv cs (m (x + oFd)) ∧ SmallObj msp dv cs (m (x + oBk))

/-- The roots of the tree bins are tree-bin members, and a marked bin has a root. -/
def RootsOK (m : Mem) (msp dv : Nat) (cs : List Chunk) : Prop :=
  ∀ i, i < kNumTreeBins →
    (m (treeBinAt msp i) = 0 ∨ LargeObj dv cs (m (treeBinAt msp i))) ∧
    (isTreeMapMarked m msp i = true → m (treeBinAt msp i) ≠ 0)

/-- The ring links and children of tree-bin members stay among tree-bin members,
which carry a valid `index`, shared along the links. -/
def NodesOK (m : Mem) (dv : Nat) (cs : List Chunk) : Prop :=
  ∀ x, LargeObj dv cs x →
    LargeObj dv cs (m (x + oFd)) ∧ LargeObj dv cs (m (x + oBk)) ∧
    (m (x + oChild) = 0 ∨ LargeObj dv cs (m (x + oChild))) ∧
    (m (x + oChild + 8) = 0 ∨ LargeObj dv cs (m (x + oChild + 8))) ∧
    m (x + oIndex) < kNumTreeBins ∧
    m (m (x + oFd) + oIndex) = m (x + oIndex) ∧
    m (m (x + oBk) + oIndex) = m (x + oIndex) ∧
    (m (x + oChild) ≠ 0 → m (m (x + oChild) + oIndex) = m (x + oIndex)) ∧
    (m (x + oChild + 8) ≠ 0 → m (m (x + oChild + 8) + oIndex) = m (x + oIndex)) ∧
    (LargeObj dv cs (m (x + oParent)) → m (m (x + oParent) + oIndex) = m (x + oIndex))

/-- A tree-bin member without parent, or the root of its bin, or below a member. -/
def ParentOK (m : Mem) (msp dv : Nat) (cs : List Chunk) (x : Nat) : Prop :=
  m (x + oParent) = 0 ∨ m (treeBinAt msp (m (x + oIndex))) = x ∨
    LargeObj dv cs (m (x + oParent))

/-- The chunks `cs` tile memory from `start` on, above the space record. -/
structure Geometry (msp start : Nat) (cs : List Chunk) : Prop where
  seg : ∃ m pin, SegOK m pin start cs
  below : msp + kSizeofMemorySpace ≤ start
  above : kChunkOverhead ≤ msp

/-- The clauses of `NodesOK` for one node, in terms of the values of its fields. -/
def NodeVals (m : Mem) (dv : Nat) (cs : List Chunk) (fd bk c0 c1 idx par : Nat) : Prop :=
  LargeObj dv cs fd ∧ LargeObj dv cs bk ∧ (c0 = 0 ∨ LargeObj dv cs c0) ∧
    (c1 = 0 ∨ LargeObj dv cs c1) ∧ idx < kNumTreeBins ∧
    m (fd + oIndex) = idx ∧ m (bk + oIndex) = idx ∧
    (c0 ≠ 0 → m (c0 + oIndex) = idx) ∧ (c1 ≠ 0 → m (c1 + oIndex) = idx) ∧
    (LargeObj dv cs par → m (par + oIndex) = idx)

/-- A tree bin with a root is marked in `tree_map`. -/
def RootsMarked (m : Mem) (msp : Nat) : Prop :=
  ∀ i, i < kNumTreeBins → m (treeBinAt msp i) ≠ 0 → isTreeMapMarked m msp i = true

/-- What one tree-bin operation keeps: memory outside the tree cells, the closure of
the tree bins, the `index` fields, the parent condition of every member other
than `x`, the member being unlinked, and the marks of the bins that have a root. -/
structure Good (msp dv : Nat) (cs : List Chunk) (x : Nat) (m m2 : Mem) : Prop where
  frame : ∀ a, ¬ LargeCell msp dv cs a → m2 a = m a
  nodes : NodesOK m2 dv cs
  roots : RootsOK m2 msp dv cs
  parents : ∀ y, LargeObj dv cs y → y ≠ x → ParentOK m msp dv cs y → ParentOK m2 msp dv cs y
  index : ∀ z, LargeObj dv cs z → m2 (z + oIndex) = m (z + oIndex)
  marks : RootsMarked m msp → RootsMarked m2 msp

/-- A value fit for a ring link of `y`: a member with the `index` of `y`. -/
def LinkVal (m : Mem) (dv : Nat) (cs : List Chunk) (y v : Nat) : Prop :=
  LargeObj dv cs v ∧ m (v + oIndex) = m (y + oIndex)

/-- A value fit for a child field of `y`: null or a member with the `index` of `y`. -/
def ChildVal (m : Mem) (dv : Nat) (cs : List Chunk) (y v : Nat) : Prop :=
  v = 0 ∨ (LargeObj dv cs v ∧ m (v + oIndex) = m (y + oIndex))

/-- What the descent of `insertLargeChunk` relies on: children stay among the members,
and so does the `fd` of a member of the size looked for. -/
def LoopInv (m : Mem) (dv : Nat) (cs : List Chunk) (size : Nat) : Prop :=
  ∀ y, LargeObj dv cs y →
    (m (y + oChild) = 0 ∨ LargeObj dv cs (m (y + oChild))) ∧
    (m (y + oChild + 8) = 0 ∨ LargeObj dv cs (m (y + oChild + 8))) ∧
    (chunkSize m y = size → LargeObj dv cs (m (y + oFd)))

/-- The bins are closed: links, children and roots stay among the members. -/
structure Closed (m : Mem) (msp dv : Nat) (cs : List Chunk) : Prop where
  small : SmallClosed m msp dv cs
  nodes : NodesOK m dv cs
  roots : RootsOK m msp dv cs

/-- The chunks of a space can be walked and no two adjacent ones are free. -/
def Coalesced (m : Mem) (msp : Nat) : Prop := ∃ cs, IsWalk m msp cs ∧ NoAdjFree cs

/-- A coalesced space with at least one chunk between the record and `top`. -/
def Occupied (m : Mem) (msp : Nat) : Prop := ∃ cs, IsWalk m msp cs ∧ NoAdjFree cs ∧ cs ≠ []

/-- The state of `free` before forward consolidation: the chunks `M0` (the chunk that
is freed, perhaps after the free chunk before it) form the block that starts where
`Lp` ends and has `psz` bytes; memory `mA` differs from the well-formed memory `m`
in the interior only and the bins are still closed. -/
structure Mid (m mA : Mem) (msp : Nat) (cs Lp M0 R : List Chunk) (psz : Nat) : Prop where
  hcs : cs = Lp ++ M0 ++ R
  wf : WellFormed m msp cs
  na : NoAdjFree cs
  lp : lastInuse true Lp = true
  last : ∀ b, lastInuse b M0 = true
  size : endAddr (endAddr (firstChunk m msp) Lp) M0 = endAddr (firstChunk m msp) Lp + psz
  hd : ∃ c ∈ M0, c.addr = endAddr (firstChunk m msp) Lp
  mfree : ∀ y ∈ M0, y.inuse = false → y.addr = endAddr (firstChunk m msp) Lp
  frame : ∀ a, ¬ Interior msp cs a → mA a = m a
  closed : Closed mA msp (m (msp + oDv)) cs
  parents : ∀ y, LargeObj (m (msp + oDv)) cs y → y ≠ endAddr (firstChunk m msp) Lp →
    ParentOK mA msp (m (msp + oDv)) cs y

/-- The pointers `A`, `B`, `C` of three calls `alloc(msp, 40)` in a fresh small space,
and the heap after them. -/
def threeBlocks : Nat × Nat × Nat × Heap :=
  let s := smallSpace []
  let a := (alloc 1 s.2 s.1 40).getD (0, s.2)
  let b := (alloc 1 a.2 s.1 40).getD (0, a.2)
  let c := (alloc 1 b.2 s.1 40).getD (0, b.2)
  (a.1, b.1, c.1, c.2)

/-- The chunks of the space after the three allocations. -/
def threeChunks : List Chunk :=
  [⟨1049560, 56, true⟩, ⟨1049616, 56, true⟩, ⟨1049672, 56, true⟩]

/-- Memory after `free(msp, A)`. -/
def afterFreeA : Option (Bool × Mem) :=
  free 1 threeBlocks.2.2.2.mem (smallSpace []).1 threeBlocks.1

/-- Memory after `free(msp, A)` and `free(msp, C)`. -/
def afterFreeC : Option (Bool × Mem) :=
  afterFreeA.bind fun r => free 1 r.2 (smallSpace []).1 threeBlocks.2.2.1

/-- Memory after `free(msp, A)`, `free(msp, C)` and `free(msp, B)`. -/
def afterFreeB : Option (Bool × Mem) :=
  afterFreeC.bind fun r => free 1 r.2 (smallSpace []).1 threeBlocks.2.1

/-- The chunk size `nb` that `alloc` works with for a request of `bytes` bytes. -/
def allocChunkSize (bytes : Nat) : Nat :=
  if bytes < kMinRequest then kMinChunkSize else padRequest bytes

/-- The fields `dv`, `dv_size`, `top`, `top_size` and every cell of the bins (maps,
bin heads, roots, links and tree fields of the chunks in the bins) hold in `m3` what
they hold in `m`. -/
def SameBins (m m3 : Mem) (msp : Nat) (cs : List Chunk) : Prop :=
  m3 (msp + oDv) = m (msp + oDv) ∧ m3 (msp + oDvSize) = m (msp + oDvSize) ∧
  m3 (msp + oTop) = m (msp + oTop) ∧ m3 (msp + oTopSize) = m (msp + oTopSize) ∧
  (∀ a, SmallCell msp (m (msp + oDv)) cs a → m3 a = m a) ∧
  (∀ a, LargeCell msp (m (msp + oDv)) cs a → m3 a = m a)

/-- How `alloc` serves a request of chunk size `nb` in place: by a whole chunk of the
small bin of `nb` or of the next bin (one of the two lowest bits of `smallbits` is
set), or by splitting `dv` with a remainder of at least `kMinChunkSize` bytes (no
such bin, `tree_map` empty), or by splitting `top` without growing the segment (no
small bin from the one of `nb` on, `dv` too small). -/
def ServedInPlace (m : Mem) (msp nb : Nat) : Prop :=
  shr32 (m (msp + oSmallMap)) (getSmallBinIndex nb) &&& 3 ≠ 0 ∨
  (shr32 (m (msp + oSmallMap)) (getSmallBinIndex nb) &&& 3 = 0 ∧
    nb + kMinChunkSize ≤ m (msp + oDvSize) ∧ m (msp + oTreeMap) = 0) ∨
  (shr32 (m (msp + oSmallMap)) (getSmallBinIndex nb) = 0 ∧ m (msp + oDvSize) < nb ∧
    nb < m (msp + oTopSize))

instance decServedInPlace (m : Mem) (msp nb : Nat) : Decidable (ServedInPlace m msp nb) := by
  unfold ServedInPlace; exact inferInstance

/-! ## Byte-addressed memory

The bump allocator and the pool store `size_t` values and pointers at addresses that
need not be multiples of 8 (and, in the pool, at overlapping addresses), so their
memory is kept byte by byte. -/

/-- Memory as bytes: the value of the byte at an address (read modulo 256). -/
abbrev Bytes := Nat → Nat

/-- Store of a `size_t` or a pointer at address `a`: eight bytes, little endian. -/
def store64 (m : Bytes) (a v : Nat) : Bytes :=
  fun b => if a ≤ b ∧ b < a + 8 then (v / 256 ^ (b - a)) % 256 else m b

/-- Load of a `size_t` or a pointer from address `a`. -/
def load64 (m : Bytes) (a : Nat) : Nat :=
  m a % 256 + 256 * (m (a + 1) % 256) + 256 ^ 2 * (m (a + 2) % 256) +
    256 ^ 3 * (m (a + 3) % 256) + 256 ^ 4 * (m (a + 4) % 256) + 256 ^ 5 * (m (a + 5) % 256) +
    256 ^ 6 * (m (a + 6) % 256) + 256 ^ 7 * (m (a + 7) % 256)

/-- Unsigned `size_t` decrement (`--x`, wrapping at zero). -/
def dec64 (x : Nat) : Nat := if x % 2 ^ 64 = 0 then 2 ^ 64 - 1 else x % 2 ^ 64 - 1

/-- Memory as the operating system hands it out: all bytes zero. -/
def zeroBytes : Bytes := fun _ => 0

/-! ## `LinearAllocator.cpp` -/

/-- The members of `LinearAllocator`. -/
structure LinearAllocator where
  mSize : Nat
  mStart : Nat
  mCurrent : Nat

namespace LinearAllocator

/-- `LinearAllocator(size_t size)`.  The constructor does not initialise `mCurrent`;
`junk` is the value the member happens to hold. -/
def ofSize (size junk : Nat) : LinearAllocator :=
  { mSize := size, mStart := 0, mCurrent := junk }

/-- `LinearAllocator(void* start, size_t size)`; `mCurrent` is not initialised either. -/
def ofRegion (start size junk : Nat) : LinearAllocator :=
  { mSize := size, mStart := start, mCurrent := junk }

/-- `init()`; `seg` is the answer of `SysAlloc::reserveCommitSegment` (0 is null). -/
def init (a : LinearAllocator) (seg : Nat) : Bool × LinearAllocator :=
  if a.mStart = 0 then
    if seg = 0 then (false, { a with mStart := seg })
    else (true, { a with mStart := seg, mCurrent := seg })
  else (true, a)

/-- `allocate(size, alignment, offset)`: the returned pointer (0 is null), the
allocator and the memory after the call. -/
def allocate (a : LinearAllocator) (m : Bytes) (size alignment offset : Nat) :
    Nat × LinearAllocator × Bytes :=
  let alignment := if alignment < kDefaultAlignment then kDefaultAlignment else alignment
  let offset := u64 (offset + kSizeofSizeT)
  let current := u64 (a.mCurrent + offset)
  let current := u64 (current + (alignment - 1)) &&& not64 (alignment - 1)
  let current := sub64 current offset
  let user_ptr := current
  let current := u64 (current + size)
  let a := { a with mCurrent := current }
  if current ≥ u64 (a.mStart + a.mSize) then (0, a, m)
  else (u64 (user_ptr + kSizeofSizeT), a, store64 m user_ptr size)

/-- `callocate`: always null. -/
def callocate (_a : LinearAllocator) (_num_elements _elem_size : Nat) : Nat := 0

/-- `deallocate`: empty. -/
def deallocate (a : LinearAllocator) (_mem : Nat) : LinearAllocator := a

/-- Function `reset` of the class. -/
def reset (a : LinearAllocator) : LinearAllocator := { a with mCurrent := a.mStart }

/-- Function `getAllocSize` of the class. -/
def getAllocSize (m : Bytes) (mem : Nat) : Nat := load64 m (sub64 mem kSizeofSizeT)

/-- Function `getTotalAllocated` of the class. -/
def getTotalAllocated (a : LinearAllocator) : Nat := sub64 a.mCurrent a.mStart

end LinearAllocator

/-- A bump allocator for a region of 65536 bytes after `init()`, the operating system
having placed the region at `0x100000`. -/
def readyLinear : LinearAllocator := ((LinearAllocator.ofSize 65536 0).init 1048576).2

/-! ## `FreeList.cpp`

A `FreeList` object has one member, `mNext`; the object lives in memory at the address
`this` (the pool constructs it in place at the start of its region), so `mNext` is the
pointer stored at `this`. -/

/-- Size of a `FreeList` object: one pointer. -/
def kSizeofFreeList : Nat := 8

namespace FreeList

/-- The constructor `FreeList(start, size, element_size, alignment, offset)`, run on
the object at `this`.  The division is the unsigned division of the source; `start`
is a pointer, so `final_element_size` is not zero in a run that gets past it. -/
def construct (m : Bytes) (this start size element_size alignment offset : Nat) : Bytes :=
  let final_element_size := u64 (2 * offset + element_size)
  let aligned_ptr := u64 (start + offset)
  let aligned_ptr := u64 (aligned_ptr + sub64 alignment 1) &&& not64 (sub64 alignment 1)
  let aligned_ptr := sub64 aligned_ptr offset
  let element_count := sub64 (sub64 size (sub64 aligned_ptr start) / final_element_size) 1
  let m := (List.range element_count).foldl (fun m element_index =>
    let curr_element := u64 (aligned_ptr + u64 (element_index * final_element_size))
    store64 m curr_element (u64 (curr_element + element_count))) m
  let m := store64 m (u64 (aligned_ptr + u64 (element_count * final_element_size))) 0
  store64 m this aligned_ptr

/-- Function `obtainNode`: the node (0 is null) and the memory after the call. -/
def obtainNode (m : Bytes) (this : Nat) : Nat × Bytes :=
  if load64 m this = 0 then (0, m)
  else
    let curr_ptr := load64 m this
    (curr_ptr, store64 m this (load64 m (load64 m this)))

/-- Function `returnNode`. -/
def returnNode (m : Bytes) (this ptr : Nat) : Bytes :=
  let m := store64 m ptr (load64 m this)
  store64 m this ptr

end FreeList

/-! ## `PoolAllocator.cpp` -/

/-- The members of `PoolAllocator` (the parent allocator is left out: the pool uses it
for one call, whose result is an argument of `init`). -/
structure PoolAllocator where
  mSize : Nat
  mChunkSize : Nat
  mAlignment : Nat
  mCount : Nat
  mOffset : Nat
  mFreeList : Nat
  mStart : Nat

namespace PoolAllocator

/-- The constructor `PoolAllocator(allocator, element_size, element_count, alignment,
offset)`.  It leaves `mCount`, `mFreeList` and `mStart` as they are: `junk` holds the
values these members happen to have. -/
def construct (junk : PoolAllocator) (element_size element_count alignment offset : Nat) :
    PoolAllocator :=
  let final_element_size := u64 (element_size + u64 (2 * offset)) &&& not64 (sub64 alignment 1)
  let total_size := u64 (u64 (final_element_size * element_count) + alignment)
  { junk with mOffset := offset, mAlignment := alignment, mSize := total_size,
              mChunkSize := element_size }

/-- The request `init()` sends to the parent allocator: size, alignment, offset. -/
def initRequest (p : PoolAllocator) : Nat × Nat × Nat :=
  (u64 (p.mSize + kSizeofFreeList), p.mAlignment, p.mOffset)

/-- `init()`; `got` is the pointer the parent allocator returned for `initRequest` and
`m` the memory after that call. -/
def init (p : PoolAllocator) (m : Bytes) (got : Nat) : Bool × PoolAllocator × Bytes :=
  let p := { p with mStart := got }
  if got ≠ 0 then
    let m := FreeList.construct m got (u64 (got + kSizeofFreeList)) p.mSize p.mChunkSize
      p.mAlignment p.mOffset
    (true, { p with mFreeList := got }, m)
  else (false, p, m)

/-- `allocate(size, alignment, offset)`; the three arguments are only compared with the
configuration by assertions. -/
def allocate (p : PoolAllocator) (m : Bytes) (_size _alignment _offset : Nat) :
    Nat × PoolAllocator × Bytes :=
  let p := { p with mCount := u64 (p.mCount + 1) }
  ((FreeList.obtainNode m p.mFreeList).1, p, (FreeList.obtainNode m p.mFreeList).2)

/-- `callocate`: always null. -/
def callocate (_p : PoolAllocator) (_num_elements _elem_size : Nat) : Nat := 0

/-- Function `deallocate` of the class. -/
def deallocate (p : PoolAllocator) (m : Bytes) (ptr : Nat) : PoolAllocator × Bytes :=
  if ptr ≠ 0 then ({ p with mCount := dec64 p.mCount }, FreeList.returnNode m p.mFreeList ptr)
  else (p, m)

/-- Function `getAllocSize` of the class. -/
def getAllocSize (p : PoolAllocator) (_ptr : Nat) : Nat := p.mChunkSize

/-- Function `getTotalAllocated` of the class. -/
def getTotalAllocated (p : PoolAllocator) : Nat :=
  u64 (u64 (p.mChunkSize + u64 (2 * p.mOffset)) * p.mCount)

end PoolAllocator

/-- A pool of 4 slots of 64 bytes (alignment 8, offset 0) as constructed. -/
def pool4 : PoolAllocator :=
  PoolAllocator.construct
    { mSize := 0, mChunkSize := 0, mAlignment := 0, mCount := 0, mOffset := 0,
      mFreeList := 0, mStart := 0 } 64 4 8 0

/-- The region the pool of `pool4` gets from a bump allocator over fresh memory. -/
def pool4Region : Nat × LinearAllocator × Bytes :=
  readyLinear.allocate zeroBytes pool4.initRequest.1 pool4.initRequest.2.1 pool4.initRequest.2.2

/-- The pool `pool4` after `init()`. -/
def readyPool : Bool × PoolAllocator × Bytes :=
  pool4.init pool4Region.2.2 pool4Region.1

/-- The pointers of the first `n` calls `allocate(64, 8, 0)` of a pool, in order. -/
def poolAllocs : Nat → PoolAllocator → Bytes → List Nat
  | 0, _, _ => []
  | n + 1, p, m => (p.allocate m 64 8 0).1 :: poolAllocs n (p.allocate m 64 8 0).2.1 (p.allocate m 64 8 0).2.2

/-! ## `WorkStealQueue.h`

The operations are embedded as they run when no other thread touches the queue: every
atomic load sees the last store, and a `compare_exchange_strong` on `mTop` succeeds,
since `mTop` still holds the value that was just loaded.

The array of a queue is kept as a map from the byte offset of an entry (relative to
the start of the array, modulo `2^64`) to the pointer stored there; entry `b` lies at
offset `8 * b`.  The constructors allocate `WORK_QUEUE_SIZE` entries, so offsets from
`8 * WORK_QUEUE_SIZE` on are memory outside the array. -/

/-- Constant `WORK_QUEUE_SIZE` of the source. -/
def WORK_QUEUE_SIZE : Nat := 1024

/-- Constant `GLOBAL_QUEUE_SIZE` of `Scheduler.h`. -/
def GLOBAL_QUEUE_SIZE : Nat := 128

/-- Size of a pointer in bytes. -/
def kSizeofPointer : Nat := 8

/-- Byte offset of entry `b` of an array of pointers. -/
def entryAt (b : Nat) : Nat := u64 (b * kSizeofPointer)

/-- The members of `WorkStealQueue` (`mAlloc` left out) and the memory of its array. -/
structure WorkStealQueue where
  mTop : Nat
  mBottom : Nat
  mArray : Nat → Nat

namespace WorkStealQueue

/-- The constructor: both indices are 0; the entries of the new array hold what the
memory happens to hold (`buf`). -/
def construct (buf : Nat → Nat) : WorkStealQueue :=
  { mTop := 0, mBottom := 0, mArray := buf }

/-- Function `push` of the class. -/
def push (q : WorkStealQueue) (task : Nat) : WorkStealQueue :=
  let b := q.mBottom
  let t := q.mTop
  if sub64 b t ≤ WORK_QUEUE_SIZE - 1 then
    { q with mArray := Mem.write q.mArray (entryAt b) task, mBottom := u64 (b + 1) }
  else q

/-- Function `pop` of the class: the task (0 is null) and the queue after the call. -/
def pop (q : WorkStealQueue) : Nat × WorkStealQueue :=
  let b := dec64 q.mBottom
  let q := { q with mBottom := b }
  let t := q.mTop
  if t ≤ b then
    let x := q.mArray (entryAt b)
    if t = b then (x, { q with mTop := u64 (t + 1), mBottom := u64 (b + 1) })
    else (x, q)
  else (0, { q with mBottom := u64 (b + 1) })

/-- Function `steal` of the class. -/
def steal (q : WorkStealQueue) : Nat × WorkStealQueue :=
  let t := q.mTop
  let b := q.mBottom
  if t < b then (q.mArray (entryAt t), { q with mTop := u64 (t + 1) })
  else (0, q)

/-- Consecutive calls of `push`, one per task of the list. -/
def pushAll (q : WorkStealQueue) : List Nat → WorkStealQueue
  | [] => q
  | task :: rest => pushAll (q.push task) rest

end WorkStealQueue

/-- The members of `GlobalWorkQueue` (`mAlloc` left out): the indices, the pointer to
the array and the memory of the array. -/
structure GlobalWorkQueue where
  mTop : Nat
  mBottom : Nat
  mArray : Nat
  entries : Nat → Nat

namespace GlobalWorkQueue

/-- The constructor; `array` is the pointer `ODIN_NEW_ARRAY` returned and `buf` what
the new entries happen to hold. -/
def construct (array : Nat) (buf : Nat → Nat) : GlobalWorkQueue :=
  { mTop := 0, mBottom := 0, mArray := array, entries := buf }

/-- Function `push` of the class. -/
def push (q : GlobalWorkQueue) (task : Nat) : GlobalWorkQueue :=
  if q.mArray ≠ 0 then
    if q.mBottom < WORK_QUEUE_SIZE then
      { q with entries := Mem.write q.entries (entryAt q.mBottom) task,
               mBottom := u64 (q.mBottom + 1) }
    else q
  else q

/-- Function `pop` of the class.  The branch that takes a task has no `return`
statement: what the caller receives there is whatever the return register holds,
given as `junk`. -/
def pop (q : GlobalWorkQueue) (junk : Nat) : Nat × GlobalWorkQueue :=
  if q.mArray ≠ 0 then
    let t := q.mTop
    if t < q.mBottom then
      let q := { q with mTop := u64 (t + 1) }
      (junk, { q with entries := Mem.write q.entries (entryAt t) 0 })
    else (0, q)
  else (0, q)

/-- Consecutive calls of `push`, one per task of the list. -/
def pushAll (q : GlobalWorkQueue) : List Nat → GlobalWorkQueue
  | [] => q
  | task :: rest => pushAll (q.push task) rest

/-- The queue after `n` consecutive calls of `pop`. -/
def popN (q : GlobalWorkQueue) (junk : Nat) : Nat → GlobalWorkQueue
  | 0 => q
  | n + 1 => popN (q.pop junk).2 junk n

end GlobalWorkQueue

/-! ## `Scheduler.h`, `Scheduler.cpp`

A `Task` lies in byte-addressed memory: `mOpenTasks` (32 bits) at offset 0, `mTaskID`
at 8, `mParent` at 16, `mKernel` at 24 and `mTaskData` (80 bytes) at 32. -/

/-- Size of `struct Task`. -/
def kSizeofTask : Nat := 112

/-- Offset of `mOpenTasks` in a `Task`. -/
def oOpenTasks : Nat := 0

/-- Offset of `mTaskID` in a `Task`. -/
def oTaskID : Nat := 8

/-- Offset of `mParent` in a `Task`. -/
def oTaskParent : Nat := 16

/-- Store of a `uint32` at address `a`: four bytes, little endian. -/
def store32 (m : Bytes) (a v : Nat) : Bytes :=
  fun b => if a ≤ b ∧ b < a + 4 then (v / 256 ^ (b - a)) % 256 else m b

/-- Load of a `uint32` from address `a`. -/
def load32 (m : Bytes) (a : Nat) : Nat :=
  m a % 256 + 256 * (m (a + 1) % 256) + 256 ^ 2 * (m (a + 2) % 256) +
    256 ^ 3 * (m (a + 3) % 256)

/-- Unsigned `uint32` decrement (`--x`, wrapping at zero). -/
def dec32 (x : Nat) : Nat := if x % 2 ^ 32 = 0 then 2 ^ 32 - 1 else x % 2 ^ 32 - 1

/-- The difference `a - b` of two `Task` pointers, as a `size_t`: the signed distance
in bytes divided by the size of a `Task` (towards zero). -/
def taskDiff (a b : Nat) : Nat :=
  if b ≤ a then (a - b) / kSizeofTask else u64 (2 ^ 64 - (b - a) / kSizeofTask)

/-- The members of `Scheduler` that identify tasks: the number of threads, the global
pool and the local pool of every entry of `mQueueAndPool`. -/
structure Scheduler where
  mNumThreads : Nat
  mGlobalPoolAlloc : PoolAllocator
  mLocalPoolAlloc : Nat → PoolAllocator

namespace Scheduler

/-- Function `getOffsetFromTaskID` of the class. -/
def getOffsetFromTaskID (id : Nat) : Nat := id &&& 0xffff

/-- Function `getPoolIndexFromTaskID` of the class. -/
def getPoolIndexFromTaskID (id : Nat) : Nat := (id &&& 0xff0000) >>> 16

/-- Function `getTask` of the class. -/
def getTask (s : Scheduler) (task_id : Nat) : Nat :=
  let offset := getOffsetFromTaskID task_id
  let index := getPoolIndexFromTaskID task_id
  if index = s.mNumThreads then u64 (s.mGlobalPoolAlloc.mStart + offset * kSizeofTask)
  else u64 ((s.mLocalPoolAlloc index).mStart + offset * kSizeofTask)

/-- Function `calcTaskID` of the class. -/
def calcTaskID (s : Scheduler) (task queue_index : Nat) : Nat :=
  if queue_index = s.mNumThreads then
    let offset := taskDiff task s.mGlobalPoolAlloc.mStart
    u64 (queue_index <<< 16) ||| offset
  else
    let offset := taskDiff task (s.mLocalPoolAlloc queue_index).mStart
    u64 (queue_index <<< 16) ||| offset

/-- Function `finishTask` of the class; one unit of fuel per level of the recursion
along `mParent`.  The destructor of `Task` does nothing. -/
def finishTask : Nat → Scheduler → Bytes → Nat → Option (Scheduler × Bytes)
  | 0, _, _, _ => none
  | fuel + 1, s, m, task =>
    let open_tasks := dec32 (load32 m (task + oOpenTasks))
    let m := store32 m (task + oOpenTasks) open_tasks
    let up :=
      if load64 m (task + oTaskParent) ≠ 0 then finishTask fuel s m (load64 m (task + oTaskParent))
      else some (s, m)
    match up with
    | none => none
    | some (s, m) =>
      if open_tasks = 0 then
        let index := getPoolIndexFromTaskID (load64 m (task + oTaskID))
        if index = s.mNumThreads then
          some ({ s with mGlobalPoolAlloc := (s.mGlobalPoolAlloc.deallocate m task).1 },
            (s.mGlobalPoolAlloc.deallocate m task).2)
        else
          some ({ s with mLocalPoolAlloc := fun i =>
                    if i = index then ((s.mLocalPoolAlloc index).deallocate m task).1
                    else s.mLocalPoolAlloc i },
            ((s.mLocalPoolAlloc index).deallocate m task).2)
      else some (s, m)

end Scheduler

/-! ## Task pools of the scheduler: concrete states -/

/-- A pool of `GLOBAL_QUEUE_SIZE` tasks as `Scheduler::init` constructs it
(`sizeof(Task)`, alignment 8, offset 0). -/
def taskPool : PoolAllocator :=
  PoolAllocator.construct
    { mSize := 0, mChunkSize := 0, mAlignment := 0, mCount := 0, mOffset := 0,
      mFreeList := 0, mStart := 0 } kSizeofTask GLOBAL_QUEUE_SIZE kDefaultAlignment 0

/-- The pool `taskPool` after `init()`, its region coming from a bump allocator over
fresh memory at `0x100000`. -/
def readyTaskPool : Bool × PoolAllocator × Bytes :=
  taskPool.init
    (readyLinear.allocate zeroBytes taskPool.initRequest.1 taskPool.initRequest.2.1
      taskPool.initRequest.2.2).2.2
    (readyLinear.allocate zeroBytes taskPool.initRequest.1 taskPool.initRequest.2.1
      taskPool.initRequest.2.2).1

/-- A scheduler with 4 threads whose global pool is `readyTaskPool`; the local pools
play no part and are left as constructed. -/
def readyScheduler : Scheduler :=
  { mNumThreads := 4, mGlobalPoolAlloc := readyTaskPool.2.1, mLocalPoolAlloc := fun _ => taskPool }

/-- A task pool at `0x100008` all of whose slots are handed out (the free list, whose
object lies at `0x100008`, is empty); three tasks are live. -/
def chainPool : PoolAllocator :=
  { mSize := 14344, mChunkSize := kSizeofTask, mAlignment := 8, mCount := 3, mOffset := 0,
    mFreeList := 1048584, mStart := 1048584 }

/-- A scheduler with one thread: pool index 1 is the global pool `chainPool`. -/
def chainScheduler : Scheduler :=
  { mNumThreads := 1, mGlobalPoolAlloc := chainPool, mLocalPoolAlloc := fun _ => chainPool }

/-- Writes `mOpenTasks`, `mTaskID` and `mParent` of the task at `task`. -/
def setTask (m : Bytes) (task open_tasks id parent : Nat) : Bytes :=
  store64 (store64 (store32 m (task + oOpenTasks) open_tasks) (task + oTaskID) id)
    (task + oTaskParent) parent

/-- Three tasks in the slots 0, 1 and 2 of `chainPool`, set up by the counter protocol:
a root (`0x100010`, one child), its child (`0x100080`, one child) and the grandchild
(`0x1000f0`); every `mOpenTasks` is 1 + the number of children. -/
def chainMemory : Bytes :=
  setTask (setTask (setTask zeroBytes 1048592 2 65536 0) 1048704 2 65537 1048592)
    1048816 1 65538 1048704

/-! ## A space with a free chunk in a tree bin -/

/-- The heap after `alloc(msp, 1000)` twice in a fresh large space; the pointers are
`A` and `B`. -/
def twoLarge : Nat × Nat × Heap :=
  let s := largeSpace []
  let a := (alloc 1 s.2 s.1 1000).getD (0, s.2)
  let b := (alloc 1 a.2 s.1 1000).getD (0, a.2)
  (a.1, b.1, b.2)

/-- The heap after `free(msp, A)`: the chunk of `A` lies in a tree bin, and `B` keeps
it apart from `top`. -/
def treeHeap : Heap :=
  { twoLarge.2.2 with
    mem := ((free 1 twoLarge.2.2.mem (largeSpace []).1 twoLarge.1).getD (false, twoLarge.2.2.mem)).2 }

/-! ## States for the answer of `free` -/

/-- Memory of the small space after `free(msp, A)` and `free(msp, C)`: the block `B`
is the only allocation left. -/
def onlyB : Mem := (afterFreeC.getD (false, zeroMem)).2

/-- The chunks of the space in `onlyB`. -/
def onlyBChunks : List Chunk := [⟨1049560, 56, false⟩, ⟨1049616, 56, true⟩]

/-- A fresh large space in which `alloc(msp, 9000000)` was served by a reservation of
its own at `0x4000000`: the pointer and the heap. -/
def directBlock : Nat × Heap :=
  (alloc 1 (largeSpace [67108864]).2 (largeSpace [67108864]).1 9000000).getD
    (0, (largeSpace [67108864]).2)

/-! ## The bin maps -/

/-- The map of the small bins is exact (`checkSmallbin`): bin `i` is marked in
`small_map` if and only if the links of its head lead to a chunk, forwards (`fd`)
and backwards (`bk`). -/
def SmallMapOK (m : Mem) (msp : Nat) : Prop :=
  ∀ i, i < kNumSmallBins →
    (isSmallMapMarked m msp i = true ↔ m (smallBinAt msp i + oFd) ≠ smallBinAt msp i) ∧
    (isSmallMapMarked m msp i = true ↔ m (smallBinAt msp i + oBk) ≠ smallBinAt msp i)

/-- The map of the tree bins is exact (`checkTreebin`): bin `i` is marked in
`tree_map` if and only if it has a root. -/
def TreeMapOK (m : Mem) (msp : Nat) : Prop :=
  ∀ i, i < kNumTreeBins → (isTreeMapMarked m msp i = true ↔ m (treeBinAt msp i) ≠ 0)

/-- Both bin maps are exact. -/
def MapsOK (m : Mem) (msp : Nat) : Prop := SmallMapOK m msp ∧ TreeMapOK m msp

/-- A run of ring links: from `a` the `fd` links lead through the chunks `l` to `b`,
and the `bk` links lead back. -/
def Links (m : Mem) : Nat → List Nat → Nat → Prop
  | a, [], b => m (a + oFd) = b ∧ m (b + oBk) = a
  | a, x :: l, b => m (a + oFd) = x ∧ m (x + oBk) = a ∧ Links m x l b

/-- The chunks `l` are the members of small bin `i`, in `fd` order from the head of
the bin: they form a ring with the head, lie above the space record and are
distinct. -/
def SmallRing (m : Mem) (msp i : Nat) (l : List Nat) : Prop :=
  Links m (smallBinAt msp i) l (smallBinAt msp i) ∧
    (∀ x ∈ l, msp + kSizeofMemorySpace ≤ x) ∧ l.Nodup

/-- The child links of the tree bins lead downwards: `ht` decreases from a member to
its children, and stays below `fuel`. -/
def Ranked (m : Mem) (dv : Nat) (cs : List Chunk) (ht : Nat → Nat) (fuel : Nat) : Prop :=
  ∀ c ∈ cs, c.inuse = false → kMinLargeSize ≤ c.size → c.addr ≠ dv →
    ht c.addr < fuel ∧
    (m (c.addr + oChild) ≠ 0 → ht (m (c.addr + oChild)) < ht c.addr) ∧
    (m (c.addr + oChild + 8) ≠ 0 → ht (m (c.addr + oChild + 8)) < ht c.addr)

instance decLinks (m : Mem) : (a : Nat) → (l : List Nat) → (b : Nat) → Decidable (Links m a l b)
  | _, [], _ => by unfold Links; exact inferInstance
  | _, x :: l, b =>
    have := decLinks m x l b
    by unfold Links; exact inferInstance

instance decSmallRing (m : Mem) (msp i : Nat) (l : List Nat) : Decidable (SmallRing m msp i l) := by
  unfold SmallRing; exact inferInstance

instance decSmallMapOK (m : Mem) (msp : Nat) : Decidable (SmallMapOK m msp) := by
  unfold SmallMapOK; exact inferInstance

instance decTreeMapOK (m : Mem) (msp : Nat) : Decidable (TreeMapOK m msp) := by
  unfold TreeMapOK; exact inferInstance

instance decMapsOK (m : Mem) (msp : Nat) : Decidable (MapsOK m msp) := by
  unfold MapsOK; exact inferInstance

instance decRanked (m : Mem) (dv : Nat) (cs : List Chunk) (ht : Nat → Nat) (fuel : Nat) :
    Decidable (Ranked m dv cs ht fuel) := by
  unfold Ranked; exact inferInstance

/-! ## A space with chunks in a small bin and in a tree bin -/

/-- The heap of a fresh large space after the calls `alloc(msp, 40)` (`S`),
`alloc(msp, 40)`, `alloc(msp, 1000)` (`A`), `alloc(msp, 40)`, `alloc(msp, 900)` (`B`),
`alloc(msp, 40)`, `alloc(msp, 1000)` (`C`), `alloc(msp, 40)`. -/
def eightBlocks : Heap :=
  let s := largeSpace []
  [40, 40, 1000, 40, 900, 40, 1000, 40].foldl
    (fun h bytes => ((alloc 1 h s.1 bytes).getD (0, h)).2) s.2

/-- Memory after `free(msp, S)`, `free(msp, A)` and `free(msp, B)`: `S` lies in small
bin 7, `A` is the root of tree bin 3 and `B` its child. -/
def binsMem : Mem :=
  [1049576, 1049688, 1050760].foldl
    (fun m p => ((free 2 m (largeSpace []).1 p).getD (false, m)).2) eightBlocks.mem

/-- The chunks of the space in `binsMem`. -/
def binsChunks : List Chunk :=
  [⟨1049560, 56, false⟩, ⟨1049616, 56, true⟩, ⟨1049672, 1016, false⟩, ⟨1050688, 56, true⟩,
    ⟨1050744, 920, false⟩, ⟨1051664, 56, true⟩, ⟨1051720, 1016, true⟩, ⟨1052736, 56, true⟩]

/-- Heights in the tree bins of `binsMem`: the root `A` above its child `B`. -/
def binsHeight (y : Nat) : Nat := if y = 1049672 then 1 else 0

/-! ## States for the splitting paths of `alloc` -/

/-- The heap of a fresh small space after `a = alloc(msp, 120)`, `alloc(msp, 64)` and
`free(msp, a)`: the chunk of `a` (136 bytes, at `0x1003d8`) lies in small bin 17. -/
def binHeap : Heap :=
  let s := smallSpace []
  let a := (alloc 1 s.2 s.1 120).getD (0, s.2)
  let b := (alloc 1 a.2 s.1 64).getD (0, a.2)
  { b.2 with mem := ((free 1 b.2.mem s.1 a.1).getD (false, b.2.mem)).2 }

/-- The pointer and the heap after `alloc(msp, 72)` in `binHeap`: the request is served
by splitting the chunk of small bin 17. -/
def splitBlock : Nat × Heap :=
  (alloc 1 binHeap (smallSpace []).1 72).getD (0, binHeap)

/-- The pointer and the heap after `alloc(msp, 24)` in the heap of `splitBlock`: the
request is served from `dv`. -/
def dvBlock : Nat × Heap :=
  (alloc 1 splitBlock.2 (smallSpace []).1 24).getD (0, splitBlock.2)

/-- The heap of a fresh large space after `A = alloc(msp, 1000)`, `alloc(msp, 40)`,
`x = alloc(msp, 120)`, `alloc(msp, 64)`, `free(msp, A)`, `free(msp, x)` and
`alloc(msp, 72)`: the chunk of `A` (1016 bytes, at `0x1003d8`) is the root of tree
bin 3 and `dv` holds 48 bytes. -/
def treeDvHeap : Heap :=
  let s := largeSpace []
  let a := (alloc 1 s.2 s.1 1000).getD (0, s.2)
  let g := (alloc 1 a.2 s.1 40).getD (0, a.2)
  let x := (alloc 1 g.2 s.1 120).getD (0, g.2)
  let y := (alloc 1 x.2 s.1 64).getD (0, x.2)
  let m1 := ((free 1 y.2.mem s.1 a.1).getD (false, y.2.mem)).2
  let m2 := ((free 1 m1 s.1 x.1).getD (false, m1)).2
  ((alloc 1 { y.2 with mem := m2 } s.1 72).getD (0, y.2)).2

/-- The pointer and the heap after `alloc(msp, 24)` in `treeDvHeap`: the request is
served by `treeAllocSmall`. -/
def treeSplitBlock : Nat × Heap :=
  (alloc 2 treeDvHeap (largeSpace []).1 24).getD (0, treeDvHeap)

/-! ## States for `allocAligned` and the tree bins -/

/-- The pointer and the heap after `allocAligned(msp, 4096, 100, 0)` in a fresh small
space. -/
def alignedBlock100 : Nat × Heap :=
  (allocAligned 2 (smallSpace []).2 (smallSpace []).1 4096 100 0).getD (0, (smallSpace []).2)

/-- The pointer and the heap after `allocAligned(msp, 4096, 24, 0)` in a fresh small
space. -/
def alignedBlock24 : Nat × Heap :=
  (allocAligned 2 (smallSpace []).2 (smallSpace []).1 4096 24 0).getD (0, (smallSpace []).2)

/-- The request `allocAligned` sends to `alloc` for `bytes`, `alignment` and `offset`
(`alignment` a power of two of at least 32). -/
def alignedRequest (alignment bytes offset : Nat) : Nat :=
  u64 (requestToSize bytes + alignment + offset + kMinChunkSize - kChunkOverhead)

/-- The pointer and the heap after the call of `alloc` inside
`allocAligned(msp, alignment, 100, offset)` in a fresh small space. -/
def innerBlock (alignment offset : Nat) : Nat × Heap :=
  (alloc 1 (smallSpace []).2 (smallSpace []).1 (alignedRequest alignment 100 offset)).getD
    (0, (smallSpace []).2)

/-- Memory of a fresh large space after `A = alloc(msp, 1000)`, `alloc(msp, 40)`,
`B = alloc(msp, 900)`, `alloc(msp, 40)`, `D = alloc(msp, 760)`, `alloc(msp, 40)` and
`free(msp, A)`, `free(msp, B)`, `free(msp, D)`: the three chunks (1016, 920 and 776
bytes) lie in tree bin 3. -/
def treeThree : Mem :=
  let s := largeSpace []
  let h := [1000, 40, 900, 40, 760, 40].foldl
    (fun h bytes => ((alloc 1 h s.1 bytes).getD (0, h)).2) s.2
  [1049576, 1050648, 1051624].foldl
    (fun m p => ((free 3 m s.1 p).getD (false, m)).2) h.mem

/-! ## The dispatch table -/

/-- C1, the code at the failing inputs: for every request size from 64 up to 255
`getInstIndexFromSize` answers 0 (the index computed in the inner scope is lost), or
-1 when space 0 has to be created and cannot be; the index `(size >> 4) + 4` of the
dispatch table, which is at least 8, is never returned. -/
theorem getInstIndexFromSize_mid_range (g : GeneralAllocator) (size : Nat)
    (h64 : 64 ≤ size) (h256 : size < 256) :
    ((g.getInstIndexFromSize size).1 = 0 ∨ (g.getInstIndexFromSize size).1 = -1) ∧
      (g.getInstIndexFromSize size).1 ≠ ((size >>> 4) + 4 : Nat) := by
  have hlt : ¬ size < 64 := by omega
  have hshift : 0 < (size >>> 4) + 4 := by omega
  unfold GeneralAllocator.getInstIndexFromSize
  simp only [hlt, h64, h256, if_false, if_true, and_self, ge_iff_le]
  by_cases hsp : g.mSpace 0 = 0
  · by_cases hcr : (createMemorySpace g.heap 65536 65536 65536 8192).1 = 0
    · simp [hsp, hcr]; omega
    · simp [hsp, hcr]; omega
  · simp [hsp]; omega

/-- Witness for C1: after `init()` a request of 128 bytes is sent to space 0, not 12. -/
theorem getInstIndexFromSize_mid_range_witness :
    (64 ≤ 128 ∧ 128 < 256) ∧
      (((readyAllocator []).getInstIndexFromSize 128).1 = 0 ∨
        ((readyAllocator []).getInstIndexFromSize 128).1 = -1) ∧
      ((readyAllocator []).getInstIndexFromSize 128).1 ≠ ((128 >>> 4) + 4 : Nat) :=
  ⟨by decide, getInstIndexFromSize_mid_range (readyAllocator []) 128 (by decide) (by decide)⟩

/-! ## Reported sizes -/

/-- C4, the code at the failing inputs: `getAllocSize` returns the chunk size as it
stands in `head` (flag bits masked off); the chunk overhead is not subtracted, so for
every chunk of at least `kMinChunkSize` bytes the answer differs from the usable size
`chunk size - kChunkOverhead`. -/
theorem getAllocSize_keeps_overhead (g : GeneralAllocator) (mem : Nat)
    (hsize : kMinChunkSize ≤ chunkSize g.heap.mem (memoryToChunk mem)) :
    g.getAllocSize mem = chunkSize g.heap.mem (memoryToChunk mem) ∧
      g.getAllocSize mem ≠ chunkSize g.heap.mem (memoryToChunk mem) - kChunkOverhead := by
  have h32 : kMinChunkSize = 32 := by decide
  have h16 : kChunkOverhead = 16 := by decide
  refine ⟨rfl, ?_⟩
  show chunkSize g.heap.mem (memoryToChunk mem) ≠ _
  omega

/-- Witness for C4: after `init()`, `allocate(40, 8, 0)` hands out a chunk of 56 bytes;
`getAllocSize` answers 56 where 40 bytes are usable. -/
theorem getAllocSize_keeps_overhead_witness :
    kMinChunkSize ≤ chunkSize afterAllocate40.2.heap.mem (memoryToChunk afterAllocate40.1) ∧
      (afterAllocate40.2.getAllocSize afterAllocate40.1 =
          chunkSize afterAllocate40.2.heap.mem (memoryToChunk afterAllocate40.1) ∧
        afterAllocate40.2.getAllocSize afterAllocate40.1 ≠
          chunkSize afterAllocate40.2.heap.mem (memoryToChunk afterAllocate40.1) - kChunkOverhead) :=
  ⟨by decide!, getAllocSize_keeps_overhead afterAllocate40.2 afterAllocate40.1 (by decide!)⟩

/-- C3, the code at a failing input: after `init()`, `allocate(9000001, 8, 0)` is served
by the direct reservation (the operating system answers `0x4000000`); the chunk that
is handed out records the size 9000000, so neither the chunk size minus the overhead
nor `getAllocSize` reaches the 9000001 bytes that were asked for. -/
theorem allocate_direct_records_short_size :
    (GeneralAllocator.allocate 1 (readyAllocator [67108864]) 9000001 8 0).map
        (fun r => (r.1, chunkSize r.2.heap.mem (memoryToChunk r.1), r.2.getAllocSize r.1))
      = some (67108880, 9000000, 9000000) ∧
    9000000 - kChunkOverhead < 9000001 ∧ 9000000 < 9000001 := by
  refine ⟨by decide!, by decide, by decide⟩

/-! ## Failure paths -/

/-- C5, the code at a failing input: after `init()`, `callocate(2^32, 2^32)` (the
product overflows `size_t`) turns the request into `kMaxRequest`, which `alloc` does
not reject: it goes on to the direct reservation and, the operating system having
refused, writes the chunk header through the null pointer (the `head` field at
address 8) and returns the address 16 instead of null. -/
theorem callocate_overflow_not_null :
    2 ^ 64 ≤ 2 ^ 32 * 2 ^ 32 ∧
    (readyAllocator []).heap.mem 8 = 0 ∧
    (GeneralAllocator.callocate 1 (readyAllocator []) (2 ^ 32) (2 ^ 32)).map
        (fun r => (r.1, r.2.heap.mem 8)) = some (16, kMaxRequest ||| 3) := by
  refine ⟨by decide, by decide!, by decide!⟩

/-- C6, the code at a failing input: in the space for large requests, freshly created,
`alloc(msp, 100000)` finds `top` too small; the operating system refuses the adjacent
and the direct reservation (it has no answer left).  `alloc` does not look at the
result of the direct reservation: it writes the chunk header through the null pointer
(`head` at address 8 becomes `100000 | 3`) and returns the address 16, not null. -/
theorem alloc_refused_reservation_not_null :
    (largeSpace []).2.os = [] ∧ (largeSpace []).2.mem 8 = 0 ∧
    (alloc 1 (largeSpace []).2 (largeSpace []).1 100000).map
        (fun r => (r.1, r.2.mem 8)) = some (16, 100003) := by
  refine ⟨by decide, by decide!, by decide!⟩

/-- The half of C6 the code does fulfil: when the space of the request is missing and
cannot be created, `allocate` returns null. -/
theorem allocate_null_of_no_space (fuel : Nat) (g : GeneralAllocator) (size alignment offset : Nat)
    (hfail : (g.getInstIndexFromSize size).1 = -1) :
    (g.allocate fuel size alignment offset).map Prod.fst = some 0 := by
  unfold GeneralAllocator.allocate
  cases hres : g.getInstIndexFromSize size with
  | mk index g1 =>
    rw [hres] at hfail
    simp only at hfail
    subst hfail
    simp

/-- C7, the code at a failing input: after `init()`, `p = allocate(24, 8, 0)` followed
by `deallocate(p)` leaves every space in place (`free` reports the empty space, the
report is dropped), so `getTotalAllocated()` is 21 * 65536 and not 0. -/
theorem deallocate_keeps_spaces :
    ((GeneralAllocator.allocate 1 (readyAllocator []) 24 8 0).bind
        (fun r => (GeneralAllocator.deallocate 1 r.2 r.1).map
          (fun g => (r.1, g.mSpace 3, g.getTotalAllocated)))) = some (4195304, 4194320, 1376256) ∧
    ((GeneralAllocator.allocate 1 (readyAllocator []) 24 8 0).bind
        (fun r => (free 1 r.2.heap.mem (r.2.mSpace 3) r.1).map Prod.fst)) = some true := by
  refine ⟨by decide!, by decide!⟩

/-- C10, the code at a failing input: after `init()`, `a = allocate(120)`,
`allocate(64)`, `deallocate(a)`, `p = allocate(72)`.  The last request is served by
splitting the chunk of `a`, taken from its small bin; the header of the remainder is
written over the header of the chunk itself, and the footer of `p` holds the size 48
of the remainder instead of the address of the space (`mSpace[0]`). -/
theorem alloc_small_split_footer :
    ((GeneralAllocator.allocate 1 (readyAllocator []) 120 8 0).bind fun a =>
      (GeneralAllocator.allocate 1 a.2 64 8 0).bind fun b =>
      (GeneralAllocator.deallocate 1 b.2 a.1).bind fun g =>
      (GeneralAllocator.allocate 1 g 72 8 0).map fun p =>
        (p.1, getMemorySpaceAddr p.2.heap.mem p.1, p.2.mSpace 0,
          getMemorySpaceAddr b.2.heap.mem b.1)) = some (1049576, 48, 1048592, 1048592) := by
  decide!

/-! ## Counterexamples -/

/-- C2 fails for an alignment of 8 and an offset of 4: in a freshly created space
`allocAligned(msp, 8, 100, 4)` returns `0x1003e8`, and `(p + 4) % 8 = 4`. -/
theorem allocAligned_offset_ignored :
    (allocAligned 1 (smallSpace []).2 (smallSpace []).1 8 100 4).map
        (fun r => (r.1, (r.1 + 4) % 8)) = some (1049576, 4) := by
  decide!

/-- C9 fails when the segment grows: in the space for large requests, after one
allocation of 256 bytes, `p = alloc(msp, 100000)` (below `segment_threshold`, served
after an adjacent reservation) followed by `free(msp, p)` puts `top` back where it
was but leaves `top_size` at 195352, where it was 64280 before the two calls. -/
theorem alloc_free_growth_changes_top_size :
    ((alloc 1 (largeSpace [1114112]).2 (largeSpace [1114112]).1 256).bind fun s =>
      (alloc 1 s.2 (largeSpace [1114112]).1 100000).bind fun p =>
      (free 1 p.2.mem (largeSpace [1114112]).1 p.1).map fun t =>
        (decide (100000 < s.2.mem ((largeSpace [1114112]).1 + oSegmentThreshold)), decide (p.1 ≠ 0),
          s.2.mem ((largeSpace [1114112]).1 + oTop), t.2 ((largeSpace [1114112]).1 + oTop),
          s.2.mem ((largeSpace [1114112]).1 + oTopSize), t.2 ((largeSpace [1114112]).1 + oTopSize)))
      = some (true, true, 1049832, 1049832, 64280, 195352) := by
  decide!

/-! ## Alignment of `allocAligned` -/

/-- A power of two has no bit in common with its predecessor. -/
theorem pow_two_and_pred (j : Nat) : 2 ^ j &&& (2 ^ j - 1) = 0 := by
  rw [Nat.and_pow_two_sub_one_eq_mod]; exact Nat.mod_self _

/-- Masking with `-2^j` (as a `size_t`) leaves a multiple of `2^j`. -/
theorem and_neg64_pow_two_mod (x j : Nat) (hj : j < 64) : (x &&& neg64 (2 ^ j)) % 2 ^ j = 0 := by
  have hlt : 2 ^ j < 2 ^ 64 := Nat.pow_lt_pow_right (by decide) hj
  have hneg : neg64 (2 ^ j) = 2 ^ 64 - 2 ^ j := by
    unfold neg64
    have hpos : 0 < 2 ^ j := Nat.two_pow_pos j
    rw [Nat.mod_eq_of_lt hlt, Nat.mod_eq_of_lt (Nat.sub_lt (by decide) hpos)]
  have hdvd : 2 ^ j ∣ 2 ^ 64 - 2 ^ j :=
    Nat.dvd_sub' (Nat.pow_dvd_pow 2 (by omega)) (dvd_refl _)
  rw [← Nat.and_pow_two_sub_one_eq_mod, Nat.and_assoc, Nat.and_pow_two_sub_one_eq_mod, hneg,
    Nat.mod_eq_zero_of_dvd hdvd, Nat.and_zero]

/-- Wrap-around at 64 bits is invisible modulo a divisor of `2^64`. -/
theorem u64_modEq (x A : Nat) (hA : A ∣ 2 ^ 64) : u64 x % A = x % A := by
  unfold u64; exact Nat.mod_mod_of_dvd _ hA

/-- Wrapping subtraction is undone by addition, modulo a divisor of `2^64`. -/
theorem sub64_add_modEq (a b A : Nat) (hA : A ∣ 2 ^ 64) : (sub64 a b + b) % A = a % A := by
  unfold sub64
  have h1 : b % 2 ^ 64 < 2 ^ 64 := Nat.mod_lt _ (by decide)
  have h2 : b = 2 ^ 64 * (b / 2 ^ 64) + b % 2 ^ 64 := (Nat.div_add_mod b (2 ^ 64)).symm
  have h3 : a = 2 ^ 64 * (a / 2 ^ 64) + a % 2 ^ 64 := (Nat.div_add_mod a (2 ^ 64)).symm
  obtain ⟨c, hc⟩ := hA
  have key : (a % 2 ^ 64 + (2 ^ 64 - b % 2 ^ 64)) % 2 ^ 64 + b ≡ a [MOD A] := by
    have e1 : (a % 2 ^ 64 + (2 ^ 64 - b % 2 ^ 64)) % 2 ^ 64 ≡ a % 2 ^ 64 + (2 ^ 64 - b % 2 ^ 64) [MOD A] :=
      Nat.mod_mod_of_dvd _ ⟨c, hc⟩
    have e2 : a % 2 ^ 64 + (2 ^ 64 - b % 2 ^ 64) + b = a % 2 ^ 64 + 2 ^ 64 * (b / 2 ^ 64 + 1) := by
      have : 2 ^ 64 * (b / 2 ^ 64 + 1) = 2 ^ 64 * (b / 2 ^ 64) + 2 ^ 64 := by ring
      omega
    have e3 : a % 2 ^ 64 ≡ a [MOD A] := Nat.mod_mod_of_dvd _ ⟨c, hc⟩
    calc (a % 2 ^ 64 + (2 ^ 64 - b % 2 ^ 64)) % 2 ^ 64 + b
        ≡ a % 2 ^ 64 + (2 ^ 64 - b % 2 ^ 64) + b [MOD A] := e1.add_right b
      _ = a % 2 ^ 64 + 2 ^ 64 * (b / 2 ^ 64 + 1) := e2
      _ ≡ a % 2 ^ 64 + 0 [MOD A] := by
          apply Nat.ModEq.add_left
          rw [Nat.modEq_zero_iff_dvd]
          exact Dvd.dvd.mul_right ⟨c, hc⟩ _
      _ ≡ a [MOD A] := by simpa using e3
  exact key

/-- The user pointer of the chunk at `x - o`, moved by `o`, is `x + 16` modulo a
divisor of `2^64`. -/
theorem chunkToMemory_sub64_modEq (x o A : Nat) (hA : A ∣ 2 ^ 64) :
    (chunkToMemory (sub64 x o) + o) % A = (x + 16) % A := by
  have h1 : chunkToMemory (sub64 x o) ≡ sub64 x o + 16 [MOD A] := u64_modEq _ A hA
  have h2 : sub64 x o + o ≡ x [MOD A] := sub64_add_modEq x o A hA
  have h3 : chunkToMemory (sub64 x o) + o ≡ sub64 x o + 16 + o [MOD A] := h1.add_right o
  have h4 : sub64 x o + 16 + o = sub64 x o + o + 16 := by omega
  rw [h4] at h3
  exact h3.trans (h2.add_right 16)

/-- The chunk of a user pointer lies 16 bytes below it. -/
theorem memoryToChunk_add_modEq (x A : Nat) (hA : A ∣ 2 ^ 64) :
    (memoryToChunk x + 16) % A = x % A :=
  sub64_add_modEq x 16 A hA

/-- The chunk `alignChunk` selects has a user pointer `p` with `(p + o) % 2^j = 0`,
whatever pointer `alloc` has returned. -/
theorem alignChunk_aligned (m : Mem) (msp j o mem : Nat) (hj : j < 64) :
    (chunkToMemory (alignChunk m msp (2 ^ j) o mem).2.1 + o) % 2 ^ j = 0 := by
  have hA : 2 ^ j ∣ 2 ^ 64 := Nat.pow_dvd_pow 2 (by omega)
  have hR := and_neg64_pow_two_mod (u64 (u64 (mem + o) + 2 ^ j - 1)) j hj
  have hspot := memoryToChunk_add_modEq (u64 (u64 (mem + o) + 2 ^ j - 1) &&& neg64 (2 ^ j)) _ hA
  rw [hR] at hspot
  unfold alignChunk
  by_cases hmis : u64 (mem + o) % 2 ^ j ≠ 0
  · rw [if_pos hmis]
    dsimp only
    split
    · rw [chunkToMemory_sub64_modEq _ _ _ hA]; exact hspot
    · rw [chunkToMemory_sub64_modEq _ _ _ hA]
      have h1 : u64 (memoryToChunk (u64 (u64 (mem + o) + 2 ^ j - 1) &&& neg64 (2 ^ j)) + 2 ^ j) + 16
          ≡ memoryToChunk (u64 (u64 (mem + o) + 2 ^ j - 1) &&& neg64 (2 ^ j)) + 2 ^ j + 16 [MOD 2 ^ j] :=
        Nat.ModEq.add_right 16 (u64_modEq _ _ hA)
      rw [h1]
      have h2 : memoryToChunk (u64 (u64 (mem + o) + 2 ^ j - 1) &&& neg64 (2 ^ j)) + 2 ^ j + 16
          = memoryToChunk (u64 (u64 (mem + o) + 2 ^ j - 1) &&& neg64 (2 ^ j)) + 16 + 2 ^ j := by omega
      rw [h2, Nat.add_mod_right]; exact hspot
  · rw [if_neg hmis]
    dsimp only
    have hz : u64 (mem + o) % 2 ^ j = 0 := by simpa using hmis
    have h1 : chunkToMemory (memoryToChunk mem) + o ≡ memoryToChunk mem + 16 + o [MOD 2 ^ j] :=
      Nat.ModEq.add_right o (u64_modEq _ _ hA)
    have h2 : memoryToChunk mem + 16 + o ≡ mem + o [MOD 2 ^ j] :=
      Nat.ModEq.add_right o (memoryToChunk_add_modEq mem _ hA)
    have h3 : mem + o ≡ u64 (mem + o) [MOD 2 ^ j] := (u64_modEq _ _ hA).symm
    have h4 : (chunkToMemory (memoryToChunk mem) + o) % 2 ^ j = u64 (mem + o) % 2 ^ j :=
      h1.trans (h2.trans h3)
    rw [h4, hz]

/-- For a power of two above 8, `allocAligned` works with that alignment, raised to
`kMinChunkSize` = 32 when it is 16. -/
theorem adjustAlignment_pow_two (fuel k : Nat) (hk : 3 < k) :
    adjustAlignment fuel (2 ^ k) = some (2 ^ max k 5) := by
  unfold adjustAlignment
  have h32 : kMinChunkSize = 2 ^ 5 := by decide
  by_cases hlt : k < 5
  · have hk4 : k = 4 := by omega
    subst hk4
    have h1 : (2 : Nat) ^ 4 < 2 ^ 5 := by decide
    have h2 : (2 : Nat) ^ 5 &&& (2 ^ 5 - 1) = 0 := by decide
    simp only [h32, h1, if_true, h2, ne_eq, not_true_eq_false, if_false]
    rfl
  · have hge : 2 ^ 5 ≤ 2 ^ k := Nat.pow_le_pow_right (by decide) (by omega)
    have hmax : max k 5 = k := by omega
    have hnot : ¬ 2 ^ k < kMinChunkSize := by rw [h32]; omega
    simp only [hnot, if_false, pow_two_and_pred, ne_eq, not_true_eq_false, hmax]

/-- C2 as amended: for every size, every offset `o` and every power-of-two alignment
`a = 2^k` above 8 (`kDefaultAlignment`), a non-null pointer `p` returned by
`allocAligned` satisfies `(p + o) % a = 0`; for an alignment of at most 8
`allocAligned` is `alloc(msp, bytes)` and the offset plays no part. -/
theorem allocAligned_offset_alignment (fuel : Nat) (h : Heap) (msp k size o p : Nat)
    (hk : 3 < k) (hk64 : k < 64)
    (hres : (allocAligned fuel h msp (2 ^ k) size o).map Prod.fst = some p) (hp : p ≠ 0) :
    (p + o) % 2 ^ k = 0 ∧
      ∀ a, a ≤ kDefaultAlignment → allocAligned fuel h msp a size o = alloc fuel h msp size := by
  refine ⟨?_, fun a ha => by unfold allocAligned; rw [if_pos ha]⟩
  have hj64 : max k 5 < 64 := by omega
  have hnot : ¬ 2 ^ k ≤ kDefaultAlignment := by
    have h16 : 2 ^ 4 ≤ 2 ^ k := Nat.pow_le_pow_right (by decide) (by omega)
    have h8 : kDefaultAlignment = 8 := rfl
    omega
  have hdvd : 2 ^ k ∣ 2 ^ max k 5 := Nat.pow_dvd_pow 2 (by omega)
  suffices hmain : (p + o) % 2 ^ max k 5 = 0 from
    Nat.mod_eq_zero_of_dvd (dvd_trans hdvd (Nat.dvd_of_mod_eq_zero hmain))
  unfold allocAligned at hres
  rw [if_neg hnot, adjustAlignment_pow_two fuel k hk] at hres
  dsimp only at hres
  split at hres
  · simp only [Option.map_some', Option.some.injEq] at hres; exact absurd hres.symm hp
  · split at hres
    · simp at hres
    · rename_i mem h1 _
      split at hres
      · have hptr := alignChunk_aligned h1.mem msp (max k 5) o mem hj64
        split at hres
        · split at hres
          · simp at hres
          · simp only [Option.map_some', Option.some.injEq] at hres
            rw [← hres]; exact hptr
        · simp only [Option.map_some', Option.some.injEq] at hres
          rw [← hres]; exact hptr
      · simp only [Option.map_some', Option.some.injEq] at hres; exact absurd hres.symm hp

/-- Witness for C2 as amended: alignment 64 and offset 8 in a freshly created space. -/
theorem allocAligned_offset_alignment_witness :
    (3 < 6 ∧ 6 < 64 ∧
      (allocAligned 1 (smallSpace []).2 (smallSpace []).1 (2 ^ 6) 100 8).map Prod.fst = some 1049656 ∧
      1049656 ≠ 0) ∧
    ((1049656 + 8) % 2 ^ 6 = 0 ∧
      ∀ a, a ≤ kDefaultAlignment →
        allocAligned 1 (smallSpace []).2 (smallSpace []).1 a 100 8 =
          alloc 1 (smallSpace []).2 (smallSpace []).1 100) :=
  ⟨⟨by decide, by decide, by decide!, by decide⟩,
    allocAligned_offset_alignment 1 (smallSpace []).2 (smallSpace []).1 6 100 8 1049656
      (by decide) (by decide) (by decide!) (by decide)⟩

/-! ## Bit arithmetic of head words, runs of chunks -/

theorem or_split (x f k : Nat) (hf : f < 2 ^ k) :
    x ||| f = 2 ^ k * (x / 2 ^ k) + ((x % 2 ^ k) ||| f) := by
  have hx : x % 2 ^ k < 2 ^ k := Nat.mod_lt _ (Nat.two_pow_pos k)
  have hor : (x % 2 ^ k) ||| f < 2 ^ k := Nat.or_lt_two_pow hx hf
  conv_lhs => rw [← Nat.div_add_mod x (2 ^ k)]
  rw [Nat.mul_add_lt_is_or hx, Nat.mul_add_lt_is_or hor, Nat.or_assoc]

theorem and_split (x f k : Nat) (hf : f < 2 ^ k) : x &&& f = (x % 2 ^ k) &&& f := by
  have h1 : f = f &&& (2 ^ k - 1) := by
    rw [Nat.and_pow_two_sub_one_eq_mod, Nat.mod_eq_of_lt hf]
  conv_lhs => rw [h1]
  rw [Nat.and_comm f, ← Nat.and_assoc, Nat.and_pow_two_sub_one_eq_mod]

theorem testBit_div_pow (x k j : Nat) : (x / 2 ^ k).testBit j = x.testBit (k + j) := by
  rw [← Nat.shiftRight_eq_div_pow, Nat.testBit_shiftRight]

theorem and_high_mask (x k : Nat) (hx : x < 2 ^ 64) (hk : k ≤ 64) :
    x &&& (2 ^ 64 - 2 ^ k) = x - x % 2 ^ k := by
  apply Nat.eq_of_testBit_eq
  intro i
  have hpos : 0 < 2 ^ k := Nat.two_pow_pos k
  have hmask : 2 ^ 64 - 2 ^ k = 2 ^ 64 - ((2 ^ k - 1) + 1) := by omega
  have hlt : 2 ^ k - 1 < 2 ^ 64 := by
    have : 2 ^ k ≤ 2 ^ 64 := Nat.pow_le_pow_right (by decide) hk
    omega
  have hsub : x - x % 2 ^ k = 2 ^ k * (x / 2 ^ k) := by
    have := Nat.div_add_mod x (2 ^ k); omega
  rw [Nat.testBit_and, hmask, Nat.testBit_two_pow_sub_succ hlt, Nat.testBit_two_pow_sub_one, hsub,
    Nat.testBit_mul_pow_two]
  by_cases hik : k ≤ i
  · by_cases hi64 : i < 64
    · simp [hik, hi64, Nat.not_lt.mpr hik, testBit_div_pow, Nat.add_sub_cancel' hik]
    · have hxi : x.testBit i = false :=
        Nat.testBit_lt_two_pow (Nat.lt_of_lt_of_le hx (Nat.pow_le_pow_right (by decide) (by omega)))
      have hxi2 : (x / 2 ^ k).testBit (i - k) = false := by
        rw [testBit_div_pow, Nat.add_sub_cancel' hik]; exact hxi
      simp [hxi, hxi2]
  · have : i < k := by omega
    simp [this, hik]

theorem head_and_three (s f : Nat) (hs : s % 8 = 0) (hf : f < 4) : (s + f) &&& 3 = f := by
  have h3 : (3 : Nat) = 2 ^ 2 - 1 := by decide
  rw [h3, Nat.and_pow_two_sub_one_eq_mod]; omega

theorem head_and_one (s f : Nat) (hs : s % 8 = 0) : (s + f) &&& 1 = f % 2 := by
  rw [Nat.and_one_is_mod]; omega

theorem head_and_two (s f : Nat) (hs : s % 8 = 0) (hf : f < 4) : (s + f) &&& 2 = 2 * (f / 2) := by
  rw [and_split (s + f) 2 2 (by decide)]
  have h4 : (s + f) % 2 ^ 2 = f := by omega
  rw [h4]
  interval_cases f <;> decide

theorem head_and_not_three (s f : Nat) (hs : s % 8 = 0) (hf : f < 4) (hlt : s + f < 2 ^ 64) :
    (s + f) &&& not64 3 = s := by
  have hm : not64 3 = 2 ^ 64 - 2 ^ 2 := by decide
  rw [hm, and_high_mask _ 2 hlt (by decide)]; omega

theorem head_and_not_one (s f : Nat) (hs : s % 8 = 0) (hf : f < 4) (hlt : s + f < 2 ^ 64) :
    (s + f) &&& not64 1 = s + 2 * (f / 2) := by
  have hm : not64 1 = 2 ^ 64 - 2 ^ 1 := by decide
  rw [hm, and_high_mask _ 1 hlt (by decide)]; omega

theorem head_or_one (s f : Nat) (hs : s % 8 = 0) (hf : f < 4) :
    (s + f) ||| 1 = s + 2 * (f / 2) + 1 := by
  rw [or_split (s + f) 1 2 (by decide)]
  have h4 : (s + f) % 2 ^ 2 = f := by omega
  have h5 : 2 ^ 2 * ((s + f) / 2 ^ 2) = s := by omega
  rw [h4, h5]
  interval_cases f <;> simp

theorem head_or_two (s f : Nat) (hs : s % 8 = 0) (hf : f < 4) :
    (s + f) ||| 2 = s + f % 2 + 2 := by
  rw [or_split (s + f) 2 2 (by decide)]
  have h4 : (s + f) % 2 ^ 2 = f := by omega
  have h5 : 2 ^ 2 * ((s + f) / 2 ^ 2) = s := by omega
  rw [h4, h5]
  interval_cases f <;> simp

theorem flag_or_size (s f : Nat) (hs : s % 8 = 0) (hf : f < 4) : f ||| s = s + f := by
  rw [Nat.lor_comm, or_split s f 2 hf]
  have h4 : s % 2 ^ 2 = 0 := by omega
  have h5 : 2 ^ 2 * (s / 2 ^ 2) = s := by omega
  rw [h4, h5, Nat.zero_or]

theorem pinBit_lt (b : Bool) : pinBit b < 2 := by cases b <;> decide

theorem cinBit_cases (b : Bool) : cinBit b = 0 ∨ cinBit b = 2 := by cases b <;> simp [cinBit, kCinuseBit]

theorem pinBit_cases (b : Bool) : pinBit b = 0 ∨ pinBit b = 1 := by cases b <;> simp [pinBit, kPinuseBit]

theorem head_eq (s : Nat) (p c : Bool) (hs : s % 8 = 0) :
    (s ||| pinBit p) ||| cinBit c = s + pinBit p + cinBit c := by
  cases p <;> cases c <;> simp only [pinBit, cinBit, kPinuseBit, kCinuseBit, if_true, if_false,
    Nat.or_zero, Nat.add_zero, Bool.false_eq_true]
  · have := head_or_two s 0 hs (by decide); simpa using this
  · have := head_or_one s 0 hs (by decide); simpa using this
  · have h1 := head_or_one s 0 hs (by decide)
    have h2 := head_or_two s 1 hs (by decide)
    simp only [Nat.add_zero] at h1
    rw [h1]; simpa using h2

theorem Mem.write_same (m : Mem) (a v : Nat) : (m.write a v) a = v := by
  simp [Mem.write]

theorem Mem.write_ne (m : Mem) (a v x : Nat) (h : x ≠ a) : (m.write a v) x = m x := by
  simp [Mem.write, h]

theorem segOK_cons (m : Mem) (pin : Bool) (a : Nat) (c : Chunk) (cs : List Chunk) :
    SegOK m pin a (c :: cs) ↔
      (c.addr = a ∧ kMinChunkSize ≤ c.size ∧ c.size % 8 = 0 ∧
        m (a + oHead) = (c.size ||| pinBit pin) ||| cinBit c.inuse ∧
        (c.inuse = false → m (a + c.size + oPrevFoot) = c.size) ∧
        SegOK m c.inuse (a + c.size) cs) := by
  simp [SegOK]

theorem endAddr_append (a : Nat) (l r : List Chunk) :
    endAddr a (l ++ r) = endAddr (endAddr a l) r := by
  induction l generalizing a with
  | nil => rfl
  | cons c l ih => simp [endAddr, ih]

theorem lastInuse_append (pin : Bool) (l r : List Chunk) :
    lastInuse pin (l ++ r) = lastInuse (lastInuse pin l) r := by
  induction l generalizing pin with
  | nil => rfl
  | cons c l ih => simp [lastInuse, ih]

theorem segOK_append (m : Mem) (pin : Bool) (a : Nat) (l r : List Chunk) :
    SegOK m pin a (l ++ r) ↔ SegOK m pin a l ∧ SegOK m (lastInuse pin l) (endAddr a l) r := by
  induction l generalizing pin a with
  | nil => simp [SegOK, lastInuse, endAddr]
  | cons c l ih =>
    simp only [List.cons_append, segOK_cons, ih, lastInuse, endAddr]
    tauto

theorem adjOK_cons (pin : Bool) (c : Chunk) (cs : List Chunk) :
    AdjOK pin (c :: cs) ↔ (pin = true ∨ c.inuse = true) ∧ AdjOK c.inuse cs := Iff.rfl

theorem adjOK_append (pin : Bool) (l r : List Chunk) :
    AdjOK pin (l ++ r) ↔ AdjOK pin l ∧ AdjOK (lastInuse pin l) r := by
  induction l generalizing pin with
  | nil => simp [AdjOK, lastInuse]
  | cons c l ih =>
    rw [List.cons_append, adjOK_cons, adjOK_cons, ih]
    simp only [lastInuse]
    tauto

theorem endAddr_le (a : Nat) (cs : List Chunk) : a ≤ endAddr a cs := by
  induction cs generalizing a with
  | nil => exact Nat.le_refl _
  | cons c cs ih => exact Nat.le_trans (Nat.le_add_right _ _) (ih _)

/-- Every chunk of a run lies inside the run and has a proper size. -/
theorem segOK_mem_bounds (m : Mem) (pin : Bool) (a : Nat) (cs : List Chunk) (h : SegOK m pin a cs)
    (c : Chunk) (hc : c ∈ cs) :
    a ≤ c.addr ∧ c.addr + c.size ≤ endAddr a cs ∧ 32 ≤ c.size ∧ c.size % 8 = 0 := by
  induction cs generalizing pin a with
  | nil => cases hc
  | cons d cs ih =>
    rw [segOK_cons] at h
    obtain ⟨h1, h2, h3, _, _, h6⟩ := h
    have h32 : kMinChunkSize = 32 := by decide
    rcases List.mem_cons.mp hc with rfl | hc
    · refine ⟨by omega, ?_, by omega, h3⟩
      simp only [endAddr]
      have := endAddr_le (a + c.size) cs
      omega
    · obtain ⟨i1, i2, i3, i4⟩ := ih _ _ h6 hc
      simp only [endAddr]
      exact ⟨by omega, i2, i3, i4⟩

/-- Two chunks of a run are the same chunk or do not overlap. -/
theorem segOK_mem_disjoint (m : Mem) (pin : Bool) (a : Nat) (cs : List Chunk) (h : SegOK m pin a cs)
    (c d : Chunk) (hc : c ∈ cs) (hd : d ∈ cs) :
    c = d ∨ c.addr + c.size ≤ d.addr ∨ d.addr + d.size ≤ c.addr := by
  induction cs generalizing pin a with
  | nil => cases hc
  | cons e cs ih =>
    have hall := h
    rw [segOK_cons] at h
    obtain ⟨h1, h2, h3, _, _, h6⟩ := h
    rcases List.mem_cons.mp hc with hc1 | hc1 <;> rcases List.mem_cons.mp hd with hd1 | hd1
    · exact Or.inl (hc1.trans hd1.symm)
    · have := segOK_mem_bounds m _ _ cs h6 d hd1
      subst hc1
      right; left; omega
    · have := segOK_mem_bounds m _ _ cs h6 c hc1
      subst hd1
      right; right; omega
    · exact ih _ _ h6 hc1 hd1

/-- The head and the footer of a chunk of a run. -/
theorem segOK_mem_head (m : Mem) (pin : Bool) (a : Nat) (cs : List Chunk) (h : SegOK m pin a cs)
    (c : Chunk) (hc : c ∈ cs) :
    (∃ p, m (c.addr + oHead) = c.size + pinBit p + cinBit c.inuse) ∧
      (c.inuse = false → m (c.addr + c.size) = c.size) := by
  induction cs generalizing pin a with
  | nil => cases hc
  | cons d cs ih =>
    rw [segOK_cons] at h
    obtain ⟨h1, h2, h3, h4, h5, h6⟩ := h
    rcases List.mem_cons.mp hc with rfl | hc
    · subst h1
      rw [head_eq _ _ _ h3] at h4
      exact ⟨⟨pin, h4⟩, fun hf => by simpa [oPrevFoot] using h5 hf⟩
    · exact ih _ _ h6 hc

/-- A run keeps its boundary tags when the heads and the footers are not written. -/
theorem segOK_frame (m m2 : Mem) (pin : Bool) (a : Nat) (cs : List Chunk) (h : SegOK m pin a cs)
    (hframe : ∀ c ∈ cs, m2 (c.addr + oHead) = m (c.addr + oHead) ∧
      (c.inuse = false → m2 (c.addr + c.size) = m (c.addr + c.size))) :
    SegOK m2 pin a cs := by
  induction cs generalizing pin a with
  | nil => trivial
  | cons d cs ih =>
    rw [segOK_cons] at h ⊢
    obtain ⟨h1, h2, h3, h4, h5, h6⟩ := h
    have hd := hframe d (List.mem_cons_self _ _)
    subst h1
    refine ⟨rfl, h2, h3, by rw [hd.1]; exact h4, fun hf => ?_, ih _ _ h6 fun c hc => hframe c (List.mem_cons_of_mem _ hc)⟩
    have := hd.2 hf
    simp only [oPrevFoot, Nat.add_zero] at h5 ⊢
    rw [this]; exact h5 hf

/-! ## Cells of the bins and the interior of free chunks -/

theorem smallBinAt_eq (msp i : Nat) (hi : i < kNumSmallBins) :
    smallBinAt msp i = msp + 40 + 16 * i := by
  have h32 : kNumSmallBins = 32 := rfl
  unfold smallBinAt u32 oSmallBins
  rw [Nat.shiftLeft_eq, Nat.mod_eq_of_lt (by omega)]
  omega

theorem Geometry.bounds {msp start : Nat} {cs : List Chunk} (g : Geometry msp start cs)
    (c : Chunk) (hc : c ∈ cs) :
    msp + 968 ≤ c.addr ∧ c.addr + c.size ≤ endAddr start cs ∧ 32 ≤ c.size ∧ c.size % 8 = 0 := by
  obtain ⟨m, pin, hseg⟩ := g.seg
  have := segOK_mem_bounds m pin start cs hseg c hc
  have hb := g.below
  have : kSizeofMemorySpace = 968 := rfl
  omega

theorem Geometry.disjoint {msp start : Nat} {cs : List Chunk} (g : Geometry msp start cs)
    (c d : Chunk) (hc : c ∈ cs) (hd : d ∈ cs) :
    c = d ∨ c.addr + c.size ≤ d.addr ∨ d.addr + d.size ≤ c.addr := by
  obtain ⟨m, pin, hseg⟩ := g.seg
  exact segOK_mem_disjoint m pin start cs hseg c d hc hd

/-- A small-bin member is a bin head inside the record or a free small chunk. -/
theorem SmallObj.small_cases {msp dv : Nat} {cs : List Chunk} {x : Nat} (h : SmallObj msp dv cs x) :
    (msp + 40 ≤ x ∧ x + 24 < msp + 568 ∧ ∃ i, i < kNumSmallBins ∧ x = smallBinAt msp i) ∨
      (∃ c ∈ cs, c.addr = x ∧ c.inuse = false ∧ c.size < 256 ∧ x ≠ dv) := by
  rcases h with ⟨i, hi, rfl⟩ | ⟨c, hc, h1, h2, h3, h4⟩
  · left
    have h32 : kNumSmallBins = 32 := rfl
    have he := smallBinAt_eq msp i hi
    refine ⟨by omega, by omega, i, hi, rfl⟩
  · right
    exact ⟨c, hc, h1, h2, h3, h4⟩

theorem LargeObj.large_cases {dv : Nat} {cs : List Chunk} {x : Nat} (h : LargeObj dv cs x) :
    ∃ c ∈ cs, c.addr = x ∧ c.inuse = false ∧ 256 ≤ c.size ∧ x ≠ dv := h

theorem smallCell_interior {msp start dv : Nat} {cs : List Chunk} (g : Geometry msp start cs)
    {a : Nat} (h : SmallCell msp dv cs a) : Interior msp cs a := by
  rcases h with rfl | ⟨x, hx, ha⟩
  · right; right; left; rfl
  · rcases hx.small_cases with ⟨h1, h2, _⟩ | ⟨c, hc, h1, h2, h3, _⟩
    · right; left
      simp only [oFd, oBk, oSmallBins, oLeastAddr] at ha ⊢
      omega
    · left
      have := g.bounds c hc
      refine ⟨c, hc, h2, ?_⟩
      simp only [oFd, oBk] at ha ⊢
      omega

theorem largeCell_interior {msp start dv : Nat} {cs : List Chunk} (g : Geometry msp start cs)
    {a : Nat} (h : LargeCell msp dv cs a) : Interior msp cs a := by
  rcases h with rfl | ⟨i, hi, rfl⟩ | ⟨x, hx, ha⟩
  · right; right; right; rfl
  · right; left
    have h32 : kNumTreeBins = 32 := rfl
    simp only [treeBinAt, oTreeBins, oSmallBins, oLeastAddr]
    omega
  · obtain ⟨c, hc, h1, h2, h3, _⟩ := hx.large_cases
    left
    have := g.bounds c hc
    refine ⟨c, hc, h2, ?_⟩
    simp only [oFd, oBk, oChild, oParent, oIndex] at ha ⊢
    omega

theorem smallCell_not_largeCell {msp start dv : Nat} {cs : List Chunk} (g : Geometry msp start cs)
    {a : Nat} (hs : SmallCell msp dv cs a) : ¬ LargeCell msp dv cs a := by
  intro hl
  have h32 : kNumTreeBins = 32 := rfl
  rcases hs with rfl | ⟨x, hx, ha⟩
  · rcases hl with h | ⟨i, hi, h⟩ | ⟨y, hy, h⟩
    · simp only [oSmallMap, oTreeMap] at h; omega
    · simp only [oSmallMap, treeBinAt, oTreeBins] at h; omega
    · obtain ⟨c, hc, h1, _⟩ := hy.large_cases
      have := g.bounds c hc
      simp only [oSmallMap, oFd, oBk, oChild, oParent, oIndex] at h
      omega
  · rcases hx.small_cases with ⟨h1, h2, _⟩ | ⟨c, hc, h1, h2, h3, _⟩
    · rcases hl with h | ⟨i, hi, h⟩ | ⟨y, hy, h⟩
      · simp only [oTreeMap, oFd, oBk] at h ha; omega
      · simp only [treeBinAt, oTreeBins, oFd, oBk] at h ha; omega
      · obtain ⟨d, hd, h4, _⟩ := hy.large_cases
        have := g.bounds d hd
        simp only [oFd, oBk, oChild, oParent, oIndex] at h ha
        omega
    · have hcb := g.bounds c hc
      rcases hl with h | ⟨i, hi, h⟩ | ⟨y, hy, h⟩
      · simp only [oTreeMap, oFd, oBk] at h ha; omega
      · simp only [treeBinAt, oTreeBins, oFd, oBk] at h ha; omega
      · obtain ⟨d, hd, h4, h5, h6, _⟩ := hy.large_cases
        have hdb := g.bounds d hd
        rcases g.disjoint c d hc hd with heq | hlt | hlt
        · subst heq; omega
        · simp only [oFd, oBk, oChild, oParent, oIndex] at h ha; omega
        · simp only [oFd, oBk, oChild, oParent, oIndex] at h ha; omega

/-- No boundary tag lies in the interior: not the head of a chunk. -/
theorem not_interior_head {msp start : Nat} {cs : List Chunk} (g : Geometry msp start cs)
    (c : Chunk) (hc : c ∈ cs) : ¬ Interior msp cs (c.addr + oHead) := by
  have hcb := g.bounds c hc
  rintro (⟨d, hd, _, h1, h2⟩ | h | h | h)
  · have hdb := g.bounds d hd
    simp only [oFd, oHead] at h1 h2
    rcases g.disjoint c d hc hd with heq | hlt | hlt
    · subst heq; omega
    · omega
    · omega
  · simp only [oSmallBins, oLeastAddr, oHead] at h; omega
  · simp only [oSmallMap, oHead] at h; omega
  · simp only [oTreeMap, oHead] at h; omega

/-- No boundary tag lies in the interior: not the start of a chunk (where the footer
of the chunk before it is stored). -/
theorem not_interior_start {msp start : Nat} {cs : List Chunk} (g : Geometry msp start cs)
    (c : Chunk) (hc : c ∈ cs) : ¬ Interior msp cs c.addr := by
  have hcb := g.bounds c hc
  rintro (⟨d, hd, _, h1, h2⟩ | h | h | h)
  · have hdb := g.bounds d hd
    simp only [oFd] at h1 h2
    rcases g.disjoint c d hc hd with heq | hlt | hlt
    · subst heq; omega
    · omega
    · omega
  · simp only [oSmallBins, oLeastAddr] at h; omega
  · simp only [oSmallMap] at h; omega
  · simp only [oTreeMap] at h; omega

/-- No boundary tag lies in the interior: not what lies at or above the end of the
chunks (`top`). -/
theorem not_interior_end {msp start : Nat} {cs : List Chunk} (g : Geometry msp start cs)
    (a : Nat) (ha : endAddr start cs ≤ a) : ¬ Interior msp cs a := by
  have hle := endAddr_le start cs
  have hb := g.below
  have h968 : kSizeofMemorySpace = 968 := rfl
  rintro (⟨d, hd, _, h1, h2⟩ | h | h | h)
  · have hdb := g.bounds d hd
    omega
  · simp only [oSmallBins, oLeastAddr] at h; omega
  · simp only [oSmallMap] at h; omega
  · simp only [oTreeMap] at h; omega

/-- No boundary tag lies in the interior: not the fields `dv`, `top`, `dv_size`,
`top_size` of the record, the fields from `least_addr` on, or what lies below the
record. -/
theorem not_interior_field {msp start : Nat} {cs : List Chunk} (g : Geometry msp start cs)
    (a : Nat) (ha : a < msp ∨ (msp + oDv ≤ a ∧ a < msp + oSmallBins) ∨
      (msp + oLeastAddr ≤ a ∧ a < msp + kSizeofMemorySpace)) : ¬ Interior msp cs a := by
  have hb := g.below
  have h968 : kSizeofMemorySpace = 968 := rfl
  simp only [oDv, oSmallBins, oLeastAddr] at ha
  rintro (⟨d, hd, _, h1, h2⟩ | h | h | h)
  · have hdb := g.bounds d hd
    omega
  · simp only [oSmallBins, oLeastAddr] at h; omega
  · simp only [oSmallMap] at h; omega
  · simp only [oTreeMap] at h; omega

theorem SmallObj.small_ge {msp start dv : Nat} {cs : List Chunk} (g : Geometry msp start cs) {x : Nat}
    (h : SmallObj msp dv cs x) : msp + 40 ≤ x := by
  rcases h.small_cases with ⟨h1, _⟩ | ⟨c, hc, h1, _⟩
  · exact h1
  · have := g.bounds c hc; omega

/-- The cells of two tree-bin members coincide only for the same member. -/
theorem LargeObj.cell_inj {msp start dv : Nat} {cs : List Chunk} (g : Geometry msp start cs)
    {x y : Nat} (hx : LargeObj dv cs x) (hy : LargeObj dv cs y) (j k : Nat) (hj : j < 64)
    (hk : k < 64) (h : x + j = y + k) : x = y := by
  obtain ⟨c, hc, h1, _, h3, _⟩ := hx.large_cases
  obtain ⟨d, hd, h4, _, h6, _⟩ := hy.large_cases
  rcases g.disjoint c d hc hd with heq | hlt | hlt
  · subst heq; omega
  · omega
  · omega

theorem LargeObj.large_ge {msp start dv : Nat} {cs : List Chunk} (g : Geometry msp start cs) {x : Nat}
    (h : LargeObj dv cs x) : msp + 968 ≤ x := by
  obtain ⟨c, hc, h1, _⟩ := h.large_cases
  have := g.bounds c hc; omega

/-! ## Small-bin operations -/

theorem smallCell_fd {msp dv : Nat} {cs : List Chunk} {x : Nat} (h : SmallObj msp dv cs x) :
    SmallCell msp dv cs (x + oFd) := Or.inr ⟨x, h, Or.inl rfl⟩

theorem smallCell_bk {msp dv : Nat} {cs : List Chunk} {x : Nat} (h : SmallObj msp dv cs x) :
    SmallCell msp dv cs (x + oBk) := Or.inr ⟨x, h, Or.inr rfl⟩

theorem smallCell_map (msp dv : Nat) (cs : List Chunk) : SmallCell msp dv cs (msp + oSmallMap) :=
  Or.inl rfl

/-- `SmallClosed` looks at the links of small-bin members only. -/
theorem smallClosed_congr {m m2 : Mem} {msp start dv : Nat} {cs : List Chunk}
    (g : Geometry msp start cs) (h : SmallClosed m msp dv cs)
    (heq : ∀ a, SmallCell msp dv cs a → a ≠ msp + oSmallMap → m2 a = m a) :
    SmallClosed m2 msp dv cs := by
  intro x hx
  have hge := hx.small_ge g
  have h1 := heq _ (smallCell_fd hx) (by simp only [oFd, oSmallMap]; omega)
  have h2 := heq _ (smallCell_bk hx) (by simp only [oBk, oSmallMap]; omega)
  rw [h1, h2]
  exact h x hx

theorem unlinkSmallChunk_spec {m : Mem} {msp start dv : Nat} {cs : List Chunk}
    (g : Geometry msp start cs) (hcl : SmallClosed m msp dv cs) {x : Nat}
    (hx : SmallObj msp dv cs x) (size : Nat) :
    (∀ a, ¬ SmallCell msp dv cs a → unlinkSmallChunk m msp x size a = m a) ∧
      SmallClosed (unlinkSmallChunk m msp x size) msp dv cs := by
  obtain ⟨hf, hb⟩ := hcl x hx
  have hmap : ∀ a, a ≠ msp + oSmallMap →
      (if m (x + oFd) = m (x + oBk) then clearSmallMap m msp (getSmallBinIndex size) else m) a = m a := by
    intro a ha
    split
    · exact Mem.write_ne _ _ _ _ ha
    · rfl
  constructor
  · intro a ha
    have h1 : a ≠ m (x + oBk) + oFd := fun h => ha (h ▸ smallCell_fd hb)
    have h2 : a ≠ m (x + oFd) + oBk := fun h => ha (h ▸ smallCell_bk hf)
    have h3 : a ≠ msp + oSmallMap := fun h => ha (h ▸ smallCell_map msp dv cs)
    unfold unlinkSmallChunk
    rw [Mem.write_ne _ _ _ _ h1, Mem.write_ne _ _ _ _ h2, hmap a h3]
  · intro y hy
    have hge := hy.small_ge g
    have key : ∀ k, (k = oFd ∨ k = oBk) →
        SmallObj msp dv cs (unlinkSmallChunk m msp x size (y + k)) := by
      intro k hk
      unfold unlinkSmallChunk
      by_cases e1 : y + k = m (x + oBk) + oFd
      · rw [e1, Mem.write_same]; exact hf
      · rw [Mem.write_ne _ _ _ _ e1]
        by_cases e2 : y + k = m (x + oFd) + oBk
        · rw [e2, Mem.write_same]; exact hb
        · rw [Mem.write_ne _ _ _ _ e2, hmap _ (by rcases hk with rfl | rfl <;> simp only [oFd, oBk, oSmallMap] <;> omega)]
          rcases hk with rfl | rfl
          · exact (hcl y hy).1
          · exact (hcl y hy).2
    exact ⟨key _ (Or.inl rfl), key _ (Or.inr rfl)⟩

theorem getSmallBinIndex_lt (size : Nat) (h : isSmall size = true) :
    getSmallBinIndex size < kNumSmallBins := by
  unfold isSmall at h
  unfold getSmallBinIndex u32
  have h1 : size >>> kSmallBinShift < kNumSmallBins := by simpa using h
  have h32 : kNumSmallBins = 32 := rfl
  rw [Nat.mod_eq_of_lt (by omega)]
  exact h1

/-- `insertSmallChunk` writes the links of small-bin members, `small_map` and the
links of the chunk it inserts. -/
theorem insertSmallChunk_frame {m : Mem} {msp start dv : Nat} {cs : List Chunk}
    (g : Geometry msp start cs) (hcl : SmallClosed m msp dv cs) (ptr size : Nat)
    (hsmall : isSmall size = true) :
    ∀ a, ¬ SmallCell msp dv cs a → a ≠ ptr + oFd → a ≠ ptr + oBk →
      insertSmallChunk m msp ptr size a = m a := by
  intro a ha h1 h2
  have hidx := getSmallBinIndex_lt size hsmall
  have hback : SmallObj msp dv cs (smallBinAt msp (getSmallBinIndex size)) :=
    Or.inl ⟨_, hidx, rfl⟩
  have hge := hback.small_ge g
  have h3 : a ≠ msp + oSmallMap := fun h => ha (h ▸ smallCell_map msp dv cs)
  have hmap : ∀ b, b ≠ msp + oSmallMap →
      (if (!isSmallMapMarked m msp (getSmallBinIndex size)) = true then
        markSmallMap m msp (getSmallBinIndex size) else m) b = m b := by
    intro b hb
    split
    · exact Mem.write_ne _ _ _ _ hb
    · rfl
  have hfwd : (if (!isSmallMapMarked m msp (getSmallBinIndex size)) = true then
        markSmallMap m msp (getSmallBinIndex size) else m)
          (smallBinAt msp (getSmallBinIndex size) + oFd) =
      m (smallBinAt msp (getSmallBinIndex size) + oFd) :=
    hmap _ (by simp only [oFd, oSmallMap]; omega)
  have hf := (hcl _ hback).1
  have h4 : a ≠ smallBinAt msp (getSmallBinIndex size) + oFd := fun h => ha (h ▸ smallCell_fd hback)
  have h5 : a ≠ m (smallBinAt msp (getSmallBinIndex size) + oFd) + oBk :=
    fun h => ha (h ▸ smallCell_bk hf)
  unfold insertSmallChunk
  rw [Mem.write_ne _ _ _ _ h2, Mem.write_ne _ _ _ _ h1, hfwd, Mem.write_ne _ _ _ _ h5,
    Mem.write_ne _ _ _ _ h4, hmap a h3]

/-! ## Tree-bin operations -/

section

variable {msp start dv : Nat} {cs : List Chunk}

theorem largeCell_obj {x : Nat} (h : LargeObj dv cs x) (a : Nat)
    (ha : a = x + oFd ∨ a = x + oBk ∨ a = x + oChild ∨ a = x + oChild + 8 ∨ a = x + oParent ∨
      a = x + oIndex) :
    LargeCell msp dv cs a := Or.inr (Or.inr ⟨x, h, ha⟩)

theorem largeCell_fd {x : Nat} (h : LargeObj dv cs x) : LargeCell msp dv cs (x + oFd) :=
  largeCell_obj h _ (by simp)

theorem largeCell_bk {x : Nat} (h : LargeObj dv cs x) : LargeCell msp dv cs (x + oBk) :=
  largeCell_obj h _ (by simp)

theorem largeCell_child0 {x : Nat} (h : LargeObj dv cs x) : LargeCell msp dv cs (x + oChild) :=
  largeCell_obj h _ (by simp)

theorem largeCell_child1 {x : Nat} (h : LargeObj dv cs x) : LargeCell msp dv cs (x + oChild + 8) :=
  largeCell_obj h _ (by simp)

theorem largeCell_parent {x : Nat} (h : LargeObj dv cs x) : LargeCell msp dv cs (x + oParent) :=
  largeCell_obj h _ (by simp)

theorem largeCell_index {x : Nat} (h : LargeObj dv cs x) : LargeCell msp dv cs (x + oIndex) :=
  largeCell_obj h _ (by simp)

theorem largeCell_slot (i : Nat) (hi : i < kNumTreeBins) : LargeCell msp dv cs (treeBinAt msp i) :=
  Or.inr (Or.inl ⟨i, hi, rfl⟩)

theorem largeCell_map : LargeCell msp dv cs (msp + oTreeMap) := Or.inl rfl

theorem nodesOK_iff (m : Mem) :
    NodesOK m dv cs ↔ ∀ x, LargeObj dv cs x →
      NodeVals m dv cs (m (x + oFd)) (m (x + oBk)) (m (x + oChild)) (m (x + oChild + 8))
        (m (x + oIndex)) (m (x + oParent)) := Iff.rfl

theorem nodeVals_congr {m m2 : Mem} (hidx : ∀ z, LargeObj dv cs z → m2 (z + oIndex) = m (z + oIndex))
    {fd bk c0 c1 idx par : Nat} (h : NodeVals m dv cs fd bk c0 c1 idx par) :
    NodeVals m2 dv cs fd bk c0 c1 idx par := by
  obtain ⟨h1, h2, h3, h4, h5, h6, h7, h8, h9, h10⟩ := h
  refine ⟨h1, h2, h3, h4, h5, ?_, ?_, ?_, ?_, ?_⟩
  · rw [hidx _ h1]; exact h6
  · rw [hidx _ h2]; exact h7
  · intro hne
    rcases h3 with h0 | hl
    · exact absurd h0 hne
    · rw [hidx _ hl]; exact h8 hne
  · intro hne
    rcases h4 with h0 | hl
    · exact absurd h0 hne
    · rw [hidx _ hl]; exact h9 hne
  · intro hl
    rw [hidx _ hl]; exact h10 hl

/-- `NodesOK` looks at the fields of tree-bin members only. -/
theorem nodesOK_congr {m m2 : Mem} (h : NodesOK m dv cs)
    (heq : ∀ a, LargeCell msp dv cs a → m2 a = m a) : NodesOK m2 dv cs := by
  rw [nodesOK_iff] at h ⊢
  intro x hx
  have hidx : ∀ z, LargeObj dv cs z → m2 (z + oIndex) = m (z + oIndex) :=
    fun z hz => heq _ (largeCell_index hz)
  rw [heq _ (largeCell_fd hx), heq _ (largeCell_bk hx), heq _ (largeCell_child0 hx),
    heq _ (largeCell_child1 hx), heq _ (largeCell_index hx), heq _ (largeCell_parent hx)]
  exact nodeVals_congr hidx (h x hx)

theorem isTreeMapMarked_congr {m m2 : Mem} (h : m2 (msp + oTreeMap) = m (msp + oTreeMap)) (i : Nat) :
    isTreeMapMarked m2 msp i = isTreeMapMarked m msp i := by
  unfold isTreeMapMarked; rw [h]

/-- `RootsOK` looks at the roots and `tree_map` only. -/
theorem rootsOK_congr {m m2 : Mem} (h : RootsOK m msp dv cs)
    (hslot : ∀ i, i < kNumTreeBins → m2 (treeBinAt msp i) = m (treeBinAt msp i))
    (hmap : m2 (msp + oTreeMap) = m (msp + oTreeMap)) : RootsOK m2 msp dv cs := by
  intro i hi
  rw [hslot i hi, isTreeMapMarked_congr hmap]
  exact h i hi

theorem parentOK_congr {m m2 : Mem} {y : Nat}
    (h : ParentOK m msp dv cs y)
    (hpar : m2 (y + oParent) = m (y + oParent)) (hidx : m2 (y + oIndex) = m (y + oIndex))
    (hslot : m (treeBinAt msp (m (y + oIndex))) = y → m2 (treeBinAt msp (m (y + oIndex))) = y) :
    ParentOK m2 msp dv cs y := by
  unfold ParentOK at h ⊢
  rw [hpar, hidx]
  rcases h with h | h | h
  · exact Or.inl h
  · exact Or.inr (Or.inl (hslot h))
  · exact Or.inr (Or.inr h)

/-- `RootsMarked` looks at the roots and `tree_map` only. -/
theorem rootsMarked_congr {m m2 : Mem} (h : RootsMarked m msp)
    (hslot : ∀ i, i < kNumTreeBins → m2 (treeBinAt msp i) = m (treeBinAt msp i))
    (hmap : m2 (msp + oTreeMap) = m (msp + oTreeMap)) : RootsMarked m2 msp := by
  intro i hi hne
  rw [isTreeMapMarked_congr hmap]
  rw [hslot i hi] at hne
  exact h i hi hne

theorem Good.refl {m : Mem} (x : Nat) (hN : NodesOK m dv cs) (hR : RootsOK m msp dv cs) :
    Good msp dv cs x m m :=
  ⟨fun _ _ => rfl, hN, hR, fun _ _ _ h => h, fun _ _ => rfl, fun h => h⟩

theorem Good.trans {m m1 m2 : Mem} {x : Nat} (h1 : Good msp dv cs x m m1)
    (h2 : Good msp dv cs x m1 m2) : Good msp dv cs x m m2 :=
  ⟨fun a ha => (h2.frame a ha).trans (h1.frame a ha), h2.nodes, h2.roots,
    fun y hy hne hp => h2.parents y hy hne (h1.parents y hy hne hp),
    fun z hz => (h2.index z hz).trans (h1.index z hz), fun h => h2.marks (h1.marks h)⟩

theorem write_obj_ne (g : Geometry msp start cs) (m : Mem) {z y : Nat} (hz : LargeObj dv cs z)
    (hy : LargeObj dv cs y) (hzy : z ≠ y) (j k v : Nat) (hj : j < 64) (hk : k < 64) :
    (m.write (y + k) v) (z + j) = m (z + j) :=
  Mem.write_ne _ _ _ _ fun h => hzy (LargeObj.cell_inj g hz hy j k hj hk h)

theorem write_obj_slot (g : Geometry msp start cs) (m : Mem) {y : Nat} (hy : LargeObj dv cs y)
    (k v i : Nat) (hi : i < kNumTreeBins) :
    (m.write (y + k) v) (treeBinAt msp i) = m (treeBinAt msp i) := by
  have := hy.large_ge g
  have h32 : kNumTreeBins = 32 := rfl
  exact Mem.write_ne _ _ _ _ (by simp only [treeBinAt, oTreeBins]; omega)

theorem write_obj_map (g : Geometry msp start cs) (m : Mem) {y : Nat} (hy : LargeObj dv cs y)
    (k v : Nat) : (m.write (y + k) v) (msp + oTreeMap) = m (msp + oTreeMap) := by
  have := hy.large_ge g
  exact Mem.write_ne _ _ _ _ (by simp only [oTreeMap]; omega)

/-- Frame, roots, `index` fields and parent conditions survive a write to a link or
child field of a member. -/
theorem good_write_aux (g : Geometry msp start cs) {m : Mem} (x : Nat) (hR : RootsOK m msp dv cs)
    {y : Nat} (hy : LargeObj dv cs y) (k v : Nat)
    (hk : k = oFd ∨ k = oBk ∨ k = oChild ∨ k = oChild + 8)
    (hnodes : NodesOK (m.write (y + k) v) dv cs) :
    Good msp dv cs x m (m.write (y + k) v) := by
  have hk64 : k < 64 ∧ k ≠ oParent ∧ k ≠ oIndex := by
    rcases hk with rfl | rfl | rfl | rfl <;> simp [oFd, oBk, oChild, oParent, oIndex]
  have hcell : LargeCell msp dv cs (y + k) := by
    rcases hk with rfl | rfl | rfl | rfl
    · exact largeCell_fd hy
    · exact largeCell_bk hy
    · exact largeCell_child0 hy
    · exact largeCell_child1 hy
  have hidx : ∀ z, LargeObj dv cs z → (m.write (y + k) v) (z + oIndex) = m (z + oIndex) := by
    intro z hz
    apply Mem.write_ne
    intro h
    have := LargeObj.cell_inj g hz hy oIndex k (by decide) hk64.1 h
    subst this
    exact hk64.2.2 (by omega)
  have hpar : ∀ z, LargeObj dv cs z → (m.write (y + k) v) (z + oParent) = m (z + oParent) := by
    intro z hz
    apply Mem.write_ne
    intro h
    have := LargeObj.cell_inj g hz hy oParent k (by decide) hk64.1 h
    subst this
    exact hk64.2.1 (by omega)
  refine ⟨fun a ha => Mem.write_ne _ _ _ _ fun h => ha (h ▸ hcell), hnodes, ?_, ?_, hidx,
    fun h => rootsMarked_congr h (fun i hi => write_obj_slot g m hy k v i hi)
      (write_obj_map g m hy k v)⟩
  · exact rootsOK_congr hR (fun i hi => write_obj_slot g m hy k v i hi) (write_obj_map g m hy k v)
  · intro z hz _ hp
    refine parentOK_congr hp (hpar z hz) (hidx z hz) fun h => ?_
    have hlt : m (z + oIndex) < kNumTreeBins := by
      have := (hnodes z hz).2.2.2.2.1
      rw [hidx z hz] at this; exact this
    rw [write_obj_slot g m hy k v _ hlt]; exact h

theorem good_write_link (g : Geometry msp start cs) {m : Mem} (x : Nat) (hN : NodesOK m dv cs)
    (hR : RootsOK m msp dv cs) {y : Nat} (hy : LargeObj dv cs y) (k v : Nat)
    (hk : k = oFd ∨ k = oBk) (hv : LinkVal m dv cs y v) :
    Good msp dv cs x m (m.write (y + k) v) := by
  refine good_write_aux g x hR hy k v (by rcases hk with rfl | rfl <;> simp) ?_
  have hk64 : k < 64 ∧ k ≠ oIndex := by rcases hk with rfl | rfl <;> simp [oFd, oBk, oIndex]
  have hidx : ∀ z, LargeObj dv cs z → (m.write (y + k) v) (z + oIndex) = m (z + oIndex) := by
    intro z hz
    apply Mem.write_ne
    intro h
    have := LargeObj.cell_inj g hz hy oIndex k (by decide) hk64.1 h
    subst this
    exact hk64.2 (by omega)
  rw [nodesOK_iff] at hN ⊢
  intro z hz
  by_cases hzy : z = y
  · subst hzy
    have hn := nodeVals_congr hidx (hN z hz)
    obtain ⟨h1, h2, h3, h4, h5, h6, h7, h8, h9, h10⟩ := hn
    have hvi : (m.write (z + k) v) (v + oIndex) = m (z + oIndex) := by
      rw [hidx v hv.1]; exact hv.2
    rcases hk with rfl | rfl
    · rw [Mem.write_same, Mem.write_ne _ _ _ (z + oBk) (by simp [oFd, oBk]),
        Mem.write_ne _ _ _ (z + oChild) (by simp [oFd, oChild]),
        Mem.write_ne _ _ _ (z + oChild + 8) (by simp only [oFd, oChild]; omega),
        Mem.write_ne _ _ _ (z + oIndex) (by simp [oFd, oIndex]),
        Mem.write_ne _ _ _ (z + oParent) (by simp [oFd, oParent])]
      exact ⟨hv.1, h2, h3, h4, h5, hvi, h7, h8, h9, h10⟩
    · rw [Mem.write_same, Mem.write_ne _ _ _ (z + oFd) (by simp [oFd, oBk]),
        Mem.write_ne _ _ _ (z + oChild) (by simp [oBk, oChild]),
        Mem.write_ne _ _ _ (z + oChild + 8) (by simp only [oBk, oChild]; omega),
        Mem.write_ne _ _ _ (z + oIndex) (by simp [oBk, oIndex]),
        Mem.write_ne _ _ _ (z + oParent) (by simp [oBk, oParent])]
      exact ⟨h1, hv.1, h3, h4, h5, h6, hvi, h8, h9, h10⟩
  · rw [write_obj_ne g m hz hy hzy oFd k v (by decide) hk64.1,
      write_obj_ne g m hz hy hzy oBk k v (by decide) hk64.1,
      write_obj_ne g m hz hy hzy oChild k v (by decide) hk64.1,
      show z + oChild + 8 = z + (oChild + 8) from rfl,
      write_obj_ne g m hz hy hzy (oChild + 8) k v (by decide) hk64.1,
      write_obj_ne g m hz hy hzy oIndex k v (by decide) hk64.1,
      write_obj_ne g m hz hy hzy oParent k v (by decide) hk64.1]
    exact nodeVals_congr hidx (hN z hz)

theorem good_write_child (g : Geometry msp start cs) {m : Mem} (x : Nat) (hN : NodesOK m dv cs)
    (hR : RootsOK m msp dv cs) {y : Nat} (hy : LargeObj dv cs y) (k v : Nat)
    (hk : k = oChild ∨ k = oChild + 8) (hv : ChildVal m dv cs y v) :
    Good msp dv cs x m (m.write (y + k) v) := by
  refine good_write_aux g x hR hy k v (by rcases hk with rfl | rfl <;> simp) ?_
  have hk64 : k < 64 ∧ k ≠ oIndex := by rcases hk with rfl | rfl <;> simp [oChild, oIndex]
  have hidx : ∀ z, LargeObj dv cs z → (m.write (y + k) v) (z + oIndex) = m (z + oIndex) := by
    intro z hz
    apply Mem.write_ne
    intro h
    have := LargeObj.cell_inj g hz hy oIndex k (by decide) hk64.1 h
    subst this
    exact hk64.2 (by omega)
  rw [nodesOK_iff] at hN ⊢
  intro z hz
  by_cases hzy : z = y
  · subst hzy
    have hn := nodeVals_congr hidx (hN z hz)
    obtain ⟨h1, h2, h3, h4, h5, h6, h7, h8, h9, h10⟩ := hn
    have hv1 : v = 0 ∨ LargeObj dv cs v := hv.imp id fun h => h.1
    have hvi : v ≠ 0 → (m.write (z + k) v) (v + oIndex) = m (z + oIndex) := by
      intro hne
      rcases hv with h0 | ⟨hl, hi⟩
      · exact absurd h0 hne
      · rw [hidx v hl]; exact hi
    rcases hk with rfl | rfl
    · rw [Mem.write_same, Mem.write_ne _ _ _ (z + oFd) (by simp [oFd, oChild]),
        Mem.write_ne _ _ _ (z + oBk) (by simp [oBk, oChild]),
        Mem.write_ne _ _ _ (z + oChild + 8) (by simp [oChild]),
        Mem.write_ne _ _ _ (z + oIndex) (by simp [oChild, oIndex]),
        Mem.write_ne _ _ _ (z + oParent) (by simp [oChild, oParent])]
      exact ⟨h1, h2, hv1, h4, h5, h6, h7, hvi, h9, h10⟩
    · rw [show z + oChild + 8 = z + (oChild + 8) from rfl, Mem.write_same,
        Mem.write_ne _ _ _ (z + oFd) (by simp only [oFd, oChild]; omega),
        Mem.write_ne _ _ _ (z + oBk) (by simp only [oBk, oChild]; omega),
        Mem.write_ne _ _ _ (z + oChild) (by simp [oChild]),
        Mem.write_ne _ _ _ (z + oIndex) (by simp only [oChild, oIndex]; omega),
        Mem.write_ne _ _ _ (z + oParent) (by simp only [oChild, oParent]; omega)]
      exact ⟨h1, h2, h3, hv1, h5, h6, h7, h8, hvi, h10⟩
  · rw [write_obj_ne g m hz hy hzy oFd k v (by decide) hk64.1,
      write_obj_ne g m hz hy hzy oBk k v (by decide) hk64.1,
      write_obj_ne g m hz hy hzy oChild k v (by decide) hk64.1,
      show z + oChild + 8 = z + (oChild + 8) from rfl,
      write_obj_ne g m hz hy hzy (oChild + 8) k v (by decide) hk64.1,
      write_obj_ne g m hz hy hzy oIndex k v (by decide) hk64.1,
      write_obj_ne g m hz hy hzy oParent k v (by decide) hk64.1]
    exact nodeVals_congr hidx (hN z hz)

end

section

variable {msp start dv : Nat} {cs : List Chunk}

theorem and_not32_self (t b : Nat) (hb : b < 2 ^ 32) : (t &&& not32 b) &&& b = 0 := by
  apply Nat.eq_of_testBit_eq
  intro j
  have hnot : not32 b = 2 ^ 32 - (b + 1) := by
    unfold not32; rw [Nat.mod_eq_of_lt hb]; omega
  rw [Nat.testBit_and, Nat.testBit_and, hnot, Nat.testBit_two_pow_sub_succ hb, Nat.zero_testBit]
  cases hbj : b.testBit j <;> simp

theorem indexToBit_lt (i : Nat) : indexToBit i < 2 ^ 32 := by
  unfold indexToBit shl32
  exact Nat.mod_lt _ (by decide)

theorem isTreeMapMarked_clear_self (m : Mem) (msp i : Nat) :
    isTreeMapMarked (clearTreeMap m msp i) msp i = false := by
  unfold isTreeMapMarked clearTreeMap
  rw [Mem.write_same, and_not32_self _ _ (indexToBit_lt i)]
  rfl

theorem isTreeMapMarked_clear_of (m : Mem) (msp i j : Nat)
    (h : isTreeMapMarked (clearTreeMap m msp i) msp j = true) : isTreeMapMarked m msp j = true := by
  unfold isTreeMapMarked clearTreeMap at *
  rw [Mem.write_same] at h
  by_contra hc
  have h0 : m (msp + oTreeMap) &&& indexToBit j = 0 := by simpa using hc
  have : (m (msp + oTreeMap) &&& not32 (indexToBit i)) &&& indexToBit j = 0 := by
    rw [Nat.and_assoc, Nat.and_comm (not32 _), ← Nat.and_assoc, h0, Nat.zero_and]
  rw [this] at h
  simp at h

theorem indexToBit_pow (i : Nat) (hi : i < 32) : indexToBit i = 2 ^ i := by
  unfold indexToBit shl32
  rw [Nat.mod_eq_of_lt (show 1 < 2 ^ 32 by decide), Nat.mod_eq_of_lt hi, Nat.one_shiftLeft,
    Nat.mod_eq_of_lt (Nat.pow_lt_pow_right (by decide) hi)]

/-- Testing bit `i` of a map word. -/
theorem marked_iff_testBit (w i : Nat) (hi : i < 32) :
    ((w &&& indexToBit i) != 0) = w.testBit i := by
  rw [indexToBit_pow i hi, Nat.and_two_pow]
  have hpos : 2 ^ i ≠ 0 := Nat.pos_iff_ne_zero.1 (Nat.two_pow_pos i)
  cases h : w.testBit i <;> simp [hpos]

/-- The bits of a map word after bit `i` has been cleared. -/
theorem testBit_clear (w i j : Nat) (hi : i < 32) (hj : j < 32) :
    (w &&& not32 (indexToBit i)).testBit j = (w.testBit j && decide (j ≠ i)) := by
  have hlt : 2 ^ i < 2 ^ 32 := Nat.pow_lt_pow_right (by decide) hi
  have hnot : not32 (2 ^ i) = 2 ^ 32 - (2 ^ i + 1) := by
    unfold not32; rw [Nat.mod_eq_of_lt hlt]; omega
  rw [indexToBit_pow i hi, Nat.testBit_and, hnot, Nat.testBit_two_pow_sub_succ hlt,
    Nat.testBit_two_pow]
  by_cases hij : i = j
  · subst hij; simp
  · have hji : j ≠ i := fun h => hij h.symm
    simp [hij, hj, hji]

/-- The bits of a map word after bit `i` has been set. -/
theorem testBit_mark (w i j : Nat) (hi : i < 32) :
    (w ||| indexToBit i).testBit j = (w.testBit j || decide (j = i)) := by
  rw [indexToBit_pow i hi, Nat.testBit_or, Nat.testBit_two_pow]
  by_cases hij : i = j
  · subst hij; simp
  · have hji : j ≠ i := fun h => hij h.symm
    simp [hij, hji]

theorem isTreeMapMarked_clear_ne (m : Mem) (msp i j : Nat) (hi : i < kNumTreeBins)
    (hj : j < kNumTreeBins) (hji : j ≠ i) :
    isTreeMapMarked (clearTreeMap m msp i) msp j = isTreeMapMarked m msp j := by
  unfold isTreeMapMarked clearTreeMap
  rw [Mem.write_same, marked_iff_testBit _ j hj, marked_iff_testBit _ j hj,
    testBit_clear _ i j hi hj]
  simp [hji]

theorem treeBinAt_inj {msp i j : Nat} (h : treeBinAt msp i = treeBinAt msp j) : i = j := by
  unfold treeBinAt at h; omega

theorem LargeObj.pos (g : Geometry msp start cs) {x : Nat} (h : LargeObj dv cs x) : x ≠ 0 := by
  have := h.large_ge g; omega

theorem obj_ne_slot (g : Geometry msp start cs) {y : Nat} (hy : LargeObj dv cs y) (k i : Nat)
    (hi : i < kNumTreeBins) : y + k ≠ treeBinAt msp i := by
  have := hy.large_ge g
  have h32 : kNumTreeBins = 32 := rfl
  simp only [treeBinAt, oTreeBins]; omega

theorem obj_ne_map (g : Geometry msp start cs) {y : Nat} (hy : LargeObj dv cs y) (k : Nat) :
    y + k ≠ msp + oTreeMap := by
  have := hy.large_ge g
  simp only [oTreeMap]; omega

theorem slot_ne_map (msp i : Nat) : treeBinAt msp i ≠ msp + oTreeMap := by
  simp only [treeBinAt, oTreeBins, oTreeMap]; omega

/-- Writing the parent of a member. -/
theorem good_write_parent (g : Geometry msp start cs) {m : Mem} (x : Nat) (hN : NodesOK m dv cs)
    (hR : RootsOK m msp dv cs) {y : Nat} (hy : LargeObj dv cs y) (v : Nat)
    (hvi : LargeObj dv cs v → m (v + oIndex) = m (y + oIndex))
    (hpo : y = x ∨ v = 0 ∨ m (treeBinAt msp (m (y + oIndex))) = y ∨ LargeObj dv cs v) :
    Good msp dv cs x m (m.write (y + oParent) v) := by
  have hidx : ∀ z, LargeObj dv cs z → (m.write (y + oParent) v) (z + oIndex) = m (z + oIndex) := by
    intro z hz
    apply Mem.write_ne
    intro h
    have := LargeObj.cell_inj g hz hy oIndex oParent (by decide) (by decide) h
    subst this
    simp [oIndex, oParent] at h
  have hslot : ∀ i, i < kNumTreeBins →
      (m.write (y + oParent) v) (treeBinAt msp i) = m (treeBinAt msp i) :=
    fun i hi => write_obj_slot g m hy _ v i hi
  refine ⟨fun a ha => Mem.write_ne _ _ _ _ fun h => ha (h ▸ largeCell_parent hy), ?_,
    rootsOK_congr hR hslot (write_obj_map g m hy _ v), ?_, hidx,
    fun h => rootsMarked_congr h hslot (write_obj_map g m hy _ v)⟩
  · rw [nodesOK_iff] at hN ⊢
    intro z hz
    by_cases hzy : z = y
    · subst hzy
      obtain ⟨h1, h2, h3, h4, h5, h6, h7, h8, h9, h10⟩ := nodeVals_congr hidx (hN z hz)
      rw [Mem.write_same, Mem.write_ne _ _ _ (z + oFd) (by simp [oFd, oParent]),
        Mem.write_ne _ _ _ (z + oBk) (by simp [oBk, oParent]),
        Mem.write_ne _ _ _ (z + oChild) (by simp [oChild, oParent]),
        Mem.write_ne _ _ _ (z + oChild + 8) (by simp only [oChild, oParent]; omega),
        Mem.write_ne _ _ _ (z + oIndex) (by simp [oIndex, oParent])]
      exact ⟨h1, h2, h3, h4, h5, h6, h7, h8, h9, fun hl => by rw [hidx v hl]; exact hvi hl⟩
    · rw [write_obj_ne g m hz hy hzy oFd _ v (by decide) (by decide),
        write_obj_ne g m hz hy hzy oBk _ v (by decide) (by decide),
        write_obj_ne g m hz hy hzy oChild _ v (by decide) (by decide),
        show z + oChild + 8 = z + (oChild + 8) from rfl,
        write_obj_ne g m hz hy hzy (oChild + 8) _ v (by decide) (by decide),
        write_obj_ne g m hz hy hzy oIndex _ v (by decide) (by decide),
        write_obj_ne g m hz hy hzy oParent _ v (by decide) (by decide)]
      exact nodeVals_congr hidx (hN z hz)
  · intro z hz hzx hp
    have hlt : m (z + oIndex) < kNumTreeBins := (hN z hz).2.2.2.2.1
    by_cases hzy : z = y
    · subst hzy
      unfold ParentOK
      rw [Mem.write_same, hidx z hz, hslot _ hlt]
      rcases hpo with h | h | h | h
      · exact absurd h hzx
      · exact Or.inl h
      · exact Or.inr (Or.inl h)
      · exact Or.inr (Or.inr h)
    · refine parentOK_congr hp (write_obj_ne g m hz hy hzy oParent _ v (by decide) (by decide))
        (hidx z hz) fun h => ?_
      rw [hslot _ hlt]; exact h

/-- Replacing the root `x` of a bin by `r`, and clearing the bit of the bin in
`tree_map` when `r` is null. -/
theorem good_write_root (g : Geometry msp start cs) {m : Mem} (hN : NodesOK m dv cs)
    (hR : RootsOK m msp dv cs) {x : Nat} (hx : LargeObj dv cs x)
    (hroot : x = m (treeBinAt msp (m (x + oIndex)))) (r : Nat) (hr : ChildVal m dv cs x r) :
    Good msp dv cs x m
      (if (m.write (treeBinAt msp (m (x + oIndex))) r) (treeBinAt msp (m (x + oIndex))) = 0 then
        clearTreeMap (m.write (treeBinAt msp (m (x + oIndex))) r) msp
          ((m.write (treeBinAt msp (m (x + oIndex))) r) (x + oIndex))
      else m.write (treeBinAt msp (m (x + oIndex))) r) := by
  have hlt : m (x + oIndex) < kNumTreeBins := (hN x hx).2.2.2.2.1
  have hxi : (m.write (treeBinAt msp (m (x + oIndex))) r) (x + oIndex) = m (x + oIndex) :=
    Mem.write_ne _ _ _ _ (obj_ne_slot g hx _ _ hlt)
  rw [Mem.write_same, hxi]
  generalize hi : m (x + oIndex) = i at *
  -- facts shared by both branches
  have hobj : ∀ (m2 : Mem), (∀ a, a ≠ treeBinAt msp i → a ≠ msp + oTreeMap → m2 a = m a) →
      (∀ j, j < kNumTreeBins → (m2 (treeBinAt msp j) = 0 ∨ LargeObj dv cs (m2 (treeBinAt msp j))) ∧
        (isTreeMapMarked m2 msp j = true → m2 (treeBinAt msp j) ≠ 0)) →
      (r ≠ 0 → m2 (treeBinAt msp i) = r) →
      (RootsMarked m msp → RootsMarked m2 msp) →
      Good msp dv cs x m m2 := by
    intro m2 hfr hroots hslot hmarks
    have hcell : ∀ z, LargeObj dv cs z → ∀ k, m2 (z + k) = m (z + k) := fun z hz k =>
      hfr _ (obj_ne_slot g hz k i hlt) (obj_ne_map g hz k)
    refine ⟨fun a ha => hfr a (fun h => ha (h ▸ largeCell_slot i hlt))
      (fun h => ha (h ▸ largeCell_map)), ?_, hroots, ?_, fun z hz => hcell z hz _, hmarks⟩
    · rw [nodesOK_iff] at hN ⊢
      intro z hz
      rw [hcell z hz oFd, hcell z hz oBk, hcell z hz oChild,
        show z + oChild + 8 = z + (oChild + 8) from rfl, hcell z hz (oChild + 8),
        hcell z hz oIndex, hcell z hz oParent]
      exact nodeVals_congr (fun w hw => hcell w hw _) (hN z hz)
    · intro z hz hzx hp
      refine parentOK_congr hp (hcell z hz _) (hcell z hz _) fun h => ?_
      have hne : treeBinAt msp (m (z + oIndex)) ≠ treeBinAt msp i := by
        intro he
        rw [he] at h
        exact hzx (h.symm.trans hroot.symm)
      rw [hfr _ hne (slot_ne_map _ _)]; exact h
  split
  · rename_i hr0
    apply hobj
    · intro a h1 h2
      unfold clearTreeMap
      rw [Mem.write_ne _ _ _ _ h2, Mem.write_ne _ _ _ _ h1]
    · intro j hj
      have hs : ∀ k, clearTreeMap (m.write (treeBinAt msp i) r) msp i (treeBinAt msp k) =
          (m.write (treeBinAt msp i) r) (treeBinAt msp k) := fun k =>
        Mem.write_ne _ _ _ _ (slot_ne_map _ _)
      rw [hs]
      by_cases hji : j = i
      · subst hji
        rw [Mem.write_same, isTreeMapMarked_clear_self]
        exact ⟨Or.inl hr0, fun h => absurd h (by simp)⟩
      · have hne : treeBinAt msp j ≠ treeBinAt msp i := fun h => hji (treeBinAt_inj h)
        rw [Mem.write_ne _ _ _ _ hne]
        refine ⟨(hR j hj).1, fun h => (hR j hj).2 ?_⟩
        have := isTreeMapMarked_clear_of _ _ _ _ h
        rwa [isTreeMapMarked_congr (Mem.write_ne _ _ _ _ (slot_ne_map msp i).symm)] at this
    · intro h; exact absurd hr0 h
    · intro hM j hj hne
      have hs : clearTreeMap (m.write (treeBinAt msp i) r) msp i (treeBinAt msp j) =
          (m.write (treeBinAt msp i) r) (treeBinAt msp j) :=
        Mem.write_ne _ _ _ _ (slot_ne_map _ _)
      rw [hs] at hne
      by_cases hji : j = i
      · subst hji
        rw [Mem.write_same] at hne
        exact absurd hr0 hne
      · have hne2 : treeBinAt msp j ≠ treeBinAt msp i := fun h => hji (treeBinAt_inj h)
        rw [Mem.write_ne _ _ _ _ hne2] at hne
        rw [isTreeMapMarked_clear_ne _ _ _ _ hlt hj hji,
          isTreeMapMarked_congr (Mem.write_ne _ _ _ _ (slot_ne_map msp i).symm)]
        exact hM j hj hne
  · rename_i hr0
    apply hobj
    · intro a h1 _
      exact Mem.write_ne _ _ _ _ h1
    · intro j hj
      rw [isTreeMapMarked_congr (Mem.write_ne _ _ _ _ (slot_ne_map msp i).symm)]
      by_cases hji : j = i
      · subst hji
        rw [Mem.write_same]
        refine ⟨?_, fun _ => hr0⟩
        rcases hr with h | h
        · exact Or.inl h
        · exact Or.inr h.1
      · have hne : treeBinAt msp j ≠ treeBinAt msp i := fun h => hji (treeBinAt_inj h)
        rw [Mem.write_ne _ _ _ _ hne]
        exact hR j hj
    · intro _; exact Mem.write_same _ _ _
    · intro hM j hj hne
      rw [isTreeMapMarked_congr (Mem.write_ne _ _ _ _ (slot_ne_map msp i).symm)]
      by_cases hji : j = i
      · subst hji
        exact hM j hj (by rw [← hroot]; exact hx.pos g)
      · have hne2 : treeBinAt msp j ≠ treeBinAt msp i := fun h => hji (treeBinAt_inj h)
        rw [Mem.write_ne _ _ _ _ hne2] at hne
        exact hM j hj hne

end

section

variable {msp start dv : Nat} {cs : List Chunk}

/-- The search for the rightmost descendant stays among the members of the bin and ends
at a child slot of a member. -/
theorem rightmostDescendant_spec {m : Mem} (hN : NodesOK m dv cs) (i : Nat) :
    ∀ (fuel pptr r0 pptr2 r : Nat), LargeObj dv cs r0 → m (r0 + oIndex) = i →
      (∃ q, LargeObj dv cs q ∧ (pptr = q + oChild ∨ pptr = q + oChild + 8)) →
      rightmostDescendant m fuel pptr r0 = some (pptr2, r) →
      LargeObj dv cs r ∧ m (r + oIndex) = i ∧
        ∃ q, LargeObj dv cs q ∧ (pptr2 = q + oChild ∨ pptr2 = q + oChild + 8) := by
  intro fuel
  induction fuel with
  | zero => intro pptr r0 pptr2 r _ _ _ h; simp [rightmostDescendant] at h
  | succ n ih =>
    intro pptr r0 pptr2 r hr0 hi hq h
    obtain ⟨_, _, h3, h4, _, _, _, h8, h9, _⟩ := hN r0 hr0
    unfold rightmostDescendant at h
    split at h
    · rename_i hc
      refine ih _ _ _ _ (h4.resolve_left hc) ((h9 hc).trans hi) ⟨r0, hr0, Or.inr rfl⟩ h
    · split at h
      · rename_i hc
        refine ih _ _ _ _ (h3.resolve_left hc) ((h8 hc).trans hi) ⟨r0, hr0, Or.inl rfl⟩ h
      · simp only [Option.some.injEq, Prod.mk.injEq] at h
        obtain ⟨rfl, rfl⟩ := h
        exact ⟨hr0, hi, hq⟩

/-- The replacement `r` takes over one child of the member `x` that is being unlinked. -/
theorem good_adopt (g : Geometry msp start cs) {m : Mem} (hN : NodesOK m dv cs)
    (hR : RootsOK m msp dv cs) {x r : Nat} (hx : LargeObj dv cs x) (hr : LargeObj dv cs r)
    (hri : m (r + oIndex) = m (x + oIndex)) (k : Nat) (hk : k = oChild ∨ k = oChild + 8) :
    Good msp dv cs x m
      (if m (x + k) ≠ 0 then
        (m.write (r + k) (m (x + k))).write ((m.write (r + k) (m (x + k))) (r + k) + oParent) r
      else m) := by
  split
  · rename_i hc
    rw [Mem.write_same]
    have hcv : LargeObj dv cs (m (x + k)) ∧ m (m (x + k) + oIndex) = m (x + oIndex) := by
      obtain ⟨_, _, h3, h4, _, _, _, h8, h9, _⟩ := hN x hx
      rcases hk with rfl | rfl
      · exact ⟨h3.resolve_left hc, h8 hc⟩
      · exact ⟨h4.resolve_left hc, h9 hc⟩
    have s1 : Good msp dv cs x m (m.write (r + k) (m (x + k))) :=
      good_write_child g x hN hR hr k _ hk (Or.inr ⟨hcv.1, hcv.2.trans hri.symm⟩)
    refine s1.trans (good_write_parent g x s1.nodes s1.roots hcv.1 r (fun _ => ?_)
      (Or.inr (Or.inr (Or.inr hr))))
    rw [s1.index _ hr, s1.index _ hcv.1, hri, hcv.2]
  · exact Good.refl x hN hR

/-- Hooking the replacement `r` in the place of the member `x`. -/
theorem unlinkLargeRelink_spec (g : Geometry msp start cs) {m : Mem} (hN : NodesOK m dv cs)
    (hR : RootsOK m msp dv cs) {x : Nat} (hx : LargeObj dv cs x)
    (hpx : ParentOK m msp dv cs x) (r : Nat) (hr : ChildVal m dv cs x r) :
    Good msp dv cs x m (unlinkLargeRelink m msp x (m (x + oParent)) r) := by
  unfold unlinkLargeRelink
  split
  swap
  · exact Good.refl x hN hR
  rename_i hpp
  have hlt : m (x + oIndex) < kNumTreeBins := (hN x hx).2.2.2.2.1
  -- the hook in the parent or the root of the bin
  have s1 : ∃ m1, m1 = (if x = m (treeBinAt msp (m (x + oIndex))) then
        (if (m.write (treeBinAt msp (m (x + oIndex))) r) (treeBinAt msp (m (x + oIndex))) = 0 then
          clearTreeMap (m.write (treeBinAt msp (m (x + oIndex))) r) msp
            ((m.write (treeBinAt msp (m (x + oIndex))) r) (x + oIndex))
        else m.write (treeBinAt msp (m (x + oIndex))) r)
      else if m (m (x + oParent) + oChild) = x then m.write (m (x + oParent) + oChild) r
      else m.write (m (x + oParent) + oChild + 8) r) ∧
      Good msp dv cs x m m1 ∧ m1 (x + oParent) = m (x + oParent) ∧
      (r ≠ 0 → m1 (treeBinAt msp (m (x + oIndex))) = r ∨ LargeObj dv cs (m (x + oParent))) := by
    refine ⟨_, rfl, ?_⟩
    split
    · rename_i hroot
      refine ⟨good_write_root g hN hR hx hroot r hr, ?_, fun hr0 => Or.inl ?_⟩
      · split
        · unfold clearTreeMap
          rw [Mem.write_ne _ _ _ _ (obj_ne_map g hx _), Mem.write_ne _ _ _ _ (obj_ne_slot g hx _ _ hlt)]
        · rw [Mem.write_ne _ _ _ _ (obj_ne_slot g hx _ _ hlt)]
      · rw [Mem.write_same, if_neg hr0, Mem.write_same]
    · rename_i hroot
      have hP : LargeObj dv cs (m (x + oParent)) := by
        rcases hpx with h | h | h
        · exact absurd h hpp
        · exact absurd h.symm hroot
        · exact h
      have hPi : m (m (x + oParent) + oIndex) = m (x + oIndex) := (hN x hx).2.2.2.2.2.2.2.2.2 hP
      have hrv : ChildVal m dv cs (m (x + oParent)) r := by
        rcases hr with h | h
        · exact Or.inl h
        · exact Or.inr ⟨h.1, h.2.trans hPi.symm⟩
      split
      · refine ⟨good_write_child g x hN hR hP _ r (Or.inl rfl) hrv, ?_, fun _ => Or.inr hP⟩
        apply Mem.write_ne
        intro h
        have := LargeObj.cell_inj g hx hP oParent oChild (by decide) (by decide) h
        rw [← this] at h
        simp [oParent, oChild] at h
      · refine ⟨good_write_child g x hN hR hP _ r (Or.inr rfl) hrv, ?_, fun _ => Or.inr hP⟩
        apply Mem.write_ne
        intro h
        have := LargeObj.cell_inj g hx hP oParent (oChild + 8) (by decide) (by decide) h
        rw [← this] at h
        simp only [oParent, oChild] at h
        omega
  obtain ⟨m1, hm1, g1, hpar1, hhook⟩ := s1
  simp only [] at hm1 ⊢
  rw [← hm1]
  split
  swap
  · exact g1
  rename_i hr0
  have hrl : LargeObj dv cs r ∧ m (r + oIndex) = m (x + oIndex) := by
    rcases hr with h | h
    · exact absurd h hr0
    · exact h
  -- the parent of the replacement
  have g2 : Good msp dv cs x m1 (m1.write (r + oParent) (m (x + oParent))) := by
    refine good_write_parent g x g1.nodes g1.roots hrl.1 _ (fun hl => ?_) ?_
    · rw [g1.index _ hl, g1.index _ hrl.1, hrl.2]
      exact (hN x hx).2.2.2.2.2.2.2.2.2 hl
    · rw [g1.index _ hrl.1, hrl.2]
      rcases hhook hr0 with h | h
      · exact Or.inr (Or.inr (Or.inl h))
      · exact Or.inr (Or.inr (Or.inr h))
  have g12 := g1.trans g2
  have hri2 : (m1.write (r + oParent) (m (x + oParent))) (r + oIndex) =
      (m1.write (r + oParent) (m (x + oParent))) (x + oIndex) := by
    rw [g12.index _ hrl.1, g12.index _ hx, hrl.2]
  have g3 := good_adopt g g12.nodes g12.roots hx hrl.1 hri2 oChild (Or.inl rfl)
  have g123 := g12.trans g3
  refine g123.trans ?_
  refine good_adopt g g123.nodes g123.roots hx hrl.1 ?_ (oChild + 8) (Or.inr rfl)
  rw [g123.index _ hrl.1, g123.index _ hx, hrl.2]

end

section

variable {msp start dv : Nat} {cs : List Chunk}

theorem Good.weaken (g : Geometry msp start cs) {m m2 : Mem} (x : Nat)
    (h : Good msp dv cs 0 m m2) : Good msp dv cs x m m2 :=
  ⟨h.frame, h.nodes, h.roots, fun y hy _ hp => h.parents y hy (hy.pos g) hp, h.index, h.marks⟩

theorem Good.parent_of (g : Geometry msp start cs) {m m2 : Mem} {x : Nat}
    (h : Good msp dv cs 0 m m2) (hx : LargeObj dv cs x) (hp : ParentOK m msp dv cs x) :
    ParentOK m2 msp dv cs x := h.parents x hx (hx.pos g) hp

/-- `unlinkLargeChunk` changes tree cells only and keeps the tree bins closed. -/
theorem unlinkLargeChunk_spec (g : Geometry msp start cs) {m : Mem} (hN : NodesOK m dv cs)
    (hR : RootsOK m msp dv cs) {x : Nat} (hx : LargeObj dv cs x)
    (hpx : ParentOK m msp dv cs x) (fuel : Nat) (m2 : Mem)
    (h : unlinkLargeChunk fuel m msp x = some m2) : Good msp dv cs x m m2 := by
  obtain ⟨h1, h2, h3, h4, h5, h6, h7, h8, h9, h10⟩ := hN x hx
  have hparent : ∀ (y k v : Nat), LargeObj dv cs y → k < 64 → k ≠ oParent →
      (m.write (y + k) v) (x + oParent) = m (x + oParent) := by
    intro y k v hy hk hne
    apply Mem.write_ne
    intro he
    have := LargeObj.cell_inj g hx hy oParent k (by decide) hk he
    subst this
    exact hne (by omega)
  unfold unlinkLargeChunk at h
  split at h
  · -- another chunk of the same size takes the place
    simp only [Option.some.injEq] at h
    subst h
    have s1 : Good msp dv cs 0 m (m.write (m (x + oFd) + oBk) (m (x + oBk))) :=
      good_write_link g 0 hN hR h1 oBk _ (Or.inr rfl) ⟨h2, h7.trans h6.symm⟩
    have s2 : Good msp dv cs 0 (m.write (m (x + oFd) + oBk) (m (x + oBk)))
        ((m.write (m (x + oFd) + oBk) (m (x + oBk))).write (m (x + oBk) + oFd) (m (x + oFd))) :=
      good_write_link g 0 s1.nodes s1.roots h2 oFd _ (Or.inl rfl)
        ⟨h1, by rw [s1.index _ h1, s1.index _ h2, h6, h7]⟩
    have s12 := s1.trans s2
    have hpar : ((m.write (m (x + oFd) + oBk) (m (x + oBk))).write (m (x + oBk) + oFd) (m (x + oFd)))
        (x + oParent) = m (x + oParent) := by
      rw [Mem.write_ne, hparent _ _ _ h1 (by decide) (by decide)]
      intro he
      have := LargeObj.cell_inj g hx h2 oParent oFd (by decide) (by decide) he
      rw [← this] at he
      simp [oParent, oFd] at he
    have s3 := unlinkLargeRelink_spec g s12.nodes s12.roots hx (s12.parent_of g hx hpx)
      (m (x + oBk)) (Or.inr ⟨h2, by rw [s12.index _ h2, s12.index _ hx, h7]⟩)
    rw [hpar] at s3
    exact (s12.weaken g x).trans s3
  · split at h
    · rename_i _ hc
      split at h
      · simp at h
      · rename_i pptr r hrd
        simp only [Option.some.injEq] at h
        subst h
        obtain ⟨hr, hri, q, hq, hpq⟩ := rightmostDescendant_spec hN (m (x + oIndex)) fuel _ _ _ _
          (h4.resolve_left hc) (h9 hc) ⟨x, hx, Or.inr rfl⟩ hrd
        have s1 : Good msp dv cs 0 m (m.write pptr 0) := by
          rcases hpq with rfl | rfl
          · exact good_write_child g 0 hN hR hq oChild 0 (Or.inl rfl) (Or.inl rfl)
          · exact good_write_child g 0 hN hR hq (oChild + 8) 0 (Or.inr rfl) (Or.inl rfl)
        have hpar : (m.write pptr 0) (x + oParent) = m (x + oParent) := by
          rcases hpq with rfl | rfl
          · exact hparent _ _ _ hq (by decide) (by decide)
          · exact hparent q (oChild + 8) _ hq (by decide) (by decide)
        have s3 := unlinkLargeRelink_spec g s1.nodes s1.roots hx (s1.parent_of g hx hpx) r
          (Or.inr ⟨hr, by rw [s1.index _ hr, s1.index _ hx, hri]⟩)
        rw [hpar] at s3
        exact (s1.weaken g x).trans s3
    · split at h
      · rename_i _ _ hc
        split at h
        · simp at h
        · rename_i pptr r hrd
          simp only [Option.some.injEq] at h
          subst h
          obtain ⟨hr, hri, q, hq, hpq⟩ := rightmostDescendant_spec hN (m (x + oIndex)) fuel _ _ _ _
            (h3.resolve_left hc) (h8 hc) ⟨x, hx, Or.inl rfl⟩ hrd
          have s1 : Good msp dv cs 0 m (m.write pptr 0) := by
            rcases hpq with rfl | rfl
            · exact good_write_child g 0 hN hR hq oChild 0 (Or.inl rfl) (Or.inl rfl)
            · exact good_write_child g 0 hN hR hq (oChild + 8) 0 (Or.inr rfl) (Or.inl rfl)
          have hpar : (m.write pptr 0) (x + oParent) = m (x + oParent) := by
            rcases hpq with rfl | rfl
            · exact hparent _ _ _ hq (by decide) (by decide)
            · exact hparent q (oChild + 8) _ hq (by decide) (by decide)
          have s3 := unlinkLargeRelink_spec g s1.nodes s1.roots hx (s1.parent_of g hx hpx) r
            (Or.inr ⟨hr, by rw [s1.index _ hr, s1.index _ hx, hri]⟩)
          rw [hpar] at s3
          exact (s1.weaken g x).trans s3
      · simp only [Option.some.injEq] at h
        subst h
        exact unlinkLargeRelink_spec g hN hR hx hpx 0 (Or.inl rfl)

end

section

variable {msp start dv : Nat} {cs : List Chunk}

theorem computeTreeIndex_lt (size : Nat) : computeTreeIndex size < kNumTreeBins := by
  unfold computeTreeIndex
  simp only []
  split
  · decide
  · split
    · decide
    · rename_i h0 h1
      have hlog : Nat.log2 (size >>> kTreeBinShift) < 16 :=
        (Nat.log2_lt h0).2 (by omega)
      have hand : (u32 size >>> (Nat.log2 (size >>> kTreeBinShift) + (kTreeBinShift - 1))) &&& 1 ≤ 1 :=
        Nat.and_le_right
      have h32 : kNumTreeBins = 32 := rfl
      unfold u32 at *
      rw [Nat.shiftLeft_eq, Nat.pow_one]
      rw [Nat.mod_eq_of_lt (by omega)]
      omega

theorem insertLargeLoop_frame (ptr size : Nat) :
    ∀ (fuel : Nat) (m : Mem) (temp bits : Nat) (m2 : Mem), LoopInv m dv cs size →
      LargeObj dv cs temp → insertLargeLoop ptr size fuel m temp bits = some m2 →
      ∀ a, ¬ LargeCell msp dv cs a → a ≠ ptr + oFd → a ≠ ptr + oBk → a ≠ ptr + oParent →
        m2 a = m a := by
  intro fuel
  induction fuel with
  | zero => intro m temp bits m2 _ _ h; simp [insertLargeLoop] at h
  | succ n ih =>
    intro m temp bits m2 hinv ht h a ha h1 h2 h3
    obtain ⟨hc0, hc1, hfd⟩ := hinv temp ht
    unfold insertLargeLoop at h
    split at h
    · simp only [] at h
      have hb : (bits >>> (kSizeTBitSize - 1)) &&& 1 = 0 ∨ (bits >>> (kSizeTBitSize - 1)) &&& 1 = 1 := by
        rw [Nat.and_one_is_mod]; omega
      split at h
      · rename_i hne
        refine ih m _ _ m2 hinv ?_ h a ha h1 h2 h3
        rcases hb with hb | hb
        · rw [hb] at hne ⊢
          exact hc0.resolve_left hne
        · rw [hb] at hne ⊢
          exact hc1.resolve_left hne
      · simp only [Option.some.injEq] at h
        subst h
        have hcell : LargeCell msp dv cs
            (temp + oChild + 8 * ((bits >>> (kSizeTBitSize - 1)) &&& 1)) := by
          rcases hb with hb | hb
          · rw [hb]; exact largeCell_child0 ht
          · rw [hb]; exact largeCell_child1 ht
        have h4 : a ≠ temp + oChild + 8 * ((bits >>> (kSizeTBitSize - 1)) &&& 1) :=
          fun he => ha (he ▸ hcell)
        rw [Mem.write_ne _ _ _ _ h1, Mem.write_ne _ _ _ _ h2, Mem.write_ne _ _ _ _ h3,
          Mem.write_ne _ _ _ _ h4]
    · rename_i hsz
      simp only [Option.some.injEq] at h
      subst h
      have hsz2 : chunkSize m temp = size := by
        by_contra hc; exact hsz hc
      have hf := hfd hsz2
      have h4 : a ≠ temp + oFd := fun he => ha (he ▸ largeCell_fd ht)
      have h5 : a ≠ m (temp + oFd) + oBk := fun he => ha (he ▸ largeCell_bk hf)
      rw [Mem.write_ne _ _ _ _ h3, Mem.write_ne _ _ _ _ h2, Mem.write_ne _ _ _ _ h1,
        Mem.write_ne _ _ _ _ h4, Mem.write_ne _ _ _ _ h5]

/-- `insertLargeChunk` writes tree cells and the tree fields of the chunk it inserts. -/
theorem insertLargeChunk_frame (g : Geometry msp start cs) {m : Mem} (hN : NodesOK m dv cs)
    (hR : RootsOK m msp dv cs) (ptr size : Nat) (hptr : ∃ c ∈ cs, c.addr = ptr)
    (hH : LargeObj dv cs (ptr + 40) → chunkSize m (ptr + 40) ≠ size)
    (fuel : Nat) (m2 : Mem) (h : insertLargeChunk fuel m msp ptr size = some m2) :
    ∀ a, ¬ LargeCell msp dv cs a → (a < ptr + 16 ∨ ptr + 64 ≤ a) → m2 a = m a := by
  intro a ha hrange
  have hlt := computeTreeIndex_lt size
  have h32 : kNumTreeBins = 32 := rfl
  obtain ⟨c0, hc0, hc0a⟩ := hptr
  have hb0 := g.bounds c0 hc0
  have hpre : ∀ b, ((m.write (ptr + oIndex) (computeTreeIndex size)).write (ptr + oChild + 8) 0).write
      (ptr + oChild) 0 b =
        if b = ptr + oChild then 0 else if b = ptr + oChild + 8 then 0
        else if b = ptr + oIndex then computeTreeIndex size else m b := by
    intro b; simp only [Mem.write]
  have hprea : ((m.write (ptr + oIndex) (computeTreeIndex size)).write (ptr + oChild + 8) 0).write
      (ptr + oChild) 0 a = m a := by
    rw [hpre]
    simp only [oChild, oIndex]
    rw [if_neg (by omega), if_neg (by omega), if_neg (by omega)]
  unfold insertLargeChunk at h
  simp only [] at h
  split at h
  · simp only [Option.some.injEq] at h
    subst h
    unfold markTreeMap
    have h4 : a ≠ treeBinAt msp (computeTreeIndex size) := fun he => ha (he ▸ largeCell_slot _ hlt)
    have h5 : a ≠ msp + oTreeMap := fun he => ha (he ▸ largeCell_map)
    rw [Mem.write_ne _ _ _ _ (by simp only [oBk]; omega), Mem.write_ne _ _ _ _ (by simp only [oFd]; omega),
      Mem.write_ne _ _ _ _ (by simp only [oParent]; omega),
      Mem.write_ne _ _ _ _ h4, Mem.write_ne _ _ _ _ h5, hprea]
  · rename_i hmarked
    have hslot : ((m.write (ptr + oIndex) (computeTreeIndex size)).write (ptr + oChild + 8) 0).write
        (ptr + oChild) 0 (treeBinAt msp (computeTreeIndex size)) =
          m (treeBinAt msp (computeTreeIndex size)) := by
      rw [hpre]
      simp only [oChild, oIndex, treeBinAt, oTreeBins]
      rw [if_neg (by omega), if_neg (by omega), if_neg (by omega)]
    have hmap : isTreeMapMarked (((m.write (ptr + oIndex) (computeTreeIndex size)).write
        (ptr + oChild + 8) 0).write (ptr + oChild) 0) msp (computeTreeIndex size) =
          isTreeMapMarked m msp (computeTreeIndex size) := by
      apply isTreeMapMarked_congr
      rw [hpre]
      simp only [oChild, oIndex, oTreeMap]
      rw [if_neg (by omega), if_neg (by omega), if_neg (by omega)]
    rw [hmap] at hmarked
    rw [hslot] at h
    have hm : isTreeMapMarked m msp (computeTreeIndex size) = true := by
      simpa using hmarked
    have hroot : LargeObj dv cs (m (treeBinAt msp (computeTreeIndex size))) :=
      ((hR _ hlt).1).resolve_left ((hR _ hlt).2 hm)
    have hinv : LoopInv (((m.write (ptr + oIndex) (computeTreeIndex size)).write
        (ptr + oChild + 8) 0).write (ptr + oChild) 0) dv cs size := by
      intro y hy
      obtain ⟨h1, _, h3, h4, _⟩ := hN y hy
      obtain ⟨cy, hcy, hcya, _, hcys, _⟩ := hy.large_cases
      have hby := g.bounds cy hcy
      have hdis : y = ptr ∨ y + 256 ≤ ptr ∨ ptr + 32 ≤ y := by
        rcases g.disjoint cy c0 hcy hc0 with he | hlt | hlt
        · left; rw [← hcya, ← hc0a, he]
        · right; left; omega
        · right; right; omega
      refine ⟨?_, ?_, ?_⟩
      · rw [hpre]
        simp only [oChild, oIndex] at h3 ⊢
        split
        · exact Or.inl rfl
        · rw [if_neg (by omega), if_neg (by omega)]; exact h3
      · rw [hpre]
        simp only [oChild, oIndex] at h4 ⊢
        rw [if_neg (by omega)]
        split
        · exact Or.inl rfl
        · rw [if_neg (by omega)]; exact h4
      · intro hcs
        rw [hpre]
        simp only [oChild, oIndex, oFd] at h1 ⊢
        rw [if_neg (by omega), if_neg (by omega)]
        split
        · rename_i he
          exfalso
          have hy40 : y = ptr + 40 := by omega
          subst hy40
          apply hH hy
          rw [← hcs]
          unfold chunkSize
          rw [hpre]
          simp only [oChild, oIndex, oHead]
          rw [if_neg (by omega), if_neg (by omega), if_neg (by omega)]
        · exact h1
    have := @insertLargeLoop_frame msp dv cs ptr size fuel _ _ _ m2 hinv hroot h a ha
      (by simp only [oFd]; omega) (by simp only [oBk]; omega) (by simp only [oParent]; omega)
    rw [this, hprea]

/-- Without tree-bin members `insertLargeChunk` finds the bin empty and returns. -/
theorem insertLargeChunk_isSome (g : Geometry msp start cs) {m : Mem}
    (hR : RootsOK m msp dv cs) (ptr size : Nat) (hptr : ∃ c ∈ cs, c.addr = ptr)
    (hnone : ∀ x, ¬ LargeObj dv cs x) (fuel : Nat) :
    ∃ m2, insertLargeChunk fuel m msp ptr size = some m2 := by
  have hlt := computeTreeIndex_lt size
  have h32 : kNumTreeBins = 32 := rfl
  obtain ⟨c0, hc0, hc0a⟩ := hptr
  have hb0 := g.bounds c0 hc0
  have hnot : isTreeMapMarked m msp (computeTreeIndex size) = false := by
    by_contra hc
    have hm : isTreeMapMarked m msp (computeTreeIndex size) = true := by simpa using hc
    exact hnone _ (((hR _ hlt).1).resolve_left ((hR _ hlt).2 hm))
  have hmap : isTreeMapMarked (((m.write (ptr + oIndex) (computeTreeIndex size)).write
      (ptr + oChild + 8) 0).write (ptr + oChild) 0) msp (computeTreeIndex size) =
        isTreeMapMarked m msp (computeTreeIndex size) := by
    apply isTreeMapMarked_congr
    simp only [Mem.write, oChild, oIndex, oTreeMap]
    rw [if_neg (by omega), if_neg (by omega), if_neg (by omega)]
  unfold insertLargeChunk
  simp only []
  rw [hmap, hnot]
  exact ⟨_, rfl⟩

end

section

variable {msp start dv : Nat} {cs : List Chunk}

theorem isSmall_iff (size : Nat) : isSmall size = true ↔ size < 256 := by
  unfold isSmall
  simp only [decide_eq_true_eq, kSmallBinShift, kNumSmallBins, Nat.shiftRight_eq_div_pow]
  omega

theorem Closed.closed_congr (g : Geometry msp start cs) {m m2 : Mem} (h : Closed m msp dv cs)
    (heq : ∀ a, Interior msp cs a → m2 a = m a) : Closed m2 msp dv cs :=
  ⟨smallClosed_congr g h.small fun a ha _ => heq a (smallCell_interior g ha),
    @nodesOK_congr msp dv cs _ _ h.nodes (fun a ha => heq a (largeCell_interior g ha)),
    rootsOK_congr h.roots (fun i hi => heq _ (largeCell_interior g (@largeCell_slot msp dv cs i hi)))
      (heq _ (largeCell_interior g (@largeCell_map msp dv cs)))⟩

theorem ParentOK.parent_congr {m m2 : Mem} (hN : NodesOK m dv cs) {y : Nat}
    (hy : LargeObj dv cs y) (h : ParentOK m msp dv cs y)
    (heq : ∀ a, LargeCell msp dv cs a → m2 a = m a) : ParentOK m2 msp dv cs y := by
  refine parentOK_congr h (heq _ (largeCell_parent hy)) (heq _ (largeCell_index hy)) fun hs => ?_
  rw [heq _ (largeCell_slot _ (hN y hy).2.2.2.2.1)]; exact hs

/-- `unlinkChunk` of a free chunk that sits in a bin changes the interior only and keeps
the bins closed; it returns when the chunk is small. -/
theorem unlinkChunk_spec (g : Geometry msp start cs) {m : Mem} (hC : Closed m msp dv cs)
    (c : Chunk) (hc : c ∈ cs) (hfree : c.inuse = false) (hdv : c.addr ≠ dv)
    (hpar : kMinLargeSize ≤ c.size → ParentOK m msp dv cs c.addr) (fuel : Nat) :
    (∀ m2, unlinkChunk fuel m msp c.addr c.size = some m2 →
      (∀ a, ¬ Interior msp cs a → m2 a = m a) ∧ Closed m2 msp dv cs ∧
      (∀ y, LargeObj dv cs y → y ≠ c.addr → ParentOK m msp dv cs y → ParentOK m2 msp dv cs y)) ∧
    (c.size < kMinLargeSize → ∃ m2, unlinkChunk fuel m msp c.addr c.size = some m2) := by
  have h256 : kMinLargeSize = 256 := rfl
  by_cases hs : c.size < 256
  · have hsm : isSmall c.size = true := (isSmall_iff _).2 hs
    have hobj : SmallObj msp dv cs c.addr := Or.inr ⟨c, hc, rfl, hfree, by omega, hdv⟩
    obtain ⟨hfr, hcl⟩ := unlinkSmallChunk_spec g hC.small hobj c.size
    have hlarge : ∀ a, LargeCell msp dv cs a → unlinkSmallChunk m msp c.addr c.size a = m a :=
      fun a ha => hfr a fun hsc => smallCell_not_largeCell g hsc ha
    refine ⟨fun m2 h => ?_, fun _ => ⟨_, by unfold unlinkChunk; rw [if_pos hsm]⟩⟩
    unfold unlinkChunk at h
    rw [if_pos hsm] at h
    simp only [Option.some.injEq] at h
    subst h
    refine ⟨fun a ha => hfr a fun hsc => ha (smallCell_interior g hsc), ⟨hcl, ?_, ?_⟩, ?_⟩
    · exact @nodesOK_congr msp _ cs _ _ hC.nodes hlarge
    · exact rootsOK_congr hC.roots (fun i hi => hlarge _ (largeCell_slot i hi)) (hlarge _ largeCell_map)
    · intro y hy _ hp
      exact ParentOK.parent_congr hC.nodes hy hp hlarge
  · have hsm : ¬ isSmall c.size = true := fun h => hs ((isSmall_iff _).1 h)
    have hobj : LargeObj dv cs c.addr := ⟨c, hc, rfl, hfree, by omega, hdv⟩
    refine ⟨fun m2 h => ?_, fun h => absurd (h256 ▸ h) hs⟩
    unfold unlinkChunk at h
    rw [if_neg hsm] at h
    have hg := unlinkLargeChunk_spec g hC.nodes hC.roots hobj (hpar (by omega)) fuel m2 h
    refine ⟨fun a ha => hg.frame a fun hlc => ha (largeCell_interior g hlc),
      ⟨?_, hg.nodes, hg.roots⟩, hg.parents⟩
    exact smallClosed_congr g hC.small fun a ha _ =>
      hg.frame a (smallCell_not_largeCell g ha)

/-- `insertChunk` writes the interior and the links of the chunk it inserts; it returns
when no chunk sits in a tree bin. -/
theorem insertChunk_frame (g : Geometry msp start cs) {m : Mem} (hC : Closed m msp dv cs)
    (ptr size : Nat) (hptr : ∃ c ∈ cs, c.addr = ptr) (hsize : 32 ≤ size)
    (hH : LargeObj dv cs (ptr + 40) → chunkSize m (ptr + 40) ≠ size) (fuel : Nat) :
    (∀ m2, insertChunk fuel m msp ptr size = some m2 →
      ∀ a, ¬ Interior msp cs a → (a < ptr + 16 ∨ ptr + size ≤ a) → m2 a = m a) ∧
    ((∀ x, ¬ LargeObj dv cs x) → ∃ m2, insertChunk fuel m msp ptr size = some m2) := by
  by_cases hs : size < 256
  · have hsm : isSmall size = true := (isSmall_iff _).2 hs
    refine ⟨fun m2 h a ha hr => ?_, fun _ => ⟨_, by unfold insertChunk; rw [if_pos hsm]⟩⟩
    unfold insertChunk at h
    rw [if_pos hsm] at h
    simp only [Option.some.injEq] at h
    subst h
    exact insertSmallChunk_frame g hC.small ptr size hsm a
      (fun hsc => ha (smallCell_interior g hsc)) (by simp only [oFd]; omega) (by simp only [oBk]; omega)
  · have hsm : ¬ isSmall size = true := fun h => hs ((isSmall_iff _).1 h)
    refine ⟨fun m2 h a ha hr => ?_, fun hnone => ?_⟩
    · unfold insertChunk at h
      rw [if_neg hsm] at h
      exact insertLargeChunk_frame g hC.nodes hC.roots ptr size hptr hH fuel m2 h a
        (fun hlc => ha (largeCell_interior g hlc)) (by omega)
    · unfold insertChunk
      rw [if_neg hsm]
      exact insertLargeChunk_isSome g hC.roots ptr size hptr hnone fuel

end

/-! ## The chunk walk after `free` -/

/-- No boundary tag lies in the interior: not the end of a chunk (where its footer is
stored). -/
theorem not_interior_foot {msp start : Nat} {cs : List Chunk} (g : Geometry msp start cs)
    (c : Chunk) (hc : c ∈ cs) : ¬ Interior msp cs (c.addr + c.size) := by
  have hcb := g.bounds c hc
  rintro (⟨d, hd, _, h1, h2⟩ | h | h | h)
  · have hdb := g.bounds d hd
    simp only [oFd] at h1 h2
    rcases g.disjoint c d hc hd with heq | hlt | hlt
    · subst heq; omega
    · omega
    · omega
  · simp only [oSmallBins, oLeastAddr] at h; omega
  · simp only [oSmallMap] at h; omega
  · simp only [oTreeMap] at h; omega

theorem memoryToChunk_msp (msp : Nat) (h16 : kChunkOverhead ≤ msp) (hlt : msp < 2 ^ 64) :
    memoryToChunk msp + oHead = msp - 8 := by
  have h : kChunkOverhead = 16 := rfl
  rw [h] at h16
  unfold memoryToChunk sub64
  rw [h, Nat.mod_eq_of_lt hlt]
  simp only [oHead]
  have : (msp + (2 ^ 64 - 16 % 2 ^ 64)) % 2 ^ 64 = msp - 16 := by
    have e : msp + (2 ^ 64 - 16 % 2 ^ 64) = (msp - 16) + 2 ^ 64 := by omega
    rw [e, Nat.add_mod_right, Nat.mod_eq_of_lt (by omega)]
  rw [this]; omega

theorem firstChunk_congr {m m2 : Mem} {msp : Nat}
    (h : m2 (memoryToChunk msp + oHead) = m (memoryToChunk msp + oHead)) :
    firstChunk m2 msp = firstChunk m msp := by
  unfold firstChunk nextChunk
  rw [h]

theorem segOK_split (m : Mem) (pin : Bool) (a : Nat) (l : List Chunk) (c : Chunk) (r : List Chunk) :
    SegOK m pin a (l ++ c :: r) ↔
      SegOK m pin a l ∧ c.addr = endAddr a l ∧ kMinChunkSize ≤ c.size ∧ c.size % 8 = 0 ∧
        m (c.addr + oHead) = (c.size ||| pinBit (lastInuse pin l)) ||| cinBit c.inuse ∧
        (c.inuse = false → m (c.addr + c.size) = c.size) ∧
        SegOK m c.inuse (c.addr + c.size) r := by
  rw [segOK_append, segOK_cons]
  constructor
  · rintro ⟨h0, h1, h2, h3, h4, h5, h6⟩
    rw [← h1] at h4 h5 h6
    exact ⟨h0, h1, h2, h3, h4, fun hf => by simpa [oPrevFoot] using h5 hf, h6⟩
  · rintro ⟨h0, h1, h2, h3, h4, h5, h6⟩
    rw [h1] at h4 h5 h6
    exact ⟨h0, h1, h2, h3, h4, fun hf => by simpa [oPrevFoot] using h5 hf, h6⟩

/-- The walk after a block of chunks has become one free chunk that is followed by a
chunk in use. -/
theorem walk_merged {m m2 : Mem} {msp : Nat} {cs Lp M R : List Chunk} {r : Chunk} {psz : Nat}
    (hcs : cs = Lp ++ M ++ r :: R) (hw : IsWalk m msp cs)
    (g : Geometry msp (firstChunk m msp) cs) (hlt : msp < 2 ^ 64)
    (hna : NoAdjFree cs) (hr1 : r.inuse = true)
    (hlp : lastInuse true Lp = true)
    (hend : endAddr (endAddr (firstChunk m msp) Lp) M = endAddr (firstChunk m msp) Lp + psz)
    (h32 : 32 ≤ psz) (h8 : psz % 8 = 0)
    (f1 : m2 (endAddr (firstChunk m msp) Lp + oHead) = psz ||| kPinuseBit)
    (f2 : m2 (endAddr (firstChunk m msp) Lp + psz) = psz)
    (f3 : m2 (endAddr (firstChunk m msp) Lp + psz + oHead) =
      (r.size ||| pinBit false) ||| cinBit true)
    (f4 : ∀ a, ¬ Interior msp cs a →
      (a < endAddr (firstChunk m msp) Lp + 8 ∨ endAddr (firstChunk m msp) Lp + psz + 16 ≤ a) →
      a ≠ msp + oDv → a ≠ msp + oDvSize → m2 a = m a) :
    IsWalk m2 msp (Lp ++ ⟨endAddr (firstChunk m msp) Lp, psz, false⟩ :: r :: R) ∧
      NoAdjFree (Lp ++ ⟨endAddr (firstChunk m msp) Lp, psz, false⟩ :: r :: R) := by
  subst hcs
  obtain ⟨hseg, htop, hhead⟩ := hw
  have hb := g.below
  have h968 : kSizeofMemorySpace = 968 := rfl
  have h16 : 16 ≤ msp := g.above
  have hfirst : firstChunk m2 msp = firstChunk m msp := by
    apply firstChunk_congr
    have hF := endAddr_le (firstChunk m msp) Lp
    rw [memoryToChunk_msp msp g.above hlt]
    exact f4 _ (not_interior_field g _ (Or.inl (by omega)))
      (Or.inl (by omega)) (by simp only [oDv]; omega) (by simp only [oDvSize]; omega)
  generalize hF : firstChunk m msp = F at *
  generalize hP : endAddr F Lp = ptr at *
  rw [List.append_assoc, segOK_append] at hseg
  obtain ⟨hsL, hsMR⟩ := hseg
  rw [segOK_append] at hsMR
  obtain ⟨hsM, hsR⟩ := hsMR
  rw [hP, hend, segOK_cons] at hsR
  obtain ⟨hr1a, hr1s, hr18, hr1h, _, hsR'⟩ := hsR
  have hLe := endAddr_le F Lp
  have hmemL : ∀ c ∈ Lp, c ∈ Lp ++ M ++ r :: R := fun c hc => by simp [hc]
  have hmemR : ∀ c ∈ R, c ∈ Lp ++ M ++ r :: R := fun c hc => by simp [hc]
  have hmin : kMinChunkSize = 32 := rfl
  -- tags of the chunks before the block
  have hsL2 : SegOK m2 true F Lp := by
    refine segOK_frame m m2 true F Lp hsL fun c hc => ?_
    have hcb := segOK_mem_bounds m true F Lp hsL c hc
    have hgb := g.bounds c (hmemL c hc)
    rw [hP] at hcb
    refine ⟨f4 _ (not_interior_head g c (hmemL c hc)) (Or.inl (by simp only [oHead]; omega))
      (by simp only [oDv, oHead]; omega) (by simp only [oDvSize, oHead]; omega), fun _ => ?_⟩
    exact f4 _ (not_interior_foot g c (hmemL c hc)) (Or.inl (by omega))
      (by simp only [oDv]; omega) (by simp only [oDvSize]; omega)
  -- tags of the chunks after the block
  have hsR2 : SegOK m2 r.inuse (ptr + psz + r.size) R := by
    refine segOK_frame m m2 _ _ R hsR' fun c hc => ?_
    have hcb := segOK_mem_bounds m _ _ R hsR' c hc
    have hgb := g.bounds c (hmemR c hc)
    refine ⟨f4 _ (not_interior_head g c (hmemR c hc)) (Or.inr (by simp only [oHead]; omega))
      (by simp only [oDv, oHead]; omega) (by simp only [oDvSize, oHead]; omega), fun _ => ?_⟩
    exact f4 _ (not_interior_foot g c (hmemR c hc)) (Or.inr (by omega))
      (by simp only [oDv]; omega) (by simp only [oDvSize]; omega)
  have hend2 : endAddr F (Lp ++ M ++ r :: R) = endAddr (ptr + psz + r.size) R := by
    rw [List.append_assoc, endAddr_append, endAddr_append, hP, hend]; rfl
  have hend3 : endAddr F (Lp ++ ⟨ptr, psz, false⟩ :: r :: R) = endAddr (ptr + psz + r.size) R := by
    rw [endAddr_append, hP]; rfl
  have hlast2 : lastInuse true (Lp ++ M ++ r :: R) = lastInuse r.inuse R := by
    rw [List.append_assoc, lastInuse_append, lastInuse_append]; rfl
  have hlast3 : lastInuse true (Lp ++ ⟨ptr, psz, false⟩ :: r :: R) = lastInuse r.inuse R := by
    rw [lastInuse_append]; rfl
  have hRle := endAddr_le (ptr + psz + r.size) R
  have htop2 : m2 (msp + oTop) = m (msp + oTop) :=
    f4 _ (not_interior_field g _ (Or.inr (Or.inl (by simp [oTop, oDv, oSmallBins]))))
      (Or.inl (by simp only [oTop]; omega)) (by simp [oTop, oDv]) (by simp [oTop, oDvSize])
  have htopsize2 : m2 (msp + oTopSize) = m (msp + oTopSize) :=
    f4 _ (not_interior_field g _ (Or.inr (Or.inl (by simp [oTopSize, oDv, oSmallBins]))))
      (Or.inl (by simp only [oTopSize]; omega)) (by simp [oTopSize, oDv]) (by simp [oTopSize, oDvSize])
  rw [hend2] at htop
  have htophead2 : m2 (m (msp + oTop) + oHead) = m (m (msp + oTop) + oHead) := by
    refine f4 _ (not_interior_end g _ ?_) (Or.inr ?_) ?_ ?_
    · rw [hend2, ← htop]; simp only [oHead]; omega
    · rw [← htop]; simp only [oHead]; omega
    · rw [← htop]; simp only [oHead, oDv]; omega
    · rw [← htop]; simp only [oHead, oDvSize]; omega
  refine ⟨⟨?_, ?_, ?_⟩, ?_, ?_⟩
  · rw [hfirst, segOK_split]
    refine ⟨hsL2, hP.symm, by simp only [hmin]; omega, h8, ?_, fun _ => f2, ?_⟩
    · rw [hlp]
      simp only [pinBit, cinBit, if_true, Bool.false_eq_true, if_false, Nat.or_zero]
      exact f1
    · rw [segOK_cons]
      exact ⟨hr1a, hr1s, hr18, f3.trans (by rw [hr1]), fun h => absurd hr1 (by simp [h]), hsR2⟩
  · rw [hfirst, hend3, htop2, htop]
  · rw [htop2, htophead2, htopsize2, hhead, hlast2, hlast3]
  · obtain ⟨hadj, _⟩ := hna
    rw [List.append_assoc, adjOK_append, adjOK_append, adjOK_cons] at hadj
    rw [adjOK_append, adjOK_cons, adjOK_cons]
    exact ⟨hadj.1, Or.inl hlp, Or.inr hr1, hadj.2.2.2⟩
  · rw [hlast3, ← hlast2]; exact hna.2

/-- The walk after a block of chunks at the end of the segment has become part of
`top`. -/
theorem walk_top {m m2 : Mem} {msp : Nat} {cs Lp M : List Chunk}
    (hcs : cs = Lp ++ M) (hw : IsWalk m msp cs)
    (g : Geometry msp (firstChunk m msp) cs) (hlt : msp < 2 ^ 64)
    (hna : NoAdjFree cs) (hlp : lastInuse true Lp = true)
    (f1 : m2 (msp + oTop) = endAddr (firstChunk m msp) Lp)
    (f2 : m2 (endAddr (firstChunk m msp) Lp + oHead) = m2 (msp + oTopSize) ||| kPinuseBit)
    (f4 : ∀ a, ¬ Interior msp cs a → a < endAddr (firstChunk m msp) Lp + 8 →
      (a < msp ∨ msp + kSizeofMemorySpace ≤ a) → m2 a = m a) :
    IsWalk m2 msp Lp ∧ NoAdjFree Lp := by
  subst hcs
  obtain ⟨hseg, htop, hhead⟩ := hw
  have hb := g.below
  have h968 : kSizeofMemorySpace = 968 := rfl
  have h16 : 16 ≤ msp := g.above
  have hfirst : firstChunk m2 msp = firstChunk m msp := by
    apply firstChunk_congr
    have hF := endAddr_le (firstChunk m msp) Lp
    rw [memoryToChunk_msp msp g.above hlt]
    exact f4 _ (not_interior_field g _ (Or.inl (by omega)))
      (by omega) (Or.inl (by omega))
  generalize hF : firstChunk m msp = F at *
  generalize hP : endAddr F Lp = ptr at *
  rw [segOK_append] at hseg
  obtain ⟨hsL, _⟩ := hseg
  have hmemL : ∀ c ∈ Lp, c ∈ Lp ++ M := fun c hc => by simp [hc]
  have hsL2 : SegOK m2 true F Lp := by
    refine segOK_frame m m2 true F Lp hsL fun c hc => ?_
    have hcb := segOK_mem_bounds m true F Lp hsL c hc
    have hgb := g.bounds c (hmemL c hc)
    rw [hP] at hcb
    refine ⟨f4 _ (not_interior_head g c (hmemL c hc)) (by simp only [oHead]; omega)
      (Or.inr (by simp only [oHead]; omega)), fun _ => ?_⟩
    exact f4 _ (not_interior_foot g c (hmemL c hc)) (by omega)
      (Or.inr (by omega))
  refine ⟨⟨?_, ?_, ?_⟩, ?_, hlp⟩
  · rw [hfirst]; exact hsL2
  · rw [hfirst, hP, f1]
  · rw [f1, f2, hlp]; rfl
  · have := hna.1
    rw [adjOK_append] at this
    exact this.1

theorem chunk_unique {msp start : Nat} {cs : List Chunk} (g : Geometry msp start cs)
    {c d : Chunk} (hc : c ∈ cs) (hd : d ∈ cs) (h : c.addr = d.addr) : c = d := by
  have hcb := g.bounds c hc
  have hdb := g.bounds d hd
  rcases g.disjoint c d hc hd with he | hlt | hlt
  · exact he
  · omega
  · omega

theorem setFree_head (m : Mem) (ptr size : Nat) (hlt : ptr + size < 2 ^ 64) (hs : 8 < size) :
    setSizePinuseOfFreeChunk m ptr size (ptr + oHead) = size ||| kPinuseBit := by
  unfold setSizePinuseOfFreeChunk u64
  rw [Nat.mod_eq_of_lt hlt, Mem.write_ne _ _ _ _ (by simp only [oHead, oPrevFoot]; omega),
    Mem.write_same]

theorem setFree_foot (m : Mem) (ptr size : Nat) (hlt : ptr + size < 2 ^ 64) :
    setSizePinuseOfFreeChunk m ptr size (ptr + size) = size := by
  unfold setSizePinuseOfFreeChunk u64
  rw [Nat.mod_eq_of_lt hlt]
  exact Mem.write_same _ _ _

theorem setFree_other (m : Mem) (ptr size a : Nat) (hlt : ptr + size < 2 ^ 64)
    (h1 : a ≠ ptr + oHead) (h2 : a ≠ ptr + size) :
    setSizePinuseOfFreeChunk m ptr size a = m a := by
  unfold setSizePinuseOfFreeChunk u64
  rw [Nat.mod_eq_of_lt hlt, Mem.write_ne _ _ _ _ (by simpa [oPrevFoot] using h2),
    Mem.write_ne _ _ _ _ h1]

/-- A free chunk of a coalesced walk is followed by a chunk in use. -/
theorem noAdj_after_free {A R : List Chunk} {n : Chunk} (h : NoAdjFree (A ++ n :: R))
    (hn : n.inuse = false) : ∃ r R2, R = r :: R2 ∧ r.inuse = true := by
  obtain ⟨hadj, hlast⟩ := h
  rw [adjOK_append, adjOK_cons] at hadj
  rw [lastInuse_append] at hlast
  cases R with
  | nil => simp [lastInuse, hn] at hlast
  | cons r R2 =>
    refine ⟨r, R2, rfl, ?_⟩
    have := hadj.2.2
    rw [adjOK_cons, hn] at this
    simpa using this.1

/-- A free chunk of a coalesced walk follows a chunk in use. -/
theorem noAdj_before_free {A R : List Chunk} {q : Chunk} (h : NoAdjFree (A ++ q :: R))
    (hq : q.inuse = false) : lastInuse true A = true := by
  obtain ⟨hadj, _⟩ := h
  rw [adjOK_append, adjOK_cons, hq] at hadj
  simpa using hadj.2.1

theorem lastInuse_false {pin : Bool} {L : List Chunk} (h : lastInuse pin L = false) :
    (L = [] ∧ pin = false) ∨ ∃ L2 q, L = L2 ++ [q] ∧ q.inuse = false := by
  rcases List.eq_nil_or_concat L with rfl | ⟨L2, q, hL⟩
  · exact Or.inl ⟨rfl, h⟩
  · right
    rw [List.concat_eq_append] at hL
    subst hL
    refine ⟨L2, q, rfl, ?_⟩
    rw [lastInuse_append] at h
    exact h

theorem WellFormed.geometry {m : Mem} {msp : Nat} {cs : List Chunk} (h : WellFormed m msp cs) :
    Geometry msp (firstChunk m msp) cs :=
  ⟨⟨m, true, h.1.1⟩, h.2.1.2.1, h.2.1.1⟩

theorem WellFormed.msp_lt {m : Mem} {msp : Nat} {cs : List Chunk} (h : WellFormed m msp cs) :
    msp < 2 ^ 64 := by
  obtain ⟨⟨_, htop, _⟩, ⟨_, hb, _, hlt, _⟩, _⟩ := h
  have := endAddr_le (firstChunk m msp) cs
  omega

theorem WellFormed.closed {m : Mem} {msp : Nat} {cs : List Chunk} (h : WellFormed m msp cs) :
    Closed m msp (m (msp + oDv)) cs := by
  obtain ⟨_, _, hs, ht⟩ := h
  refine ⟨?_, ?_, ht.1⟩
  · rintro x (⟨i, hi, rfl⟩ | ⟨c, hc, rfl, h2, h3, h4⟩)
    · exact ⟨(hs.1 i hi).1, (hs.1 i hi).2.1⟩
    · exact ⟨(hs.2 c hc h2 h3 h4).1, (hs.2 c hc h2 h3 h4).2.1⟩
  · rintro x ⟨c, hc, rfl, h2, h3, h4⟩
    obtain ⟨a1, a2, a3, a4, a5, _, a7, a8, a9, a10, a11⟩ := ht.2 c hc h2 h3 h4
    exact ⟨a1, a2, a3, a4, a5, a7, a8, a9, a10, a11⟩

theorem WellFormed.parents {m : Mem} {msp : Nat} {cs : List Chunk} (h : WellFormed m msp cs)
    (y : Nat) (hy : LargeObj (m (msp + oDv)) cs y) : ParentOK m msp (m (msp + oDv)) cs y := by
  obtain ⟨c, hc, rfl, h2, h3, h4⟩ := hy
  exact (h.2.2.2.2 c hc h2 h3 h4).2.2.2.2.2.1

/-- Where a chunk of a walk `Lp ++ M ++ R` lies relative to the block `M`. -/
theorem mem_block {m : Mem} {pin : Bool} {F : Nat} {Lp M R : List Chunk}
    (hseg : SegOK m pin F (Lp ++ M ++ R)) (c : Chunk) (hc : c ∈ Lp ++ M ++ R) :
    (c ∈ Lp ∧ c.addr + c.size ≤ endAddr F Lp) ∨ c ∈ M ∨
      (c ∈ R ∧ endAddr (endAddr F Lp) M ≤ c.addr) := by
  rw [List.append_assoc, segOK_append, segOK_append] at hseg
  obtain ⟨hL, _, hR⟩ := hseg
  rw [List.append_assoc, List.mem_append, List.mem_append] at hc
  rcases hc with h | h | h
  · exact Or.inl ⟨h, (segOK_mem_bounds m _ _ _ hL c h).2.1⟩
  · exact Or.inr (Or.inl h)
  · exact Or.inr (Or.inr ⟨h, (segOK_mem_bounds m _ _ _ hR c h).1⟩)

theorem segOK_endAddr_mod (m : Mem) (pin : Bool) (a : Nat) (cs : List Chunk)
    (h : SegOK m pin a cs) : endAddr a cs % 8 = a % 8 := by
  induction cs generalizing pin a with
  | nil => rfl
  | cons c cs ih =>
    rw [segOK_cons] at h
    obtain ⟨_, _, h3, _, _, h6⟩ := h
    simp only [endAddr]
    rw [ih _ _ h6]; omega

/-- What the branch of `free` that merges into `top` writes. -/
theorem freeIntoTop_spec (mA : Mem) (msp ptr psz : Nat) (hptr : msp + kSizeofMemorySpace ≤ ptr) :
    (freeIntoTop mA msp ptr psz).2 (msp + oTop) = ptr ∧
    (freeIntoTop mA msp ptr psz).2 (msp + oTopSize) = u64 (mA (msp + oTopSize) + psz) ∧
    (freeIntoTop mA msp ptr psz).2 (ptr + oHead) = u64 (mA (msp + oTopSize) + psz) ||| kPinuseBit ∧
    ∀ a, a ≠ ptr + oHead → (a < msp ∨ msp + kSizeofMemorySpace ≤ a) →
      (freeIntoTop mA msp ptr psz).2 a = mA a := by
  have h968 : kSizeofMemorySpace = 968 := rfl
  unfold freeIntoTop
  simp only [oTop, oTopSize, oHead, oDv, oDvSize, oCurrPageIndex, oLeastAddr, oPageSize]
  refine ⟨?_, ?_, ?_, ?_⟩
  · split_ifs <;> simp only [Mem.write] <;> (repeat rw [if_neg (by omega)]) <;> simp
  · split_ifs <;> simp only [Mem.write] <;> (repeat rw [if_neg (by omega)]) <;> simp
  · split_ifs <;> simp only [Mem.write] <;> (repeat rw [if_neg (by omega)]) <;> simp
  · intro a h1 h2
    split_ifs <;> simp only [Mem.write] <;> (repeat rw [if_neg (by omega)])

/-- A run of chunks ends where it starts only when it is empty. -/
theorem endAddr_eq_iff (m : Mem) (pin : Bool) (a : Nat) (cs : List Chunk)
    (h : SegOK m pin a cs) : endAddr a cs = a ↔ cs = [] := by
  cases cs with
  | nil => exact ⟨fun _ => rfl, fun _ => rfl⟩
  | cons c cs =>
    rw [segOK_cons] at h
    have hle := endAddr_le (a + c.size) cs
    have hmin : kMinChunkSize = 32 := rfl
    simp only [endAddr]
    constructor
    · intro e
      omega
    · intro e
      cases e

/-- In a walk, `top` starts at the first chunk position exactly when no chunk lies
below it. -/
theorem IsWalk.top_eq_iff {m : Mem} {msp : Nat} {cs : List Chunk} (h : IsWalk m msp cs) :
    m (msp + oTop) = firstChunk m msp ↔ cs = [] := by
  rw [← h.2.1]
  exact endAddr_eq_iff m true _ cs h.1

theorem Occupied.coalesced {m : Mem} {msp : Nat} (h : Occupied m msp) : Coalesced m msp := by
  obtain ⟨cs, h1, h2, _⟩ := h
  exact ⟨cs, h1, h2⟩

theorem occupied_of_walk {m : Mem} {msp : Nat} {Lp rest : List Chunk} {c : Chunk}
    (h : IsWalk m msp (Lp ++ c :: rest) ∧ NoAdjFree (Lp ++ c :: rest)) : Occupied m msp :=
  ⟨_, h.1, h.2, by simp⟩

/-- A call of `free` that leaves a chunk below `top` and answers `false` has answered
as it should. -/
theorem Occupied.flag {m : Mem} {msp : Nat} (h : Occupied m msp) :
    Coalesced m msp ∧ (false = true ↔ m (msp + oTop) = firstChunk m msp) := by
  obtain ⟨cs, h1, h2, h3⟩ := h
  refine ⟨⟨cs, h1, h2⟩, ?_⟩
  rw [h1.top_eq_iff]
  constructor
  · intro e
    cases e
  · intro e
    exact absurd e h3

/-- The answer of the branch of `free` that merges into `top`: whether `top` now
starts at the first chunk position. -/
theorem freeIntoTop_flag (mA : Mem) (msp ptr psz : Nat) :
    ((freeIntoTop mA msp ptr psz).1 = true ↔
      (freeIntoTop mA msp ptr psz).2 (msp + oTop) = firstChunk (freeIntoTop mA msp ptr psz).2 msp) := by
  have e : (freeIntoTop mA msp ptr psz).1 =
      decide (firstChunk (freeIntoTop mA msp ptr psz).2 msp =
        (freeIntoTop mA msp ptr psz).2 (msp + oTop)) := rfl
  rw [e, decide_eq_true_iff]
  exact eq_comm

/-! ## `free`: forward consolidation -/

section

variable {m mA : Mem} {msp : Nat} {cs Lp M0 R : List Chunk} {psz : Nat}

theorem Mid.memM (h : Mid m mA msp cs Lp M0 R psz) (c : Chunk) (hc : c ∈ M0) : c ∈ cs := by
  rw [h.hcs]; simp [hc]

theorem Mid.memR (h : Mid m mA msp cs Lp M0 R psz) (c : Chunk) (hc : c ∈ R) : c ∈ cs := by
  rw [h.hcs]; simp [hc]

theorem Mid.facts (h : Mid m mA msp cs Lp M0 R psz) :
    msp + kSizeofMemorySpace ≤ endAddr (firstChunk m msp) Lp ∧ 32 ≤ psz ∧ psz % 8 = 0 ∧
      endAddr (firstChunk m msp) Lp + psz ≤ m (msp + oTop) ∧
      m (msp + oTop) + m (msp + oTopSize) < 2 ^ 64 ∧ m (msp + oTopSize) % 8 = 0 ∧
      SegOK m true (endAddr (firstChunk m msp) Lp + psz) R ∧
      endAddr (endAddr (firstChunk m msp) Lp + psz) R = m (msp + oTop) := by
  obtain ⟨⟨hseg, htop, _⟩, ⟨_, hb, hts8, hlt, _⟩, _⟩ := h.wf
  have hsize := h.size
  obtain ⟨c, hc, hca⟩ := h.hd
  rw [h.hcs] at hseg htop
  rw [List.append_assoc, segOK_append, segOK_append] at hseg
  rw [List.append_assoc, endAddr_append, endAddr_append] at htop
  obtain ⟨_, hsM, hsR⟩ := hseg
  rw [h.lp, h.last, hsize] at hsR
  rw [hsize] at htop
  have hcb := segOK_mem_bounds m _ _ _ hsM c hc
  have hmod := segOK_endAddr_mod m _ _ _ hsM
  have hL := endAddr_le (firstChunk m msp) Lp
  have hR := endAddr_le (endAddr (firstChunk m msp) Lp + psz) R
  rw [hsize] at hcb hmod
  refine ⟨by omega, by omega, by omega, by omega, hlt, hts8, hsR, htop⟩

/-- What follows the block: `top`, or a chunk whose head says that the chunk before it
is in use. -/
theorem Mid.next (h : Mid m mA msp cs Lp M0 R psz) :
    (R = [] ∧ endAddr (firstChunk m msp) Lp + psz = m (msp + oTop) ∧
      mA (endAddr (firstChunk m msp) Lp + psz + oHead) = m (msp + oTopSize) + 1) ∨
    (∃ r1 R2, R = r1 :: R2 ∧ r1 ∈ cs ∧ r1.addr = endAddr (firstChunk m msp) Lp + psz ∧
      32 ≤ r1.size ∧ r1.size % 8 = 0 ∧
      endAddr (firstChunk m msp) Lp + psz + r1.size ≤ m (msp + oTop) ∧
      mA (endAddr (firstChunk m msp) Lp + psz + oHead) = r1.size + 1 + cinBit r1.inuse) := by
  obtain ⟨_, _, _, _, _, hts8, hsR, htop⟩ := h.facts
  have g := h.wf.geometry
  have hmin : kMinChunkSize = 32 := rfl
  cases hR : R with
  | nil =>
    left
    rw [hR] at htop
    simp only [endAddr] at htop
    refine ⟨rfl, htop, ?_⟩
    rw [htop, h.frame _ (not_interior_end g _ (by rw [h.wf.1.2.1]; omega)), h.wf.1.2.2, h.na.2]
    have := head_or_one (m (msp + oTopSize)) 0 hts8 (by decide)
    simpa [pinBit, kPinuseBit] using this
  | cons r1 R2 =>
    right
    rw [hR] at hsR htop
    rw [segOK_cons] at hsR
    obtain ⟨h1, h2, h3, h4, _, h6⟩ := hsR
    have hmem : r1 ∈ cs := h.memR r1 (by rw [hR]; exact List.mem_cons_self _ _)
    have hle := endAddr_le (endAddr (firstChunk m msp) Lp + psz + r1.size) R2
    simp only [endAddr, h1] at htop
    refine ⟨r1, R2, rfl, hmem, h1, by omega, h3, by omega, ?_⟩
    have hh := h.frame _ (not_interior_head g r1 hmem)
    rw [h1] at hh
    rw [hh, h4, head_eq _ _ _ h3]
    simp [pinBit, kPinuseBit]

/-- The block lies at the end of the segment and is merged into `top`. -/
theorem free_top (h : Mid m mA msp cs Lp M0 [] psz) :
    Coalesced (freeIntoTop mA msp (endAddr (firstChunk m msp) Lp) psz).2 msp := by
  obtain ⟨hptr, _⟩ := h.facts
  obtain ⟨s1, s2, s3, s4⟩ := freeIntoTop_spec mA msp (endAddr (firstChunk m msp) Lp) psz hptr
  refine ⟨Lp, walk_top (M := M0) (by rw [h.hcs, List.append_nil]) h.wf.1 h.wf.geometry h.wf.msp_lt
    h.na h.lp s1 (by rw [s3, s2]) fun a ha hlt hr => ?_⟩
  rw [s4 a (by simp only [oHead]; omega) hr]
  exact h.frame a ha

end

/-- Inserting the merged block into a bin keeps the walk. -/
theorem insert_walk {m m2 : Mem} {msp dv : Nat} {cs Lp M R : List Chunk} {r : Chunk} {psz : Nat}
    (hcs : cs = Lp ++ M ++ r :: R) (hw : IsWalk m msp cs)
    (g : Geometry msp (firstChunk m msp) cs) (hlt : msp < 2 ^ 64)
    (hna : NoAdjFree cs) (hr1 : r.inuse = true)
    (hlp : lastInuse true Lp = true)
    (hend : endAddr (endAddr (firstChunk m msp) Lp) M = endAddr (firstChunk m msp) Lp + psz)
    (h32 : 32 ≤ psz) (h8 : psz % 8 = 0)
    (f1 : m2 (endAddr (firstChunk m msp) Lp + oHead) = psz ||| kPinuseBit)
    (f2 : m2 (endAddr (firstChunk m msp) Lp + psz) = psz)
    (f3 : m2 (endAddr (firstChunk m msp) Lp + psz + oHead) =
      (r.size ||| pinBit false) ||| cinBit true)
    (f4 : ∀ a, ¬ Interior msp cs a →
      (a < endAddr (firstChunk m msp) Lp + 8 ∨ endAddr (firstChunk m msp) Lp + psz + 16 ≤ a) →
      a ≠ msp + oDv → a ≠ msp + oDvSize → m2 a = m a)
    (hC : Closed m2 msp dv cs) (hptr : ∃ c ∈ cs, c.addr = endAddr (firstChunk m msp) Lp)
    (hH : LargeObj dv cs (endAddr (firstChunk m msp) Lp + 40) →
      chunkSize m2 (endAddr (firstChunk m msp) Lp + 40) ≠ psz) (fuel : Nat) :
    (∀ m3, insertChunk fuel m2 msp (endAddr (firstChunk m msp) Lp) psz = some m3 →
      Occupied m3 msp) ∧
    ((∀ x, ¬ LargeObj dv cs x) →
      ∃ m3, insertChunk fuel m2 msp (endAddr (firstChunk m msp) Lp) psz = some m3) := by
  obtain ⟨hfr, htot⟩ := insertChunk_frame g hC _ psz hptr h32 hH fuel
  refine ⟨fun m3 h3 => ?_, htot⟩
  have hfr3 := hfr m3 h3
  have hr1mem : r ∈ cs := by rw [hcs]; simp
  have hr1a : r.addr = endAddr (firstChunk m msp) Lp + psz := by
    have hseg := hw.1
    rw [hcs, segOK_split] at hseg
    rw [hseg.2.1, endAddr_append, hend]
  obtain ⟨c, hc, hca⟩ := hptr
  have n1 : ¬ Interior msp cs (endAddr (firstChunk m msp) Lp + oHead) := hca ▸ not_interior_head g c hc
  have n2 : ¬ Interior msp cs (endAddr (firstChunk m msp) Lp + psz) := hr1a ▸ not_interior_start g r hr1mem
  have n3 : ¬ Interior msp cs (endAddr (firstChunk m msp) Lp + psz + oHead) :=
    hr1a ▸ not_interior_head g r hr1mem
  refine occupied_of_walk (walk_merged hcs hw g hlt hna hr1 hlp hend h32 h8 ?_ ?_ ?_ ?_)
  · rw [hfr3 _ n1 (Or.inl (by simp only [oHead]; omega))]; exact f1
  · rw [hfr3 _ n2 (Or.inr (by omega))]; exact f2
  · rw [hfr3 _ n3 (Or.inr (by omega))]; exact f3
  · intro a ha hr hd1 hd2
    rw [hfr3 a ha (by omega)]
    exact f4 a ha hr hd1 hd2

section

variable {m mA : Mem} {msp : Nat} {cs Lp M0 R : List Chunk} {psz : Nat}

/-- No tree-bin member starts 40 bytes into a block that is followed by a chunk in
use. -/
theorem Mid.no_obj40 {r1 : Chunk} {R2 : List Chunk} (h : Mid m mA msp cs Lp M0 (r1 :: R2) psz)
    (hr1 : r1.inuse = true) (dv : Nat) :
    ¬ LargeObj dv cs (endAddr (firstChunk m msp) Lp + 40) := by
  rintro ⟨cy, hcy, hcya, hfree, _, _⟩
  obtain ⟨_, h32, _, _, _, _, hsR, _⟩ := h.facts
  have g := h.wf.geometry
  have hseg := h.wf.1.1
  have hcy2 := hcy
  rw [h.hcs] at hseg hcy2
  have hsize := h.size
  have hr1m : r1 ∈ cs := h.memR r1 (List.mem_cons_self _ _)
  rw [segOK_cons] at hsR
  have hb1 := g.bounds r1 hr1m
  have hby := g.bounds cy hcy
  rcases mem_block hseg cy hcy2 with ⟨_, hle⟩ | hM | ⟨hR, hle⟩
  · omega
  · have := h.mfree cy hM hfree
    omega
  · rw [hsize] at hle
    rcases g.disjoint cy r1 hcy hr1m with he | hd | hd
    · rw [he, hr1] at hfree; cases hfree
    · omega
    · omega

/-- The chunk after the block is in use: its `PINUSE` bit is cleared and the block is
put into a bin. -/
theorem free_use {r1 : Chunk} {R2 : List Chunk} (h : Mid m mA msp cs Lp M0 (r1 :: R2) psz)
    (hr1 : r1.inuse = true) (fuel : Nat) :
    (∀ m3, insertChunk fuel
        (setSizePinuseOfFreeChunk
          (mA.write (endAddr (firstChunk m msp) Lp + psz + oHead)
            (mA (endAddr (firstChunk m msp) Lp + psz + oHead) &&& not64 kPinuseBit))
          (endAddr (firstChunk m msp) Lp) psz) msp (endAddr (firstChunk m msp) Lp) psz = some m3 →
      Occupied m3 msp) ∧
    ((∀ x, ¬ LargeObj (m (msp + oDv)) cs x) → ∃ m3, insertChunk fuel
        (setSizePinuseOfFreeChunk
          (mA.write (endAddr (firstChunk m msp) Lp + psz + oHead)
            (mA (endAddr (firstChunk m msp) Lp + psz + oHead) &&& not64 kPinuseBit))
          (endAddr (firstChunk m msp) Lp) psz) msp (endAddr (firstChunk m msp) Lp) psz = some m3) := by
  obtain ⟨hptr, h32, h8, htop, hlt, _, _, _⟩ := h.facts
  have g := h.wf.geometry
  have h968 : kSizeofMemorySpace = 968 := rfl
  rcases h.next with ⟨hnil, _⟩ | ⟨r, R3, hR, hrm, hra, hr32, hr8, hrtop, hhead⟩
  · cases hnil
  obtain ⟨rfl, rfl⟩ := List.cons.inj hR
  obtain ⟨c, hc, hca⟩ := h.hd
  have hcm := h.memM c hc
  have n1 : ¬ Interior msp cs (endAddr (firstChunk m msp) Lp + oHead) := hca ▸ not_interior_head g c hcm
  have n2 : ¬ Interior msp cs (endAddr (firstChunk m msp) Lp + psz) := hra ▸ not_interior_start g r1 hrm
  have n3 : ¬ Interior msp cs (endAddr (firstChunk m msp) Lp + psz + oHead) :=
    hra ▸ not_interior_head g r1 hrm
  have hlt2 : endAddr (firstChunk m msp) Lp + psz < 2 ^ 64 := by omega
  have hm2 : ∀ a, a ≠ endAddr (firstChunk m msp) Lp + oHead → a ≠ endAddr (firstChunk m msp) Lp + psz → a ≠ endAddr (firstChunk m msp) Lp + psz + oHead →
      setSizePinuseOfFreeChunk (mA.write (endAddr (firstChunk m msp) Lp + psz + oHead)
        (mA (endAddr (firstChunk m msp) Lp + psz + oHead) &&& not64 kPinuseBit)) (endAddr (firstChunk m msp) Lp) psz a = mA a := by
    intro a a1 a2 a3
    rw [setFree_other _ _ _ _ hlt2 a1 a2, Mem.write_ne _ _ _ _ a3]
  have hcl : Closed (setSizePinuseOfFreeChunk (mA.write (endAddr (firstChunk m msp) Lp + psz + oHead)
      (mA (endAddr (firstChunk m msp) Lp + psz + oHead) &&& not64 kPinuseBit)) (endAddr (firstChunk m msp) Lp) psz) msp (m (msp + oDv)) cs :=
    h.closed.closed_congr g fun a ha => hm2 a (fun e => n1 (e ▸ ha)) (fun e => n2 (e ▸ ha))
      (fun e => n3 (e ▸ ha))
  refine insert_walk (M := M0) (r := r1) (R := R2) h.hcs h.wf.1 g h.wf.msp_lt h.na hr1 h.lp
    h.size h32 h8 ?_ ?_ ?_ ?_ hcl ⟨c, hcm, hca⟩
    (fun hl => absurd hl (h.no_obj40 hr1 _)) fuel
  · exact setFree_head _ _ _ hlt2 (by omega)
  · exact setFree_foot _ _ _ hlt2
  · rw [setFree_other _ _ _ _ hlt2 (by simp only [oHead]; omega) (by simp only [oHead]; omega),
      Mem.write_same, hhead, hr1, head_eq _ _ _ hr8]
    have := head_and_not_one r1.size 3 hr8 (by decide) (by omega)
    simpa [pinBit, cinBit, kCinuseBit, kPinuseBit, Nat.add_assoc] using this
  · intro a ha hr _ _
    rw [hm2 a (by simp only [oHead]; omega) (by omega) (by simp only [oHead]; omega)]
    exact h.frame a ha

end

section

variable {m mA : Mem} {msp : Nat} {cs Lp M0 R : List Chunk} {psz : Nat}

/-- What follows a free chunk `n` after the block: a chunk `r2` in use whose head says
that the chunk before it is free. -/
theorem Mid.after_free {n : Chunk} {R2 : List Chunk} (h : Mid m mA msp cs Lp M0 (n :: R2) psz)
    (hn : n.inuse = false) :
    ∃ r2 R3, R2 = r2 :: R3 ∧ r2.inuse = true ∧ r2 ∈ cs ∧ n ∈ cs ∧
      n.addr = endAddr (firstChunk m msp) Lp + psz ∧ 32 ≤ n.size ∧ n.size % 8 = 0 ∧
      r2.addr = endAddr (firstChunk m msp) Lp + psz + n.size ∧ endAddr (firstChunk m msp) Lp + psz + n.size + r2.size ≤ m (msp + oTop) ∧
      r2.size % 8 = 0 ∧
      mA (endAddr (firstChunk m msp) Lp + psz + oHead) = n.size + 1 ∧
      mA (endAddr (firstChunk m msp) Lp + psz + n.size + oHead) = (r2.size ||| pinBit false) ||| cinBit true ∧
      cs = Lp ++ (M0 ++ [n]) ++ r2 :: R3 ∧
      endAddr (endAddr (firstChunk m msp) Lp) (M0 ++ [n]) = endAddr (firstChunk m msp) Lp + (psz + n.size) := by
  have g := h.wf.geometry
  obtain ⟨_, _, _, _, _, _, hsR, htop⟩ := h.facts
  have hcs2 : cs = (Lp ++ M0) ++ n :: R2 := h.hcs
  obtain ⟨r2, R3, rfl, hr2⟩ := noAdj_after_free (hcs2 ▸ h.na) hn
  rcases h.next with ⟨hnil, _⟩ | ⟨r, R4, hR, hrm, hra, hr32, hr8, _, hhead⟩
  · cases hnil
  obtain ⟨rfl, rfl⟩ := List.cons.inj hR
  rw [segOK_cons, segOK_cons] at hsR
  obtain ⟨_, _, _, _, _, h2a, _, h28, h2h, _, h2R⟩ := hsR
  have hr2m : r2 ∈ cs := h.memR r2 (by simp)
  have hle := endAddr_le (endAddr (firstChunk m msp) Lp + psz + n.size + r2.size) R3
  simp only [endAddr, h2a] at htop
  refine ⟨r2, R3, rfl, hr2, hr2m, hrm, hra, hr32, hr8, h2a, by omega, h28, ?_, ?_, ?_, ?_⟩
  · rw [hhead, hn]; rfl
  · have hh := h.frame _ (not_interior_head g r2 hr2m)
    rw [h2a] at hh
    rw [hh, h2h, hn, hr2]
  · rw [h.hcs]; simp
  · rw [endAddr_append, h.size]; simp only [endAddr]; omega

/-- The chunk after the block is the designated victim: the block joins it. -/
theorem free_dv {n : Chunk} {R2 : List Chunk} (h : Mid m mA msp cs Lp M0 (n :: R2) psz)
    (hn : n.inuse = false) (hdv : n.addr = m (msp + oDv)) :
    Occupied (setSizePinuseOfFreeChunk
      ((mA.write (msp + oDvSize) (u64 (mA (msp + oDvSize) + psz))).write (msp + oDv) (endAddr (firstChunk m msp) Lp))
      (endAddr (firstChunk m msp) Lp) (u64 (mA (msp + oDvSize) + psz))) msp := by
  obtain ⟨hptr, h32, h8, htop, hlt, _, _, _⟩ := h.facts
  have g := h.wf.geometry
  have h968 : kSizeofMemorySpace = 968 := rfl
  obtain ⟨r2, R3, rfl, hr2, hr2m, hnm, hna, hn32, hn8, hr2a, hr2top, hr28, _, hhead2, hcs2, hend2⟩ :=
    h.after_free hn
  have hdvs : mA (msp + oDvSize) = n.size := by
    rw [h.frame _ (not_interior_field g _ (Or.inr (Or.inl (by simp [oDvSize, oDv, oSmallBins]))))]
    rcases h.wf.2.1.2.2.2.2.2.2.2 with ⟨_, h0⟩ | hmem
    · have := g.bounds n hnm; omega
    · have := chunk_unique g hmem hnm hdv.symm
      rw [← this]
  have hu : u64 (mA (msp + oDvSize) + psz) = psz + n.size := by
    rw [hdvs]; unfold u64; rw [Nat.mod_eq_of_lt (by omega)]; omega
  rw [hu]
  have hlt2 : endAddr (firstChunk m msp) Lp + (psz + n.size) < 2 ^ 64 := by omega
  refine occupied_of_walk (walk_merged (M := M0 ++ [n]) (r := r2) (R := R3) hcs2 h.wf.1 g
    h.wf.msp_lt h.na hr2 h.lp hend2 (by omega) (by omega) ?_ ?_ ?_ ?_)
  · exact setFree_head _ _ _ hlt2 (by omega)
  · exact setFree_foot _ _ _ hlt2
  · rw [setFree_other _ _ _ _ hlt2 (by simp only [oHead]; omega) (by simp only [oHead]; omega),
      Mem.write_ne _ _ _ _ (by simp only [oHead, oDv]; omega),
      Mem.write_ne _ _ _ _ (by simp only [oHead, oDvSize]; omega), ← Nat.add_assoc]
    exact hhead2
  · intro a ha hr hd1 hd2
    rw [setFree_other _ _ _ _ hlt2 (by simp only [oHead]; omega) (by omega),
      Mem.write_ne _ _ _ _ hd1, Mem.write_ne _ _ _ _ hd2]
    exact h.frame a ha

/-- The chunk after the block is free and sits in a bin: it is unlinked and the merged
block becomes the designated victim or goes into a bin. -/
theorem free_bin {n : Chunk} {R2 : List Chunk} (h : Mid m mA msp cs Lp M0 (n :: R2) psz)
    (hn : n.inuse = false) (hdv : n.addr ≠ m (msp + oDv)) (fuel : Nat) :
    (∀ mB, unlinkChunk fuel mA msp n.addr n.size = some mB →
      Occupied ((setSizePinuseOfFreeChunk mB (endAddr (firstChunk m msp) Lp) (psz + n.size)).write (msp + oDvSize)
        (psz + n.size)) msp ∧
      (setSizePinuseOfFreeChunk mB (endAddr (firstChunk m msp) Lp) (psz + n.size)) (msp + oDv) = m (msp + oDv) ∧
      (∀ m4, insertChunk fuel (setSizePinuseOfFreeChunk mB (endAddr (firstChunk m msp) Lp) (psz + n.size)) msp (endAddr (firstChunk m msp) Lp)
        (psz + n.size) = some m4 → Occupied m4 msp) ∧
      ((∀ x, ¬ LargeObj (m (msp + oDv)) cs x) →
        ∃ m4, insertChunk fuel (setSizePinuseOfFreeChunk mB (endAddr (firstChunk m msp) Lp) (psz + n.size)) msp (endAddr (firstChunk m msp) Lp)
          (psz + n.size) = some m4)) ∧
    ((∀ x, ¬ LargeObj (m (msp + oDv)) cs x) →
      ∃ mB, unlinkChunk fuel mA msp n.addr n.size = some mB) := by
  obtain ⟨hptr, h32, h8, htop, hlt, _, _, _⟩ := h.facts
  have g := h.wf.geometry
  have h968 : kSizeofMemorySpace = 968 := rfl
  have h256 : kMinLargeSize = 256 := rfl
  obtain ⟨r2, R3, rfl, hr2, hr2m, hnm, hna, hn32, hn8, hr2a, hr2top, hr28, hheadn, hhead2, hcs2, hend2⟩ :=
    h.after_free hn
  obtain ⟨c, hc, hca⟩ := h.hd
  have hcm := h.memM c hc
  obtain ⟨hun, huntot⟩ := unlinkChunk_spec g h.closed n hnm hn hdv
    (fun hl => h.parents _ ⟨n, hnm, rfl, hn, hl, hdv⟩ (by omega)) fuel
  refine ⟨fun mB hB => ?_, fun hnone => huntot ?_⟩
  swap
  · by_contra hc2
    exact hnone _ ⟨n, hnm, rfl, hn, by omega, hdv⟩
  obtain ⟨hfrB, hclB, _⟩ := hun mB hB
  have n1 : ¬ Interior msp cs (endAddr (firstChunk m msp) Lp + oHead) := hca ▸ not_interior_head g c hcm
  have n2 : ¬ Interior msp cs (endAddr (firstChunk m msp) Lp + (psz + n.size)) := by
    rw [← Nat.add_assoc, ← hr2a]; exact not_interior_start g r2 hr2m
  have n3 : ¬ Interior msp cs (endAddr (firstChunk m msp) Lp + psz + n.size + oHead) :=
    hr2a ▸ not_interior_head g r2 hr2m
  have n4 : ¬ Interior msp cs (endAddr (firstChunk m msp) Lp + psz + oHead) := hna ▸ not_interior_head g n hnm
  have hlt2 : endAddr (firstChunk m msp) Lp + (psz + n.size) < 2 ^ 64 := by omega
  have hm3 : ∀ a, a ≠ endAddr (firstChunk m msp) Lp + oHead → a ≠ endAddr (firstChunk m msp) Lp + (psz + n.size) → ¬ Interior msp cs a →
      setSizePinuseOfFreeChunk mB (endAddr (firstChunk m msp) Lp) (psz + n.size) a = m a := by
    intro a a1 a2 a3
    rw [setFree_other _ _ _ _ hlt2 a1 a2, hfrB a a3, h.frame a a3]
  have f1 : setSizePinuseOfFreeChunk mB (endAddr (firstChunk m msp) Lp) (psz + n.size) (endAddr (firstChunk m msp) Lp + oHead) =
      (psz + n.size) ||| kPinuseBit := setFree_head _ _ _ hlt2 (by omega)
  have f2 : setSizePinuseOfFreeChunk mB (endAddr (firstChunk m msp) Lp) (psz + n.size) (endAddr (firstChunk m msp) Lp + (psz + n.size)) =
      psz + n.size := setFree_foot _ _ _ hlt2
  have f3 : setSizePinuseOfFreeChunk mB (endAddr (firstChunk m msp) Lp) (psz + n.size) (endAddr (firstChunk m msp) Lp + (psz + n.size) + oHead) =
      (r2.size ||| pinBit false) ||| cinBit true := by
    rw [setFree_other _ _ _ _ hlt2 (by simp only [oHead]; omega) (by simp only [oHead]; omega),
      ← Nat.add_assoc, hfrB _ n3]
    exact hhead2
  have f4 : ∀ a, ¬ Interior msp cs a → (a < endAddr (firstChunk m msp) Lp + 8 ∨ endAddr (firstChunk m msp) Lp + (psz + n.size) + 16 ≤ a) →
      setSizePinuseOfFreeChunk mB (endAddr (firstChunk m msp) Lp) (psz + n.size) a = m a := fun a ha hr =>
    hm3 a (by simp only [oHead]; omega) (by omega) ha
  refine ⟨?_, ?_, ?_⟩
  · refine occupied_of_walk (walk_merged (M := M0 ++ [n]) (r := r2) (R := R3) hcs2 h.wf.1 g
      h.wf.msp_lt h.na hr2 h.lp hend2 (by omega) (by omega) ?_ ?_ ?_ ?_)
    · rw [Mem.write_ne _ _ _ _ (by simp only [oHead, oDvSize]; omega)]; exact f1
    · rw [Mem.write_ne _ _ _ _ (by simp only [oDvSize]; omega)]; exact f2
    · rw [Mem.write_ne _ _ _ _ (by simp only [oHead, oDvSize]; omega)]; exact f3
    · intro a ha hr _ hd2
      rw [Mem.write_ne _ _ _ _ hd2]; exact f4 a ha hr
  · exact hm3 _ (by simp only [oHead, oDv]; omega) (by simp only [oDv]; omega)
      (not_interior_field g _ (Or.inr (Or.inl (by simp [oDv, oSmallBins]))))
  · have hcl3 : Closed (setSizePinuseOfFreeChunk mB (endAddr (firstChunk m msp) Lp) (psz + n.size)) msp (m (msp + oDv)) cs :=
      hclB.closed_congr g fun a ha =>
        setFree_other _ _ _ _ hlt2 (fun e => n1 (e ▸ ha)) (fun e => n2 (e ▸ ha))
    refine insert_walk (M := M0 ++ [n]) (r := r2) (R := R3) hcs2 h.wf.1 g h.wf.msp_lt h.na hr2
      h.lp hend2 (by omega) (by omega) f1 f2 f3 (fun a ha hr _ _ => f4 a ha hr) hcl3
      ⟨c, hcm, hca⟩ ?_ fuel
    rintro ⟨cy, hcy, hcya, hfree, _, _⟩
    have hseg := h.wf.1.1
    have hcy2 := hcy
    rw [h.hcs] at hseg hcy2
    have hby := g.bounds cy hcy
    have hbn := g.bounds n hnm
    have hsize := h.size
    rcases mem_block hseg cy hcy2 with ⟨_, hle⟩ | hM | ⟨hR, hle⟩
    · omega
    · have := h.mfree cy hM hfree
      omega
    · rw [hsize] at hle
      rcases g.disjoint cy n hcy hnm with he | hd | hd
      · subst he
        have hpsz : psz = 40 := by omega
        unfold chunkSize
        rw [← hcya, hna, setFree_other _ _ _ _ hlt2 (by simp only [oHead]; omega)
          (by simp only [oHead]; omega), hfrB _ n4, hheadn]
        have := head_and_not_three cy.size 1 hn8 (by decide) (by omega)
        rw [show kInuseBits = 3 from rfl, this]
        omega
      · omega
      · omega

end

section

variable {m mA : Mem} {msp : Nat} {cs Lp M0 R : List Chunk} {psz : Nat}

/-- Forward consolidation ends in a coalesced walk and answers `true` exactly when it
leaves `top` at the first chunk position; it returns when no chunk sits in a tree
bin. -/
theorem freeForward_spec (h : Mid m mA msp cs Lp M0 R psz) (fuel : Nat) :
    (∀ r m2, freeForward fuel mA msp (endAddr (firstChunk m msp) Lp) psz (endAddr (firstChunk m msp) Lp + psz) = some (r, m2) →
      Coalesced m2 msp ∧ (r = true ↔ m2 (msp + oTop) = firstChunk m2 msp)) ∧
    ((∀ x, ¬ LargeObj (m (msp + oDv)) cs x) →
      ∃ r m2, freeForward fuel mA msp (endAddr (firstChunk m msp) Lp) psz (endAddr (firstChunk m msp) Lp + psz) = some (r, m2)) := by
  obtain ⟨hptr, h32, h8, htop, hlt, hts8, _, _⟩ := h.facts
  have g := h.wf.geometry
  have h968 : kSizeofMemorySpace = 968 := rfl
  have hmtop : mA (msp + oTop) = m (msp + oTop) :=
    h.frame _ (not_interior_field g _ (Or.inr (Or.inl (by simp [oTop, oDv, oSmallBins]))))
  have hmdv : mA (msp + oDv) = m (msp + oDv) :=
    h.frame _ (not_interior_field g _ (Or.inr (Or.inl (by simp [oDv, oSmallBins]))))
  rcases h.next with ⟨hnil, hnt, hhead⟩ | ⟨r1, R2, hR, hrm, hra, hr32, hr8, hrtop, hhead⟩
  · -- `top` follows
    subst hnil
    have hp : getPInuse mA (endAddr (firstChunk m msp) Lp + psz) ≠ 0 := by
      unfold getPInuse
      rw [hhead, show kPinuseBit = 1 from rfl, head_and_one _ _ hts8]; decide
    have hc : getCInuse mA (endAddr (firstChunk m msp) Lp + psz) = 0 := by
      unfold getCInuse
      rw [hhead, show kCinuseBit = 2 from rfl, head_and_two _ _ hts8 (by decide)]
    have ht : endAddr (firstChunk m msp) Lp + psz = mA (msp + oTop) := by rw [hmtop]; exact hnt
    unfold freeForward
    rw [if_pos hp, if_pos hc, if_pos ht]
    refine ⟨fun r m2 he => ?_, fun _ => ⟨_, _, rfl⟩⟩
    simp only [Option.some.injEq] at he
    have := free_top h
    have hflag := freeIntoTop_flag mA msp (endAddr (firstChunk m msp) Lp) psz
    rw [he] at this hflag
    exact ⟨this, hflag⟩
  · subst hR
    have hp : getPInuse mA (endAddr (firstChunk m msp) Lp + psz) ≠ 0 := by
      unfold getPInuse
      rw [hhead, show kPinuseBit = 1 from rfl, Nat.add_assoc, head_and_one _ _ hr8]
      rcases cinBit_cases r1.inuse with e | e <;> rw [e] <;> decide
    cases hin : r1.inuse with
    | true =>
      have hc : ¬ getCInuse mA (endAddr (firstChunk m msp) Lp + psz) = 0 := by
        unfold getCInuse
        rw [hhead, hin, show kCinuseBit = 2 from rfl, Nat.add_assoc,
          head_and_two _ _ hr8 (by decide)]
        decide
      obtain ⟨hu, hutot⟩ := free_use h hin fuel
      unfold freeForward
      rw [if_pos hp, if_neg hc]
      simp only []
      refine ⟨fun r m2 he => ?_, fun hnone => ?_⟩
      · split at he
        · cases he
        · rename_i m3 h3
          simp only [Option.some.injEq, Prod.mk.injEq] at he
          rw [← he.2, ← he.1]
          exact (hu m3 h3).flag
      · obtain ⟨m3, h3⟩ := hutot hnone
        rw [h3]
        exact ⟨_, _, rfl⟩
    | false =>
      obtain ⟨r2, R3, _, _, _, _, _, _, _, _, _, _, hheadn, _⟩ := h.after_free hin
      have hc : getCInuse mA (endAddr (firstChunk m msp) Lp + psz) = 0 := by
        unfold getCInuse
        rw [hheadn, show kCinuseBit = 2 from rfl, head_and_two _ _ hr8 (by decide)]
      have ht : ¬ endAddr (firstChunk m msp) Lp + psz = mA (msp + oTop) := by rw [hmtop]; omega
      have hsz : chunkSize mA (endAddr (firstChunk m msp) Lp + psz) = r1.size := by
        unfold chunkSize
        rw [hheadn, show kInuseBits = 3 from rfl, head_and_not_three _ _ hr8 (by decide) (by omega)]
      have hu : u64 (psz + r1.size) = psz + r1.size := by
        unfold u64; rw [Nat.mod_eq_of_lt (by omega)]
      unfold freeForward
      rw [if_pos hp, if_pos hc, if_neg ht]
      by_cases hd : endAddr (firstChunk m msp) Lp + psz = mA (msp + oDv)
      · rw [if_pos hd]
        refine ⟨fun r m2 he => ?_, fun _ => ⟨_, _, rfl⟩⟩
        simp only [Option.some.injEq, Prod.mk.injEq] at he
        rw [← he.2, ← he.1]
        exact (free_dv h hin (by rw [hra, hd, hmdv])).flag
      · rw [if_neg hd]
        simp only []
        rw [hsz, hu, ← hra]
        obtain ⟨hb, hbtot⟩ := free_bin h hin (by rw [hra, ← hmdv]; exact hd) fuel
        refine ⟨fun r m2 he => ?_, fun hnone => ?_⟩
        · split at he
          · cases he
          · rename_i mB hB
            obtain ⟨b1, _, b3, _⟩ := hb mB hB
            split at he
            · simp only [Option.some.injEq, Prod.mk.injEq] at he
              rw [← he.2, ← he.1]; exact b1.flag
            · split at he
              · cases he
              · rename_i m4 h4
                simp only [Option.some.injEq, Prod.mk.injEq] at he
                rw [← he.2, ← he.1]; exact (b3 m4 h4).flag
        · obtain ⟨mB, hB⟩ := hbtot hnone
          obtain ⟨_, _, _, b4⟩ := hb mB hB
          rw [hB]
          simp only []
          split
          · exact ⟨_, _, rfl⟩
          · obtain ⟨m4, h4⟩ := b4 hnone
            rw [h4]
            exact ⟨_, _, rfl⟩

end

/-! ## `free` -/

theorem sub64_add_cancel (a b : Nat) (h : a + b < 2 ^ 64) : sub64 (a + b) b = a := by
  unfold sub64
  rw [Nat.mod_eq_of_lt h, Nat.mod_eq_of_lt (show b < 2 ^ 64 by omega)]
  have e : a + b + (2 ^ 64 - b) = a + 2 ^ 64 := by omega
  rw [e, Nat.add_mod_right, Nat.mod_eq_of_lt (by omega)]

section

variable {m : Mem} {msp : Nat} {cs Lp M0 R : List Chunk} {psz : Nat}

theorem Mid.of_wf (hcs : cs = Lp ++ M0 ++ R) (wf : WellFormed m msp cs) (na : NoAdjFree cs)
    (lp : lastInuse true Lp = true) (last : ∀ b, lastInuse b M0 = true)
    (size : endAddr (endAddr (firstChunk m msp) Lp) M0 = endAddr (firstChunk m msp) Lp + psz) (hd : ∃ c ∈ M0, c.addr = endAddr (firstChunk m msp) Lp)
    (mfree : ∀ y ∈ M0, y.inuse = false → y.addr = endAddr (firstChunk m msp) Lp) : Mid m m msp cs Lp M0 R psz :=
  ⟨hcs, wf, na, lp, last, size, hd, mfree, fun _ _ => rfl, wf.closed, fun y hy _ => wf.parents y hy⟩

/-- The chunk before the block is the designated victim and the chunk after it is in
use: the victim grows in place. -/
theorem free_dv_prev {r1 : Chunk} {R2 : List Chunk} (h : Mid m m msp cs Lp M0 (r1 :: R2) psz)
    (hr1 : r1.inuse = true) :
    Occupied (setSizePinuseOfFreeChunk
      ((m.write (msp + oDvSize) psz).write (endAddr (firstChunk m msp) Lp + psz + oHead)
        ((m.write (msp + oDvSize) psz) (endAddr (firstChunk m msp) Lp + psz + oHead) &&& not64 kPinuseBit))
      (endAddr (firstChunk m msp) Lp) psz) msp := by
  obtain ⟨hptr, h32, h8, htop, hlt, _, _, _⟩ := h.facts
  have g := h.wf.geometry
  have h968 : kSizeofMemorySpace = 968 := rfl
  rcases h.next with ⟨hnil, _⟩ | ⟨r, R3, hR, hrm, hra, hr32, hr8, hrtop, hhead⟩
  · cases hnil
  obtain ⟨rfl, rfl⟩ := List.cons.inj hR
  have hlt2 : endAddr (firstChunk m msp) Lp + psz < 2 ^ 64 := by omega
  refine occupied_of_walk (walk_merged (M := M0) (r := r1) (R := R2) h.hcs h.wf.1 g h.wf.msp_lt
    h.na hr1 h.lp h.size h32 h8 ?_ ?_ ?_ ?_)
  · exact setFree_head _ _ _ hlt2 (by omega)
  · exact setFree_foot _ _ _ hlt2
  · rw [setFree_other _ _ _ _ hlt2 (by simp only [oHead]; omega) (by simp only [oHead]; omega),
      Mem.write_same, Mem.write_ne _ _ _ _ (by simp only [oHead, oDvSize]; omega), hhead, hr1,
      head_eq _ _ _ hr8]
    have := head_and_not_one r1.size 3 hr8 (by decide) (by omega)
    simpa [pinBit, cinBit, kCinuseBit, kPinuseBit, Nat.add_assoc] using this
  · intro a ha hr _ hd2
    rw [setFree_other _ _ _ _ hlt2 (by simp only [oHead]; omega) (by omega),
      Mem.write_ne _ _ _ _ (by simp only [oHead]; omega), Mem.write_ne _ _ _ _ hd2]

end

/-- `free` of a chunk in use of a well-formed, coalesced space ends in a coalesced walk
and answers `true` exactly when it leaves `top` at the first chunk position; it
returns when no chunk sits in a tree bin. -/
theorem free_spec {m : Mem} {msp : Nat} {cs : List Chunk} (wf : WellFormed m msp cs)
    (na : NoAdjFree cs) (p sz : Nat) (hmem : (⟨p, sz, true⟩ : Chunk) ∈ cs) (fuel : Nat) :
    (∀ r m2, free fuel m msp (chunkToMemory p) = some (r, m2) →
      Coalesced m2 msp ∧ (r = true ↔ m2 (msp + oTop) = firstChunk m2 msp)) ∧
    ((∀ x, ¬ LargeObj (m (msp + oDv)) cs x) →
      ∃ r m2, free fuel m msp (chunkToMemory p) = some (r, m2)) := by
  obtain ⟨L, R, hcs⟩ := List.append_of_mem hmem
  have g := wf.geometry
  have h968 : kSizeofMemorySpace = 968 := rfl
  have hb := g.bounds _ hmem
  simp only at hb
  have hseg := wf.1.1
  rw [hcs, segOK_split] at hseg
  obtain ⟨hsL, hpa, _, h8, hhead, _, hsR⟩ := hseg
  simp only at hpa h8 hhead hsR
  have htop := wf.1.2.1
  have hlt := wf.2.1.2.2.2.1
  have hco : kChunkOverhead = 16 := rfl
  have hmem0 : chunkToMemory p ≠ 0 := by
    unfold chunkToMemory u64
    rw [hco, Nat.mod_eq_of_lt (by omega)]; omega
  have hptr : memoryToChunk (chunkToMemory p) = p := by
    unfold chunkToMemory memoryToChunk u64
    rw [hco, Nat.mod_eq_of_lt (by omega)]
    exact sub64_add_cancel p 16 (by omega)
  rw [head_eq _ _ _ h8] at hhead
  have hcin : cinBit true = 2 := rfl
  rw [hcin] at hhead
  have hpb := pinBit_lt (lastInuse true L)
  have hinuse : isInuse m p = true := by
    unfold isInuse
    rw [hhead, show kInuseBits = 3 from rfl, Nat.add_assoc, head_and_three _ _ h8 (by omega)]
    simp only [kPinuseBit, bne_iff_ne, ne_eq]
    omega
  have hsz : chunkSize m p = sz := by
    unfold chunkSize
    rw [hhead, show kInuseBits = 3 from rfl, Nat.add_assoc,
      head_and_not_three _ _ h8 (by omega) (by omega)]
  have hnext : chunkPlusOffset p sz = p + sz := by
    unfold chunkPlusOffset u64
    exact Nat.mod_eq_of_lt (by omega)
  have hpin : getPInuse m p = pinBit (lastInuse true L) := by
    unfold getPInuse
    rw [hhead, show kPinuseBit = 1 from rfl, Nat.add_assoc, head_and_one _ _ h8]
    omega
  unfold free
  rw [if_pos hmem0]
  simp only []
  rw [hptr, if_pos hinuse]
  split
  · -- the chunk is handed back to the operating system
    exact ⟨fun r m2 he => by
      simp only [Option.some.injEq, Prod.mk.injEq] at he
      rw [← he.2, ← he.1]
      exact Occupied.flag ⟨cs, wf.1, na, List.ne_nil_of_mem hmem⟩, fun _ => ⟨_, _, rfl⟩⟩
  rw [hsz, hnext, hpin]
  cases hl : lastInuse true L with
  | true =>
    rw [if_neg (by simp [pinBit, kPinuseBit])]
    have hM : Mid m m msp cs L [⟨p, sz, true⟩] R sz :=
      Mid.of_wf (by rw [hcs]; simp) wf na hl (fun _ => rfl) (by rw [← hpa]; rfl)
        ⟨_, List.mem_singleton_self _, hpa⟩ (fun y hy hf => by
          rw [List.mem_singleton.1 hy] at hf; cases hf)
    have := freeForward_spec hM fuel
    rw [← hpa] at this
    exact this
  | false =>
    rw [if_pos (by simp [pinBit])]
    rcases lastInuse_false hl with ⟨_, h0⟩ | ⟨L2, q, rfl, hq⟩
    · cases h0
    have hcs2 : cs = L2 ++ q :: ⟨p, sz, true⟩ :: R := by rw [hcs]; simp
    have hqm : q ∈ cs := by rw [hcs2]; simp
    have hqb := g.bounds q hqm
    rw [segOK_split] at hsL
    obtain ⟨_, hqa, _, hq8, _, hqfoot, _⟩ := hsL
    rw [endAddr_append] at hpa
    simp only [endAddr] at hpa
    rw [← hqa] at hpa
    have hfoot : m (p + oPrevFoot) = q.size := by
      rw [hpa]; exact hqfoot hq
    have hprev : chunkMinusOffset p (m (p + oPrevFoot)) = q.addr := by
      rw [hfoot, hpa]
      exact sub64_add_cancel _ _ (by omega)
    have hu : u64 (sz + m (p + oPrevFoot)) = sz + q.size := by
      rw [hfoot]; unfold u64; exact Nat.mod_eq_of_lt (by omega)
    have hlp : lastInuse true L2 = true := noAdj_before_free (hcs2 ▸ na) hq
    have hM : Mid m m msp cs L2 [q, ⟨p, sz, true⟩] R (sz + q.size) :=
      Mid.of_wf (by rw [hcs2]; simp) wf na hlp (fun _ => rfl)
        (by rw [← hqa]; simp only [endAddr]; omega)
        ⟨q, by simp, hqa⟩ (fun y hy hf => by
          rcases List.mem_cons.1 hy with rfl | hy
          · exact hqa
          · rw [List.mem_singleton.1 hy] at hf; cases hf)
    have hnx : p + sz = endAddr (firstChunk m msp) L2 + (sz + q.size) := by
      rw [← hqa]; omega
    rw [hprev, hu, hfoot]
    by_cases hdv : q.addr ≠ m (msp + oDv)
    · rw [if_pos hdv]
      obtain ⟨hun, huntot⟩ := unlinkChunk_spec g wf.closed q hqm hq hdv
        (fun hlg => wf.parents _ ⟨q, hqm, rfl, hq, hlg, hdv⟩) fuel
      refine ⟨fun r m2 he => ?_, fun hnone => ?_⟩
      · split at he
        · cases he
        · rename_i mA hA
          obtain ⟨hfr, hcl, hpar⟩ := hun mA hA
          have hM2 : Mid m mA msp cs L2 [q, ⟨p, sz, true⟩] R (sz + q.size) :=
            ⟨hM.hcs, wf, na, hlp, hM.last, hM.size, hM.hd, hM.mfree, hfr, hcl,
              fun y hy hne => hpar y hy (by rw [hqa]; exact hne) (wf.parents y hy)⟩
          have := (freeForward_spec hM2 fuel).1 r m2
          rw [← hnx, ← hqa] at this
          exact this he
      · have hqs : q.size < kMinLargeSize := by
          by_contra hc
          exact hnone _ ⟨q, hqm, rfl, hq, by omega, hdv⟩
        obtain ⟨mA, hA⟩ := huntot hqs
        obtain ⟨hfr, hcl, hpar⟩ := hun mA hA
        have hM2 : Mid m mA msp cs L2 [q, ⟨p, sz, true⟩] R (sz + q.size) :=
          ⟨hM.hcs, wf, na, hlp, hM.last, hM.size, hM.hd, hM.mfree, hfr, hcl,
            fun y hy hne => hpar y hy (by rw [hqa]; exact hne) (wf.parents y hy)⟩
        have := (freeForward_spec hM2 fuel).2 hnone
        rw [← hnx, ← hqa] at this
        rw [hA]
        exact this
    · rw [if_neg hdv]
      split
      · rename_i hboth
        refine ⟨fun r m2 he => ?_, fun _ => ⟨_, _, rfl⟩⟩
        simp only [Option.some.injEq, Prod.mk.injEq] at he
        rw [← he.2, ← he.1]
        rcases hM.next with ⟨_, _, hh⟩ | ⟨r1, R2, hR, _, _, _, hr8, _, hh⟩
        · exfalso
          rw [← hnx] at hh
          rw [hh, show kInuseBits = 3 from rfl,
            head_and_three _ _ hM.facts.2.2.2.2.2.1 (by decide)] at hboth
          cases hboth
        · subst hR
          rw [← hnx] at hh
          have hr1 : r1.inuse = true := by
            cases hr : r1.inuse with
            | true => rfl
            | false =>
              rw [hh, hr, show kInuseBits = 3 from rfl] at hboth
              have := head_and_three r1.size 1 hr8 (by decide)
              simp only [cinBit, Bool.false_eq_true, if_false, Nat.add_zero] at hboth
              rw [this] at hboth
              cases hboth
          have := (free_dv_prev hM hr1).flag
          rw [← hnx, ← hqa] at this
          exact this
      · have := freeForward_spec hM fuel
        rw [← hnx, ← hqa] at this
        exact this

/-! ## Round trip of `alloc` and `free` -/

theorem allocChunkSize_small (bytes : Nat) (h : bytes ≤ kMaxSmallRequest) :
    32 ≤ allocChunkSize bytes ∧ allocChunkSize bytes ≤ 248 ∧ allocChunkSize bytes % 8 = 0 := by
  have h232 : kMaxSmallRequest = 232 := rfl
  rw [h232] at h
  unfold allocChunkSize
  split
  · decide
  · rename_i h15
    have h15' : 15 ≤ bytes := by
      have : kMinRequest = 15 := rfl
      omega
    unfold padRequest u64
    have hm : not64 kAlignmentMask = 2 ^ 64 - 2 ^ 3 := by decide
    have hco : kChunkOverhead = 16 := rfl
    have ham : kAlignmentMask = 7 := rfl
    rw [hm, hco, ham, Nat.mod_eq_of_lt (by omega), and_high_mask _ 3 (by omega) (by decide)]
    omega

/-- `free` of a chunk in use whose `PINUSE` bit is set and which is not handed back to
the operating system goes on with forward consolidation. -/
theorem free_eq_forward (fuel : Nat) (m : Mem) (msp ptr sz : Nat) (hs8 : sz % 8 = 0)
    (h16 : 16 ≤ sz) (hlt : ptr + sz < 2 ^ 64) (hhead : m (ptr + oHead) = sz + 3)
    (hthr : sz ≤ m (msp + oSegmentThreshold)) (hleast : m (msp + oLeastAddr) ≤ ptr)
    (hfoot : ptr ≤ m (msp + oLeastAddr) + m (msp + oFootprint))
    (hfoot2 : m (msp + oLeastAddr) + m (msp + oFootprint) < 2 ^ 64) :
    free fuel m msp (chunkToMemory ptr) = freeForward fuel m msp ptr sz (ptr + sz) := by
  have hco : kChunkOverhead = 16 := rfl
  have hmem0 : chunkToMemory ptr ≠ 0 := by
    unfold chunkToMemory u64
    rw [hco, Nat.mod_eq_of_lt (by omega)]; omega
  have hptr : memoryToChunk (chunkToMemory ptr) = ptr := by
    unfold chunkToMemory memoryToChunk u64
    rw [hco, Nat.mod_eq_of_lt (by omega)]
    exact sub64_add_cancel ptr 16 (by omega)
  have hinuse : isInuse m ptr = true := by
    unfold isInuse
    rw [hhead, show kInuseBits = 3 from rfl, head_and_three _ _ hs8 (by decide)]
    decide
  have hsz : chunkSize m ptr = sz := by
    unfold chunkSize
    rw [hhead, show kInuseBits = 3 from rfl, head_and_not_three _ _ hs8 (by decide) (by omega)]
  have hnext : chunkPlusOffset ptr sz = ptr + sz := by
    unfold chunkPlusOffset u64
    exact Nat.mod_eq_of_lt (by omega)
  have hpin : ¬ getPInuse m ptr = 0 := by
    unfold getPInuse
    rw [hhead, show kPinuseBit = 1 from rfl, head_and_one _ _ hs8]
    decide
  have hrel : ¬ (chunkSize m ptr > m (msp + oSegmentThreshold) ∨
      (ptr < m (msp + oLeastAddr) ∨ ptr > u64 (m (msp + oLeastAddr) + m (msp + oFootprint)))) := by
    rw [hsz]
    unfold u64
    rw [Nat.mod_eq_of_lt hfoot2]
    omega
  unfold free
  rw [if_pos hmem0]
  simp only []
  rw [hptr, if_pos hinuse, if_neg hrel, if_neg hpin, hsz, hnext]

/-- What the merge into `top` leaves alone when the freed block is not `dv`. -/
theorem freeIntoTop_frame (mA : Mem) (msp ptr psz : Nat) (hptr : msp + kSizeofMemorySpace ≤ ptr)
    (hdv : ptr ≠ mA (msp + oDv)) :
    ∀ a, a ≠ ptr + oHead → a ≠ msp + oTop → a ≠ msp + oTopSize → a ≠ msp + oCurrPageIndex →
      (freeIntoTop mA msp ptr psz).2 a = mA a := by
  have h968 : kSizeofMemorySpace = 968 := rfl
  intro a h1 h2 h3 h4
  have hdv2 : ¬ ptr = ((mA.write (msp + oTopSize) (u64 (mA (msp + oTopSize) + psz))).write
      (msp + oTop) ptr).write (ptr + oHead) (u64 (mA (msp + oTopSize) + psz) ||| kPinuseBit)
        (msp + oDv) := by
    rw [Mem.write_ne _ _ _ _ (by simp only [oHead, oDv]; omega),
      Mem.write_ne _ _ _ _ (by simp [oTop, oDv]), Mem.write_ne _ _ _ _ (by simp [oTopSize, oDv])]
    exact hdv
  unfold freeIntoTop
  simp only []
  rw [if_neg hdv2]
  split
  · rw [Mem.write_ne _ _ _ _ h4, Mem.write_ne _ _ _ _ h1, Mem.write_ne _ _ _ _ h2,
      Mem.write_ne _ _ _ _ h3]
  · rw [Mem.write_ne _ _ _ _ h1, Mem.write_ne _ _ _ _ h2, Mem.write_ne _ _ _ _ h3]

/-- The branch of `allocTail` that splits `top` without growing the segment. -/
theorem allocTail_top (h : Heap) (msp bytes nb : Nat)
    (hdv : h.mem (msp + oDvSize) < nb) (htop : nb < h.mem (msp + oTopSize))
    (hlt : h.mem (msp + oTop) + h.mem (msp + oTopSize) < 2 ^ 64)
    (hge : msp + kSizeofMemorySpace ≤ h.mem (msp + oTop)) (hnb : 32 ≤ nb) :
    ∃ M, allocTail h msp bytes nb = (chunkToMemory (h.mem (msp + oTop)), { h with mem := M }) ∧
      M (h.mem (msp + oTop) + oHead) = nb ||| kPinuseBit ||| kCinuseBit ∧
      M (h.mem (msp + oTop) + nb + oHead) = (h.mem (msp + oTopSize) - nb) ||| kPinuseBit ∧
      M (msp + oTop) = h.mem (msp + oTop) + nb ∧
      M (msp + oTopSize) = h.mem (msp + oTopSize) - nb ∧
      ∀ a, a ≠ msp + oTop → a ≠ msp + oTopSize → a ≠ msp + oCurrPageIndex →
        a < h.mem (msp + oTop) → M a = h.mem a := by
  have h968 : kSizeofMemorySpace = 968 := rfl
  have e1 : oTop = 16 := rfl
  have e2 : oTopSize = 32 := rfl
  have e3 : oHead = 8 := rfl
  have e4 : oPrevFoot = 0 := rfl
  have e5 : oCurrPageIndex = 840 := rfl
  have hu : u64 (h.mem (msp + oTop) + nb) = h.mem (msp + oTop) + nb := by
    unfold u64
    exact Nat.mod_eq_of_lt (by omega)
  have hT : (h.mem.write (msp + oTopSize) (h.mem (msp + oTopSize) - nb)) (msp + oTop) =
      h.mem (msp + oTop) := Mem.write_ne _ _ _ _ (by omega)
  unfold allocTail setSizePinuseOfInuseChunk markInuseFoot chunkPlusOffset
  simp only []
  rw [if_neg (by omega), if_pos htop]
  simp only [hT, hu]
  refine ⟨_, rfl, ?_, ?_, ?_, ?_, ?_⟩
  · rw [Mem.write_ne _ _ _ _ (by omega), Mem.write_same]
  · rw [Mem.write_ne _ _ _ _ (by omega), Mem.write_ne _ _ _ _ (by omega), Mem.write_same]
  · rw [Mem.write_ne _ _ _ _ (by omega), Mem.write_ne _ _ _ _ (by omega),
      Mem.write_ne _ _ _ _ (by omega)]
    split
    · rw [Mem.write_ne _ _ _ _ (by omega), Mem.write_same]
    · rw [Mem.write_same]
  · rw [Mem.write_ne _ _ _ _ (by omega), Mem.write_ne _ _ _ _ (by omega),
      Mem.write_ne _ _ _ _ (by omega)]
    split
    · rw [Mem.write_ne _ _ _ _ (by omega), Mem.write_ne _ _ _ _ (by omega), Mem.write_same]
    · rw [Mem.write_ne _ _ _ _ (by omega), Mem.write_same]
  · intro a a1 a2 a3 a4
    rw [Mem.write_ne _ _ _ _ (by omega), Mem.write_ne _ _ _ _ (by omega),
      Mem.write_ne _ _ _ _ (by omega)]
    split
    · rw [Mem.write_ne _ _ _ _ a3, Mem.write_ne _ _ _ _ a1, Mem.write_ne _ _ _ _ a2]
    · rw [Mem.write_ne _ _ _ _ a1, Mem.write_ne _ _ _ _ a2]

theorem kMaxRequest_eq : kMaxRequest = 2 ^ 64 - 128 := by decide

theorem head_inuse_eq (s : Nat) (hs : s % 8 = 0) : s ||| kPinuseBit ||| kCinuseBit = s + 3 := by
  have := head_eq s true true hs
  simpa [pinBit, cinBit, kPinuseBit, kCinuseBit, Nat.add_assoc] using this

theorem head_free_eq (s : Nat) (hs : s % 8 = 0) : s ||| kPinuseBit = s + 1 := by
  have := head_or_one s 0 hs (by decide)
  simpa [kPinuseBit] using this

/-- The cells of the bins lie below the end of the chunks and are none of the fields
`dv`, `top`, `dv_size`, `top_size` or the fields from `least_addr` on. -/
theorem interior_facts {msp start : Nat} {cs : List Chunk} (g : Geometry msp start cs) {a : Nat}
    (h : Interior msp cs a) :
    a < endAddr start cs ∧ msp ≤ a ∧ ¬ (msp + oDv ≤ a ∧ a < msp + oSmallBins) ∧
      ¬ (msp + oLeastAddr ≤ a ∧ a < msp + kSizeofMemorySpace) := by
  refine ⟨?_, ?_, ?_, ?_⟩
  · by_contra hc
    exact not_interior_end g a (by omega) h
  · by_contra hc
    exact not_interior_field g a (Or.inl (by omega)) h
  · intro hc
    exact not_interior_field g a (Or.inr (Or.inl hc)) h
  · intro hc
    exact not_interior_field g a (Or.inr (Or.inr hc)) h

/-- Round trip for a request served by splitting `top`. -/
theorem round_trip_top (fuel : Nat) (h : Heap) (msp : Nat) (cs : List Chunk) (bytes : Nat)
    (hwf : WellFormed h.mem msp cs) (hb : bytes ≤ kMaxSmallRequest)
    (hthr : kMinLargeSize ≤ h.mem (msp + oSegmentThreshold))
    (hbits : shr32 (h.mem (msp + oSmallMap)) (getSmallBinIndex (allocChunkSize bytes)) = 0)
    (hdv : h.mem (msp + oDvSize) < allocChunkSize bytes)
    (htop : allocChunkSize bytes < h.mem (msp + oTopSize)) :
    ∃ p h2 r m3, alloc fuel h msp bytes = some (p, h2) ∧ p ≠ 0 ∧
      free fuel h2.mem msp p = some (r, m3) ∧ SameBins h.mem m3 msp cs := by
  obtain ⟨hnb32, hnb248, hnb8⟩ := allocChunkSize_small bytes hb
  have g := hwf.geometry
  obtain ⟨⟨_, hend, _⟩, ⟨_, hbelow, hts8, hlt, hleast, hfp, hfp2, hdvl⟩, _⟩ := hwf
  have hle := endAddr_le (firstChunk h.mem msp) cs
  have h968 : kSizeofMemorySpace = 968 := rfl
  have h256 : kMinLargeSize = 256 := rfl
  have h232 : kMaxSmallRequest = 232 := rfl
  have e1 : oTop = 16 := rfl
  have e2 : oTopSize = 32 := rfl
  have e3 : oHead = 8 := rfl
  have e5 : oCurrPageIndex = 840 := rfl
  have e6 : oDv = 8 := rfl
  have e7 : oDvSize = 24 := rfl
  have e8 : oSegmentThreshold = 864 := rfl
  have e9 : oLeastAddr = 832 := rfl
  have e10 : oFootprint = 872 := rfl
  have e11 : oSmallBins = 40 := rfl
  have hbm : bytes ≤ kMaxRequest := by rw [kMaxRequest_eq]; omega
  have hTdv : h.mem (msp + oTop) ≠ h.mem (msp + oDv) := by
    rcases hdvl with ⟨_, h0⟩ | hmem
    · omega
    · have := g.bounds _ hmem
      simp only at this
      omega
  obtain ⟨M, hM, f1, f2, f3, f4, f5⟩ := allocTail_top h msp bytes (allocChunkSize bytes) hdv htop hlt
    (by omega) hnb32
  have halloc : alloc fuel h msp bytes =
      some (chunkToMemory (h.mem (msp + oTop)), { h with mem := M }) := by
    unfold alloc
    simp only []
    rw [if_pos hbm, show (if bytes < kMinRequest then kMinChunkSize else padRequest bytes) =
      allocChunkSize bytes from rfl, hbits, if_neg (by decide), if_pos (by omega),
      if_neg (by decide), hM]
  rw [head_inuse_eq _ hnb8] at f1
  rw [head_free_eq _ (by omega)] at f2
  have hMthr : M (msp + oSegmentThreshold) = h.mem (msp + oSegmentThreshold) :=
    f5 (msp + oSegmentThreshold) (by omega) (by omega) (by omega) (by omega)
  have hMleast : M (msp + oLeastAddr) = h.mem (msp + oLeastAddr) :=
    f5 (msp + oLeastAddr) (by omega) (by omega) (by omega) (by omega)
  have hMfp : M (msp + oFootprint) = h.mem (msp + oFootprint) :=
    f5 (msp + oFootprint) (by omega) (by omega) (by omega) (by omega)
  have hMdv : M (msp + oDv) = h.mem (msp + oDv) :=
    f5 (msp + oDv) (by omega) (by omega) (by omega) (by omega)
  have hMdvs : M (msp + oDvSize) = h.mem (msp + oDvSize) :=
    f5 (msp + oDvSize) (by omega) (by omega) (by omega) (by omega)
  have hfree : free fuel M msp (chunkToMemory (h.mem (msp + oTop))) =
      some (freeIntoTop M msp (h.mem (msp + oTop)) (allocChunkSize bytes)) := by
    rw [free_eq_forward fuel M msp (h.mem (msp + oTop)) (allocChunkSize bytes) hnb8 (by omega) (by omega) f1 (by rw [hMthr]; omega)
      (by rw [hMleast]; omega) (by rw [hMleast, hMfp]; omega) (by rw [hMleast, hMfp]; omega)]
    have hp : getPInuse M (h.mem (msp + oTop) + allocChunkSize bytes) ≠ 0 := by
      unfold getPInuse
      rw [f2, show kPinuseBit = 1 from rfl, head_and_one _ _ (by omega)]; decide
    have hc : getCInuse M (h.mem (msp + oTop) + allocChunkSize bytes) = 0 := by
      unfold getCInuse
      rw [f2, show kCinuseBit = 2 from rfl, head_and_two _ _ (by omega) (by decide)]
    unfold freeForward
    rw [if_pos hp, if_pos hc, if_pos f3.symm]
  obtain ⟨s1, s2, _, _⟩ := freeIntoTop_spec M msp (h.mem (msp + oTop)) (allocChunkSize bytes)
    (by omega)
  have s5 := freeIntoTop_frame M msp (h.mem (msp + oTop)) (allocChunkSize bytes) (by omega)
    (by rw [hMdv]; exact hTdv)
  have hcell : ∀ a, Interior msp cs a →
      (freeIntoTop M msp (h.mem (msp + oTop)) (allocChunkSize bytes)).2 a = h.mem a := by
    intro a ha
    obtain ⟨i1, i2, i3, i4⟩ := interior_facts g ha
    rw [s5 a (by omega) (by omega) (by omega) (by omega),
      f5 a (by omega) (by omega) (by omega) (by omega)]
  refine ⟨chunkToMemory (h.mem (msp + oTop)), { h with mem := M },
    (freeIntoTop M msp (h.mem (msp + oTop)) (allocChunkSize bytes)).1,
    (freeIntoTop M msp (h.mem (msp + oTop)) (allocChunkSize bytes)).2, halloc, ?_, hfree,
    ?_, ?_, s1, ?_, ?_, ?_⟩
  · unfold chunkToMemory u64
    rw [show kChunkOverhead = 16 from rfl, Nat.mod_eq_of_lt (by omega)]; omega
  · rw [s5 (msp + oDv) (by omega) (by omega) (by omega) (by omega)]; exact hMdv
  · rw [s5 (msp + oDvSize) (by omega) (by omega) (by omega) (by omega)]; exact hMdvs
  · rw [s2, f4]
    unfold u64
    rw [Nat.mod_eq_of_lt (by omega)]; omega
  · exact fun a ha => hcell a (smallCell_interior g ha)
  · exact fun a ha => hcell a (largeCell_interior g ha)

/-- The cells of the bins lie outside the designated victim. -/
theorem cell_outside_dv {msp start dv : Nat} {cs : List Chunk} (g : Geometry msp start cs)
    (d : Chunk) (hd : d ∈ cs) (hdv : d.addr = dv) {a : Nat}
    (h : SmallCell msp dv cs a ∨ LargeCell msp dv cs a) :
    a < d.addr + 8 ∨ d.addr + d.size + 8 ≤ a := by
  have hdb := g.bounds d hd
  have h32 : kNumTreeBins = 32 := rfl
  have e0 : oSmallMap = 0 := rfl
  have e1 : oTreeMap = 4 := rfl
  rcases h with (rfl | ⟨x, hx, ha⟩) | (rfl | ⟨i, hi, rfl⟩ | ⟨x, hx, ha⟩)
  · omega
  · rcases hx.small_cases with ⟨h1, h2, _⟩ | ⟨c, hc, h1, _, _, h4⟩
    · simp only [oFd, oBk] at ha; omega
    · have hcb := g.bounds c hc
      simp only [oFd, oBk] at ha
      rcases g.disjoint c d hc hd with he | hlt | hlt
      · exfalso; apply h4; rw [← h1, he, hdv]
      · omega
      · omega
  · omega
  · simp only [treeBinAt, oTreeBins]; omega
  · obtain ⟨c, hc, h1, _, h3, h4⟩ := hx.large_cases
    have hcb := g.bounds c hc
    simp only [oFd, oBk, oChild, oParent, oIndex] at ha
    rcases g.disjoint c d hc hd with he | hlt | hlt
    · exfalso; apply h4; rw [← h1, he, hdv]
    · omega
    · omega

/-- The branch of `allocTail` that splits the designated victim. -/
theorem allocTail_dv (h : Heap) (msp bytes nb : Nat)
    (hdv : nb + kMinChunkSize ≤ h.mem (msp + oDvSize))
    (hlt : h.mem (msp + oDv) + h.mem (msp + oDvSize) < 2 ^ 64)
    (hge : msp + kSizeofMemorySpace ≤ h.mem (msp + oDv)) (hnb : 32 ≤ nb) :
    ∃ M, allocTail h msp bytes nb = (chunkToMemory (h.mem (msp + oDv)), { h with mem := M }) ∧
      M (h.mem (msp + oDv) + oHead) = nb ||| kPinuseBit ||| kCinuseBit ∧
      M (h.mem (msp + oDv) + nb + oHead) = (h.mem (msp + oDvSize) - nb) ||| kPinuseBit ∧
      M (msp + oDv) = h.mem (msp + oDv) + nb ∧
      M (msp + oDvSize) = h.mem (msp + oDvSize) - nb ∧
      ∀ a, a ≠ msp + oDv → a ≠ msp + oDvSize →
        (a < h.mem (msp + oDv) + 8 ∨ h.mem (msp + oDv) + h.mem (msp + oDvSize) + 8 ≤ a) →
        M a = h.mem a := by
  have h968 : kSizeofMemorySpace = 968 := rfl
  have hmin : kMinChunkSize = 32 := rfl
  have e1 : oDv = 8 := rfl
  have e2 : oDvSize = 24 := rfl
  have e3 : oHead = 8 := rfl
  have e4 : oPrevFoot = 0 := rfl
  have hu : u64 (h.mem (msp + oDv) + nb) = h.mem (msp + oDv) + nb := by
    unfold u64
    exact Nat.mod_eq_of_lt (by omega)
  have hu2 : u64 (h.mem (msp + oDv) + nb + (h.mem (msp + oDvSize) - nb)) =
      h.mem (msp + oDv) + h.mem (msp + oDvSize) := by
    unfold u64
    rw [Nat.mod_eq_of_lt (by omega)]; omega
  unfold allocTail setSizePinuseOfInuseChunk setSizePinuseOfFreeChunk markInuseFoot chunkPlusOffset
  simp only []
  rw [if_pos (by omega), if_pos (by omega)]
  simp only [hu, hu2]
  refine ⟨_, rfl, ?_, ?_, ?_, ?_, ?_⟩
  · rw [Mem.write_ne _ _ _ _ (by omega), Mem.write_same]
  · rw [Mem.write_ne _ _ _ _ (by omega), Mem.write_ne _ _ _ _ (by omega),
      Mem.write_ne _ _ _ _ (by omega), Mem.write_same]
  · rw [Mem.write_ne _ _ _ _ (by omega), Mem.write_ne _ _ _ _ (by omega),
      Mem.write_ne _ _ _ _ (by omega), Mem.write_ne _ _ _ _ (by omega),
      Mem.write_ne _ _ _ _ (by omega), Mem.write_same]
  · rw [Mem.write_ne _ _ _ _ (by omega), Mem.write_ne _ _ _ _ (by omega),
      Mem.write_ne _ _ _ _ (by omega), Mem.write_ne _ _ _ _ (by omega), Mem.write_same]
  · intro a a1 a2 a3
    rw [Mem.write_ne _ _ _ _ (by omega), Mem.write_ne _ _ _ _ (by omega),
      Mem.write_ne _ _ _ _ (by omega), Mem.write_ne _ _ _ _ (by omega),
      Mem.write_ne _ _ _ _ a2, Mem.write_ne _ _ _ _ a1]

/-- Round trip for a request served by splitting the designated victim. -/
theorem round_trip_dv (fuel : Nat) (h : Heap) (msp : Nat) (cs : List Chunk) (bytes : Nat)
    (hwf : WellFormed h.mem msp cs) (hb : bytes ≤ kMaxSmallRequest)
    (hthr : kMinLargeSize ≤ h.mem (msp + oSegmentThreshold))
    (hbits : shr32 (h.mem (msp + oSmallMap)) (getSmallBinIndex (allocChunkSize bytes)) &&& 3 = 0)
    (hdv : allocChunkSize bytes + kMinChunkSize ≤ h.mem (msp + oDvSize))
    (htree : h.mem (msp + oTreeMap) = 0) :
    ∃ p h2 r m3, alloc fuel h msp bytes = some (p, h2) ∧ p ≠ 0 ∧
      free fuel h2.mem msp p = some (r, m3) ∧ SameBins h.mem m3 msp cs := by
  obtain ⟨hnb32, hnb248, hnb8⟩ := allocChunkSize_small bytes hb
  have g := hwf.geometry
  obtain ⟨⟨hseg, hend, _⟩, ⟨_, hbelow, hts8, hlt, hleast, hfp, hfp2, hdvl⟩, _⟩ := hwf
  have hle := endAddr_le (firstChunk h.mem msp) cs
  have h968 : kSizeofMemorySpace = 968 := rfl
  have h256 : kMinLargeSize = 256 := rfl
  have h232 : kMaxSmallRequest = 232 := rfl
  have hmin : kMinChunkSize = 32 := rfl
  have e1 : oTop = 16 := rfl
  have e2 : oTopSize = 32 := rfl
  have e3 : oHead = 8 := rfl
  have e6 : oDv = 8 := rfl
  have e7 : oDvSize = 24 := rfl
  have e8 : oSegmentThreshold = 864 := rfl
  have e9 : oLeastAddr = 832 := rfl
  have e10 : oFootprint = 872 := rfl
  have e11 : oSmallBins = 40 := rfl
  have hbm : bytes ≤ kMaxRequest := by rw [kMaxRequest_eq]; omega
  have hdmem : (⟨h.mem (msp + oDv), h.mem (msp + oDvSize), false⟩ : Chunk) ∈ cs := by
    rcases hdvl with ⟨h0, _⟩ | hmem
    · omega
    · exact hmem
  have hdb := g.bounds _ hdmem
  have hdF := (segOK_mem_bounds _ _ _ _ hseg _ hdmem).1
  simp only at hdb hdF
  obtain ⟨M, hM, f1, f2, f3, f4, f5⟩ := allocTail_dv h msp bytes (allocChunkSize bytes) hdv
    (by omega) (by omega) hnb32
  have halloc : alloc fuel h msp bytes =
      some (chunkToMemory (h.mem (msp + oDv)), { h with mem := M }) := by
    unfold alloc
    simp only []
    rw [if_pos hbm, show (if bytes < kMinRequest then kMinChunkSize else padRequest bytes) =
      allocChunkSize bytes from rfl, if_neg (by rw [hbits]; decide), if_neg (by omega),
      if_neg (by rw [htree]; decide), hM]
  rw [head_inuse_eq _ hnb8] at f1
  rw [head_free_eq _ (by omega)] at f2
  have hMthr : M (msp + oSegmentThreshold) = h.mem (msp + oSegmentThreshold) :=
    f5 (msp + oSegmentThreshold) (by omega) (by omega) (by omega)
  have hMleast : M (msp + oLeastAddr) = h.mem (msp + oLeastAddr) :=
    f5 (msp + oLeastAddr) (by omega) (by omega) (by omega)
  have hMfp : M (msp + oFootprint) = h.mem (msp + oFootprint) :=
    f5 (msp + oFootprint) (by omega) (by omega) (by omega)
  have hMtop : M (msp + oTop) = h.mem (msp + oTop) :=
    f5 (msp + oTop) (by omega) (by omega) (by omega)
  have hMts : M (msp + oTopSize) = h.mem (msp + oTopSize) :=
    f5 (msp + oTopSize) (by omega) (by omega) (by omega)
  have hu : u64 (M (msp + oDvSize) + allocChunkSize bytes) = h.mem (msp + oDvSize) := by
    rw [f4]; unfold u64
    rw [Nat.mod_eq_of_lt (by omega)]; omega
  have hfree : free fuel M msp (chunkToMemory (h.mem (msp + oDv))) =
      some (false, setSizePinuseOfFreeChunk
        ((M.write (msp + oDvSize) (h.mem (msp + oDvSize))).write (msp + oDv) (h.mem (msp + oDv)))
        (h.mem (msp + oDv)) (h.mem (msp + oDvSize))) := by
    rw [free_eq_forward fuel M msp (h.mem (msp + oDv)) (allocChunkSize bytes) hnb8 (by omega)
      (by omega) f1 (by rw [hMthr]; omega)
      (by rw [hMleast]; omega) (by rw [hMleast, hMfp]; omega) (by rw [hMleast, hMfp]; omega)]
    have hp : getPInuse M (h.mem (msp + oDv) + allocChunkSize bytes) ≠ 0 := by
      unfold getPInuse
      rw [f2, show kPinuseBit = 1 from rfl, head_and_one _ _ (by omega)]; decide
    have hc : getCInuse M (h.mem (msp + oDv) + allocChunkSize bytes) = 0 := by
      unfold getCInuse
      rw [f2, show kCinuseBit = 2 from rfl, head_and_two _ _ (by omega) (by decide)]
    unfold freeForward
    rw [if_pos hp, if_pos hc, if_neg (by rw [hMtop]; omega), if_pos f3.symm]
    simp only [hu]
  have hlt2 : h.mem (msp + oDv) + h.mem (msp + oDvSize) < 2 ^ 64 := by omega
  have hfin : ∀ a, a ≠ msp + oDv → a ≠ msp + oDvSize →
      (a < h.mem (msp + oDv) + 8 ∨ h.mem (msp + oDv) + h.mem (msp + oDvSize) + 8 ≤ a) →
      setSizePinuseOfFreeChunk
        ((M.write (msp + oDvSize) (h.mem (msp + oDvSize))).write (msp + oDv) (h.mem (msp + oDv)))
        (h.mem (msp + oDv)) (h.mem (msp + oDvSize)) a = h.mem a := by
    intro a a1 a2 a3
    rw [setFree_other _ _ _ _ hlt2 (by omega) (by omega), Mem.write_ne _ _ _ _ a1,
      Mem.write_ne _ _ _ _ a2]
    exact f5 a a1 a2 a3
  have hcell : ∀ a, SmallCell msp (h.mem (msp + oDv)) cs a ∨ LargeCell msp (h.mem (msp + oDv)) cs a →
      setSizePinuseOfFreeChunk
        ((M.write (msp + oDvSize) (h.mem (msp + oDvSize))).write (msp + oDv) (h.mem (msp + oDv)))
        (h.mem (msp + oDv)) (h.mem (msp + oDvSize)) a = h.mem a := by
    intro a ha
    have hint : Interior msp cs a := by
      rcases ha with ha | ha
      · exact smallCell_interior g ha
      · exact largeCell_interior g ha
    obtain ⟨i1, i2, i3, i4⟩ := interior_facts g hint
    have := cell_outside_dv g _ hdmem rfl ha
    simp only at this
    exact hfin a (by omega) (by omega) this
  refine ⟨chunkToMemory (h.mem (msp + oDv)), { h with mem := M }, false, _, halloc, ?_, hfree,
    ?_, ?_, ?_, ?_, fun a ha => hcell a (Or.inl ha), fun a ha => hcell a (Or.inr ha)⟩
  · unfold chunkToMemory u64
    rw [show kChunkOverhead = 16 from rfl, Nat.mod_eq_of_lt (by omega)]; omega
  · rw [setFree_other _ _ _ _ hlt2 (by omega) (by omega), Mem.write_same]
  · rw [setFree_other _ _ _ _ hlt2 (by omega) (by omega), Mem.write_ne _ _ _ _ (by omega),
      Mem.write_same]
  · rw [hfin _ (by omega) (by omega) (by omega)]
  · rw [hfin _ (by omega) (by omega) (by omega)]

theorem indexToBit_eq (i : Nat) (hi : i < 32) : indexToBit i = 2 ^ i := by
  unfold indexToBit shl32
  rw [Nat.mod_eq_of_lt (show 1 < 2 ^ 32 by decide), Nat.mod_eq_of_lt hi, Nat.one_shiftLeft,
    Nat.mod_eq_of_lt (Nat.pow_lt_pow_right (by decide) hi)]

theorem isSmallMapMarked_iff (m : Mem) (msp i : Nat) (hi : i < 32) :
    isSmallMapMarked m msp i = true ↔ (m (msp + oSmallMap)).testBit i = true := by
  unfold isSmallMapMarked
  rw [indexToBit_eq i hi, Nat.and_two_pow]
  have hpos : 2 ^ i ≠ 0 := Nat.pos_iff_ne_zero.1 (Nat.two_pow_pos i)
  cases h : (m (msp + oSmallMap)).testBit i <;> simp [hpos]

theorem shr32_testBit (map idx j : Nat) (hidx : idx < 32) :
    (shr32 map idx).testBit j = (decide (idx + j < 32) && map.testBit (idx + j)) := by
  unfold shr32
  rw [Nat.mod_eq_of_lt hidx, Nat.testBit_shiftRight, Nat.testBit_mod_two_pow]

/-- The bin `alloc` takes a chunk from when one of the two lowest bits of `smallbits` is
set: a marked bin, the one of the request or the next one. -/
theorem small_index_choice (map idx : Nat) (hidx : idx < 32) (h : shr32 map idx &&& 3 ≠ 0) :
    u32 (idx + (not32 (shr32 map idx) &&& 1)) < 32 ∧
      map.testBit (u32 (idx + (not32 (shr32 map idx) &&& 1))) = true ∧
      idx ≤ u32 (idx + (not32 (shr32 map idx) &&& 1)) := by
  have h0 := shr32_testBit map idx 0 hidx
  have h1 := shr32_testBit map idx 1 hidx
  rw [Nat.testBit_to_div_mod] at h0 h1
  have hlt : shr32 map idx < 2 ^ 32 := by
    unfold shr32
    rw [Nat.shiftRight_eq_div_pow]
    exact Nat.lt_of_le_of_lt (Nat.div_le_self _ _) (Nat.mod_lt _ (by decide))
  have h3 : shr32 map idx &&& 3 = shr32 map idx % 4 := Nat.and_pow_two_sub_one_eq_mod _ 2
  rw [h3] at h
  have hn : not32 (shr32 map idx) &&& 1 = 1 - shr32 map idx % 2 := by
    unfold not32
    rw [Nat.and_one_is_mod, Nat.mod_eq_of_lt hlt]
    omega
  rw [hn]
  unfold u32
  simp only [Nat.pow_zero, Nat.div_one, Nat.pow_one, Nat.add_zero] at h0 h1
  by_cases hb : shr32 map idx % 2 = 1
  · rw [hb, Nat.sub_self, Nat.add_zero, Nat.mod_eq_of_lt (by omega)]
    refine ⟨hidx, ?_, Nat.le_refl _⟩
    have : decide (shr32 map idx % 2 = 1) = true := by simpa using hb
    rw [this] at h0
    have h2 := h0.symm
    simp only [Bool.and_eq_true, decide_eq_true_eq] at h2
    exact h2.2
  · have hb0 : shr32 map idx % 2 = 0 := by omega
    have hd : decide (shr32 map idx / 2 % 2 = 1) = true := by
      have : shr32 map idx / 2 % 2 = 1 := by omega
      simpa using this
    rw [hd] at h1
    have h2 := h1.symm
    simp only [Bool.and_eq_true, decide_eq_true_eq] at h2
    rw [hb0, Nat.sub_zero, Nat.mod_eq_of_lt (by omega)]
    exact ⟨h2.1, h2.2, by omega⟩

theorem clear_mark_bit (map i : Nat) (hi : i < 32) (hmap : map < 2 ^ 32)
    (hb : map.testBit i = true) : (map &&& not32 (2 ^ i)) ||| 2 ^ i = map := by
  have hlt : 2 ^ i < 2 ^ 32 := Nat.pow_lt_pow_right (by decide) hi
  have hnot : not32 (2 ^ i) = 2 ^ 32 - (2 ^ i + 1) := by
    unfold not32; rw [Nat.mod_eq_of_lt hlt]; omega
  apply Nat.eq_of_testBit_eq
  intro j
  rw [Nat.testBit_or, Nat.testBit_and, hnot, Nat.testBit_two_pow_sub_succ hlt, Nat.testBit_two_pow]
  by_cases hij : i = j
  · subst hij; simp [hb]
  · by_cases hj : j < 32
    · simp [hij, hj]
    · have : map.testBit j = false :=
        Nat.testBit_lt_two_pow (Nat.lt_of_lt_of_le hmap (Nat.pow_le_pow_right (by decide) (by omega)))
      simp [hij, this]

theorem getSmallIndexToSize_eq (i : Nat) (hi : i < 32) : getSmallIndexToSize i = 8 * i := by
  unfold getSmallIndexToSize u32
  rw [show kSmallBinShift = 3 from rfl, Nat.shiftLeft_eq, Nat.mod_eq_of_lt (by omega)]
  omega

theorem getSmallBinIndex_eq (size : Nat) (h : size < 256) : getSmallBinIndex size = size / 8 := by
  unfold getSmallBinIndex u32
  rw [show kSmallBinShift = 3 from rfl, Nat.shiftRight_eq_div_pow, Nat.mod_eq_of_lt (by omega)]

/-- Putting the first chunk of a small bin back at the front of the bin undoes
`unlinkFirstSmallChunk`. -/
theorem insert_unlinkFirst_cancel (m : Mem) (msp ptr i : Nat) (hi : i < 32)
    (hmap : m (msp + oSmallMap) < 2 ^ 32) (hmark : (m (msp + oSmallMap)).testBit i = true)
    (hfd : m (smallBinAt msp i + oFd) = ptr) (hbk : m (ptr + oBk) = smallBinAt msp i)
    (hF : m (m (ptr + oFd) + oBk) = ptr) (hptr : msp + 968 ≤ ptr)
    (hF0 : (∃ j, j < 32 ∧ m (ptr + oFd) = smallBinAt msp j) ∨
      ((m (ptr + oFd) + 32 ≤ ptr ∨ ptr + 32 ≤ m (ptr + oFd)) ∧ msp + 968 ≤ m (ptr + oFd))) :
    insertSmallChunk (unlinkFirstSmallChunk m msp ptr i) msp ptr (getSmallIndexToSize i) = m := by
  have e1 : oFd = 16 := rfl
  have e2 : oBk = 24 := rfl
  have e3 : oSmallMap = 0 := rfl
  have hB := smallBinAt_eq msp i hi
  have hidx : getSmallBinIndex (getSmallIndexToSize i) = i := by
    rw [getSmallIndexToSize_eq i hi, getSmallBinIndex_eq _ (by omega)]; omega
  have hgeo : m (ptr + oFd) + 24 ≠ smallBinAt msp i + 16 ∧ m (ptr + oFd) + 24 ≠ ptr + 16 ∧
      m (ptr + oFd) ≠ ptr ∧ msp + 40 ≤ m (ptr + oFd) := by
    rcases hF0 with ⟨j, hj, hj2⟩ | ⟨h1, h2⟩
    · have := smallBinAt_eq msp j hj
      omega
    · omega
  generalize hF0v : m (ptr + oFd) = F0 at *
  generalize hBv : smallBinAt msp i = B at *
  -- the memory after the bit of the bin has been restored
  have key : ∃ M, (if (!isSmallMapMarked (unlinkFirstSmallChunk m msp ptr i) msp i) = true then
        markSmallMap (unlinkFirstSmallChunk m msp ptr i) msp i
      else unlinkFirstSmallChunk m msp ptr i) = M ∧ M (B + oFd) = F0 ∧
      ∀ a, a ≠ F0 + oBk → a ≠ B + oFd → M a = m a := by
    refine ⟨_, rfl, ?_, ?_⟩
    · have hmk : ∀ (X : Mem), (if (!isSmallMapMarked X msp i) = true then markSmallMap X msp i
          else X) (B + oFd) = X (B + oFd) := by
        intro X
        split
        · exact Mem.write_ne _ _ _ _ (by omega)
        · rfl
      rw [hmk]
      unfold unlinkFirstSmallChunk
      simp only [hF0v, hBv]
      rw [Mem.write_same]
    · intro a a1 a2
      unfold unlinkFirstSmallChunk
      simp only [hF0v, hBv]
      by_cases hFB : F0 = B
      · rw [if_pos hFB]
        have hnm : isSmallMapMarked (((clearSmallMap m msp i).write (F0 + oBk) B).write (B + oFd) F0)
            msp i = false := by
          have hval : (((clearSmallMap m msp i).write (F0 + oBk) B).write (B + oFd) F0)
              (msp + oSmallMap) = m (msp + oSmallMap) &&& not32 (indexToBit i) := by
            rw [Mem.write_ne _ _ _ _ (by omega), Mem.write_ne _ _ _ _ (by omega)]
            unfold clearSmallMap
            rw [Mem.write_same]
          unfold isSmallMapMarked
          rw [hval, and_not32_self _ _ (indexToBit_lt i)]
          rfl
        rw [hnm]
        simp only [Bool.not_false, if_true]
        unfold markSmallMap
        by_cases hm : a = msp + oSmallMap
        · rw [hm, Mem.write_same, Mem.write_ne _ _ _ _ (by omega), Mem.write_ne _ _ _ _ (by omega)]
          unfold clearSmallMap
          rw [Mem.write_same, indexToBit_eq i hi]
          exact clear_mark_bit _ i hi hmap hmark
        · rw [Mem.write_ne _ _ _ _ hm, Mem.write_ne _ _ _ _ a2, Mem.write_ne _ _ _ _ a1]
          unfold clearSmallMap
          rw [Mem.write_ne _ _ _ _ hm]
      · rw [if_neg hFB]
        have hm : isSmallMapMarked ((m.write (F0 + oBk) B).write (B + oFd) F0) msp i = true := by
          rw [isSmallMapMarked_iff _ _ _ hi, Mem.write_ne _ _ _ _ (by omega),
            Mem.write_ne _ _ _ _ (by omega)]
          exact hmark
        rw [hm]
        simp only [Bool.not_true, Bool.false_eq_true, if_false]
        rw [Mem.write_ne _ _ _ _ a2, Mem.write_ne _ _ _ _ a1]
  obtain ⟨M, hM, hMfd, hMfr⟩ := key
  funext a
  unfold insertSmallChunk
  simp only [hidx, hBv]
  rw [hM, hMfd]
  by_cases a1 : a = ptr + oBk
  · rw [a1, Mem.write_same, hbk]
  rw [Mem.write_ne _ _ _ _ a1]
  by_cases a2 : a = ptr + oFd
  · rw [a2, Mem.write_same, hF0v]
  rw [Mem.write_ne _ _ _ _ a2]
  by_cases a3 : a = F0 + oBk
  · rw [a3, Mem.write_same, hF]
  rw [Mem.write_ne _ _ _ _ a3]
  by_cases a4 : a = B + oFd
  · rw [a4, Mem.write_same, hfd]
  rw [Mem.write_ne _ _ _ _ a4]
  exact hMfr a a3 a4

theorem unlinkFirstSmallChunk_frame {m : Mem} {msp start : Nat} {cs : List Chunk}
    (g : Geometry msp start cs) (ptr i : Nat) (hi : i < kNumSmallBins)
    (hF : SmallObj msp (m (msp + oDv)) cs (m (ptr + oFd))) :
    ∀ a, ¬ Interior msp cs a → unlinkFirstSmallChunk m msp ptr i a = m a := by
  intro a ha
  have hback : SmallObj msp (m (msp + oDv)) cs (smallBinAt msp i) := Or.inl ⟨i, hi, rfl⟩
  have h1 : a ≠ smallBinAt msp i + oFd := fun h => ha (h ▸ smallCell_interior g (smallCell_fd hback))
  have h2 : a ≠ m (ptr + oFd) + oBk := fun h => ha (h ▸ smallCell_interior g (smallCell_bk hF))
  have h3 : a ≠ msp + oSmallMap :=
    fun h => ha (h ▸ smallCell_interior g (smallCell_map msp (m (msp + oDv)) cs))
  unfold unlinkFirstSmallChunk
  rw [Mem.write_ne _ _ _ _ h1, Mem.write_ne _ _ _ _ h2]
  split
  · exact Mem.write_ne _ _ _ _ h3
  · rfl

/-- Round trip for a request served by a whole chunk of a small bin: memory is back to
what it was. -/
theorem round_trip_bin (fuel : Nat) (h : Heap) (msp : Nat) (cs : List Chunk) (bytes : Nat)
    (hwf : WellFormed h.mem msp cs) (hna : NoAdjFree cs) (hb : bytes ≤ kMaxSmallRequest)
    (hthr : kMinLargeSize ≤ h.mem (msp + oSegmentThreshold))
    (hmap : h.mem (msp + oSmallMap) < 2 ^ 32)
    (hbits : shr32 (h.mem (msp + oSmallMap)) (getSmallBinIndex (allocChunkSize bytes)) &&& 3 ≠ 0) :
    ∃ p h2 r m3, alloc fuel h msp bytes = some (p, h2) ∧ p ≠ 0 ∧
      free fuel h2.mem msp p = some (r, m3) ∧ m3 = h.mem := by
  obtain ⟨hnb32, hnb248, hnb8⟩ := allocChunkSize_small bytes hb
  have g := hwf.geometry
  have hcl := hwf.closed
  obtain ⟨⟨hseg, hend, _⟩, ⟨_, hbelow, hts8, hlt, hleast, hfp, hfp2, hdvl⟩, hsb, _⟩ := hwf
  have hle := endAddr_le (firstChunk h.mem msp) cs
  have h968 : kSizeofMemorySpace = 968 := rfl
  have h256 : kMinLargeSize = 256 := rfl
  have h232 : kMaxSmallRequest = 232 := rfl
  have h32b : kNumSmallBins = 32 := rfl
  have e3 : oHead = 8 := rfl
  have e4 : oFd = 16 := rfl
  have e5 : oBk = 24 := rfl
  have e8 : oSegmentThreshold = 864 := rfl
  have e9 : oLeastAddr = 832 := rfl
  have e10 : oFootprint = 872 := rfl
  have hbm : bytes ≤ kMaxRequest := by rw [kMaxRequest_eq]; omega
  have hidx : getSmallBinIndex (allocChunkSize bytes) = allocChunkSize bytes / 8 :=
    getSmallBinIndex_eq _ (by omega)
  obtain ⟨hi32, hbit, hige⟩ := small_index_choice (h.mem (msp + oSmallMap))
    (getSmallBinIndex (allocChunkSize bytes)) (by rw [hidx]; omega) hbits
  obtain ⟨i, hi⟩ : ∃ i, u32 (getSmallBinIndex (allocChunkSize bytes) +
      (not32 (shr32 (h.mem (msp + oSmallMap)) (getSmallBinIndex (allocChunkSize bytes))) &&& 1)) = i :=
    ⟨_, rfl⟩
  rw [hi] at hi32 hbit hige
  rw [hidx] at hige
  have hS := getSmallIndexToSize_eq i hi32
  -- the first chunk of the bin
  obtain ⟨b1, _, b3, _, b5, b6⟩ := hsb.1 i hi32
  have hne : h.mem (smallBinAt msp i + oFd) ≠ smallBinAt msp i :=
    b5.1 ((isSmallMapMarked_iff _ _ _ hi32).2 hbit)
  obtain ⟨hcm, hcdv⟩ := b6 hne
  obtain ⟨ptr, hptr⟩ : ∃ ptr, h.mem (smallBinAt msp i + oFd) = ptr := ⟨_, rfl⟩
  rw [hptr] at b1 b3 hne hcm hcdv
  have hB := smallBinAt_eq msp i hi32
  have hcb := g.bounds _ hcm
  have hcF := (segOK_mem_bounds _ _ _ _ hseg _ hcm).1
  simp only at hcb hcF
  obtain ⟨c1, _, c3, _⟩ := hsb.2 _ hcm rfl (by simp only [h256]; omega) hcdv
  simp only at c1 c3
  have hF0 : (∃ j, j < 32 ∧ h.mem (ptr + oFd) = smallBinAt msp j) ∨
      ((h.mem (ptr + oFd) + 32 ≤ ptr ∨ ptr + 32 ≤ h.mem (ptr + oFd)) ∧
        msp + 968 ≤ h.mem (ptr + oFd)) := by
    rcases c1 with ⟨j, hj, hj2⟩ | ⟨c2, hc2, hc2a, _, _, _⟩
    · exact Or.inl ⟨j, hj, hj2⟩
    · right
      have hb2 := g.bounds c2 hc2
      rcases g.disjoint c2 _ hc2 hcm with he | hd | hd
      · exfalso
        rw [he] at hc2a
        simp only at hc2a
        rw [← hc2a, b3] at c3
        omega
      · simp only at hd; omega
      · simp only at hd; omega
  -- the chunks around it
  obtain ⟨L, R, hcs⟩ := List.append_of_mem hcm
  have hlp : lastInuse true L = true := noAdj_before_free (hcs ▸ hna) rfl
  obtain ⟨r, R2, hR, hr⟩ := noAdj_after_free (hcs ▸ hna) rfl
  rw [hcs, hR, segOK_split] at hseg
  obtain ⟨_, _, _, _, hhead, hfoot, hsR⟩ := hseg
  simp only at hhead hfoot hsR
  rw [segOK_cons] at hsR
  obtain ⟨hra, _, hr8, hrhead, _, _⟩ := hsR
  have hrm : r ∈ cs := by rw [hcs, hR]; simp
  have hrb := g.bounds r hrm
  have hS8 : getSmallIndexToSize i % 8 = 0 := by omega
  rw [hlp, head_eq _ _ _ hS8] at hhead
  rw [hr, head_eq _ _ _ hr8] at hrhead
  simp only [pinBit, cinBit, kPinuseBit, kCinuseBit, if_true, Bool.false_eq_true, if_false,
    Nat.add_zero] at hhead hrhead
  have hfoot2 := hfoot trivial
  have n1 : ¬ Interior msp cs (ptr + oHead) := not_interior_head g _ hcm
  have n2 : ¬ Interior msp cs (ptr + getSmallIndexToSize i) := not_interior_foot g _ hcm
  have n3 : ¬ Interior msp cs (ptr + getSmallIndexToSize i + oHead) := by
    have := not_interior_head g r hrm
    rwa [hra] at this
  have hfr1 := unlinkFirstSmallChunk_frame g ptr i hi32 c1
  have hu : u64 (ptr + getSmallIndexToSize i) = ptr + getSmallIndexToSize i := by
    unfold u64; exact Nat.mod_eq_of_lt (by omega)
  -- the memory `alloc` leaves
  obtain ⟨M, hMdef⟩ : ∃ M, M = setSizeInusePinuse (unlinkFirstSmallChunk h.mem msp ptr i) msp ptr
      (getSmallIndexToSize i) := ⟨_, rfl⟩
  have halloc : alloc fuel h msp bytes = some (chunkToMemory ptr, { h with mem := M }) := by
    unfold alloc
    simp only []
    rw [if_pos hbm, show (if bytes < kMinRequest then kMinChunkSize else padRequest bytes) =
      allocChunkSize bytes from rfl, if_pos hbits]
    simp only [hi, hptr]
    rw [hMdef]
  have f1 : M (ptr + oHead) = getSmallIndexToSize i + 3 := by
    rw [hMdef]
    unfold setSizeInusePinuse markInuseFoot
    simp only [hu]
    rw [Mem.write_ne _ _ _ _ (by simp only [oPrevFoot]; omega), Mem.write_ne _ _ _ _ (by omega),
      Mem.write_same, hfr1 _ n1, hhead, show kPinuseBit = 1 from rfl,
      head_and_one _ _ hS8, show (1 : Nat) % 2 = 1 from rfl,
      flag_or_size _ 1 hS8 (by decide), show kCinuseBit = 2 from rfl,
      head_or_two _ 1 hS8 (by decide)]
  have f2 : M (ptr + getSmallIndexToSize i + oHead) = r.size + 3 := by
    rw [hMdef]
    unfold setSizeInusePinuse markInuseFoot
    simp only [hu]
    rw [Mem.write_ne _ _ _ _ (by simp only [oPrevFoot]; omega), Mem.write_same,
      Mem.write_ne _ _ _ _ (by omega), hfr1 _ n3, hrhead, show kPinuseBit = 1 from rfl,
      head_or_one _ 2 hr8 (by decide)]
  have f5 : ∀ a, a ≠ ptr + oHead → a ≠ ptr + getSmallIndexToSize i →
      a ≠ ptr + getSmallIndexToSize i + oHead →
      M a = unlinkFirstSmallChunk h.mem msp ptr i a := by
    intro a a1 a2 a3
    rw [hMdef]
    unfold setSizeInusePinuse markInuseFoot
    simp only [hu]
    rw [Mem.write_ne _ _ _ _ (by simpa [oPrevFoot] using a2), Mem.write_ne _ _ _ _ a3,
      Mem.write_ne _ _ _ _ a1]
  have hrec : ∀ a, msp + oLeastAddr ≤ a → a < msp + kSizeofMemorySpace → M a = h.mem a := by
    intro a a1 a2
    rw [f5 a (by omega) (by omega) (by omega)]
    exact hfr1 a (not_interior_field g a (Or.inr (Or.inr ⟨a1, a2⟩)))
  -- `free` undoes it
  have hsmall : isSmall (getSmallIndexToSize i) = true := (isSmall_iff _).2 (by omega)
  have hM4 : setSizePinuseOfFreeChunk (M.write (ptr + getSmallIndexToSize i + oHead)
      (M (ptr + getSmallIndexToSize i + oHead) &&& not64 kPinuseBit)) ptr (getSmallIndexToSize i) =
      unlinkFirstSmallChunk h.mem msp ptr i := by
    funext a
    have hlt2 : ptr + getSmallIndexToSize i < 2 ^ 64 := by omega
    by_cases a1 : a = ptr + oHead
    · rw [a1, setFree_head _ _ _ hlt2 (by omega), hfr1 _ n1, hhead,
        head_free_eq _ hS8]
    by_cases a2 : a = ptr + getSmallIndexToSize i
    · rw [a2, setFree_foot _ _ _ hlt2, hfr1 _ n2, hfoot2]
    rw [setFree_other _ _ _ _ hlt2 a1 a2]
    by_cases a3 : a = ptr + getSmallIndexToSize i + oHead
    · rw [a3, Mem.write_same, f2, hfr1 _ n3, hrhead, show kPinuseBit = 1 from rfl]
      exact head_and_not_one r.size 3 hr8 (by decide) (by omega)
    · rw [Mem.write_ne _ _ _ _ a3]
      exact f5 a a1 a2 a3
  have hfree : free fuel M msp (chunkToMemory ptr) = some (false, h.mem) := by
    rw [free_eq_forward fuel M msp ptr (getSmallIndexToSize i) hS8 (by omega) (by omega) f1
      (by rw [hrec _ (by omega) (by omega)]; omega)
      (by rw [hrec _ (by omega) (by omega)]; omega)
      (by rw [hrec _ (by omega) (by omega), hrec _ (by omega) (by omega)]; omega)
      (by rw [hrec _ (by omega) (by omega), hrec _ (by omega) (by omega)]; omega)]
    have hp : getPInuse M (ptr + getSmallIndexToSize i) ≠ 0 := by
      unfold getPInuse
      rw [f2, show kPinuseBit = 1 from rfl, head_and_one _ _ hr8]; decide
    have hc : ¬ getCInuse M (ptr + getSmallIndexToSize i) = 0 := by
      unfold getCInuse
      rw [f2, show kCinuseBit = 2 from rfl, head_and_two _ _ hr8 (by decide)]; decide
    unfold freeForward
    rw [if_pos hp, if_neg hc]
    simp only []
    rw [hM4]
    unfold insertChunk
    rw [if_pos hsmall]
    simp only []
    rw [insert_unlinkFirst_cancel h.mem msp ptr i hi32 hmap hbit hptr b3 c3 (by omega) hF0]
  refine ⟨chunkToMemory ptr, { h with mem := M }, false, h.mem, halloc, ?_, hfree, rfl⟩
  unfold chunkToMemory u64
  rw [show kChunkOverhead = 16 from rfl, Nat.mod_eq_of_lt (by omega)]; omega

theorem option_walk (o : Option (Bool × Mem)) (P : Mem → Prop) [DecidablePred P]
    (h : (o.map fun r => decide (P r.2)) = some true) : ∃ r m, o = some (r, m) ∧ P m := by
  cases o with
  | none => simp at h
  | some v =>
    refine ⟨v.1, v.2, rfl, ?_⟩
    simpa using h

/-- C8: `free` keeps the coalescing invariant.  For every well-formed space with chunks
`cs` in which no two adjacent chunks are both free, and every chunk `p` of `cs` that
is in use: whenever `free(msp, p)` returns, the space can be walked again and no two
adjacent chunks are both free; it does return, whatever the fuel, when no chunk sits
in a tree bin.  In particular, after three calls `alloc(msp, 40)` in a fresh space
(blocks `A`, `B`, `C`) the calls `free(A)`, `free(C)`, `free(B)` each return a
coalesced space, and after the third no chunk is left between the record and `top`:
the free chunk `top` starts at the chunk of `A` and covers all three blocks. -/
theorem free_keeps_coalesced (fuel : Nat) (m : Mem) (msp : Nat) (cs : List Chunk) (p sz : Nat)
    (hwf : WellFormed m msp cs) (hna : NoAdjFree cs) (hp : (⟨p, sz, true⟩ : Chunk) ∈ cs) :
    (∀ r m2, free fuel m msp (chunkToMemory p) = some (r, m2) →
      ∃ cs2, IsWalk m2 msp cs2 ∧ NoAdjFree cs2) ∧
    ((∀ x, ¬ LargeObj (m (msp + oDv)) cs x) →
      ∃ r m2, free fuel m msp (chunkToMemory p) = some (r, m2)) ∧
    ((threeBlocks.1, threeBlocks.2.1, threeBlocks.2.2.1) = (1049576, 1049632, 1049688) ∧
      (∃ r mA, afterFreeA = some (r, mA) ∧
        IsWalk mA (smallSpace []).1 [⟨1049560, 56, false⟩, ⟨1049616, 56, true⟩, ⟨1049672, 56, true⟩] ∧
        NoAdjFree [⟨1049560, 56, false⟩, ⟨1049616, 56, true⟩, ⟨1049672, 56, true⟩]) ∧
      (∃ r mC, afterFreeC = some (r, mC) ∧
        IsWalk mC (smallSpace []).1 [⟨1049560, 56, false⟩, ⟨1049616, 56, true⟩] ∧
        NoAdjFree [⟨1049560, 56, false⟩, ⟨1049616, 56, true⟩]) ∧
      (∃ r mB, afterFreeB = some (r, mB) ∧ (IsWalk mB (smallSpace []).1 [] ∧
        mB ((smallSpace []).1 + oTop) = memoryToChunk threeBlocks.1 ∧
        threeBlocks.2.2.1 + 40 ≤ mB ((smallSpace []).1 + oTop) + mB ((smallSpace []).1 + oTopSize)))) := by
  obtain ⟨h1, h2⟩ := free_spec hwf hna p sz hp fuel
  refine ⟨fun r m2 he => (h1 r m2 he).1, h2, by decide!, ?_, ?_, ?_⟩
  · exact option_walk afterFreeA (fun mA =>
      IsWalk mA (smallSpace []).1 [⟨1049560, 56, false⟩, ⟨1049616, 56, true⟩, ⟨1049672, 56, true⟩] ∧
      NoAdjFree [⟨1049560, 56, false⟩, ⟨1049616, 56, true⟩, ⟨1049672, 56, true⟩]) (by decide!)
  · exact option_walk afterFreeC (fun mC =>
      IsWalk mC (smallSpace []).1 [⟨1049560, 56, false⟩, ⟨1049616, 56, true⟩] ∧
      NoAdjFree [⟨1049560, 56, false⟩, ⟨1049616, 56, true⟩]) (by decide!)
  · exact option_walk afterFreeB (fun mB => IsWalk mB (smallSpace []).1 [] ∧
      mB ((smallSpace []).1 + oTop) = memoryToChunk threeBlocks.1 ∧
      threeBlocks.2.2.1 + 40 ≤ mB ((smallSpace []).1 + oTop) + mB ((smallSpace []).1 + oTopSize))
      (by decide!)

/-- Witness for C8: the space after the three allocations is well formed and coalesced,
and the chunk of `B` is in use; `free(msp, B)` returns and leaves a coalesced space. -/
theorem free_keeps_coalesced_witness :
    WellFormed threeBlocks.2.2.2.mem (smallSpace []).1 threeChunks ∧ NoAdjFree threeChunks ∧
      (⟨1049616, 56, true⟩ : Chunk) ∈ threeChunks ∧
      (∀ r m2, free 1 threeBlocks.2.2.2.mem (smallSpace []).1 (chunkToMemory 1049616) = some (r, m2) →
        ∃ cs2, IsWalk m2 (smallSpace []).1 cs2 ∧ NoAdjFree cs2) ∧
      ((∀ x, ¬ LargeObj (threeBlocks.2.2.2.mem ((smallSpace []).1 + oDv)) threeChunks x) →
        ∃ r m2, free 1 threeBlocks.2.2.2.mem (smallSpace []).1 (chunkToMemory 1049616) = some (r, m2)) :=
  ⟨by decide!, by decide!, by decide!,
    (free_keeps_coalesced 1 threeBlocks.2.2.2.mem (smallSpace []).1 threeChunks 1049616 56
      (by decide!) (by decide!) (by decide!)).1,
    (free_keeps_coalesced 1 threeBlocks.2.2.2.mem (smallSpace []).1 threeChunks 1049616 56
      (by decide!) (by decide!) (by decide!)).2.1⟩

/-- C9 as the code fulfils it: in a well-formed, coalesced space whose `small_map` is a
32-bit value and whose `segment_threshold` is at least 256, every request of at most
`kMaxSmallRequest` (232) bytes that is served in place makes `alloc` return a block
`p`, not null, and `free(msp, p)` return, after which `dv`, `dv_size`, `top`,
`top_size` and every cell of the bins (`small_map`, `tree_map`, the bin heads and
roots, the links and tree fields of the chunks in the bins) hold what they held
before the two calls. -/
theorem alloc_free_round_trip (fuel : Nat) (h : Heap) (msp : Nat) (cs : List Chunk) (bytes : Nat)
    (hwf : WellFormed h.mem msp cs) (hna : NoAdjFree cs) (hb : bytes ≤ kMaxSmallRequest)
    (hthr : kMinLargeSize ≤ h.mem (msp + oSegmentThreshold))
    (hmap : h.mem (msp + oSmallMap) < 2 ^ 32)
    (hpath : ServedInPlace h.mem msp (allocChunkSize bytes)) :
    ∃ p h2 r m3, alloc fuel h msp bytes = some (p, h2) ∧ p ≠ 0 ∧
      free fuel h2.mem msp p = some (r, m3) ∧ SameBins h.mem m3 msp cs := by
  rcases hpath with hbin | ⟨hbits, hdv, htree⟩ | ⟨hbits, hdv, htop⟩
  · obtain ⟨p, h2, r, m3, a1, a2, a3, a4⟩ :=
      round_trip_bin fuel h msp cs bytes hwf hna hb hthr hmap hbin
    refine ⟨p, h2, r, m3, a1, a2, a3, ?_⟩
    rw [a4]
    exact ⟨rfl, rfl, rfl, rfl, fun _ _ => rfl, fun _ _ => rfl⟩
  · exact round_trip_dv fuel h msp cs bytes hwf hb hthr hbits hdv htree
  · exact round_trip_top fuel h msp cs bytes hwf hb hthr hbits hdv htop

/-- Witness for C9: the space after three allocations of 40 bytes is well formed and
coalesced, and serves a fourth request of 40 bytes from `top`. -/
theorem alloc_free_round_trip_witness :
    WellFormed threeBlocks.2.2.2.mem (smallSpace []).1 threeChunks ∧ NoAdjFree threeChunks ∧
      40 ≤ kMaxSmallRequest ∧
      kMinLargeSize ≤ threeBlocks.2.2.2.mem ((smallSpace []).1 + oSegmentThreshold) ∧
      threeBlocks.2.2.2.mem ((smallSpace []).1 + oSmallMap) < 2 ^ 32 ∧
      ServedInPlace threeBlocks.2.2.2.mem (smallSpace []).1 (allocChunkSize 40) ∧
      ∃ p h2 r m3, alloc 1 threeBlocks.2.2.2 (smallSpace []).1 40 = some (p, h2) ∧ p ≠ 0 ∧
        free 1 h2.mem (smallSpace []).1 p = some (r, m3) ∧
        SameBins threeBlocks.2.2.2.mem m3 (smallSpace []).1 threeChunks :=
  ⟨by decide!, by decide!, by decide!, by decide!, by decide!, by decide!,
    alloc_free_round_trip 1 threeBlocks.2.2.2 (smallSpace []).1 threeChunks 40 (by decide!)
      (by decide!) (by decide!) (by decide!) (by decide!) (by decide!)⟩

/-! ## Bump allocator and pool -/

theorem load64_store64_same (m : Bytes) (a v : Nat) : load64 (store64 m a v) a = v % 2 ^ 64 := by
  unfold load64 store64
  simp only [le_refl, Nat.lt_add_of_pos_right, Nat.le_add_right, Nat.add_lt_add_iff_left,
    Nat.add_sub_cancel_left, Nat.sub_self, true_and, and_self, ↓reduceIte, Nat.reduceLT,
    Nat.reducePow, Nat.pow_zero, Nat.div_one, Nat.mod_mod, Nat.lt_add_right_iff_pos, Nat.reduceLeDiff,
    Nat.ofNat_pos]
  omega

/-- A store leaves the bytes outside its eight bytes alone. -/
theorem store64_outside (m : Bytes) (a v b : Nat) (h : b < a ∨ a + 8 ≤ b) :
    store64 m a v b = m b := by
  unfold store64
  exact if_neg (by omega)

theorem load64_store64_ne (m : Bytes) (a b v : Nat) (h : a + 8 ≤ b ∨ b + 8 ≤ a) :
    load64 (store64 m a v) b = load64 m b := by
  unfold load64
  rw [store64_outside m a v b (by omega), store64_outside m a v (b + 1) (by omega),
    store64_outside m a v (b + 2) (by omega), store64_outside m a v (b + 3) (by omega),
    store64_outside m a v (b + 4) (by omega), store64_outside m a v (b + 5) (by omega),
    store64_outside m a v (b + 6) (by omega), store64_outside m a v (b + 7) (by omega)]

theorem load64_lt (m : Bytes) (a : Nat) : load64 m a < 2 ^ 64 := by
  unfold load64
  norm_num
  omega

theorem not64_pow_two_pred (k : Nat) (hk : k < 64) : not64 (2 ^ k - 1) = neg64 (2 ^ k) := by
  have hlt : 2 ^ k < 2 ^ 64 := Nat.pow_lt_pow_right (by decide) hk
  have hpos : 0 < 2 ^ k := Nat.two_pow_pos k
  unfold not64 neg64
  rw [Nat.mod_eq_of_lt (by omega), Nat.mod_eq_of_lt hlt, Nat.mod_eq_of_lt (by omega)]
  omega

/-- The pointer of a successful `allocate` of the bump allocator, and what it leaves
in memory. -/
theorem linear_allocate_success (a : LinearAllocator) (m : Bytes) (size alignment offset : Nat)
    (hp : (a.allocate m size alignment offset).1 ≠ 0) :
    ∃ user_ptr, user_ptr < 2 ^ 64 ∧
      (a.allocate m size alignment offset).1 = u64 (user_ptr + kSizeofSizeT) ∧
      (a.allocate m size alignment offset).2.2 = store64 m user_ptr size ∧
      user_ptr = sub64
        (u64 (u64 (a.mCurrent + u64 (offset + kSizeofSizeT)) +
            ((if alignment < kDefaultAlignment then kDefaultAlignment else alignment) - 1)) &&&
          not64 ((if alignment < kDefaultAlignment then kDefaultAlignment else alignment) - 1))
        (u64 (offset + kSizeofSizeT)) := by
  obtain ⟨U, hU⟩ : ∃ U, U = sub64
      (u64 (u64 (a.mCurrent + u64 (offset + kSizeofSizeT)) +
          ((if alignment < kDefaultAlignment then kDefaultAlignment else alignment) - 1)) &&&
        not64 ((if alignment < kDefaultAlignment then kDefaultAlignment else alignment) - 1))
      (u64 (offset + kSizeofSizeT)) := ⟨_, rfl⟩
  have hlt : U < 2 ^ 64 := by
    rw [hU]; unfold sub64; exact Nat.mod_lt _ (by decide)
  have hdef : a.allocate m size alignment offset =
      if u64 (U + size) ≥ u64 (a.mStart + a.mSize) then
        (0, { a with mCurrent := u64 (U + size) }, m)
      else (u64 (U + kSizeofSizeT), { a with mCurrent := u64 (U + size) }, store64 m U size) := by
    rw [hU]; rfl
  rw [hdef] at hp ⊢
  by_cases hc : u64 (U + size) ≥ u64 (a.mStart + a.mSize)
  · rw [if_pos hc] at hp
    exact absurd rfl hp
  · rw [if_neg hc]
    exact ⟨U, hlt, rfl, rfl, hU⟩

/-- C15: for the bump allocator, every non-null pointer `p` that
`allocate(size, alignment, offset)` returns for a power-of-two alignment satisfies
`(p + offset) % max(alignment, 8) = 0`, whatever the state of the allocator; and in a
region of 65536 bytes at `0x100000` the calls `allocate(1, 8, 0)`, `allocate(17, 32, 0)`,
`allocate(1000, 4096, 0)` return `0x100008`, `0x100020` and `0x101000`, multiples of 8,
32 and 4096. -/
theorem linear_allocate_aligned (a : LinearAllocator) (m : Bytes) (size alignment offset j : Nat)
    (hj : j < 64) (hal : alignment = 2 ^ j)
    (hp : (a.allocate m size alignment offset).1 ≠ 0) :
    ((a.allocate m size alignment offset).1 + offset) % max alignment 8 = 0 ∧
    ((readyLinear.allocate zeroBytes 1 8 0).1 = 1048584 ∧
      ((readyLinear.allocate zeroBytes 1 8 0).2.1.allocate
        (readyLinear.allocate zeroBytes 1 8 0).2.2 17 32 0).1 = 1048608 ∧
      (((readyLinear.allocate zeroBytes 1 8 0).2.1.allocate
        (readyLinear.allocate zeroBytes 1 8 0).2.2 17 32 0).2.1.allocate
        ((readyLinear.allocate zeroBytes 1 8 0).2.1.allocate
          (readyLinear.allocate zeroBytes 1 8 0).2.2 17 32 0).2.2 1000 4096 0).1 = 1052672 ∧
      1048584 % 8 = 0 ∧ 1048608 % 32 = 0 ∧ 1052672 % 4096 = 0) := by
  refine ⟨?_, by decide!, by decide!, by decide!, by decide, by decide, by decide⟩
  obtain ⟨u, _, hpe, _, hu⟩ := linear_allocate_success a m size alignment offset hp
  -- the clamped alignment is a power of two `2 ^ k` and equals `max alignment 8`
  obtain ⟨k, hk, hA, hmax⟩ : ∃ k, k < 64 ∧
      (if alignment < kDefaultAlignment then kDefaultAlignment else alignment) = 2 ^ k ∧
      max alignment 8 = 2 ^ k := by
    have h8 : kDefaultAlignment = 8 := rfl
    by_cases hlt : alignment < 8
    · refine ⟨3, by decide, ?_, ?_⟩
      · rw [h8, if_pos hlt]; rfl
      · rw [max_eq_right (by omega)]; rfl
    · refine ⟨j, hj, ?_, ?_⟩
      · rw [h8, if_neg hlt]; exact hal
      · rw [max_eq_left (by omega)]; exact hal
  rw [hA] at hu
  rw [hmax, hpe, hu]
  have hdvd : 2 ^ k ∣ 2 ^ 64 := Nat.pow_dvd_pow 2 (by omega)
  have h8 : kSizeofSizeT = 8 := rfl
  rw [h8]
  have hX : (u64 (u64 (a.mCurrent + u64 (offset + 8)) + (2 ^ k - 1)) &&& not64 (2 ^ k - 1)) % 2 ^ k = 0 := by
    rw [not64_pow_two_pred k hk]
    exact and_neg64_pow_two_mod _ k hk
  have e1 : (u64 (sub64 (u64 (u64 (a.mCurrent + u64 (offset + 8)) + (2 ^ k - 1)) &&& not64 (2 ^ k - 1))
      (u64 (offset + 8)) + 8) + offset) % 2 ^ k =
      ((sub64 (u64 (u64 (a.mCurrent + u64 (offset + 8)) + (2 ^ k - 1)) &&& not64 (2 ^ k - 1))
      (u64 (offset + 8)) + 8) + offset) % 2 ^ k := by
    rw [Nat.add_mod, u64_modEq _ _ hdvd, ← Nat.add_mod]
  have e2 : (sub64 (u64 (u64 (a.mCurrent + u64 (offset + 8)) + (2 ^ k - 1)) &&& not64 (2 ^ k - 1))
      (u64 (offset + 8)) + (offset + 8)) % 2 ^ k =
      (sub64 (u64 (u64 (a.mCurrent + u64 (offset + 8)) + (2 ^ k - 1)) &&& not64 (2 ^ k - 1))
      (u64 (offset + 8)) + u64 (offset + 8)) % 2 ^ k := by
    rw [Nat.add_mod _ (offset + 8), Nat.add_mod _ (u64 (offset + 8)), u64_modEq _ _ hdvd]
  rw [e1, Nat.add_assoc, Nat.add_comm 8 offset, e2, sub64_add_modEq _ _ _ hdvd, hX]

/-- Witness for C15: `allocate(24, 16, 8)` on the fresh region returns a non-null
pointer `p` with `(p + 8) % 16 = 0`. -/
theorem linear_allocate_aligned_witness :
    4 < 64 ∧ 16 = 2 ^ 4 ∧ (readyLinear.allocate zeroBytes 24 16 8).1 ≠ 0 ∧
      ((readyLinear.allocate zeroBytes 24 16 8).1 + 8) % max 16 8 = 0 :=
  ⟨by decide, by decide, by decide!,
    (linear_allocate_aligned readyLinear zeroBytes 24 16 8 4 (by decide) (by decide) (by decide!)).1⟩

/-- C16: for the bump allocator, after every `allocate(size, alignment, offset)` that
returns a non-null pointer `p` (with `size` a `size_t` value), `getAllocSize(p)` is
`size`; after `allocate(1, 8, 0)`, `p = allocate(17, 32, 0)` in a region of 65536 bytes,
`getAllocSize(p)` is 17. -/
theorem linear_getAllocSize_after_allocate (a : LinearAllocator) (m : Bytes)
    (size alignment offset : Nat) (hs : size < 2 ^ 64)
    (hp : (a.allocate m size alignment offset).1 ≠ 0) :
    LinearAllocator.getAllocSize (a.allocate m size alignment offset).2.2
        (a.allocate m size alignment offset).1 = size ∧
    LinearAllocator.getAllocSize
      ((readyLinear.allocate zeroBytes 1 8 0).2.1.allocate
        (readyLinear.allocate zeroBytes 1 8 0).2.2 17 32 0).2.2
      ((readyLinear.allocate zeroBytes 1 8 0).2.1.allocate
        (readyLinear.allocate zeroBytes 1 8 0).2.2 17 32 0).1 = 17 := by
  refine ⟨?_, by decide!⟩
  obtain ⟨u, hu, hpe, hme, _⟩ := linear_allocate_success a m size alignment offset hp
  rw [hpe, hme]
  unfold LinearAllocator.getAllocSize
  have h8 : kSizeofSizeT = 8 := rfl
  have hback : sub64 (u64 (u + 8)) 8 = u := by
    unfold sub64 u64
    omega
  rw [h8, hback, load64_store64_same, Nat.mod_eq_of_lt hs]

/-- Witness for C16: `allocate(17, 32, 0)` on the fresh region returns a non-null
pointer, and `getAllocSize` of it is 17. -/
theorem linear_getAllocSize_after_allocate_witness :
    17 < 2 ^ 64 ∧ (readyLinear.allocate zeroBytes 17 32 0).1 ≠ 0 ∧
      LinearAllocator.getAllocSize (readyLinear.allocate zeroBytes 17 32 0).2.2
        (readyLinear.allocate zeroBytes 17 32 0).1 = 17 :=
  ⟨by decide, by decide!,
    (linear_getAllocSize_after_allocate readyLinear zeroBytes 17 32 0 (by decide) (by decide!)).1⟩

/-- C17, the code at a failing input: in a region of 65536 bytes at `0x100000`,
`allocate(65536, 8, 0)` advances the cursor exactly to the end of the region
(`mStart + mSize`) and returns null: the test is `mCurrent >= mStart + mSize`.  The
cursor does not count the size word either: `allocate(65532, 8, 0)` succeeds with the
cursor below the end, and the 65532 bytes at the returned pointer end 4 bytes after
the region. -/
theorem linear_allocate_exact_fit_fails :
    readyLinear.mStart + readyLinear.mSize = 1114112 ∧
    ((readyLinear.allocate zeroBytes 65536 8 0).1,
      (readyLinear.allocate zeroBytes 65536 8 0).2.1.mCurrent) = (0, 1114112) ∧
    ((readyLinear.allocate zeroBytes 65532 8 0).1,
      (readyLinear.allocate zeroBytes 65532 8 0).2.1.mCurrent) = (1048584, 1114108) ∧
    1114112 < 1048584 + 65532 := by
  refine ⟨by decide!, by decide!, by decide!, by decide⟩

/-- C18, the code at a failing input: in a region of 65536 bytes at `0x100000`, with
nothing allocated, `allocate(70000, 8, 0)` returns null and leaves the cursor 70000
bytes after the start: `getTotalAllocated()` goes from 0 to 70000, and
`allocate(8, 8, 0)`, which fitted before, returns null after it. -/
theorem linear_failed_allocate_moves_cursor :
    (readyLinear.mCurrent, readyLinear.getTotalAllocated) = (1048576, 0) ∧
    (readyLinear.allocate zeroBytes 8 8 0).1 = 1048584 ∧
    ((readyLinear.allocate zeroBytes 70000 8 0).1,
      (readyLinear.allocate zeroBytes 70000 8 0).2.1.mCurrent,
      (readyLinear.allocate zeroBytes 70000 8 0).2.1.getTotalAllocated) = (0, 1118576, 70000) ∧
    ((readyLinear.allocate zeroBytes 70000 8 0).2.1.allocate
      (readyLinear.allocate zeroBytes 70000 8 0).2.2 8 8 0).1 = 0 := by
  refine ⟨by decide!, by decide!, by decide!, by decide!⟩

/-- C19, the code at a failing input: a pool of 4 slots of 64 bytes (alignment 8,
offset 0) whose region comes from a bump allocator over fresh memory.  `init()`
succeeds and the slots start at `0x100010`; the constructor of the free list links
every slot to the address `element_count` (3) bytes after it instead of the next
slot, so the first five calls of `allocate` return `0x100010`, `0x100013` (an address
inside the first slot), and then null three times. -/
theorem pool_free_list_links_inside_slot :
    (readyPool.1, readyPool.2.1.mStart, readyPool.2.1.mSize) = (true, 1048584, 264) ∧
    poolAllocs 5 readyPool.2.1 readyPool.2.2 = [1048592, 1048595, 0, 0, 0] ∧
    1048595 < 1048592 + 64 := by
  refine ⟨by decide!, by decide!, by decide⟩

/-- After `returnNode(ptr)` the head of the free list is `ptr`. -/
theorem returnNode_head (m : Bytes) (this ptr : Nat) (hlt : ptr < 2 ^ 64) :
    load64 (FreeList.returnNode m this ptr) this = ptr := by
  unfold FreeList.returnNode
  rw [load64_store64_same, Nat.mod_eq_of_lt hlt]

/-- After `returnNode(ptr)` the node `ptr` links to the former head. -/
theorem returnNode_link (m : Bytes) (this ptr : Nat)
    (hsep : ptr + 8 ≤ this ∨ this + 8 ≤ ptr) :
    load64 (FreeList.returnNode m this ptr) ptr = load64 m this := by
  unfold FreeList.returnNode
  rw [load64_store64_ne _ _ _ _ (by omega), load64_store64_same,
    Nat.mod_eq_of_lt (load64_lt m this)]

theorem obtainNode_returnNode (m : Bytes) (this ptr : Nat) (h0 : ptr ≠ 0) (hlt : ptr < 2 ^ 64)
    (hsep : ptr + 8 ≤ this ∨ this + 8 ≤ ptr) :
    FreeList.obtainNode (FreeList.returnNode m this ptr) this =
      (ptr, store64 (FreeList.returnNode m this ptr) this (load64 m this)) := by
  unfold FreeList.obtainNode
  rw [returnNode_head m this ptr hlt, if_neg h0, returnNode_link m this ptr hsep]

/-- The pool hands the two calls on to its free list. -/
theorem pool_deallocate_allocate (m : Bytes) (ptr : Nat) (h0 : ptr ≠ 0) (p : PoolAllocator)
    (size alignment offset : Nat) :
    ((p.deallocate m ptr).1.allocate (p.deallocate m ptr).2 size alignment offset).1 =
      (FreeList.obtainNode (FreeList.returnNode m p.mFreeList ptr) p.mFreeList).1 := by
  unfold PoolAllocator.deallocate
  rw [if_pos h0]
  rfl

/-- C20: whatever the memory and the head of a free list (the `FreeList` object at
`this`), for every non-null pointer `ptr` whose first eight bytes do not overlap the
object, `returnNode(ptr)` followed by `obtainNode()` returns `ptr` and leaves the head
as it was before `returnNode`; hence, for a pool with this free list,
`deallocate(ptr)` followed by `allocate` returns `ptr`. -/
theorem returnNode_obtainNode (m : Bytes) (this ptr : Nat) (h0 : ptr ≠ 0) (hlt : ptr < 2 ^ 64)
    (hsep : ptr + 8 ≤ this ∨ this + 8 ≤ ptr) :
    (FreeList.obtainNode (FreeList.returnNode m this ptr) this).1 = ptr ∧
    load64 (FreeList.obtainNode (FreeList.returnNode m this ptr) this).2 this = load64 m this ∧
    ∀ (p : PoolAllocator) (size alignment offset : Nat), p.mFreeList = this →
      ((p.deallocate m ptr).1.allocate (p.deallocate m ptr).2 size alignment offset).1 = ptr := by
  refine ⟨?_, ?_, ?_⟩
  · rw [obtainNode_returnNode m this ptr h0 hlt hsep]
  · rw [obtainNode_returnNode m this ptr h0 hlt hsep]
    show load64 (store64 (FreeList.returnNode m this ptr) this (load64 m this)) this = load64 m this
    rw [load64_store64_same, Nat.mod_eq_of_lt (load64_lt m this)]
  · intro p size alignment offset hp
    rw [pool_deallocate_allocate m ptr h0, hp, obtainNode_returnNode m this ptr h0 hlt hsep]

/-- Witness for C20: in the pool of 4 slots after `init()`, the slot `0x100010` is not
null and does not overlap the free-list object at `0x100008`; returning it and
obtaining a node gives it back. -/
theorem returnNode_obtainNode_witness :
    (1048592 : Nat) ≠ 0 ∧ 1048592 < 2 ^ 64 ∧ (1048592 + 8 ≤ 1048584 ∨ 1048584 + 8 ≤ 1048592) ∧
      (FreeList.obtainNode (FreeList.returnNode readyPool.2.2 1048584 1048592) 1048584).1 =
        1048592 :=
  ⟨by decide, by decide, by decide,
    (returnNode_obtainNode readyPool.2.2 1048584 1048592 (by decide) (by decide) (by decide)).1⟩

/-! ## Chunk sizes and the committed region -/

/-- C11, the code at a failing input: after `init()`, `allocate(9000004, 8, 0)` is
served by the direct reservation (the operating system answers `0x4000000`).  The
chunk is marked in use with `head = bytes | 3 = 9000007`: its size field is 9000004,
which is not a multiple of 8, and bit 2 of `head`, which belongs to the size, is set
by the request and not by a padded size. -/
theorem alloc_direct_size_not_multiple_of_8 :
    (GeneralAllocator.allocate 1 (readyAllocator [67108864]) 9000004 8 0).map
        (fun r => (r.1, r.2.heap.mem (memoryToChunk r.1 + oHead),
          chunkSize r.2.heap.mem (memoryToChunk r.1),
          chunkSize r.2.heap.mem (memoryToChunk r.1) % 8,
          isInuse r.2.heap.mem (memoryToChunk r.1)))
      = some (67108880, 9000007, 9000004, 4, true) := by
  decide!

/-- C13, the code at a failing input: in the space for large requests, freshly created
at `0x100000` (one page of 65536 bytes committed, `curr_page_index = 1`),
`alloc(msp, 200000)` grows the segment (the operating system grants the adjacent
reservation) and splits `top`: the chunk handed out is `[1049560, 1249576)`, the new
`top` starts at 1249576, and `curr_page_index` is 2, so the committed region
`[least_addr, least_addr + curr_page_index * page_size)` ends at 1179648, before the
end of the chunk and before the header of the new `top`.  A following
`alloc(msp, 100000)` splits `top` without growth (`nb = 100016 < top_size = 126680`):
`curr_page_index` becomes 3, the region ends at 1245184, and the chunk handed out
starts after it, at 1249576. -/
theorem alloc_top_split_outside_committed_region :
    ((largeSpace [1114112]).2.mem ((largeSpace [1114112]).1 + oLeastAddr),
      (largeSpace [1114112]).2.mem ((largeSpace [1114112]).1 + oCurrPageIndex),
      (largeSpace [1114112]).2.mem ((largeSpace [1114112]).1 + oPageSize),
      (largeSpace [1114112]).2.mem ((largeSpace [1114112]).1 + oTopSize)) =
        (1048576, 1, 65536, 64552) ∧
    ((alloc 1 (largeSpace [1114112]).2 (largeSpace [1114112]).1 200000).map fun r =>
      (memoryToChunk r.1, chunkSize r.2.mem (memoryToChunk r.1),
        r.2.mem ((largeSpace [1114112]).1 + oTop), r.2.mem ((largeSpace [1114112]).1 + oTopSize),
        r.2.mem ((largeSpace [1114112]).1 + oLeastAddr) +
          r.2.mem ((largeSpace [1114112]).1 + oCurrPageIndex) *
            r.2.mem ((largeSpace [1114112]).1 + oPageSize))) =
      some (1049560, 200016, 1249576, 126680, 1179648) ∧
    1179648 < 1049560 + 200016 ∧ 1179648 < 1249576 ∧
    (((alloc 1 (largeSpace [1114112]).2 (largeSpace [1114112]).1 200000).bind fun s =>
        alloc 1 s.2 (largeSpace [1114112]).1 100000).map fun r =>
      (memoryToChunk r.1, chunkSize r.2.mem (memoryToChunk r.1),
        r.2.mem ((largeSpace [1114112]).1 + oTop),
        r.2.mem ((largeSpace [1114112]).1 + oLeastAddr) +
          r.2.mem ((largeSpace [1114112]).1 + oCurrPageIndex) *
            r.2.mem ((largeSpace [1114112]).1 + oPageSize))) =
      some (1249576, 100016, 1349592, 1245184) ∧
    1245184 < 1249576 := by
  refine ⟨by decide!, by decide!, by decide, by decide, by decide!, by decide⟩

/-! ## The work-stealing deque and the global inbox -/

theorem sub64_u64_add (t k : Nat) (hk : k < 2 ^ 64) :
    sub64 (u64 (t + k)) t = k := by
  unfold sub64 u64
  omega

theorem WorkStealQueue.push_accepted (q : WorkStealQueue) (task : Nat)
    (h : sub64 q.mBottom q.mTop ≤ WORK_QUEUE_SIZE - 1) :
    (q.push task).mTop = q.mTop ∧ (q.push task).mBottom = u64 (q.mBottom + 1) := by
  unfold WorkStealQueue.push
  rw [if_pos h]
  exact ⟨rfl, rfl⟩

/-- After `k` accepted calls of `push` on an empty queue `bottom` has advanced by `k`. -/
theorem WorkStealQueue.pushAll_bottom (t : Nat) :
    ∀ (tasks : List Nat) (q : WorkStealQueue) (k : Nat), q.mTop = t → q.mBottom = u64 (t + k) →
      k + tasks.length ≤ WORK_QUEUE_SIZE →
      (q.pushAll tasks).mTop = t ∧ (q.pushAll tasks).mBottom = u64 (t + (k + tasks.length)) := by
  have h1024 : WORK_QUEUE_SIZE = 1024 := rfl
  intro tasks
  induction tasks with
  | nil => intro q k h1 h2 _; exact ⟨h1, h2⟩
  | cons a rest ih =>
    intro q k h1 h2 hk
    simp only [List.length_cons] at hk
    have hacc : sub64 q.mBottom q.mTop ≤ WORK_QUEUE_SIZE - 1 := by
      rw [h1, h2, sub64_u64_add t k (by omega)]; omega
    obtain ⟨p1, p2⟩ := q.push_accepted a hacc
    have hb : (q.push a).mBottom = u64 (t + (k + 1)) := by
      rw [p2, h2]; unfold u64; omega
    have := ih (q.push a) (k + 1) (p1.trans h1) hb (by omega)
    simp only [WorkStealQueue.pushAll, List.length_cons]
    rw [show k + (rest.length + 1) = k + 1 + rest.length by omega]
    exact this

/-- C21: starting from any empty deque (`top == bottom`), each of `WORK_QUEUE_SIZE`
(1024) consecutive calls of `push` advances `bottom` by one (modulo `2^64`) and leaves
`top` alone, and the next `push` leaves the whole queue (`bottom`, `top` and the
entries) unchanged. -/
theorem push_capacity_boundary (q : WorkStealQueue) (tasks : List Nat) (task : Nat)
    (hempty : q.mTop = q.mBottom) (hlt : q.mBottom < 2 ^ 64)
    (hlen : tasks.length = WORK_QUEUE_SIZE) :
    (∀ k, k ≤ WORK_QUEUE_SIZE →
      (q.pushAll (tasks.take k)).mBottom = u64 (q.mBottom + k) ∧
      (q.pushAll (tasks.take k)).mTop = q.mTop) ∧
    (q.pushAll tasks).push task = q.pushAll tasks := by
  have h1024 : WORK_QUEUE_SIZE = 1024 := rfl
  have h0 : q.mBottom = u64 (q.mBottom + 0) := by
    unfold u64; omega
  constructor
  · intro k hk
    have hl : (tasks.take k).length = k := by
      rw [List.length_take]; omega
    obtain ⟨a, b⟩ := WorkStealQueue.pushAll_bottom q.mBottom (tasks.take k) q 0 hempty h0
      (by omega)
    rw [hl, Nat.zero_add] at b
    exact ⟨b, a.trans hempty.symm⟩
  · obtain ⟨a, b⟩ := WorkStealQueue.pushAll_bottom q.mBottom tasks q 0 hempty h0 (by omega)
    rw [hlen, Nat.zero_add] at b
    unfold WorkStealQueue.push
    rw [if_neg]
    rw [a, b, sub64_u64_add _ _ (by omega)]
    omega

/-- Witness for C21: the queue as constructed, over zeroed memory, and 1024 tasks. -/
theorem push_capacity_boundary_witness :
    (WorkStealQueue.construct fun _ => 0).mTop = (WorkStealQueue.construct fun _ => 0).mBottom ∧
      (WorkStealQueue.construct fun _ => 0).mBottom < 2 ^ 64 ∧
      (List.replicate 1024 4096).length = WORK_QUEUE_SIZE ∧
      ((WorkStealQueue.construct fun _ => 0).pushAll (List.replicate 1024 4096)).push 8192 =
        (WorkStealQueue.construct fun _ => 0).pushAll (List.replicate 1024 4096) :=
  ⟨rfl, by decide, List.length_replicate _ _,
    (push_capacity_boundary (WorkStealQueue.construct fun _ => 0) (List.replicate 1024 4096) 8192
      rfl (by decide) (List.length_replicate _ _)).2⟩

/-- What `pop()` does to the deque as constructed. -/
theorem WorkStealQueue.pop_construct (buf : Nat → Nat) :
    (WorkStealQueue.construct buf).pop =
      (buf (2 ^ 64 - 8), { mTop := 0, mBottom := 2 ^ 64 - 1, mArray := buf }) := by
  simp [WorkStealQueue.construct, WorkStealQueue.pop, dec64, entryAt, u64, kSizeofPointer]

/-- C22, the code at a failing input: `pop()` on the deque as constructed
(`top == bottom == 0`).  `bottom - 1` wraps to `2^64 - 1`, the test `t <= b` holds, and
the call returns the word that lies 8 bytes before the array (entry `2^64 - 1`),
leaving `bottom` at `2^64 - 1`.  On an empty deque with `top == bottom > 0` the call
returns null and restores `bottom`. -/
theorem pop_on_new_queue_moves_bottom (buf : Nat → Nat) :
    ((WorkStealQueue.construct buf).pop.1, (WorkStealQueue.construct buf).pop.2.mTop,
      (WorkStealQueue.construct buf).pop.2.mBottom) = (buf (2 ^ 64 - 8), 0, 2 ^ 64 - 1) ∧
    ((({ mTop := 5, mBottom := 5, mArray := buf } : WorkStealQueue).pop).1,
      (({ mTop := 5, mBottom := 5, mArray := buf } : WorkStealQueue).pop).2.mTop,
      (({ mTop := 5, mBottom := 5, mArray := buf } : WorkStealQueue).pop).2.mBottom) = (0, 5, 5) := by
  simp [WorkStealQueue.construct, WorkStealQueue.pop, dec64, entryAt, u64, kSizeofPointer]

/-- C23, the code at a failing input: on the deque as constructed, `pop()` (which
finds nothing to return) leaves `bottom` at `2^64 - 1`; the `push(task)` that follows
sees `bottom - top = 2^64 - 1`, stores nothing and leaves the queue as it is, and the
next `steal()` returns the unwritten entry 0 of the array: the pushed task is never
returned although the queue never held more than one task. -/
theorem push_after_pop_is_dropped (buf : Nat → Nat) (task : Nat) :
    (WorkStealQueue.construct buf).pop.2.push task = (WorkStealQueue.construct buf).pop.2 ∧
    ((WorkStealQueue.construct buf).pop.2.push task).mArray = buf ∧
    ((WorkStealQueue.construct buf).pop.2.push task).steal.1 = buf 0 := by
  have hpush : (WorkStealQueue.construct buf).pop.2.push task =
      (WorkStealQueue.construct buf).pop.2 := by
    rw [WorkStealQueue.pop_construct]
    unfold WorkStealQueue.push
    exact if_neg (show ¬ sub64 (2 ^ 64 - 1) 0 ≤ WORK_QUEUE_SIZE - 1 by decide)
  rw [hpush, WorkStealQueue.pop_construct]
  refine ⟨rfl, rfl, ?_⟩
  unfold WorkStealQueue.steal
  rw [if_pos (show (0 : Nat) < 2 ^ 64 - 1 by decide)]
  rfl

theorem GlobalWorkQueue.pushAll_global_bottom :
    ∀ (tasks : List Nat) (q : GlobalWorkQueue), q.mArray ≠ 0 →
      q.mBottom + tasks.length ≤ WORK_QUEUE_SIZE →
      (q.pushAll tasks).mTop = q.mTop ∧ (q.pushAll tasks).mArray = q.mArray ∧
        (q.pushAll tasks).mBottom = q.mBottom + tasks.length := by
  have h1024 : WORK_QUEUE_SIZE = 1024 := rfl
  intro tasks
  induction tasks with
  | nil => intro q _ _; exact ⟨rfl, rfl, rfl⟩
  | cons a rest ih =>
    intro q h0 hk
    simp only [List.length_cons] at hk
    have hp : (q.push a).mTop = q.mTop ∧ (q.push a).mArray = q.mArray ∧
        (q.push a).mBottom = q.mBottom + 1 := by
      unfold GlobalWorkQueue.push
      rw [if_pos h0, if_pos (by omega)]
      refine ⟨rfl, rfl, ?_⟩
      show u64 (q.mBottom + 1) = q.mBottom + 1
      unfold u64
      omega
    obtain ⟨a1, a2, a3⟩ := ih (q.push a) (by rw [hp.2.1]; exact h0) (by rw [hp.2.2]; omega)
    simp only [GlobalWorkQueue.pushAll, List.length_cons]
    exact ⟨a1.trans hp.1, a2.trans hp.2.1, by rw [a3, hp.2.2]; omega⟩

theorem GlobalWorkQueue.popN_indices (junk : Nat) :
    ∀ (n : Nat) (q : GlobalWorkQueue), q.mArray ≠ 0 → q.mTop + n ≤ q.mBottom →
      q.mBottom < 2 ^ 64 →
      (q.popN junk n).mTop = q.mTop + n ∧ (q.popN junk n).mArray = q.mArray ∧
        (q.popN junk n).mBottom = q.mBottom := by
  intro n
  induction n with
  | zero => intro q _ _ _; exact ⟨rfl, rfl, rfl⟩
  | succ n ih =>
    intro q h0 hk hlt
    have hp : (q.pop junk).2.mTop = q.mTop + 1 ∧ (q.pop junk).2.mArray = q.mArray ∧
        (q.pop junk).2.mBottom = q.mBottom := by
      unfold GlobalWorkQueue.pop
      rw [if_pos h0, if_pos (by omega)]
      refine ⟨?_, rfl, rfl⟩
      show u64 (q.mTop + 1) = q.mTop + 1
      unfold u64
      omega
    obtain ⟨a1, a2, a3⟩ := ih (q.pop junk).2 (by rw [hp.2.1]; exact h0)
      (by rw [hp.1, hp.2.2]; omega) (by rw [hp.2.2]; exact hlt)
    simp only [GlobalWorkQueue.popN]
    exact ⟨by rw [a1, hp.1]; omega, a2.trans hp.2.1, a3.trans hp.2.2⟩

/-- C24, the code at failing inputs: the inbox as constructed accepts a 129th `push`
without any `pop` (the test is `mBottom < WORK_QUEUE_SIZE`, 1024, and `mTop` is not
looked at), and after 1024 calls of `push` and 1024 calls of `pop` it is empty
(`top == bottom == 1024`) and refuses every further `push`. -/
theorem global_push_ignores_top_and_capacity :
    (((GlobalWorkQueue.construct 4096 fun _ => 0).pushAll (List.replicate 128 8192)).mBottom,
      (((GlobalWorkQueue.construct 4096 fun _ => 0).pushAll (List.replicate 128 8192)).push
        8192).mBottom) = (128, 129) ∧
    ((((GlobalWorkQueue.construct 4096 fun _ => 0).pushAll (List.replicate 1024 8192)).popN 0
        1024).mTop,
      (((GlobalWorkQueue.construct 4096 fun _ => 0).pushAll (List.replicate 1024 8192)).popN 0
        1024).mBottom,
      ((((GlobalWorkQueue.construct 4096 fun _ => 0).pushAll (List.replicate 1024 8192)).popN 0
        1024).push 8192).mBottom) = (1024, 1024, 1024) := by
  have h1024 : WORK_QUEUE_SIZE = 1024 := rfl
  have hq0 : (GlobalWorkQueue.construct 4096 fun _ => 0).mArray ≠ 0 := by decide
  obtain ⟨a1, a2, a3⟩ := GlobalWorkQueue.pushAll_global_bottom (List.replicate 128 8192)
    (GlobalWorkQueue.construct 4096 fun _ => 0) hq0 (by rw [List.length_replicate]; decide)
  obtain ⟨b1, b2, b3⟩ := GlobalWorkQueue.pushAll_global_bottom (List.replicate 1024 8192)
    (GlobalWorkQueue.construct 4096 fun _ => 0) hq0 (by rw [List.length_replicate]; decide)
  rw [List.length_replicate] at a3 b3
  have e0 : (GlobalWorkQueue.construct 4096 fun _ => 0).mBottom = 0 := rfl
  have e1 : (GlobalWorkQueue.construct 4096 fun _ => 0).mTop = 0 := rfl
  rw [e0, Nat.zero_add] at a3 b3
  rw [e1] at a1 b1
  obtain ⟨c1, c2, c3⟩ := GlobalWorkQueue.popN_indices 0 1024
    ((GlobalWorkQueue.construct 4096 fun _ => 0).pushAll (List.replicate 1024 8192))
    (by rw [b2]; exact hq0) (by rw [b1, b3]) (by rw [b3]; decide)
  rw [b1, Nat.zero_add] at c1
  rw [b3] at c3
  have hacc : ∀ q : GlobalWorkQueue, q.mArray ≠ 0 → q.mBottom = 128 →
      (q.push 8192).mBottom = 129 := by
    intro q h0 hb
    unfold GlobalWorkQueue.push
    rw [if_pos h0, if_pos (by omega)]
    show u64 (q.mBottom + 1) = 129
    rw [hb]
    decide
  have hrej : ∀ q : GlobalWorkQueue, q.mBottom = 1024 → (q.push 8192).mBottom = 1024 := by
    intro q hb
    unfold GlobalWorkQueue.push
    split
    · rw [if_neg (by omega)]; exact hb
    · exact hb
  rw [a3, hacc _ (by rw [a2]; exact hq0) a3, c1, c3, hrej _ c3]
  exact ⟨rfl, rfl⟩

/-- C25, the code at a failing input: the inbox holds one task (`top = 0`,
`bottom = 1`).  The branch of `pop` that takes the task advances `top` and clears the
entry but has no `return` statement, so the caller receives whatever the return
register holds, not the task; on the empty inbox `pop` returns null and changes
nothing. -/
theorem global_pop_returns_no_task (buf : Nat → Nat) (task junk : Nat) :
    (((GlobalWorkQueue.construct 4096 buf).push task).entries (entryAt 0),
      ((GlobalWorkQueue.construct 4096 buf).push task).mTop,
      ((GlobalWorkQueue.construct 4096 buf).push task).mBottom) = (task, 0, 1) ∧
    ((((GlobalWorkQueue.construct 4096 buf).push task).pop junk).1,
      (((GlobalWorkQueue.construct 4096 buf).push task).pop junk).2.mTop,
      (((GlobalWorkQueue.construct 4096 buf).push task).pop junk).2.entries (entryAt 0)) =
        (junk, 1, 0) ∧
    (GlobalWorkQueue.construct 4096 buf).pop junk = (0, GlobalWorkQueue.construct 4096 buf) := by
  exact ⟨rfl, rfl, rfl⟩

/-! ## Task identifiers and task accounting -/

/-- Shifting after masking bits 16 to 23 is masking the low 8 bits after shifting. -/
theorem shiftRight_mask_pool (x : Nat) : (x &&& 0xff0000) >>> 16 = (x >>> 16) &&& (2 ^ 8 - 1) := by
  apply Nat.eq_of_testBit_eq
  intro j
  have h : (0xff0000 : Nat) = (2 ^ 8 - 1) <<< 16 := by decide
  rw [Nat.testBit_shiftRight, Nat.testBit_and, Nat.testBit_and, Nat.testBit_shiftRight, h,
    Nat.testBit_shiftLeft, Nat.testBit_two_pow_sub_one, Nat.testBit_two_pow_sub_one]
  have e : 16 + j - 16 = j := by omega
  rw [e]
  have g : decide (16 + j ≥ 16) = true := by simp
  rw [g, Bool.true_and]

/-- The two fields of a packed identifier. -/
theorem taskID_fields (i o : Nat) (hi : i < 256) (ho : o < 65536) :
    Scheduler.getPoolIndexFromTaskID ((i <<< 16) ||| o) = i ∧
      Scheduler.getOffsetFromTaskID ((i <<< 16) ||| o) = o := by
  have hor : (i <<< 16) ||| o = i * 65536 + o := by
    rw [Nat.shiftLeft_eq, Nat.mul_comm, ← Nat.mul_add_lt_is_or (show o < 2 ^ 16 from ho)]
  unfold Scheduler.getPoolIndexFromTaskID Scheduler.getOffsetFromTaskID
  rw [hor]
  constructor
  · rw [shiftRight_mask_pool]
    have h1 : (i * 65536 + o) >>> 16 = i := by
      rw [Nat.shiftRight_eq_div_pow]
      omega
    rw [h1, Nat.and_pow_two_sub_one_eq_mod]
    omega
  · have h3 : (0xffff : Nat) = 2 ^ 16 - 1 := by decide
    rw [h3, Nat.and_pow_two_sub_one_eq_mod]
    omega

/-- C26: for every pool index `i < 256` and slot offset `o < 65536` the identifier
`(i << 16) | o` has `getPoolIndexFromTaskID(id) == i` and `getOffsetFromTaskID(id) == o`,
and this is the identifier `calcTaskID(task, i)` builds for every task whose distance
from the start of pool `i` (the global pool when `i` is `mNumThreads`), in tasks, is
`o`. -/
theorem taskID_round_trip (i o : Nat) (hi : i < 256) (ho : o < 65536) :
    Scheduler.getPoolIndexFromTaskID ((i <<< 16) ||| o) = i ∧
      Scheduler.getOffsetFromTaskID ((i <<< 16) ||| o) = o ∧
      ∀ (s : Scheduler) (task : Nat),
        taskDiff task (if i = s.mNumThreads then s.mGlobalPoolAlloc.mStart
          else (s.mLocalPoolAlloc i).mStart) = o →
        s.calcTaskID task i = (i <<< 16) ||| o ∧
          Scheduler.getPoolIndexFromTaskID (s.calcTaskID task i) = i ∧
          Scheduler.getOffsetFromTaskID (s.calcTaskID task i) = o := by
  obtain ⟨h1, h2⟩ := taskID_fields i o hi ho
  refine ⟨h1, h2, fun s task hd => ?_⟩
  have hu : u64 (i <<< 16) = i <<< 16 := by
    unfold u64
    rw [Nat.shiftLeft_eq]
    omega
  have hc : s.calcTaskID task i = (i <<< 16) ||| o := by
    unfold Scheduler.calcTaskID
    by_cases hN : i = s.mNumThreads
    · rw [if_pos hN] at hd ⊢
      simp only []
      rw [hu, hd]
    · rw [if_neg hN] at hd ⊢
      simp only []
      rw [hu, hd]
  rw [hc]
  exact ⟨rfl, h1, h2⟩

/-- Witness for C26: pool index 4, offset 7. -/
theorem taskID_round_trip_witness :
    4 < 256 ∧ 7 < 65536 ∧ Scheduler.getPoolIndexFromTaskID ((4 <<< 16) ||| 7) = 4 ∧
      Scheduler.getOffsetFromTaskID ((4 <<< 16) ||| 7) = 7 :=
  ⟨by decide, by decide, (taskID_round_trip 4 7 (by decide) (by decide)).1,
    (taskID_round_trip 4 7 (by decide) (by decide)).2.1⟩

/-- C27, the code at a failing input: a scheduler with 4 threads whose global pool of
128 tasks was set up by `init()` in a region at `0x100008`.  The first slot the pool
hands out is `0x100010` (the free-list object occupies the first 8 bytes of the
region); `calcTaskID(t, 4)` measures the offset from `getStartAddress()`, `0x100008`,
and gets `8 / sizeof(Task) = 0`, and `getTask` of this identifier returns `0x100008`,
8 bytes before the slot. -/
theorem getTask_misses_slot :
    (readyTaskPool.1, readyTaskPool.2.1.mStart) = (true, 1048584) ∧
    (readyTaskPool.2.1.allocate readyTaskPool.2.2 kSizeofTask 8 0).1 = 1048592 ∧
    readyScheduler.calcTaskID 1048592 4 = 262144 ∧
    readyScheduler.getTask 262144 = 1048584 := by
  refine ⟨by decide!, by decide!, by decide!, by decide!⟩

/-- C28, the code at a failing input: a root task with one child that has one child
itself, all from the global pool, with `mOpenTasks` 2, 2 and 1 (1 + the number of
children).  `finishTask(grandchild)` decrements the counters of the grandchild, the
child and the root (to 0, 1, 1): the recursion into `mParent` does not wait for the
counter to reach 0.  `finishTask(child)` then takes the root to 0 and returns the slot
of the root to the pool before the root has finished: the free list reads child, root,
grandchild.  The `finishTask(root)` that the protocol still owes decrements the first
word of a slot that lies in the free list; `mOpenTasks` of the root ends at 1048815,
not at 0. -/
theorem finishTask_releases_root_early :
    ((Scheduler.finishTask 3 chainScheduler chainMemory 1048816).map fun r =>
      (load32 r.2 (1048816 + oOpenTasks), load32 r.2 (1048704 + oOpenTasks),
        load32 r.2 (1048592 + oOpenTasks), load64 r.2 1048584)) = some (0, 1, 1, 1048816) ∧
    ((Scheduler.finishTask 3 chainScheduler chainMemory 1048816).bind fun r1 =>
      (Scheduler.finishTask 3 r1.1 r1.2 1048704).map fun r2 =>
        (load64 r2.2 1048584, load64 r2.2 1048704, load64 r2.2 1048592, load64 r2.2 1048816)) =
      some (1048704, 1048592, 1048816, 0) ∧
    ((Scheduler.finishTask 3 chainScheduler chainMemory 1048816).bind fun r1 =>
      (Scheduler.finishTask 3 r1.1 r1.2 1048704).bind fun r2 =>
        (Scheduler.finishTask 3 r2.1 r2.2 1048592).map fun r3 =>
          (load32 r3.2 (1048592 + oOpenTasks), load64 r3.2 1048584)) =
      some (1048815, 1048704) := by
  refine ⟨by decide!, by decide!, by decide!⟩

/-! ## The tree bins in `alloc` -/

/-- Without fuel no step of a tree search is taken: `treeAllocLarge` has no result. -/
theorem treeAllocLarge_zero (m : Mem) (msp nb : Nat) : treeAllocLarge 0 m msp nb = none := by
  unfold treeAllocLarge
  by_cases h : m (treeBinAt msp (computeTreeIndex nb)) ≠ 0
  · simp only [if_pos h, treeAllocLargeDescend]
  · simp only [if_neg h, treeSmallestFit]

/-- Without fuel no step of a tree search is taken: `treeAllocSmall` has no result. -/
theorem treeAllocSmall_zero (m : Mem) (msp nb : Nat) : treeAllocSmall 0 m msp nb = none := by
  unfold treeAllocSmall
  simp only [treeSmallestFit]

/-- C29, the code at a failing input: a large space in which `alloc(msp, 1000)` ran
twice (`A = 0x1003e8`, `B`) and `A` was freed, so that the chunk of `A` (1016 bytes)
is the root of tree bin 3, `tree_map` is 8, `small_map` and `dv_size` are 0 and `top`
is `0x100bc8`.  `treeAllocLarge` would serve the request of 1000 bytes
(`kMaxSmallRequest < 1000 < kMaxRequest`) from the chunk of `A`.  `alloc(msp, 1000)`
takes the branch `bytes <= kMaxRequest`, consults no tree bin (it returns with no
fuel for a tree search) and cuts the chunk from `top`: it returns `0x100bd8`, `top`
moves to `0x100fc0`, and the chunk of `A` stays free in its bin. -/
theorem alloc_large_request_skips_tree_bins :
    (kMaxSmallRequest < 1000 ∧ 1000 < kMaxRequest ∧ padRequest 1000 = 1016) ∧
    (twoLarge.1, twoLarge.2.1) = (1049576, 1050592) ∧
    (treeHeap.mem ((largeSpace []).1 + oSmallMap), treeHeap.mem ((largeSpace []).1 + oTreeMap),
      treeHeap.mem (treeBinAt (largeSpace []).1 3), chunkSize treeHeap.mem 1049560,
      isInuse treeHeap.mem 1049560, treeHeap.mem ((largeSpace []).1 + oDvSize),
      treeHeap.mem ((largeSpace []).1 + oTop)) = (0, 8, 1049560, 1016, false, 0, 1051592) ∧
    (treeAllocLarge 2 treeHeap.mem (largeSpace []).1 (padRequest 1000)).map (fun r => r.1) =
      some 1049576 ∧
    (∀ m msp nb, treeAllocLarge 0 m msp nb = none) ∧
    (alloc 0 treeHeap (largeSpace []).1 1000).map (fun r =>
      (r.1, r.2.mem ((largeSpace []).1 + oTreeMap), r.2.mem ((largeSpace []).1 + oTop),
        isInuse r.2.mem 1049560)) = some (1051608, 8, 1052608, false) := by
  refine ⟨by decide, by decide!, by decide!, by decide!, treeAllocLarge_zero, by decide!⟩

/-- C30, the code at a failing input: the same space, with no small bin in use
(`small_map == 0`), `dv_size == 0` and `tree_map == 8`.  For `alloc(msp, 40)` the
padded size is 56, more than `dv_size`; `treeAllocSmall` would serve the request from
the chunk of `A` in tree bin 3.  In `alloc` the test of `tree_map` is the
alternative of `nb > msp->dv_size`, so it is not reached: `alloc` consults no tree
bin (it returns with no fuel for a tree search) and cuts the chunk from `top`: it
returns `0x100bd8`, `top` moves to `0x100c00`, and the chunk of `A` stays free in its
bin. -/
theorem alloc_small_request_skips_tree_bins :
    (kMinRequest ≤ 40 ∧ padRequest 40 = 56 ∧ getSmallBinIndex 56 = 7) ∧
    (treeHeap.mem ((largeSpace []).1 + oSmallMap), treeHeap.mem ((largeSpace []).1 + oTreeMap),
      treeHeap.mem ((largeSpace []).1 + oDvSize), treeHeap.mem ((largeSpace []).1 + oTop)) =
      (0, 8, 0, 1051592) ∧
    (treeAllocSmall 1 treeHeap.mem (largeSpace []).1 (padRequest 40)).map (fun r => r.1) =
      some 1049576 ∧
    (∀ m msp nb, treeAllocSmall 0 m msp nb = none) ∧
    (alloc 0 treeHeap (largeSpace []).1 40).map (fun r =>
      (r.1, r.2.mem ((largeSpace []).1 + oTreeMap), r.2.mem ((largeSpace []).1 + oTop),
        isInuse r.2.mem 1049560)) = some (1051608, 8, 1051648, false) := by
  refine ⟨by decide, by decide!, by decide!, treeAllocSmall_zero, by decide!⟩

/-! ## The answer of `free` -/

/-- `free` of a null pointer answers `false` and writes nothing. -/
theorem free_null (fuel : Nat) (m : Mem) (msp : Nat) : free fuel m msp 0 = some (false, m) := by
  unfold free
  exact if_neg (fun h => h rfl)

/-- `free` of a chunk that is not in use answers `false` and writes nothing. -/
theorem free_not_inuse (fuel : Nat) (m : Mem) (msp mem : Nat)
    (h : isInuse m (memoryToChunk mem) = false) : free fuel m msp mem = some (false, m) := by
  unfold free
  by_cases h0 : mem ≠ 0
  · rw [if_pos h0]
    simp only []
    rw [h]
    rfl
  · rw [if_neg h0]

/-- C14, the claim at failing inputs.  In a fresh small space `free(msp, nullptr)`
answers `false` although `top` starts at the first chunk position after the call.  In
a fresh large space whose only allocation `p = alloc(msp, 9000000)` was served by a
reservation of its own, `free(msp, p)` of the chunk in use hands the chunk back to
the operating system and answers `false`, and `top` starts at the first chunk
position after the call. -/
theorem free_false_on_empty_space :
    (free 1 (smallSpace []).2.mem (smallSpace []).1 0).map (fun r =>
      (r.1, r.2 ((smallSpace []).1 + oTop), firstChunk r.2 (smallSpace []).1)) =
      some (false, 1049560, 1049560) ∧
    (directBlock.1, isInuse directBlock.2.mem (memoryToChunk directBlock.1)) = (67108880, true) ∧
    (free 1 directBlock.2.mem (largeSpace [67108864]).1 directBlock.1).map (fun r =>
      (r.1, r.2 ((largeSpace [67108864]).1 + oTop), firstChunk r.2 (largeSpace [67108864]).1)) =
      some (false, 1049560, 1049560) := by
  refine ⟨by decide!, by decide!, by decide!⟩

/-- C14 (amended): in a well-formed space in which no two adjacent chunks are both
free, `free(msp, p)` of a chunk `p` of the segment that is in use answers `true` if
and only if, after the call, `top` starts at the first chunk position after the
`MemorySpace` record, which is the case if and only if no chunk is left between the
record and `top`; so it answers `false` whenever an allocation is left in the
segment.  The call returns, whatever the fuel, when no chunk sits in a tree bin.
`free` answers `false` and writes nothing for a null pointer and for a chunk that is
not in use. -/
theorem free_true_iff_top_at_first_chunk (fuel : Nat) (m : Mem) (msp : Nat) (cs : List Chunk)
    (p sz : Nat) (hwf : WellFormed m msp cs) (hna : NoAdjFree cs)
    (hp : (⟨p, sz, true⟩ : Chunk) ∈ cs) :
    (∀ r m2, free fuel m msp (chunkToMemory p) = some (r, m2) →
      (r = true ↔ m2 (msp + oTop) = firstChunk m2 msp) ∧
      (∀ cs2, IsWalk m2 msp cs2 → (r = true ↔ cs2 = [])) ∧
      (∀ cs2 c, IsWalk m2 msp cs2 → c ∈ cs2 → r = false)) ∧
    ((∀ x, ¬ LargeObj (m (msp + oDv)) cs x) →
      ∃ r m2, free fuel m msp (chunkToMemory p) = some (r, m2)) ∧
    free fuel m msp 0 = some (false, m) ∧
    (∀ mem, isInuse m (memoryToChunk mem) = false → free fuel m msp mem = some (false, m)) := by
  obtain ⟨h1, h2⟩ := free_spec hwf hna p sz hp fuel
  refine ⟨fun r m2 he => ?_, h2, free_null fuel m msp, free_not_inuse fuel m msp⟩
  obtain ⟨_, hflag⟩ := h1 r m2 he
  refine ⟨hflag, fun cs2 hw => ?_, fun cs2 c hw hc => ?_⟩
  · rw [hflag]
    exact hw.top_eq_iff
  · cases hr : r with
    | false => rfl
    | true =>
      rw [hr] at hflag
      have := hw.top_eq_iff.1 (hflag.1 rfl)
      rw [this] at hc
      cases hc

/-- Witness for C14: in the small space in which `A`, `B`, `C` were allocated and `A`
and `C` freed, the chunk of `B` is the only one in use; `free(msp, B)` returns, and it
answers `true` with `top` at the first chunk position `0x100418`. -/
theorem free_true_iff_top_at_first_chunk_witness :
    WellFormed onlyB (smallSpace []).1 onlyBChunks ∧ NoAdjFree onlyBChunks ∧
      (⟨1049616, 56, true⟩ : Chunk) ∈ onlyBChunks ∧
      (∀ r m2, free 1 onlyB (smallSpace []).1 (chunkToMemory 1049616) = some (r, m2) →
        (r = true ↔ m2 ((smallSpace []).1 + oTop) = firstChunk m2 (smallSpace []).1)) ∧
      (free 1 onlyB (smallSpace []).1 (chunkToMemory 1049616)).map (fun r =>
        (r.1, r.2 ((smallSpace []).1 + oTop), firstChunk r.2 (smallSpace []).1)) =
        some (true, 1049560, 1049560) :=
  ⟨by decide!, by decide!, by decide!,
    fun r m2 he => ((free_true_iff_top_at_first_chunk 1 onlyB (smallSpace []).1 onlyBChunks
      1049616 56 (by decide!) (by decide!) (by decide!)).1 r m2 he).1,
    by decide!⟩

/-! ## The bin maps under the bin operations -/

theorem isSmallMapMarked_congr {m m2 : Mem} {msp : Nat}
    (h : m2 (msp + oSmallMap) = m (msp + oSmallMap)) (i : Nat) :
    isSmallMapMarked m2 msp i = isSmallMapMarked m msp i := by
  unfold isSmallMapMarked
  rw [h]

theorem isSmallMapMarked_clear (m : Mem) (msp i j : Nat) (hi : i < kNumSmallBins)
    (hj : j < kNumSmallBins) :
    isSmallMapMarked (clearSmallMap m msp i) msp j = (isSmallMapMarked m msp j && decide (j ≠ i)) := by
  unfold isSmallMapMarked clearSmallMap
  rw [Mem.write_same, marked_iff_testBit _ j hj, marked_iff_testBit _ j hj,
    testBit_clear _ i j hi hj]

theorem isSmallMapMarked_mark (m : Mem) (msp i j : Nat) (hi : i < kNumSmallBins)
    (hj : j < kNumSmallBins) :
    isSmallMapMarked (markSmallMap m msp i) msp j = (isSmallMapMarked m msp j || decide (j = i)) := by
  unfold isSmallMapMarked markSmallMap
  rw [Mem.write_same, marked_iff_testBit _ j hj, marked_iff_testBit _ j hj,
    testBit_mark _ i j hi]

theorem isTreeMapMarked_mark (m : Mem) (msp i j : Nat) (hi : i < kNumTreeBins)
    (hj : j < kNumTreeBins) :
    isTreeMapMarked (markTreeMap m msp i) msp j = (isTreeMapMarked m msp j || decide (j = i)) := by
  unfold isTreeMapMarked markTreeMap
  rw [Mem.write_same, marked_iff_testBit _ j hj, marked_iff_testBit _ j hj,
    testBit_mark _ i j hi]

/-- The maps look at the space record only. -/
theorem mapsOK_congr {m m2 : Mem} {msp : Nat} (h : MapsOK m msp)
    (heq : ∀ a, a < msp + kSizeofMemorySpace → m2 a = m a) : MapsOK m2 msp := by
  have h968 : kSizeofMemorySpace = 968 := rfl
  have h32 : kNumSmallBins = 32 := rfl
  have h32t : kNumTreeBins = 32 := rfl
  constructor
  · intro i hi
    have hb := smallBinAt_eq msp i hi
    rw [isSmallMapMarked_congr (heq _ (by simp only [oSmallMap]; omega)),
      heq _ (by simp only [oFd]; omega), heq _ (by simp only [oBk]; omega)]
    exact h.1 i hi
  · intro i hi
    rw [isTreeMapMarked_congr (heq _ (by simp only [oTreeMap]; omega)),
      heq _ (by simp only [treeBinAt, oTreeBins]; omega)]
    exact h.2 i hi

theorem links_append (m : Mem) (l1 : List Nat) (x : Nat) (l2 : List Nat) (a b : Nat) :
    Links m a (l1 ++ x :: l2) b ↔ Links m a l1 x ∧ Links m x l2 b := by
  induction l1 generalizing a with
  | nil => simp only [List.nil_append, Links, and_assoc]
  | cons y l1 ih =>
    show (m (a + oFd) = y ∧ m (y + oBk) = a ∧ Links m y (l1 ++ x :: l2) b) ↔
      (m (a + oFd) = y ∧ m (y + oBk) = a ∧ Links m y l1 x) ∧ Links m x l2 b
    rw [ih]
    simp only [and_assoc]

theorem links_head {m : Mem} {a b : Nat} {l : List Nat} (h : Links m a l b) :
    m (a + oFd) = l.headD b := by
  cases l with
  | nil => exact h.1
  | cons x l => exact h.1

theorem links_last {m : Mem} {a b : Nat} {l : List Nat} (h : Links m a l b) :
    m (b + oBk) = l.getLastD a := by
  induction l generalizing a with
  | nil => exact h.2
  | cons x l ih =>
    rw [List.getLastD_cons]
    exact ih h.2.2

theorem headD_mem (l : List Nat) (b : Nat) : (l = [] ∧ l.headD b = b) ∨ l.headD b ∈ l := by
  cases l with
  | nil => exact Or.inl ⟨rfl, rfl⟩
  | cons x l => exact Or.inr (List.mem_cons_self _ _)

theorem getLastD_mem (l : List Nat) (a : Nat) : (l = [] ∧ l.getLastD a = a) ∨ l.getLastD a ∈ l := by
  induction l generalizing a with
  | nil => exact Or.inl ⟨rfl, rfl⟩
  | cons x l ih =>
    right
    rw [List.getLastD_cons]
    rcases ih x with ⟨_, h⟩ | h
    · rw [h]; exact List.mem_cons_self _ _
    · exact List.mem_cons_of_mem _ h

/-- The neighbours of a member of small bin `i`: each is the head of the bin or a
chunk, they differ unless both are the head, and the bin is not empty. -/
theorem SmallRing.neighbours {m : Mem} {msp i : Nat} {l : List Nat} (h : SmallRing m msp i l)
    {ptr : Nat} (hp : ptr ∈ l) :
    (m (ptr + oFd) = smallBinAt msp i ∨ msp + kSizeofMemorySpace ≤ m (ptr + oFd)) ∧
    (m (ptr + oBk) = smallBinAt msp i ∨ msp + kSizeofMemorySpace ≤ m (ptr + oBk)) ∧
    (m (ptr + oFd) = m (ptr + oBk) → m (ptr + oFd) = smallBinAt msp i) ∧
    msp + kSizeofMemorySpace ≤ m (smallBinAt msp i + oFd) := by
  obtain ⟨hl, hge, hnd⟩ := h
  have hfd := links_head hl
  obtain ⟨l1, l2, rfl⟩ := List.append_of_mem hp
  rw [links_append] at hl
  have hB := links_last hl.1
  have hF := links_head hl.2
  rw [hB, hF]
  have hnd2 := List.nodup_append.1 hnd
  have hF' := headD_mem l2 (smallBinAt msp i)
  have hB' := getLastD_mem l1 (smallBinAt msp i)
  refine ⟨?_, ?_, ?_, ?_⟩
  · rcases hF' with ⟨_, h⟩ | h
    · exact Or.inl h
    · exact Or.inr (hge _ (List.mem_append_right _ (List.mem_cons_of_mem _ h)))
  · rcases hB' with ⟨_, h⟩ | h
    · exact Or.inl h
    · exact Or.inr (hge _ (List.mem_append_left _ h))
  · intro he
    rcases hF' with ⟨_, h⟩ | h
    · exact h
    · rcases hB' with ⟨_, h2⟩ | h2
      · rw [he]; exact h2
      · exact absurd (List.mem_cons_of_mem _ h) (hnd2.2.2 (he ▸ h2))
  · rw [hfd]
    rcases headD_mem (l1 ++ ptr :: l2) (smallBinAt msp i) with ⟨h, _⟩ | h
    · simp at h
    · exact hge _ h

/-- The writes of `unlinkSmallChunk` and `unlinkFirstSmallChunk`, for a member of
bin `i` with forward neighbour `F` and backward neighbour `B`, keep the maps exact. -/
theorem unlink_small_maps (m : Mem) (msp i F B : Nat) (hi : i < kNumSmallBins)
    (hF : F = smallBinAt msp i ∨ msp + kSizeofMemorySpace ≤ F)
    (hB : B = smallBinAt msp i ∨ msp + kSizeofMemorySpace ≤ B)
    (hFB : F = B → F = smallBinAt msp i)
    (hfd : m (smallBinAt msp i + oFd) ≠ smallBinAt msp i) (hM : MapsOK m msp) :
    MapsOK (((if F = B then clearSmallMap m msp i else m).write (F + oBk) B).write (B + oFd) F)
      msp := by
  have h968 : kSizeofMemorySpace = 968 := rfl
  have h32 : kNumSmallBins = 32 := rfl
  have h32t : kNumTreeBins = 32 := rfl
  have e1 : oFd = 16 := rfl
  have e2 : oBk = 24 := rfl
  have e3 : oSmallMap = 0 := rfl
  have hH := smallBinAt_eq msp i hi
  generalize hHv : smallBinAt msp i = H at *
  have hm0 : ∀ a, a ≠ msp + oSmallMap → (if F = B then clearSmallMap m msp i else m) a = m a := by
    intro a ha
    split
    · exact Mem.write_ne _ _ _ _ ha
    · rfl
  have hfr : ∀ a, a ≠ msp + oSmallMap → a ≠ F + oBk → a ≠ B + oFd →
      (((if F = B then clearSmallMap m msp i else m).write (F + oBk) B).write (B + oFd) F) a =
        m a := by
    intro a a1 a2 a3
    rw [Mem.write_ne _ _ _ _ a3, Mem.write_ne _ _ _ _ a2, hm0 a a1]
  have hmap : (((if F = B then clearSmallMap m msp i else m).write (F + oBk) B).write
      (B + oFd) F) (msp + oSmallMap) = (if F = B then clearSmallMap m msp i else m) (msp + oSmallMap) := by
    rw [Mem.write_ne _ _ _ _ (by omega), Mem.write_ne _ _ _ _ (by omega)]
  have hmi := hM.1 i hi
  rw [hHv] at hmi
  have hmarked : isSmallMapMarked m msp i = true := hmi.1.2 hfd
  have hbk : m (H + oBk) ≠ H := hmi.2.1 hmarked
  refine ⟨fun j hj => ?_, fun j hj => ?_⟩
  · have hHj := smallBinAt_eq msp j hj
    rw [isSmallMapMarked_congr hmap]
    by_cases hji : j = i
    · subst hji
      rw [hHv] at hHj ⊢
      by_cases hc : F = B
      · have hFH := hFB hc
        have hBH : B = H := hc ▸ hFH
        rw [if_pos hc, isSmallMapMarked_clear _ _ _ _ hi hi]
        subst hFH hBH
        rw [Mem.write_same, Mem.write_ne _ _ _ _ (by omega), Mem.write_same]
        simp
      · rw [if_neg hc, hmarked]
        constructor
        · refine ⟨fun _ => ?_, fun _ => rfl⟩
          by_cases hBH : B = H
          · subst hBH
            rw [Mem.write_same]
            exact hc
          · rw [Mem.write_ne _ _ _ _ (by omega), Mem.write_ne _ _ _ _ (by omega)]
            exact hfd
        · refine ⟨fun _ => ?_, fun _ => rfl⟩
          rw [Mem.write_ne _ _ _ _ (by omega)]
          by_cases hFH : F = H
          · subst hFH
            rw [Mem.write_same]
            exact fun h => hc h.symm
          · rw [Mem.write_ne _ _ _ _ (by omega)]
            exact hbk
    · have hmj : isSmallMapMarked (if F = B then clearSmallMap m msp i else m) msp j =
          isSmallMapMarked m msp j := by
        split
        · rw [isSmallMapMarked_clear _ _ _ _ hi hj]
          simp [hji]
        · rfl
      rw [hmj, hfr _ (by omega) (by omega) (by omega), hfr _ (by omega) (by omega) (by omega)]
      exact hM.1 j hj
  · rw [isTreeMapMarked_congr (hfr _ (by simp only [oTreeMap]; omega)
        (by simp only [oTreeMap]; omega) (by simp only [oTreeMap]; omega)),
      hfr _ (by simp only [treeBinAt, oTreeBins]; omega) (by simp only [treeBinAt, oTreeBins]; omega)
        (by simp only [treeBinAt, oTreeBins]; omega)]
    exact hM.2 j hj

/-- `unlinkSmallChunk` of a member of its bin keeps the maps exact. -/
theorem unlinkSmallChunk_maps (m : Mem) (msp ptr size : Nat) (l : List Nat)
    (hsmall : isSmall size = true) (hr : SmallRing m msp (getSmallBinIndex size) l)
    (hp : ptr ∈ l) (hM : MapsOK m msp) : MapsOK (unlinkSmallChunk m msp ptr size) msp := by
  have hi : getSmallBinIndex size < kNumSmallBins := getSmallBinIndex_lt size hsmall
  obtain ⟨n1, n2, n3, n4⟩ := hr.neighbours hp
  have hH := smallBinAt_eq msp _ hi
  have h968 : kSizeofMemorySpace = 968 := rfl
  have h32 : kNumSmallBins = 32 := rfl
  exact unlink_small_maps m msp _ _ _ hi n1 n2 n3 (by omega) hM

/-- `unlinkFirstSmallChunk` of the first member of bin `i` keeps the maps exact. -/
theorem unlinkFirstSmallChunk_maps (m : Mem) (msp ptr i : Nat) (l : List Nat)
    (hi : i < kNumSmallBins) (hr : SmallRing m msp i (ptr :: l)) (hM : MapsOK m msp) :
    MapsOK (unlinkFirstSmallChunk m msp ptr i) msp := by
  obtain ⟨n1, _, _, n4⟩ := hr.neighbours (List.mem_cons_self _ _)
  have hH := smallBinAt_eq msp _ hi
  have h968 : kSizeofMemorySpace = 968 := rfl
  have h32 : kNumSmallBins = 32 := rfl
  exact unlink_small_maps m msp i _ _ hi n1 (Or.inl rfl) (fun h => h) (by omega) hM

/-- `insertSmallChunk` of a chunk into its bin keeps the maps exact. -/
theorem insertSmallChunk_maps (m : Mem) (msp ptr size : Nat) (l : List Nat)
    (hsmall : isSmall size = true) (hr : SmallRing m msp (getSmallBinIndex size) l)
    (hptr : msp + kSizeofMemorySpace ≤ ptr) (hM : MapsOK m msp) :
    MapsOK (insertSmallChunk m msp ptr size) msp := by
  have hi : getSmallBinIndex size < kNumSmallBins := getSmallBinIndex_lt size hsmall
  have h968 : kSizeofMemorySpace = 968 := rfl
  have h32 : kNumSmallBins = 32 := rfl
  have h32t : kNumTreeBins = 32 := rfl
  have e1 : oFd = 16 := rfl
  have e2 : oBk = 24 := rfl
  have e3 : oSmallMap = 0 := rfl
  have hH := smallBinAt_eq msp _ hi
  have hfd := links_head hr.1
  have hF : m (smallBinAt msp (getSmallBinIndex size) + oFd) = smallBinAt msp (getSmallBinIndex size) ∨
      msp + kSizeofMemorySpace ≤ m (smallBinAt msp (getSmallBinIndex size) + oFd) := by
    rw [hfd]
    rcases headD_mem l (smallBinAt msp (getSmallBinIndex size)) with ⟨_, h⟩ | h
    · exact Or.inl h
    · exact Or.inr (hr.2.1 _ h)
  unfold insertSmallChunk
  simp only []
  generalize getSmallBinIndex size = i at *
  generalize hHv : smallBinAt msp i = H at *
  -- the memory after the bit of the bin has been set
  have key : ∃ M, (if (!isSmallMapMarked m msp i) = true then markSmallMap m msp i else m) = M ∧
      (∀ a, a ≠ msp + oSmallMap → M a = m a) ∧
      ∀ j, j < kNumSmallBins → isSmallMapMarked M msp j = (isSmallMapMarked m msp j || decide (j = i)) := by
    refine ⟨_, rfl, fun a ha => ?_, fun j hj => ?_⟩
    · split
      · exact Mem.write_ne _ _ _ _ ha
      · rfl
    · split
      · exact isSmallMapMarked_mark _ _ _ _ hi hj
      · rename_i hmk
        by_cases hji : j = i
        · subst hji
          have : isSmallMapMarked m msp j = true := by simpa using hmk
          simp [this]
        · simp [hji]
  obtain ⟨M, hMeq, hMfr, hMbit⟩ := key
  rw [hMeq]
  have hMF : M (H + oFd) = m (H + oFd) := hMfr _ (by omega)
  rw [hMF]
  generalize hFv : m (H + oFd) = F at *
  have hfr : ∀ a, a ≠ msp + oSmallMap → a ≠ H + oFd → a ≠ F + oBk → a ≠ ptr + oFd →
      a ≠ ptr + oBk →
      ((((M.write (H + oFd) ptr).write (F + oBk) ptr).write (ptr + oFd) F).write (ptr + oBk) H) a =
        m a := by
    intro a a1 a2 a3 a4 a5
    rw [Mem.write_ne _ _ _ _ a5, Mem.write_ne _ _ _ _ a4, Mem.write_ne _ _ _ _ a3,
      Mem.write_ne _ _ _ _ a2, hMfr a a1]
  have hmap : ((((M.write (H + oFd) ptr).write (F + oBk) ptr).write (ptr + oFd) F).write
      (ptr + oBk) H) (msp + oSmallMap) = M (msp + oSmallMap) := by
    rw [Mem.write_ne _ _ _ _ (by omega), Mem.write_ne _ _ _ _ (by omega),
      Mem.write_ne _ _ _ _ (by omega), Mem.write_ne _ _ _ _ (by omega)]
  have hmi := hM.1 i hi
  rw [hHv, hFv] at hmi
  refine ⟨fun j hj => ?_, fun j hj => ?_⟩
  · have hHj := smallBinAt_eq msp j hj
    rw [isSmallMapMarked_congr hmap, hMbit j hj]
    by_cases hji : j = i
    · subst hji
      rw [hHv] at hHj ⊢
      have hfdv : ((((M.write (H + oFd) ptr).write (F + oBk) ptr).write (ptr + oFd) F).write
          (ptr + oBk) H) (H + oFd) = ptr := by
        rw [Mem.write_ne _ _ _ _ (by omega), Mem.write_ne _ _ _ _ (by omega),
          Mem.write_ne _ _ _ _ (by omega), Mem.write_same]
      rw [hfdv]
      constructor
      · simp only [decide_True, Bool.or_true, true_iff]
        omega
      · simp only [decide_True, Bool.or_true, true_iff]
        rw [Mem.write_ne _ _ _ _ (by omega), Mem.write_ne _ _ _ _ (by omega)]
        by_cases hFH : F = H
        · subst hFH
          rw [Mem.write_same]
          omega
        · rw [Mem.write_ne _ _ _ _ (by omega), Mem.write_ne _ _ _ _ (by omega),
            hMfr _ (by omega)]
          exact hmi.2.1 (hmi.1.2 hFH)
    · rw [hfr _ (by omega) (by omega) (by omega) (by omega) (by omega),
        hfr _ (by omega) (by omega) (by omega) (by omega) (by omega)]
      simp only [hji, decide_False, Bool.or_false]
      exact hM.1 j hj
  · rw [isTreeMapMarked_congr (hfr _ (by simp only [oTreeMap]; omega)
        (by simp only [oTreeMap]; omega) (by simp only [oTreeMap]; omega)
        (by simp only [oTreeMap]; omega) (by simp only [oTreeMap]; omega)),
      hfr _ (by simp only [treeBinAt, oTreeBins]; omega) (by simp only [treeBinAt, oTreeBins]; omega)
        (by simp only [treeBinAt, oTreeBins]; omega) (by simp only [treeBinAt, oTreeBins]; omega)
        (by simp only [treeBinAt, oTreeBins]; omega)]
    exact hM.2 j hj

section

variable {msp start dv : Nat} {cs : List Chunk}

theorem Ranked.obj {m : Mem} {ht : Nat → Nat} {fuel : Nat} (h : Ranked m dv cs ht fuel)
    {y : Nat} (hy : LargeObj dv cs y) :
    ht y < fuel ∧ (m (y + oChild) ≠ 0 → ht (m (y + oChild)) < ht y) ∧
      (m (y + oChild + 8) ≠ 0 → ht (m (y + oChild + 8)) < ht y) := by
  obtain ⟨c, hc, rfl, h1, h2, h3⟩ := hy
  exact h c hc h1 h2 h3

/-- Below the tree bins only `tree_map` is a tree cell. -/
theorem not_largeCell_low (g : Geometry msp start cs) (a : Nat) (h1 : a < msp + oTreeBins)
    (h2 : a ≠ msp + oTreeMap) : ¬ LargeCell msp dv cs a := by
  have e : oTreeBins = 568 := rfl
  rintro (h | ⟨i, _, h⟩ | ⟨x, hx, h⟩)
  · exact h2 h
  · simp only [treeBinAt] at h
    omega
  · have := hx.large_ge g
    simp only [oFd, oBk, oChild, oParent, oIndex] at h
    omega

/-- The search for the rightmost descendant ends when the child links lead
downwards. -/
theorem rightmostDescendant_isSome {m : Mem} (hN : NodesOK m dv cs) (ht : Nat → Nat)
    (hdown : ∀ y, LargeObj dv cs y →
      (m (y + oChild) ≠ 0 → ht (m (y + oChild)) < ht y) ∧
      (m (y + oChild + 8) ≠ 0 → ht (m (y + oChild + 8)) < ht y)) :
    ∀ (fuel pptr r : Nat), LargeObj dv cs r → ht r < fuel →
      ∃ res, rightmostDescendant m fuel pptr r = some res := by
  intro fuel
  induction fuel with
  | zero => intro pptr r _ h; omega
  | succ n ih =>
    intro pptr r hr hlt
    obtain ⟨_, _, c0, c1, _⟩ := hN r hr
    obtain ⟨d0, d1⟩ := hdown r hr
    unfold rightmostDescendant
    by_cases h1 : m (r + oChild + 8) ≠ 0
    · rw [if_pos h1]
      exact ih _ _ (c1.resolve_left h1) (by have := d1 h1; omega)
    · rw [if_neg h1]
      by_cases h0 : m (r + oChild) ≠ 0
      · rw [if_pos h0]
        exact ih _ _ (c0.resolve_left h0) (by have := d0 h0; omega)
      · rw [if_neg h0]
        exact ⟨_, rfl⟩

/-- `unlinkLargeChunk` returns when the child links lead downwards and the fuel
exceeds the height of the member. -/
theorem unlinkLargeChunk_isSome {m : Mem} (hN : NodesOK m dv cs) (ht : Nat → Nat) (fuel : Nat)
    (hrank : Ranked m dv cs ht fuel) {x : Nat} (hx : LargeObj dv cs x) :
    ∃ m2, unlinkLargeChunk fuel m msp x = some m2 := by
  obtain ⟨_, _, c0, c1, _⟩ := hN x hx
  obtain ⟨hlt, d0, d1⟩ := hrank.obj hx
  have hdown : ∀ y, LargeObj dv cs y →
      (m (y + oChild) ≠ 0 → ht (m (y + oChild)) < ht y) ∧
      (m (y + oChild + 8) ≠ 0 → ht (m (y + oChild + 8)) < ht y) := fun y hy => (hrank.obj hy).2
  unfold unlinkLargeChunk
  simp only []
  split
  · exact ⟨_, rfl⟩
  · split
    · rename_i h1
      obtain ⟨res, hres⟩ := rightmostDescendant_isSome hN ht hdown fuel (x + oChild + 8) _
        (c1.resolve_left h1) (by have := d1 h1; omega)
      rw [hres]
      exact ⟨_, rfl⟩
    · split
      · rename_i h0
        obtain ⟨res, hres⟩ := rightmostDescendant_isSome hN ht hdown fuel (x + oChild) _
          (c0.resolve_left h0) (by have := d0 h0; omega)
        rw [hres]
        exact ⟨_, rfl⟩
      · exact ⟨_, rfl⟩

/-- What a tree-bin operation keeps of the maps. -/
theorem Good.maps (g : Geometry msp start cs) {m m2 : Mem} {x : Nat}
    (h : Good msp dv cs x m m2) (hM : MapsOK m msp) : MapsOK m2 msp := by
  have h32 : kNumSmallBins = 32 := rfl
  have e : oTreeBins = 568 := rfl
  constructor
  · intro i hi
    have hb := smallBinAt_eq msp i hi
    rw [isSmallMapMarked_congr (h.frame _ (not_largeCell_low g _
        (by simp only [oSmallMap]; omega) (by simp [oSmallMap, oTreeMap]))),
      h.frame _ (not_largeCell_low g _ (by simp only [oFd]; omega)
        (by simp only [oFd, oTreeMap]; omega)),
      h.frame _ (not_largeCell_low g _ (by simp only [oBk]; omega)
        (by simp only [oBk, oTreeMap]; omega))]
    exact hM.1 i hi
  · intro i hi
    exact ⟨(h.roots i hi).2, h.marks (fun j hj hne => (hM.2 j hj).2 hne) i hi⟩

/-- `unlinkLargeChunk` of a member of a tree bin returns and keeps the maps exact. -/
theorem unlinkLargeChunk_maps (g : Geometry msp start cs) {m : Mem} (hN : NodesOK m dv cs)
    (hR : RootsOK m msp dv cs) (ht : Nat → Nat) (fuel : Nat) (hrank : Ranked m dv cs ht fuel)
    {x : Nat} (hx : LargeObj dv cs x) (hpx : ParentOK m msp dv cs x) (hM : MapsOK m msp) :
    ∃ m2, unlinkLargeChunk fuel m msp x = some m2 ∧ MapsOK m2 msp := by
  obtain ⟨m2, h2⟩ := @unlinkLargeChunk_isSome msp dv cs m hN ht fuel hrank x hx
  exact ⟨m2, h2, (unlinkLargeChunk_spec g hN hR hx hpx fuel m2 h2).maps g hM⟩

/-- The descent of `insertLargeChunk` returns when the child links lead downwards,
and writes nothing into the space record. -/
theorem insertLargeLoop_record (g : Geometry msp start cs) (ptr size : Nat)
    (hptr : msp + kSizeofMemorySpace ≤ ptr) (ht : Nat → Nat) :
    ∀ (fuel : Nat) (m : Mem) (temp bits : Nat), LoopInv m dv cs size →
      (∀ y, LargeObj dv cs y →
        (m (y + oChild) ≠ 0 → ht (m (y + oChild)) < ht y) ∧
        (m (y + oChild + 8) ≠ 0 → ht (m (y + oChild + 8)) < ht y)) →
      LargeObj dv cs temp → ht temp < fuel →
      ∃ m2, insertLargeLoop ptr size fuel m temp bits = some m2 ∧
        ∀ a, a < msp + kSizeofMemorySpace → m2 a = m a := by
  have h968 : kSizeofMemorySpace = 968 := rfl
  intro fuel
  induction fuel with
  | zero => intro m temp bits _ _ _ h; omega
  | succ n ih =>
    intro m temp bits hinv hdown ht1 hlt
    obtain ⟨hc0, hc1, hfd⟩ := hinv temp ht1
    obtain ⟨d0, d1⟩ := hdown temp ht1
    have hge := ht1.large_ge g
    unfold insertLargeLoop
    by_cases hsz : chunkSize m temp ≠ size
    · rw [if_pos hsz]
      simp only []
      have hb : (bits >>> (kSizeTBitSize - 1)) &&& 1 = 0 ∨ (bits >>> (kSizeTBitSize - 1)) &&& 1 = 1 := by
        rw [Nat.and_one_is_mod]; omega
      by_cases hne : m (temp + oChild + 8 * ((bits >>> (kSizeTBitSize - 1)) &&& 1)) ≠ 0
      · rw [if_pos hne]
        rcases hb with hb | hb
        · rw [hb] at hne ⊢
          have hne0 : m (temp + oChild) ≠ 0 := hne
          have hlt0 : ht (m (temp + oChild)) < n := by
            have := d0 hne0
            omega
          exact ih m _ _ hinv hdown (hc0.resolve_left hne0) hlt0
        · rw [hb] at hne ⊢
          have hne1 : m (temp + oChild + 8) ≠ 0 := hne
          have hlt1 : ht (m (temp + oChild + 8)) < n := by
            have := d1 hne1
            omega
          exact ih m _ _ hinv hdown (hc1.resolve_left hne1) hlt1
      · rw [if_neg hne]
        refine ⟨_, rfl, fun a ha => ?_⟩
        rw [Mem.write_ne _ _ _ _ (by simp only [oFd]; omega),
          Mem.write_ne _ _ _ _ (by simp only [oBk]; omega),
          Mem.write_ne _ _ _ _ (by simp only [oParent]; omega),
          Mem.write_ne _ _ _ _ (by simp only [oChild]; omega)]
    · rw [if_neg hsz]
      have hsz2 : chunkSize m temp = size := by
        by_contra hc; exact hsz hc
      have hf := (hfd hsz2).large_ge g
      refine ⟨_, rfl, fun a ha => ?_⟩
      rw [Mem.write_ne _ _ _ _ (by simp only [oParent]; omega),
        Mem.write_ne _ _ _ _ (by simp only [oBk]; omega),
        Mem.write_ne _ _ _ _ (by simp only [oFd]; omega),
        Mem.write_ne _ _ _ _ (by simp only [oFd]; omega),
        Mem.write_ne _ _ _ _ (by simp only [oBk]; omega)]

/-- `insertLargeChunk` of a large chunk that is in no tree bin returns and keeps the
maps exact. -/
theorem insertLargeChunk_maps (g : Geometry msp start cs) {m : Mem} (hN : NodesOK m dv cs)
    (hR : RootsOK m msp dv cs) (ht : Nat → Nat) (fuel : Nat) (hrank : Ranked m dv cs ht fuel)
    (c : Chunk) (hc : c ∈ cs) (hlarge : kMinLargeSize ≤ c.size)
    (habsent : ¬ LargeObj dv cs c.addr) (hM : MapsOK m msp) :
    ∃ m2, insertLargeChunk fuel m msp c.addr c.size = some m2 ∧ MapsOK m2 msp := by
  have hlt := computeTreeIndex_lt c.size
  have h32 : kNumTreeBins = 32 := rfl
  have h32s : kNumSmallBins = 32 := rfl
  have h968 : kSizeofMemorySpace = 968 := rfl
  have h256 : kMinLargeSize = 256 := rfl
  have hb0 := g.bounds c hc
  generalize hptr : c.addr = ptr at *
  generalize hidx : computeTreeIndex c.size = idx at *
  have hpre : ∀ b, ((m.write (ptr + oIndex) idx).write (ptr + oChild + 8) 0).write
      (ptr + oChild) 0 b =
        if b = ptr + oChild then 0 else if b = ptr + oChild + 8 then 0
        else if b = ptr + oIndex then idx else m b := by
    intro b; simp only [Mem.write]
  have hprelow : ∀ a, (a < ptr + 32 ∨ ptr + 64 ≤ a) →
      ((m.write (ptr + oIndex) idx).write (ptr + oChild + 8) 0).write (ptr + oChild) 0 a = m a := by
    intro a ha
    rw [hpre]
    simp only [oChild, oIndex]
    rw [if_neg (by omega), if_neg (by omega), if_neg (by omega)]
  have hmap : isTreeMapMarked (((m.write (ptr + oIndex) idx).write (ptr + oChild + 8) 0).write
      (ptr + oChild) 0) msp idx = isTreeMapMarked m msp idx :=
    isTreeMapMarked_congr (hprelow _ (by simp only [oTreeMap]; omega)) idx
  have hslot : ((m.write (ptr + oIndex) idx).write (ptr + oChild + 8) 0).write
      (ptr + oChild) 0 (treeBinAt msp idx) = m (treeBinAt msp idx) :=
    hprelow _ (by simp only [treeBinAt, oTreeBins]; omega)
  unfold insertLargeChunk
  simp only [hidx]
  rw [hmap, hslot]
  cases hmk : isTreeMapMarked m msp idx with
  | false =>
    simp only [Bool.not_false, if_true]
    refine ⟨_, rfl, ?_⟩
    have hfr : ∀ a, a < msp + kSizeofMemorySpace → a ≠ msp + oTreeMap → a ≠ treeBinAt msp idx →
        (((((markTreeMap (((m.write (ptr + oIndex) idx).write (ptr + oChild + 8) 0).write
          (ptr + oChild) 0) msp idx).write (treeBinAt msp idx) ptr).write (ptr + oParent)
          (treeBinAt msp idx)).write (ptr + oFd) ptr).write (ptr + oBk) ptr) a = m a := by
      intro a a1 a2 a3
      rw [Mem.write_ne _ _ _ _ (by simp only [oBk]; omega),
        Mem.write_ne _ _ _ _ (by simp only [oFd]; omega),
        Mem.write_ne _ _ _ _ (by simp only [oParent]; omega), Mem.write_ne _ _ _ _ a3]
      unfold markTreeMap
      rw [Mem.write_ne _ _ _ _ a2]
      exact hprelow a (by omega)
    have hmapv : (((((markTreeMap (((m.write (ptr + oIndex) idx).write (ptr + oChild + 8) 0).write
          (ptr + oChild) 0) msp idx).write (treeBinAt msp idx) ptr).write (ptr + oParent)
          (treeBinAt msp idx)).write (ptr + oFd) ptr).write (ptr + oBk) ptr) (msp + oTreeMap) =
        (markTreeMap m msp idx) (msp + oTreeMap) := by
      rw [Mem.write_ne _ _ _ _ (by simp only [oBk, oTreeMap]; omega),
        Mem.write_ne _ _ _ _ (by simp only [oFd, oTreeMap]; omega),
        Mem.write_ne _ _ _ _ (by simp only [oParent, oTreeMap]; omega),
        Mem.write_ne _ _ _ _ (slot_ne_map _ _).symm]
      unfold markTreeMap
      rw [Mem.write_same, Mem.write_same, hprelow _ (by simp only [oTreeMap]; omega)]
    constructor
    · intro i hi
      have hb := smallBinAt_eq msp i hi
      rw [isSmallMapMarked_congr (hfr _ (by simp only [oSmallMap]; omega)
          (by simp [oSmallMap, oTreeMap]) (by simp only [oSmallMap, treeBinAt, oTreeBins]; omega)),
        hfr _ (by simp only [oFd]; omega) (by simp only [oFd, oTreeMap]; omega)
          (by simp only [oFd, treeBinAt, oTreeBins]; omega),
        hfr _ (by simp only [oBk]; omega) (by simp only [oBk, oTreeMap]; omega)
          (by simp only [oBk, treeBinAt, oTreeBins]; omega)]
      exact hM.1 i hi
    · intro j hj
      rw [isTreeMapMarked_congr hmapv, isTreeMapMarked_mark _ _ _ _ hlt hj]
      by_cases hji : j = idx
      · subst hji
        rw [Mem.write_ne _ _ _ _ (by simp only [oBk, treeBinAt, oTreeBins]; omega),
          Mem.write_ne _ _ _ _ (by simp only [oFd, treeBinAt, oTreeBins]; omega),
          Mem.write_ne _ _ _ _ (by simp only [oParent, treeBinAt, oTreeBins]; omega),
          Mem.write_same]
        simp only [decide_True, Bool.or_true, true_iff]
        omega
      · rw [hfr _ (by simp only [treeBinAt, oTreeBins]; omega)
          (by simp only [treeBinAt, oTreeBins, oTreeMap]; omega)
          (fun h => hji (treeBinAt_inj h))]
        simp only [hji, decide_False, Bool.or_false]
        exact hM.2 j hj
  | true =>
    simp only [Bool.not_true, Bool.false_eq_true, if_false]
    have hroot : LargeObj dv cs (m (treeBinAt msp idx)) :=
      ((hR _ hlt).1).resolve_left ((hR _ hlt).2 hmk)
    have hobj : ∀ y, LargeObj dv cs y → y + 256 ≤ ptr ∨ ptr + 256 ≤ y := by
      intro y hy
      obtain ⟨cy, hcy, hcya, _, hcys, _⟩ := hy.large_cases
      have hby := g.bounds cy hcy
      rcases g.disjoint cy c hcy hc with he | hd | hd
      · exfalso
        apply habsent
        rw [← hptr, ← he, hcya]
        exact hy
      · left; rw [hptr] at hd; omega
      · right; rw [hptr] at hd; omega
    have hinv : LoopInv (((m.write (ptr + oIndex) idx).write (ptr + oChild + 8) 0).write
        (ptr + oChild) 0) dv cs c.size := by
      intro y hy
      obtain ⟨h1, _, h3, h4, _⟩ := hN y hy
      have hd := hobj y hy
      rw [hprelow _ (by simp only [oChild]; omega), hprelow _ (by simp only [oChild]; omega),
        hprelow _ (by simp only [oFd]; omega)]
      exact ⟨h3, h4, fun _ => h1⟩
    have hdown : ∀ y, LargeObj dv cs y →
        ((((m.write (ptr + oIndex) idx).write (ptr + oChild + 8) 0).write (ptr + oChild) 0)
            (y + oChild) ≠ 0 →
          ht ((((m.write (ptr + oIndex) idx).write (ptr + oChild + 8) 0).write (ptr + oChild) 0)
            (y + oChild)) < ht y) ∧
        ((((m.write (ptr + oIndex) idx).write (ptr + oChild + 8) 0).write (ptr + oChild) 0)
            (y + oChild + 8) ≠ 0 →
          ht ((((m.write (ptr + oIndex) idx).write (ptr + oChild + 8) 0).write (ptr + oChild) 0)
            (y + oChild + 8)) < ht y) := by
      intro y hy
      have hd := hobj y hy
      rw [hprelow _ (by simp only [oChild]; omega), hprelow _ (by simp only [oChild]; omega)]
      exact (hrank.obj hy).2
    obtain ⟨m2, h2, hfr⟩ := insertLargeLoop_record g ptr c.size (by omega) ht fuel _
      (m (treeBinAt msp idx)) (u64 (c.size <<< leftshiftForTreeIndex idx)) hinv hdown hroot
      (hrank.obj hroot).1
    exact ⟨m2, h2, mapsOK_congr hM fun a ha => (hfr a ha).trans (hprelow a (by omega))⟩

end

/-- C12: the bin maps stay exact.  In a space in which `small_map` marks exactly the
small bins whose head links lead to a chunk and `tree_map` marks exactly the tree
bins that have a root, every call of a bin operation leaves both maps exact:
`insertSmallChunk` of a chunk above the space record into its bin,
`unlinkSmallChunk` of a member of its bin, `unlinkFirstSmallChunk` of the first member
of a bin (the bin is a ring `l` of distinct chunks through its head), and, for tree
bins that are closed under their links with child links leading downwards (`ht`
bounds the height, `fuel` exceeds it), `insertLargeChunk` of a large chunk of the
segment that is in no tree bin and `unlinkLargeChunk` of a member of a tree bin; the
two tree operations return. -/
theorem bin_maps_preserved (m : Mem) (msp : Nat) (hM : MapsOK m msp) :
    (∀ ptr size l, isSmall size = true → SmallRing m msp (getSmallBinIndex size) l →
      msp + kSizeofMemorySpace ≤ ptr → MapsOK (insertSmallChunk m msp ptr size) msp) ∧
    (∀ ptr size l, isSmall size = true → SmallRing m msp (getSmallBinIndex size) l → ptr ∈ l →
      MapsOK (unlinkSmallChunk m msp ptr size) msp) ∧
    (∀ ptr i l, i < kNumSmallBins → SmallRing m msp i (ptr :: l) →
      MapsOK (unlinkFirstSmallChunk m msp ptr i) msp) ∧
    (∀ start dv cs ht fuel, Geometry msp start cs → NodesOK m dv cs → RootsOK m msp dv cs →
      Ranked m dv cs ht fuel →
      (∀ c ∈ cs, kMinLargeSize ≤ c.size → ¬ LargeObj dv cs c.addr →
        ∃ m2, insertLargeChunk fuel m msp c.addr c.size = some m2 ∧ MapsOK m2 msp) ∧
      (∀ x, LargeObj dv cs x → ParentOK m msp dv cs x →
        ∃ m2, unlinkLargeChunk fuel m msp x = some m2 ∧ MapsOK m2 msp)) := by
  refine ⟨fun ptr size l h1 h2 h3 => insertSmallChunk_maps m msp ptr size l h1 h2 h3 hM,
    fun ptr size l h1 h2 h3 => unlinkSmallChunk_maps m msp ptr size l h1 h2 h3 hM,
    fun ptr i l h1 h2 => unlinkFirstSmallChunk_maps m msp ptr i l h1 h2 hM,
    fun start dv cs ht fuel g hN hR hrank => ⟨?_, ?_⟩⟩
  · intro c hc hlarge habsent
    exact insertLargeChunk_maps g hN hR ht fuel hrank c hc hlarge habsent hM
  · intro x hx hpx
    exact unlinkLargeChunk_maps g hN hR ht fuel hrank hx hpx hM

/-- Witness for C12: a large space in which the chunk of `S` (56 bytes) lies in small
bin 7, the chunk of `A` (1016 bytes) is the root of tree bin 3 with the chunk of `B`
(920 bytes) as its child, and the chunk of `C` (1016 bytes) is in use.  The maps are
exact, and they stay exact when the chunk after `S` is put into small bin 7, when `S`
is unlinked, when `C` is put into tree bin 3 and when the root `A` is unlinked. -/
theorem bin_maps_preserved_witness :
    MapsOK binsMem (largeSpace []).1 ∧
    SmallRing binsMem (largeSpace []).1 (getSmallBinIndex 56) [1049560] ∧
    WellFormed binsMem (largeSpace []).1 binsChunks ∧
    Ranked binsMem (binsMem ((largeSpace []).1 + oDv)) binsChunks binsHeight 2 ∧
    MapsOK (insertSmallChunk binsMem (largeSpace []).1 1049616 56) (largeSpace []).1 ∧
    MapsOK (unlinkSmallChunk binsMem (largeSpace []).1 1049560 56) (largeSpace []).1 ∧
    MapsOK (unlinkFirstSmallChunk binsMem (largeSpace []).1 1049560 7) (largeSpace []).1 ∧
    (∃ m2, insertLargeChunk 2 binsMem (largeSpace []).1 1051720 1016 = some m2 ∧
      MapsOK m2 (largeSpace []).1) ∧
    (∃ m2, unlinkLargeChunk 2 binsMem (largeSpace []).1 1049672 = some m2 ∧
      MapsOK m2 (largeSpace []).1) := by
  have hM : MapsOK binsMem (largeSpace []).1 := by decide!
  have hr : SmallRing binsMem (largeSpace []).1 (getSmallBinIndex 56) [1049560] := by decide!
  have hw : WellFormed binsMem (largeSpace []).1 binsChunks := by decide!
  have hk : Ranked binsMem (binsMem ((largeSpace []).1 + oDv)) binsChunks binsHeight 2 := by
    decide!
  have h := bin_maps_preserved binsMem (largeSpace []).1 hM
  have ht := h.2.2.2 _ _ binsChunks binsHeight 2 hw.geometry hw.closed.nodes hw.closed.roots hk
  exact ⟨hM, hr, hw, hk, h.1 1049616 56 [1049560] (by decide) hr (by decide!),
    h.2.1 1049560 56 [1049560] (by decide) hr (by decide),
    h.2.2.1 1049560 7 [] (by decide) hr,
    ht.1 ⟨1051720, 1016, true⟩ (by decide) (by decide) (by decide!),
    ht.2 1049672 (by decide!) (hw.parents _ (by decide!))⟩

/-! ## Splitting a free chunk in `alloc` -/

/-- C31, the code at failing inputs.  In a small space whose small bin 17 holds the
chunk `0x1003d8` of 136 bytes, `alloc(msp, 72)` (padded size 88) takes that chunk and
splits it: `setSizePinuseOfFreeChunk` is called with the chunk itself instead of the
remainder.  Afterwards the head of the returned chunk is `48 | PINUSE` (size 48,
`CINUSE` clear) and not `88 | PINUSE | CINUSE`, the head of the remainder at
`ptr + 88` was never written (0), and `prev_foot` of the chunk after the remainder
still holds 136; `dv` and `dv_size` are `ptr + 88` and 48.  In a large space whose
tree bin 3 holds the chunk `0x1003d8` of 1016 bytes and whose `dv` has 48 bytes,
`alloc(msp, 24)` (padded size 40) is served by `treeAllocSmall`, which has the same
call: the head of the returned chunk is `976 | PINUSE`, the head of the remainder at
`ptr + 40` was never written (it holds the `parent` link the chunk had in its bin),
and `prev_foot` after the remainder still holds 1016. -/
theorem alloc_split_header_on_wrong_chunk :
    (padRequest 72, binHeap.mem (smallBinAt (smallSpace []).1 17 + oFd),
      chunkSize binHeap.mem 1049560, binHeap.mem ((smallSpace []).1 + oDvSize)) =
      (88, 1049560, 136, 0) ∧
    (splitBlock.1, splitBlock.2.mem (1049560 + oHead), isInuse splitBlock.2.mem 1049560,
      splitBlock.2.mem (1049560 + 88 + oHead), splitBlock.2.mem (1049560 + 136 + oPrevFoot),
      splitBlock.2.mem ((smallSpace []).1 + oDv), splitBlock.2.mem ((smallSpace []).1 + oDvSize)) =
      (1049576, 48 ||| kPinuseBit, false, 0, 136, 1049560 + 88, 48) ∧
    (padRequest 24, treeDvHeap.mem (treeBinAt (largeSpace []).1 3), chunkSize treeDvHeap.mem 1049560,
      treeDvHeap.mem ((largeSpace []).1 + oDvSize), treeDvHeap.mem ((largeSpace []).1 + oSmallMap),
      treeDvHeap.mem ((largeSpace []).1 + oTreeMap)) = (40, 1049560, 1016, 48, 0, 8) ∧
    (treeSplitBlock.1, treeSplitBlock.2.mem (1049560 + oHead), isInuse treeSplitBlock.2.mem 1049560,
      treeSplitBlock.2.mem (1049560 + 40 + oHead),
      treeSplitBlock.2.mem (1049560 + 1016 + oPrevFoot),
      treeSplitBlock.2.mem ((largeSpace []).1 + oDv),
      treeSplitBlock.2.mem ((largeSpace []).1 + oDvSize)) =
      (1049576, 976 ||| kPinuseBit, false, treeBinAt (largeSpace []).1 3, 1016, 1049560 + 40,
        976) := by
  refine ⟨by decide!, by decide!, by decide!, by decide!⟩

/-- C32, the code at a failing input: a small space whose `dv` is the chunk `0x100430`
with `dv_size == 48`, no bin in use.  `alloc(msp, 24)` has the padded size 40; the
remainder of 8 bytes is below `kMinChunkSize`, so `dv` is exhausted, but the chunk is
marked with `setSizeInusePinuse(msp, ptr, nb)`: the returned chunk has size 40, not
48, its next chunk by the head is `0x100458`, 8 bytes before the chunk `0x100460`
that followed `dv`; the head of that chunk keeps `PINUSE` clear and its `prev_foot`
word has been changed from 136 to 137. -/
theorem alloc_exhausted_dv_keeps_request_size :
    (splitBlock.2.mem ((smallSpace []).1 + oDv), splitBlock.2.mem ((smallSpace []).1 + oDvSize),
      splitBlock.2.mem ((smallSpace []).1 + oSmallMap),
      splitBlock.2.mem ((smallSpace []).1 + oTreeMap), padRequest 24,
      splitBlock.2.mem (1049648 + 48 + oPrevFoot), splitBlock.2.mem (1049648 + 48 + oHead)) =
      (1049648, 48, 0, 0, 40, 136, 80 ||| kCinuseBit) ∧
    (dvBlock.1, chunkSize dvBlock.2.mem 1049648, nextChunk dvBlock.2.mem 1049648,
      dvBlock.2.mem ((smallSpace []).1 + oDv), dvBlock.2.mem ((smallSpace []).1 + oDvSize),
      dvBlock.2.mem (1049648 + 48 + oPrevFoot), dvBlock.2.mem (1049648 + 48 + oHead)) =
      (1049664, 40, 1049648 + 40, 0, 0, 137, 80 ||| kCinuseBit) := by
  refine ⟨by decide!, by decide!⟩

/-! ## `allocAligned` -/

/-- C34, the code at a failing input: `allocAligned(msp, 4096, 100, 0)` in a fresh
small space returns `0x101000`, a chunk of 120 bytes.  The leader `0x1003d8` (3096
bytes) has been handed to `free` and lies in tree bin 7.  The trailer `0x101068`
(1032 bytes) that was split off past `nb` is still marked in use after the call: the
variable `trailer` is never assigned, so `free(msp, trailer)` is never reached; the
chunk lies between the returned chunk and `top` (`0x101470`) and is in no bin. -/
theorem allocAligned_trailer_stays_in_use :
    (alignedBlock100.1, chunkSize alignedBlock100.2.mem (memoryToChunk alignedBlock100.1),
      requestToSize 100) = (1052672, 120, 120) ∧
    (isInuse alignedBlock100.2.mem 1049560, chunkSize alignedBlock100.2.mem 1049560,
      alignedBlock100.2.mem (treeBinAt (smallSpace []).1 7)) = (false, 3096, 1049560) ∧
    (isInuse alignedBlock100.2.mem 1052776, chunkSize alignedBlock100.2.mem 1052776,
      alignedBlock100.2.mem (1052776 + oHead), alignedBlock100.2.mem ((smallSpace []).1 + oTop),
      alignedBlock100.2.mem ((smallSpace []).1 + oDv),
      alignedBlock100.2.mem ((smallSpace []).1 + oSmallMap),
      alignedBlock100.2.mem ((smallSpace []).1 + oTreeMap)) =
      (true, 1032, 1032 ||| kPinuseBit ||| kCinuseBit, 1052776 + 1032, 0, 0, 128) := by
  refine ⟨by decide!, by decide!, by decide!⟩

/-- C38, the code at a failing input: `requestToSize(24)` is 32, less than
`24 + kChunkOverhead` (40); `requestToSize` compares the request with `kMinChunkSize`
where `alloc` compares it with `kMinRequest`, so every request of 17 to 31 bytes gets
32.  `allocAligned(msp, 4096, 24, 0)` in a fresh small space trims the returned chunk
`0x100ff0` to these 32 bytes: its usable size is 16, and the `prev_foot` word of the
next chunk, which holds the address of the space, lies at `p + 16`, inside the 24
bytes that were asked for. -/
theorem requestToSize_below_request :
    (requestToSize 24, 24 + kChunkOverhead, padRequest 24, requestToSize 17, requestToSize 31,
      kMinRequest, kMinChunkSize) = (32, 40, 40, 32, 32, 15, 32) ∧
    24 ≤ kMaxRequest ∧
    (alignedBlock24.1, chunkSize alignedBlock24.2.mem (memoryToChunk alignedBlock24.1),
      getUsableSize alignedBlock24.2.mem alignedBlock24.1,
      nextChunk alignedBlock24.2.mem (memoryToChunk alignedBlock24.1) + oPrevFoot,
      alignedBlock24.2.mem (alignedBlock24.1 + 16)) =
      (1052672, 32, 16, 1052672 + 16, (smallSpace []).1) := by
  refine ⟨by decide!, by decide, by decide!⟩

/-! ## The shape of a tree bin -/

/-- C36, the code at a failing input: into the empty tree bin 3 (sizes 768 to 1023,
bits 9 and 8 fixed by the index) the chunks `A` (1016 bytes), `B` (920 bytes) and `D`
(776 bytes) are inserted by three calls of `free`.  The most significant size bit
below the fixed bits is bit 7, which is 1 for 920 and 0 for 776, so below the root
`A` the chunk `B` belongs under `child[1]` and `D` under `child[0]`.
`leftshiftForTreeIndex(3)` is 8, bit 63 of `size << 8` is 0 for both, and the descent
takes `child[0]` every time: `B` is `child[0]` of `A`, `D` is `child[0]` of `B`, and
no node has a `child[1]`. -/
theorem tree_bin_descends_left_only :
    (computeTreeIndex 1016, computeTreeIndex 920, computeTreeIndex 776,
      leftshiftForTreeIndex 3) = (3, 3, 3, 8) ∧
    ((920 >>> 7) &&& 1 = 1 ∧ (776 >>> 7) &&& 1 = 0) ∧
    ((u64 (920 <<< leftshiftForTreeIndex 3) >>> (kSizeTBitSize - 1)) &&& 1 = 0 ∧
      (u64 (776 <<< leftshiftForTreeIndex 3) >>> (kSizeTBitSize - 1)) &&& 1 = 0) ∧
    (treeThree (treeBinAt (largeSpace []).1 3), chunkSize treeThree 1049560,
      chunkSize treeThree 1050632, chunkSize treeThree 1051608) = (1049560, 1016, 920, 776) ∧
    (treeThree (1049560 + oChild), treeThree (1049560 + oChild + 8)) = (1050632, 0) ∧
    (treeThree (1050632 + oChild), treeThree (1050632 + oChild + 8)) = (1051608, 0) ∧
    (treeThree (1051608 + oChild), treeThree (1051608 + oChild + 8)) = (0, 0) := by
  refine ⟨by decide!, by decide, by decide!, by decide!, by decide!, by decide!, by decide!⟩

/-! ## The free list as constructed -/

/-- C37, the code at a failing input: `FreeList(start, 256, 64, 8, 0)` over a zeroed
region at `start = 0x100008` that holds 4 slots of 64 bytes.  The head is slot 0, but
the first word of slot `i` (`i` = 0, 1, 2) is the address of slot `i` plus 3, the
value of `element_count`, not the address of slot `i + 1`; the word at the address
the head links to is null, so following the links from the head visits slot 0 and
the address `0x10000b` inside it, and no other slot. -/
theorem freeList_links_by_element_count :
    (load64 (FreeList.construct zeroBytes 1048576 1048584 256 64 8 0) 1048576,
      load64 (FreeList.construct zeroBytes 1048576 1048584 256 64 8 0) 1048584,
      load64 (FreeList.construct zeroBytes 1048576 1048584 256 64 8 0) (1048584 + 64),
      load64 (FreeList.construct zeroBytes 1048576 1048584 256 64 8 0) (1048584 + 128),
      load64 (FreeList.construct zeroBytes 1048576 1048584 256 64 8 0) (1048584 + 192)) =
      (1048584, 1048584 + 3, 1048584 + 64 + 3, 1048584 + 128 + 3, 0) ∧
    load64 (FreeList.construct zeroBytes 1048576 1048584 256 64 8 0) (1048584 + 3) = 0 := by
  refine ⟨by decide!, by decide!⟩

/-! ## Successive allocations of the bump allocator -/

/-- C39, the code at a failing input: a bump allocator over a region at `0x100000`,
`p1 = allocate(16, 8, 0)` (`0x100008`), the caller stores `0xdeadbeef` into the second
word of its block, then `p2 = allocate(16, 8, 0)` (`0x100018`).  The cursor advances
by `size` from the size word, not from the block, so the size word of `p2` lies at
`p2 - 8 = p1 + 8`, inside `[p1, p1 + 16)`: after the second call the second word of
the first block holds 16. -/
theorem linear_allocate_overlaps_previous_block :
    ((readyLinear.allocate zeroBytes 16 8 0).1, (readyLinear.allocate zeroBytes 16 8 0).2.1.mCurrent) =
      (1048584, 1048592) ∧
    (((readyLinear.allocate zeroBytes 16 8 0).2.1.allocate
        (store64 (readyLinear.allocate zeroBytes 16 8 0).2.2 (1048584 + 8) 3735928559) 16 8 0).1,
      sub64 ((readyLinear.allocate zeroBytes 16 8 0).2.1.allocate
        (store64 (readyLinear.allocate zeroBytes 16 8 0).2.2 (1048584 + 8) 3735928559) 16 8 0).1
        kSizeofSizeT) = (1048600, 1048584 + 8) ∧
    (load64 (store64 (readyLinear.allocate zeroBytes 16 8 0).2.2 (1048584 + 8) 3735928559)
        (1048584 + 8),
      load64 ((readyLinear.allocate zeroBytes 16 8 0).2.1.allocate
        (store64 (readyLinear.allocate zeroBytes 16 8 0).2.2 (1048584 + 8) 3735928559) 16 8 0).2.2
        (1048584 + 8)) = (3735928559, 16) := by
  refine ⟨by decide!, by decide!, by decide!⟩

/-! ## Indices of the deque -/

/-- What `steal()` does to a deque with `top < bottom`. -/
theorem WorkStealQueue.steal_nonempty (q : WorkStealQueue) (h : q.mTop < q.mBottom) :
    q.steal.2.mTop = u64 (q.mTop + 1) ∧ q.steal.2.mBottom = q.mBottom ∧
      q.steal.2.mArray = q.mArray := by
  unfold WorkStealQueue.steal
  rw [if_pos h]
  exact ⟨rfl, rfl, rfl⟩

/-- What an accepted `push` writes. -/
theorem WorkStealQueue.push_entry (q : WorkStealQueue) (task : Nat)
    (h : sub64 q.mBottom q.mTop ≤ WORK_QUEUE_SIZE - 1) :
    (q.push task).mArray (entryAt q.mBottom) = task ∧
      ∀ a, a ≠ entryAt q.mBottom → (q.push task).mArray a = q.mArray a := by
  unfold WorkStealQueue.push
  rw [if_pos h]
  exact ⟨Mem.write_same _ _ _, fun a ha => Mem.write_ne _ _ _ _ ha⟩

/-- A deque holding entries 0..1023 after one `steal()` and one more `push`. -/
theorem WorkStealQueue.push_after_steal (q : WorkStealQueue) (task : Nat)
    (ht : q.mTop = 0) (hb2 : q.mBottom = 1024) :
    (q.steal.2.mTop, q.steal.2.mBottom) = (1, 1024) ∧
    ((q.steal.2.push task).mBottom, (q.steal.2.push task).mArray (entryAt 1024)) =
      (1025, task) ∧
    (q.steal.2.push task).mArray (entryAt 0) = q.mArray (entryAt 0) ∧
    (q.steal.2.push task).pop.1 = task := by
  obtain ⟨s1, s2, s3⟩ := q.steal_nonempty (by rw [ht, hb2]; decide)
  rw [ht] at s1
  rw [hb2] at s2
  have s1b : q.steal.2.mTop = 1 := s1.trans (by decide)
  have hacc : sub64 q.steal.2.mBottom q.steal.2.mTop ≤ WORK_QUEUE_SIZE - 1 := by
    rw [s1b, s2]; decide
  obtain ⟨p1, p2⟩ := q.steal.2.push_accepted task hacc
  obtain ⟨p3, p4⟩ := q.steal.2.push_entry task hacc
  rw [s2] at p2 p3 p4
  rw [s1b] at p1
  have p2b : (q.steal.2.push task).mBottom = 1025 := p2.trans (by decide)
  refine ⟨by rw [s1b, s2], by rw [p2b, p3], ?_, ?_⟩
  · rw [p4 _ (by decide), s3]
  · unfold WorkStealQueue.pop
    simp only [p2b, p1]
    rw [show dec64 1025 = 1024 by decide, if_pos (by decide), if_neg (by decide)]
    exact p3

/-- C40, the code at a failing input: on a new deque, 1024 calls of `push`, one call
of `steal` and one more `push(task)`.  The last call finds `bottom - top = 1023`,
stores the task at index `bottom = 1024` of the array of 1024 entries (byte offset
8192, the first byte after the array) and sets `bottom` to 1025; the index is not
reduced modulo the capacity, and entry 0 is left as it was.  The `pop()` that follows
reads the same index 1024. -/
theorem push_stores_past_the_array (buf : Nat → Nat) (task : Nat) :
    (((WorkStealQueue.construct buf).pushAll (List.replicate 1024 4096)).mTop,
      ((WorkStealQueue.construct buf).pushAll (List.replicate 1024 4096)).mBottom) = (0, 1024) ∧
    (((WorkStealQueue.construct buf).pushAll (List.replicate 1024 4096)).steal.2.mTop,
      ((WorkStealQueue.construct buf).pushAll (List.replicate 1024 4096)).steal.2.mBottom) =
      (1, 1024) ∧
    ((((WorkStealQueue.construct buf).pushAll (List.replicate 1024 4096)).steal.2.push task).mBottom,
      (((WorkStealQueue.construct buf).pushAll (List.replicate 1024 4096)).steal.2.push task).mArray
        (entryAt 1024)) = (1025, task) ∧
    (((WorkStealQueue.construct buf).pushAll (List.replicate 1024 4096)).steal.2.push task).mArray
        (entryAt 0) =
      ((WorkStealQueue.construct buf).pushAll (List.replicate 1024 4096)).mArray (entryAt 0) ∧
    (entryAt 1024 = WORK_QUEUE_SIZE * kSizeofPointer ∧ ¬ 1024 < WORK_QUEUE_SIZE) ∧
    (((WorkStealQueue.construct buf).pushAll (List.replicate 1024 4096)).steal.2.push task).pop.1 =
      task := by
  obtain ⟨ht, hb⟩ := WorkStealQueue.pushAll_bottom 0 (List.replicate 1024 4096)
    (WorkStealQueue.construct buf) 0 rfl rfl (by rw [List.length_replicate]; decide)
  rw [List.length_replicate] at hb
  have hb2 : ((WorkStealQueue.construct buf).pushAll (List.replicate 1024 4096)).mBottom = 1024 :=
    hb.trans (by decide)
  obtain ⟨a, b, c, d⟩ := WorkStealQueue.push_after_steal _ task ht hb2
  exact ⟨by rw [ht, hb2], a, b, c, ⟨by decide, by decide⟩, d⟩

/-! ## The index of a tree bin -/

/-- The bit `_BitScanReverse` reports: `Nat.log2 x` is the one `k` with
`2^k ≤ x < 2^(k+1)`. -/
theorem log2_eq_of_bounds (x k : Nat) (h1 : 2 ^ k ≤ x) (h2 : x < 2 ^ (k + 1)) :
    Nat.log2 x = k := by
  have hx : x ≠ 0 := by
    have := Nat.two_pow_pos k
    omega
  have ha : Nat.log2 x < k + 1 := (Nat.log2_lt hx).2 h2
  have hb : ¬ Nat.log2 x < k := fun h => by
    have := (Nat.log2_lt hx).1 h
    omega
  omega

/-- The two set bits of `minsizeForTreeIndex`, as a sum. -/
theorem minsizeForTreeIndex_eq (i : Nat) :
    minsizeForTreeIndex i = 2 ^ (i / 2 + 8) + i % 2 * 2 ^ (i / 2 + 7) := by
  unfold minsizeForTreeIndex
  have h8 : kTreeBinShift = 8 := rfl
  rw [h8, Nat.shiftRight_eq_div_pow, Nat.pow_one, Nat.and_one_is_mod, Nat.shiftLeft_eq,
    Nat.shiftLeft_eq, Nat.one_mul, show i / 2 + 8 - 1 = i / 2 + 7 by omega]
  have hlt : i % 2 * 2 ^ (i / 2 + 7) < 2 ^ (i / 2 + 8) := by
    have hp : (2 : Nat) ^ (i / 2 + 8) = 2 * 2 ^ (i / 2 + 7) := by
      rw [show i / 2 + 8 = (i / 2 + 7) + 1 by omega, Nat.pow_succ]; omega
    have hpos := Nat.two_pow_pos (i / 2 + 7)
    rcases Nat.mod_two_eq_zero_or_one i with h | h <;> rw [h, hp] <;> omega
  have := Nat.mul_add_lt_is_or hlt 1
  rw [Nat.mul_one] at this
  exact this.symm

/-- The value of `computeTreeIndex` on the branch that scans for the highest bit. -/
theorem computeTreeIndex_mid (s k : Nat) (h1 : 2 ^ k ≤ s >>> 8) (h2 : s >>> 8 < 2 ^ (k + 1))
    (h3 : s >>> 8 ≤ 0xFFFF) :
    k < 16 ∧ computeTreeIndex s = 2 * k + ((s >>> (k + 7)) &&& 1) := by
  have hlog := log2_eq_of_bounds _ _ h1 h2
  have hk : k < 16 := by
    have hlt : (2 : Nat) ^ k < 2 ^ 16 := by
      have : (2 : Nat) ^ 16 = 65536 := by decide
      omega
    exact (Nat.pow_lt_pow_iff_right (by decide)).1 hlt
  refine ⟨hk, ?_⟩
  have hpos := Nat.two_pow_pos k
  have h0 : s >>> kTreeBinShift ≠ 0 := by
    show s >>> 8 ≠ 0
    omega
  have hs : u32 s = s := by
    unfold u32
    rw [Nat.shiftRight_eq_div_pow] at h3
    apply Nat.mod_eq_of_lt
    have : (2 : Nat) ^ 8 = 256 := by decide
    have : (2 : Nat) ^ 32 = 4294967296 := by decide
    omega
  have hand : (s >>> (k + 7)) &&& 1 ≤ 1 := Nat.and_le_right
  unfold computeTreeIndex
  simp only []
  rw [if_neg h0, if_neg (by show ¬ s >>> 8 > 0xFFFF; omega)]
  show u32 ((Nat.log2 (s >>> 8) <<< 1) + ((u32 s >>> (Nat.log2 (s >>> 8) + 7)) &&& 1)) = _
  rw [hlog, hs, Nat.shiftLeft_eq, Nat.pow_one]
  unfold u32
  rw [Nat.mod_eq_of_lt (by omega)]
  omega

/-- C35: for every size `s`, `computeTreeIndex(s)` is at most 31; it is 0 for
`s < 256` and 31 when `s >> 8` exceeds `0xFFFF`; otherwise, with `k` the index of the
highest set bit of `s >> 8` (`2^k ≤ s >> 8 < 2^(k+1)`), it is
`2*k + ((s >> (k + 7)) & 1)`.  For every `s ≥ 256` the index `i = computeTreeIndex(s)`
has `minsizeForTreeIndex(i) ≤ s`, and `s < minsizeForTreeIndex(i + 1)` when `i < 31`. -/
theorem computeTreeIndex_brackets_size (s : Nat) :
    computeTreeIndex s ≤ 31 ∧
    (s < 256 → computeTreeIndex s = 0) ∧
    (0xFFFF < s >>> 8 → computeTreeIndex s = 31) ∧
    (∀ k, 2 ^ k ≤ s >>> 8 → s >>> 8 < 2 ^ (k + 1) → s >>> 8 ≤ 0xFFFF →
      computeTreeIndex s = 2 * k + ((s >>> (k + 7)) &&& 1)) ∧
    (256 ≤ s → minsizeForTreeIndex (computeTreeIndex s) ≤ s ∧
      (computeTreeIndex s < 31 → s < minsizeForTreeIndex (computeTreeIndex s + 1))) := by
  have hsh : s >>> 8 = s / 256 := by
    rw [Nat.shiftRight_eq_div_pow]
  have hbig : 0xFFFF < s >>> 8 → computeTreeIndex s = 31 := by
    intro h
    unfold computeTreeIndex
    simp only []
    rw [if_neg (by show ¬ s >>> 8 = 0; omega), if_pos (by show s >>> 8 > 0xFFFF; exact h)]
    rfl
  refine ⟨?_, ?_, hbig, fun k h1 h2 h3 => (computeTreeIndex_mid s k h1 h2 h3).2, ?_⟩
  · have := computeTreeIndex_lt s
    have h32 : kNumTreeBins = 32 := rfl
    omega
  · intro h
    unfold computeTreeIndex
    simp only []
    rw [if_pos (by show s >>> 8 = 0; omega)]
  · intro h256
    by_cases hb : 0xFFFF < s >>> 8
    · rw [hbig hb]
      have hm : minsizeForTreeIndex 31 = 12582912 := by decide
      rw [hm]
      exact ⟨by omega, fun h => absurd h (by decide)⟩
    · have hx : s >>> 8 ≠ 0 := by omega
      obtain ⟨hk, hv⟩ := computeTreeIndex_mid s (Nat.log2 (s >>> 8))
        (Nat.log2_self_le hx) Nat.lt_log2_self (by omega)
      have hlo := Nat.log2_self_le hx
      have hhi : s >>> 8 < 2 ^ (Nat.log2 (s >>> 8) + 1) := Nat.lt_log2_self
      rw [hv]
      generalize Nat.log2 (s >>> 8) = k at hk hlo hhi
      rw [hsh] at hlo hhi
      rw [Nat.shiftRight_eq_div_pow, Nat.and_one_is_mod]
      generalize hbit : s / 2 ^ (k + 7) % 2 = b
      have hb01 : b = 0 ∨ b = 1 := by omega
      simp only [minsizeForTreeIndex_eq]
      interval_cases k <;> simp only [Nat.reducePow, Nat.reduceAdd] at hlo hhi hbit <;>
        rcases hb01 with hb0 | hb0 <;> subst hb0 <;>
        simp only [Nat.reduceMul, Nat.reduceAdd, Nat.reduceDiv, Nat.reduceMod, Nat.reducePow,
          Nat.add_zero, Nat.zero_mul, Nat.one_mul] <;>
        refine ⟨?_, fun _ => ?_⟩ <;> omega

/-- Witness for C35: a chunk of 920 bytes (`920 >> 8 = 3`, highest bit 1) has index
`2*1 + 1 = 3`, and `768 = minsizeForTreeIndex(3) ≤ 920 < minsizeForTreeIndex(4) = 1024`. -/
theorem computeTreeIndex_brackets_size_witness :
    (2 ^ 1 ≤ 920 >>> 8 ∧ 920 >>> 8 < 2 ^ (1 + 1) ∧ 920 >>> 8 ≤ 0xFFFF) ∧
      computeTreeIndex 920 = 2 * 1 + ((920 >>> (1 + 7)) &&& 1) ∧
      (256 ≤ 920 ∧ computeTreeIndex 920 < 31) ∧
      minsizeForTreeIndex (computeTreeIndex 920) ≤ 920 ∧
      920 < minsizeForTreeIndex (computeTreeIndex 920 + 1) :=
  ⟨by decide,
    (computeTreeIndex_brackets_size 920).2.2.2.1 1 (by decide) (by decide) (by decide),
    by decide!,
    ((computeTreeIndex_brackets_size 920).2.2.2.2 (by decide)).1,
    ((computeTreeIndex_brackets_size 920).2.2.2.2 (by decide)).2 (by decide!)⟩

/-! ## The leader `allocAligned` carves -/

/-- A power of two between 32 and `2^63`. -/
theorem pow_two_range (j : Nat) (h5 : 5 ≤ j) (h64 : j < 64) :
    32 ≤ 2 ^ j ∧ 2 ^ j ≤ 2 ^ 63 ∧ 2 ^ j % 4 = 0 := by
  have h1 : (2 : Nat) ^ 5 ≤ 2 ^ j := Nat.pow_le_pow_right (by decide) h5
  have h2 : (2 : Nat) ^ j ≤ 2 ^ 63 := Nat.pow_le_pow_right (by decide) (by omega)
  have h3 : (2 : Nat) ^ 2 ∣ 2 ^ j := Nat.pow_dvd_pow 2 (by omega)
  have h4 : (2 : Nat) ^ 5 = 32 := by decide
  refine ⟨by omega, h2, ?_⟩
  obtain ⟨c, hc⟩ := h3
  omega

/-- Rounding a misaligned address up to the alignment, as `allocAligned` does it. -/
theorem roundUp_and_neg64 (x j : Nat) (hj : j < 64) (hx : x + 2 ^ j ≤ 2 ^ 64)
    (hr : x % 2 ^ j ≠ 0) :
    u64 (x + 2 ^ j - 1) &&& neg64 (2 ^ j) = x - x % 2 ^ j + 2 ^ j := by
  have hpos := Nat.two_pow_pos j
  have hA : (2 : Nat) ^ j < 2 ^ 64 := Nat.pow_lt_pow_right (by decide) hj
  have hneg : neg64 (2 ^ j) = 2 ^ 64 - 2 ^ j := by
    unfold neg64
    rw [Nat.mod_eq_of_lt hA, Nat.mod_eq_of_lt (by omega)]
  have hu : u64 (x + 2 ^ j - 1) = x + 2 ^ j - 1 := by
    unfold u64
    exact Nat.mod_eq_of_lt (by omega)
  have hdm := Nat.div_add_mod x (2 ^ j)
  have hrlt := Nat.mod_lt x hpos
  have hy : (x + 2 ^ j - 1) % 2 ^ j = x % 2 ^ j - 1 := by
    have he : x + 2 ^ j - 1 = (x % 2 ^ j - 1) + 2 ^ j * (x / 2 ^ j + 1) := by
      rw [Nat.mul_succ]; omega
    rw [he, Nat.add_mul_mod_self_left, Nat.mod_eq_of_lt (by omega)]
  rw [hneg, hu, and_high_mask _ j (by omega) (by omega), hy]
  omega

/-- The size field of a header written as `(pinuse bit) | size | CINUSE`. -/
theorem head_size_of_flags (f s : Nat) (hs : s % 4 = 0) (hlt : s < 2 ^ 64) :
    ((f &&& kPinuseBit) ||| s ||| kCinuseBit) &&& not64 kInuseBits = s := by
  have hm : not64 kInuseBits = 2 ^ 64 - 2 ^ 2 := by decide
  have hf : f &&& kPinuseBit < 2 ^ 1 := by
    have : f &&& kPinuseBit ≤ 1 := Nat.and_le_right
    omega
  have hg : (f &&& kPinuseBit) ||| kCinuseBit < 2 ^ 2 :=
    Nat.or_lt_two_pow (by omega) (by decide)
  have hre : (f &&& kPinuseBit) ||| s ||| kCinuseBit = s ||| ((f &&& kPinuseBit) ||| kCinuseBit) := by
    rw [Nat.lor_comm (f &&& kPinuseBit) s, Nat.lor_assoc]
  have hsum := Nat.mul_add_lt_is_or hg (s / 4)
  have h4 : 2 ^ 2 * (s / 4) = s := by omega
  rw [h4] at hsum
  rw [hre, ← hsum, hm, and_high_mask _ 2 (by omega) (by decide)]
  omega

/-- Setting the PINUSE bit leaves the size field of a header alone. -/
theorem head_size_or_pinuse (h : Nat) :
    (h ||| kPinuseBit) &&& not64 kInuseBits = h &&& not64 kInuseBits := by
  apply Nat.eq_of_testBit_eq
  intro i
  have hm : not64 kInuseBits = 2 ^ 64 - 2 ^ 2 := by decide
  have h1 : kPinuseBit = 1 := rfl
  rw [Nat.testBit_and, Nat.testBit_and, Nat.testBit_or, h1]
  by_cases hi : i = 0
  · subst hi
    have : (not64 kInuseBits).testBit 0 = false := by decide
    rw [this]; simp
  · have : Nat.testBit 1 i = false := by
      rw [Nat.testBit_one_eq_true_iff_self_eq_zero.not.2 hi |> Bool.eq_false_iff.2]
    rw [this]; simp

/-- The value of `requestToSize` for a request `allocAligned` lets through. -/
theorem requestToSize_bounds (bytes : Nat) (h : bytes < 2 ^ 64 - 128) :
    32 ≤ requestToSize bytes ∧ requestToSize bytes < 2 ^ 64 := by
  have h32 : kMinChunkSize = 32 := by decide
  have hk : kChunkOverhead = 16 := by decide
  have hm : kAlignmentMask = 7 := by decide
  have hn : not64 7 = 2 ^ 64 - 2 ^ 3 := by decide
  unfold requestToSize
  split
  · rw [h32]; omega
  · rename_i hge
    unfold padRequest u64
    rw [hk, hm, hn, Nat.mod_eq_of_lt (by omega), and_high_mask _ 3 (by omega) (by decide)]
    omega

/-- The branch of `allocAligned` for a misaligned chunk, in closed form: the leader
is the chunk at `ptr` cut down to `leadsize` bytes and the new chunk starts
`leadsize` bytes above `ptr`. -/
theorem alignChunk_eq (m : Mem) (msp j o mem csz : Nat)
    (hj : 5 ≤ j) (hj2 : j < 64) (hmis : u64 (mem + o) % 2 ^ j ≠ 0)
    (hmem : 16 ≤ mem) (hmem64 : mem < 2 ^ 64) (hmem8 : mem % 8 = 0) (ho : o % 4 = 0)
    (hcsz : chunkSize m (memoryToChunk mem) = csz)
    (hsz : 2 ^ j + o + 32 ≤ csz) (hend : memoryToChunk mem + csz < 2 ^ 64) :
    ∃ leadsize, 32 ≤ leadsize ∧ leadsize < 2 ^ j + 32 ∧ leadsize % 4 = 0 ∧
      alignChunk m msp (2 ^ j) o mem =
        (mem, memoryToChunk mem + leadsize,
          setSizeInuse (setSizeInuse m msp (memoryToChunk mem + leadsize) (csz - leadsize)) msp
            (memoryToChunk mem) leadsize) := by
  obtain ⟨hA1, hA2, hA3⟩ := pow_two_range j hj hj2
  have h63 : (2 : Nat) ^ 63 = 9223372036854775808 := by decide
  have hk : kChunkOverhead = 16 := by decide
  have h32 : kMinChunkSize = 32 := by decide
  have hptr : memoryToChunk mem = mem - 16 := by
    unfold memoryToChunk sub64
    rw [hk]; omega
  rw [hptr] at hend hcsz ⊢
  have hu : u64 (mem + o) = mem + o := by
    unfold u64
    exact Nat.mod_eq_of_lt (by omega)
  rw [hu] at hmis
  have hR := roundUp_and_neg64 (mem + o) j hj2 (by omega) hmis
  have hrlt := Nat.mod_lt (mem + o) (Nat.two_pow_pos j)
  have hrle := Nat.mod_le (mem + o) (2 ^ j)
  have hr4 : (mem + o) % 2 ^ j % 4 = 0 := by
    rw [Nat.mod_mod_of_dvd _ (Nat.dvd_of_mod_eq_zero hA3)]; omega
  have hback : chunkToMemory (mem - 16) = mem := by
    unfold chunkToMemory u64
    rw [hk]; omega
  unfold alignChunk
  rw [hptr, hu, if_pos hmis]
  dsimp only
  rw [hR, hcsz, hback]
  generalize (mem + o) % 2 ^ j = r at hmis hrlt hr4 hrle
  generalize (2 : Nat) ^ j = A at hA1 hA2 hA3 hsz hrlt hrle
  have hspot : memoryToChunk (mem + o - r + A) = mem + o - r + A - 16 := by
    unfold memoryToChunk sub64
    rw [hk]; omega
  rw [hspot]
  have h1 : sub64 (mem + o - r + A - 16) o = mem - 16 + (A - r) := by
    unfold sub64; omega
  have h2 : sub64 (mem - 16 + (A - r)) (mem - 16) = A - r := by
    unfold sub64; omega
  rw [h1, h2, h32]
  by_cases hd : A - r ≥ 32
  · rw [if_pos hd, h2]
    have h3 : sub64 csz (A - r) = csz - (A - r) := by
      unfold sub64; omega
    rw [h3]
    exact ⟨A - r, hd, by omega, by omega, rfl⟩
  · rw [if_neg hd]
    have h4 : sub64 (u64 (mem + o - r + A - 16 + A)) o = mem - 16 + (A - r + A) := by
      unfold sub64 u64; omega
    have h5 : sub64 (mem - 16 + (A - r + A)) (mem - 16) = A - r + A := by
      unfold sub64; omega
    rw [h4, h5]
    have h3 : sub64 csz (A - r + A) = csz - (A - r + A) := by
      unfold sub64; omega
    rw [h3]
    exact ⟨A - r + A, by omega, by omega, by omega, rfl⟩

/-- The sizes the two calls of `setSizeInuse` record: `leadsize` for the leader and
the rest of the chunk for the chunk above it. -/
theorem carve_sizes (m : Mem) (msp ptr leadsize csz : Nat) (h1 : 32 ≤ leadsize)
    (h2 : leadsize + 32 ≤ csz) (h3 : leadsize % 4 = 0) (h4 : csz % 4 = 0)
    (h5 : ptr + csz < 2 ^ 64) :
    chunkSize (setSizeInuse (setSizeInuse m msp (ptr + leadsize) (csz - leadsize)) msp ptr
        leadsize) ptr = leadsize ∧
    chunkSize (setSizeInuse (setSizeInuse m msp (ptr + leadsize) (csz - leadsize)) msp ptr
        leadsize) (ptr + leadsize) = csz - leadsize := by
  have ho : oHead = 8 := rfl
  have hp : oPrevFoot = 0 := rfl
  have hu1 : u64 (ptr + leadsize + (csz - leadsize)) = ptr + csz := by
    unfold u64; omega
  have hu2 : u64 (ptr + leadsize) = ptr + leadsize := by
    unfold u64; omega
  unfold chunkSize setSizeInuse markInuseFoot
  simp only [hu1, hu2, ho, hp]
  constructor
  · rw [Mem.write_ne _ _ _ _ (by omega), Mem.write_ne _ _ _ _ (by omega), Mem.write_same]
    exact head_size_of_flags _ _ h3 (by omega)
  · rw [Mem.write_ne _ _ _ _ (by omega), Mem.write_same, head_size_or_pinuse,
      Mem.write_ne _ _ _ _ (by omega), Mem.write_ne _ _ _ _ (by omega),
      Mem.write_ne _ _ _ _ (by omega), Mem.write_same]
    exact head_size_of_flags _ _ (by omega) (by omega)

/-- The size field of a header is a multiple of 4 below `2^64`. -/
theorem chunkSize_mod_four (m : Mem) (ptr : Nat) :
    chunkSize m ptr % 4 = 0 ∧ chunkSize m ptr < 2 ^ 64 := by
  have hm : not64 kInuseBits = 2 ^ 64 - 2 ^ 2 := by decide
  have hlt : m (ptr + oHead) % 2 ^ 64 < 2 ^ 64 := Nat.mod_lt _ (by decide)
  unfold chunkSize
  rw [hm, and_split _ _ 64 (by decide), and_high_mask _ 2 hlt (by decide)]
  omega

/-- C33, the claim at a failing input: `allocAligned(msp, 32, 100, 1)` in a fresh
small space.  The inner `alloc(msp, 169)` returns 1049576, a chunk of 192 bytes at
1049560, and `(1049576 + 1) % 32 = 9`.  The new chunk starts at 1049615, so
`leadsize` is 55; `setSizeInuse(msp, ptr, 55)` stores 55 in the header of the
leader, whose size then reads 52 and whose next chunk is 1049612, three bytes
below the new chunk; the new chunk reads 136 bytes, not `192 - 55 = 137`. -/
theorem allocAligned_leader_size_not_leadsize :
    (adjustAlignment 2 32 = some 32 ∧ 100 < sub64 kMaxRequest 32 ∧
      alignedRequest 32 100 1 = 169) ∧
    ((innerBlock 32 1).1,
      chunkSize (innerBlock 32 1).2.mem (memoryToChunk (innerBlock 32 1).1)) = (1049576, 192) ∧
    (memoryToChunk 1049576 = 1049560 ∧ u64 (1049576 + 1) % 32 = 9) ∧
    ((alignChunk (innerBlock 32 1).2.mem (smallSpace []).1 32 1 1049576).2.1, sub64 (alignChunk (innerBlock 32 1).2.mem (smallSpace []).1 32 1 1049576).2.1 1049560) = (1049615, 55) ∧
    ((alignChunk (innerBlock 32 1).2.mem (smallSpace []).1 32 1 1049576).2.2 (1049560 + oHead), chunkSize (alignChunk (innerBlock 32 1).2.mem (smallSpace []).1 32 1 1049576).2.2 1049560, nextChunk (alignChunk (innerBlock 32 1).2.mem (smallSpace []).1 32 1 1049576).2.2 1049560) =
      (55, 52, 1049612) ∧
    (chunkSize (alignChunk (innerBlock 32 1).2.mem (smallSpace []).1 32 1 1049576).2.2 1049615, sub64 192 55) = (136, 137) := by
  refine ⟨by decide, by decide!, by decide, by decide!, by decide!, by decide!⟩

/-- C33, amended: in `allocAligned` with a power of two `2^j ≥ 32` as alignment and
an offset that is a multiple of 4, let the inner `alloc` have returned `mem`
(8-aligned), whose chunk `ptr` has at least `nb + alignment + offset + kMinChunkSize`
bytes (`nb = requestToSize(bytes)`) and ends below `2^64`, with
`(mem + offset) % alignment != 0`.  Then the leader handed to `free` is `mem`, the
new chunk starts `leadsize` bytes above `ptr` with
`kMinChunkSize ≤ leadsize < chunkSize(ptr)`, inside the original chunk; the header of
the leader records `leadsize`, and the header of the new chunk records the rest of
the original chunk, which is at least `nb`. -/
theorem allocAligned_leader_carved (m : Mem) (msp j o mem bytes : Nat)
    (hj : 5 ≤ j) (hj2 : j < 64) (hbytes : bytes < sub64 kMaxRequest (2 ^ j))
    (hmem : 16 ≤ mem) (hmem64 : mem < 2 ^ 64) (hmem8 : mem % 8 = 0) (ho : o % 4 = 0)
    (hsz : requestToSize bytes + 2 ^ j + o + kMinChunkSize ≤ chunkSize m (memoryToChunk mem))
    (hend : memoryToChunk mem + chunkSize m (memoryToChunk mem) < 2 ^ 64)
    (hmis : u64 (mem + o) % 2 ^ j ≠ 0) :
    (alignChunk m msp (2 ^ j) o mem).1 = mem ∧
    (kMinChunkSize ≤ (alignChunk m msp (2 ^ j) o mem).2.1 - memoryToChunk mem ∧
      (alignChunk m msp (2 ^ j) o mem).2.1 - memoryToChunk mem < chunkSize m (memoryToChunk mem)) ∧
    (memoryToChunk mem < (alignChunk m msp (2 ^ j) o mem).2.1 ∧
      (alignChunk m msp (2 ^ j) o mem).2.1 < memoryToChunk mem + chunkSize m (memoryToChunk mem)) ∧
    chunkSize (alignChunk m msp (2 ^ j) o mem).2.2 (memoryToChunk mem) = (alignChunk m msp (2 ^ j) o mem).2.1 - memoryToChunk mem ∧
    chunkSize (alignChunk m msp (2 ^ j) o mem).2.2 (alignChunk m msp (2 ^ j) o mem).2.1 =
      chunkSize m (memoryToChunk mem) - ((alignChunk m msp (2 ^ j) o mem).2.1 - memoryToChunk mem) ∧
    requestToSize bytes ≤ chunkSize (alignChunk m msp (2 ^ j) o mem).2.2 (alignChunk m msp (2 ^ j) o mem).2.1 := by
  obtain ⟨hA1, hA2, hA3⟩ := pow_two_range j hj hj2
  have h63 : (2 : Nat) ^ 63 = 9223372036854775808 := by decide
  have h32 : kMinChunkSize = 32 := by decide
  have hmax : kMaxRequest = 2 ^ 64 - 128 := by decide
  have hb : bytes < 2 ^ 64 - 128 := by
    rw [hmax] at hbytes
    unfold sub64 at hbytes
    omega
  obtain ⟨hnb, _⟩ := requestToSize_bounds bytes hb
  obtain ⟨hc4, _⟩ := chunkSize_mod_four m (memoryToChunk mem)
  rw [h32] at hsz ⊢
  obtain ⟨leadsize, hl1, hl2, hl3, heq⟩ := alignChunk_eq m msp j o mem
    (chunkSize m (memoryToChunk mem)) hj hj2 hmis hmem hmem64 hmem8 ho rfl (by omega) hend
  obtain ⟨hs1, hs2⟩ := carve_sizes m msp (memoryToChunk mem) leadsize
    (chunkSize m (memoryToChunk mem)) hl1 (by omega) hl3 hc4 hend
  rw [heq]
  dsimp only
  rw [hs1, hs2]
  refine ⟨rfl, ⟨by omega, by omega⟩, ⟨by omega, by omega⟩, by omega, by omega, by omega⟩

/-- Witness for C33: `allocAligned(msp, 4096, 100, 0)` in a fresh small space, where
the inner `alloc` returns 1049576, a chunk of 4248 bytes: the new chunk starts at
1052656, the leader records 3096 bytes and the new chunk 1152. -/
theorem allocAligned_leader_carved_witness :
    ((innerBlock 4096 0).1, memoryToChunk (innerBlock 4096 0).1,
      chunkSize (innerBlock 4096 0).2.mem (memoryToChunk (innerBlock 4096 0).1),
      requestToSize 100) = (1049576, 1049560, 4248, 120) ∧
    u64 ((innerBlock 4096 0).1 + 0) % 2 ^ 12 ≠ 0 ∧
    (alignChunk (innerBlock 4096 0).2.mem (smallSpace []).1 (2 ^ 12) 0 (innerBlock 4096 0).1).1 = (innerBlock 4096 0).1 ∧
    chunkSize (alignChunk (innerBlock 4096 0).2.mem (smallSpace []).1 (2 ^ 12) 0 (innerBlock 4096 0).1).2.2 (memoryToChunk (innerBlock 4096 0).1) =
      (alignChunk (innerBlock 4096 0).2.mem (smallSpace []).1 (2 ^ 12) 0 (innerBlock 4096 0).1).2.1 - memoryToChunk (innerBlock 4096 0).1 ∧
    requestToSize 100 ≤ chunkSize (alignChunk (innerBlock 4096 0).2.mem (smallSpace []).1 (2 ^ 12) 0 (innerBlock 4096 0).1).2.2 (alignChunk (innerBlock 4096 0).2.mem (smallSpace []).1 (2 ^ 12) 0 (innerBlock 4096 0).1).2.1 :=
  ⟨by decide!, by decide!,
    (allocAligned_leader_carved (innerBlock 4096 0).2.mem (smallSpace []).1 12 0
      (innerBlock 4096 0).1 100 (by decide) (by decide) (by decide!) (by decide!) (by decide!)
      (by decide!) (by decide) (by decide!) (by decide!) (by decide!)).1,
    (allocAligned_leader_carved (innerBlock 4096 0).2.mem (smallSpace []).1 12 0
      (innerBlock 4096 0).1 100 (by decide) (by decide) (by decide!) (by decide!) (by decide!)
      (by decide!) (by decide) (by decide!) (by decide!) (by decide!)).2.2.2.1,
    (allocAligned_leader_carved (innerBlock 4096 0).2.mem (smallSpace []).1 12 0
      (innerBlock 4096 0).1 100 (by decide) (by decide) (by decide!) (by decide!) (by decide!)
      (by decide!) (by decide) (by decide!) (by decide!) (by decide!)).2.2.2.2.2⟩

end Odin
